import Mathlib

/-!
# midas: SyncKV, ordered sets and pool counters

A shallow embedding of `inc/impl/sync_kv.ipp` and of the counter part of
`inc/impl/cache_manager.ipp`.

* Memory is a list of bytes; a 64-bit word (a `size_t`, or the bits of a
  `double`) is stored little-endian in eight bytes.
* A bucket chain (nodes linked through `next`) is the list of its nodes; a node
  pointer is the list of nodes reachable from it and `nullptr` is the empty list.
* The pair `prev_next` / `node` used by every chain walk is a `Cursor`.
* A function that can dereference `nullptr` or spin forever returns an `Option`.
* Every method runs under the lock of its bucket, so a call is one step. The
  evacuator is the only party that acts during a call: each soft pointer says
  after how many more copies its object is taken away.
* The bucket locks, the log lines and the access count kept by
  `LogAllocator::count_access` are left out.
-/

namespace midas

/-! ## Bytes and words -/

abbrev Bytes := List UInt8

/-- The `cnt` low bytes of `n`, least significant first. -/
def encodeLE : Nat → Nat → Bytes
  | 0, _ => []
  | cnt + 1, n => UInt8.ofNat (n % 256) :: encodeLE cnt (n / 256)

/-- The eight bytes a 64-bit word occupies in memory. -/
def encode64 (n : Nat) : Bytes := encodeLE 8 n

/-- The word held by a little-endian byte sequence. -/
def decode64 : Bytes → Nat
  | [] => 0
  | b :: bs => b.toNat + 256 * decode64 bs

/-- The bytes `[off, off + len)` of a memory block (`memcpy` out of it). -/
def readBytes (mem : Bytes) (off len : Nat) : Bytes := (mem.drop off).take len

/-- The 64-bit word stored at byte offset `off`. -/
def readU64 (mem : Bytes) (off : Nat) : Nat := decode64 (readBytes mem off 8)

/-- The block after `memcpy(mem + off, src, src.length)`. -/
def writeBytes (mem : Bytes) (off : Nat) (src : Bytes) : Bytes :=
  mem.take off ++ src ++ mem.drop (off + src.length)

/-- The C library `strncmp(a, b, n)`: at most `n` characters are compared and the
comparison stops after a NUL character. A character past the end of a list reads
as NUL. The result is the difference of the first distinct characters. -/
def strncmp : Bytes → Bytes → Nat → Int
  | _, _, 0 => 0
  | [], [], _ + 1 => 0
  | [], b :: _, _ + 1 => if b = 0 then 0 else -(b.toNat : Int)
  | a :: _, [], _ + 1 => if a = 0 then 0 else (a.toNat : Int)
  | a :: as, b :: bs, n + 1 =>
    if a ≠ b then (a.toNat : Int) - (b.toNat : Int)
    else if a = 0 then 0
    else strncmp as bs n

/-! ## Soft pointers -/

/-- Modelled from the spec: the soft pointer `ObjectPtr` (its definition is not
part of the sources at hand). The spec describes a handle with the state bits
`victim` and `null` whose payload reads and writes either succeed or report a
fault, a fault being final. `bytes` is the payload. `ttl` fixes when the
evacuator takes the object away: `none` never, `some n` after `n` more successful
copies. -/
structure ObjectPtr where
  isNull : Bool
  victim : Bool
  ttl : Option Nat
  bytes : Bytes
deriving DecidableEq, Repr

namespace ObjectPtr

/-- The call `null()`. -/
def null (p : ObjectPtr) : Bool := p.isNull

/-- The call `is_victim()`. -/
def is_victim (p : ObjectPtr) : Bool := p.victim

/-- One payload access: `none` is a fault, otherwise the pointer afterwards. -/
def access (p : ObjectPtr) : Option ObjectPtr :=
  if p.isNull then none
  else match p.ttl with
    | none => some p
    | some 0 => none
    | some (n + 1) => some { p with ttl := some n }

/-- The call `copy_to(dst, len, offset)`: the bytes copied out and the pointer
afterwards, or `none` when the copy reports a fault. -/
def copy_to (p : ObjectPtr) (len offset : Nat) : Option (Bytes × ObjectPtr) :=
  match p.access with
  | none => none
  | some q => some (readBytes q.bytes offset len, q)

/-- The call `copy_from(src, len, offset)` with `len = src.length`: the pointer
afterwards, or `none` when the copy reports a fault. -/
def copy_from (p : ObjectPtr) (src : Bytes) (offset : Nat) : Option ObjectPtr :=
  match p.access with
  | none => none
  | some q => some { q with bytes := writeBytes q.bytes offset src }

/-- A pointer that is not null and whose object is never taken away. -/
def healthy (p : ObjectPtr) : Prop := p.isNull = false ∧ p.ttl = none

instance (p : ObjectPtr) : Decidable p.healthy := by
  unfold healthy; infer_instance

end ObjectPtr

/-! ## Pool counters (`cache_manager.ipp`) -/

/-- The counters `CachePool::stats`. Their declaration is outside the sources at
hand; they are taken as natural numbers. -/
structure CacheStats where
  hits : Nat
  misses : Nat
  miss_cycles : Nat
  miss_bytes : Nat
  victim_hits : Nat
deriving DecidableEq, Repr

/-- The method `CacheStats::reset`. -/
def CacheStats.reset (_ : CacheStats) : CacheStats :=
  { hits := 0, misses := 0, miss_cycles := 0, miss_bytes := 0, victim_hits := 0 }

/-- The method `CachePool::inc_cache_hit`. -/
def inc_cache_hit (stats : CacheStats) : CacheStats :=
  { stats with hits := stats.hits + 1 }

/-- The method `CachePool::inc_cache_miss` (the log line is not modelled). -/
def inc_cache_miss (stats : CacheStats) : CacheStats :=
  let stats1 := { stats with misses := stats.misses + 1 }
  if stats1.misses % 10000 = 0 then stats1.reset else stats1

/-- The method `CachePool::inc_cache_victim_hit`. -/
def inc_cache_victim_hit (stats : CacheStats) : CacheStats :=
  { stats with victim_hits := stats.victim_hits + 1 }

/-! ## Bucket chains -/

/-- A bucket node without its `next` field, which the list structure carries. -/
structure BucketNode where
  key_hash : Nat
  pair : ObjectPtr
deriving DecidableEq, Repr

/-- A node pointer: the nodes reachable from it through `next`. -/
abbrev BNPtr := List BucketNode

/-- The walking position of a chain walk. `before` holds the nodes linked ahead
of the slot `prev_next` points at (from the bucket head on), `node` is the
content of that slot: the current node and its successors. -/
structure Cursor where
  before : BNPtr
  node : BNPtr
deriving DecidableEq, Repr

/-- The chain the bucket head points at, given the walking position. -/
def Cursor.chain (c : Cursor) : BNPtr := c.before ++ c.node

/-- The method `delete_node(prev_next, node)`: `*prev_next = node->next`, the
result being the new `node`. Giving the payload back to the pool has no effect on
the chain and is not modelled. -/
def delete_node (c : Cursor) : Cursor :=
  match c.node with
  | [] => c
  | _ :: next => { c with node := next }

/-- The variables a chain walk updates: the flag `found`, the cell `vn` points
at (`none` for `vn == nullptr`), the walking position and the pool counters. -/
structure Walk where
  found : Bool
  vn : Option Nat
  cur : Cursor
  stats : CacheStats
deriving DecidableEq, Repr

/-- The label `faulted:` of `iterate_list`. -/
def iterate_list_faulted (n : BucketNode) (w : Walk) : Walk :=
  { w with
    found := false
    stats := if n.pair.is_victim then inc_cache_victim_hit w.stats else w.stats
    cur := delete_node w.cur }

/-- The label `notequal:` of `iterate_list`; `n` is the node as the accesses made
so far left it, `next` its successors. -/
def iterate_list_notequal (n : BucketNode) (next : BNPtr) (w : Walk) : Walk :=
  { w with found := false, cur := { before := w.cur.before ++ [n], node := next } }

/-- The method `iterate_list(key_hash, k, kn, vn, prev_next, node)`; `kn` is
`k.length`. The flag `found` of the result is the value returned. -/
def iterate_list (key_hash : Nat) (k : Bytes) (w : Walk) : Walk :=
  match w.cur.node with
  | [] => { w with found := false }
  | n :: next =>
    if key_hash ≠ n.key_hash then iterate_list_notequal n next w
    else if n.pair.null then iterate_list_faulted n w
    else match n.pair.copy_to 8 0 with
      | none => iterate_list_faulted n w
      | some (b1, p1) =>
        if decode64 b1 ≠ k.length then
          iterate_list_notequal { n with pair := p1 } next w
        else match p1.copy_to k.length 16 with
          | none => iterate_list_faulted n w
          | some (stored_k, p2) =>
            if strncmp k stored_k k.length ≠ 0 then
              iterate_list_notequal { n with pair := p2 } next w
            else match w.vn with
              | none =>
                { w with found := true
                         cur := { w.cur with node := { n with pair := p2 } :: next } }
              | some _ =>
                match p2.copy_to 8 8 with
                | none => iterate_list_faulted n w
                | some (b3, p3) =>
                  { w with found := true
                           vn := some (decode64 b3)
                           cur := { w.cur with node := { n with pair := p3 } :: next } }

/-- The loop `while (node) { found = iterate_list(...); if (found) break; }` of
`get_` and `remove`, run for at most `fuel` rounds. -/
def find_loop (key_hash : Nat) (k : Bytes) : Nat → Walk → Walk
  | 0, w => w
  | fuel + 1, w =>
    match w.cur.node with
    | [] => w
    | _ :: _ =>
      let w1 := iterate_list key_hash k w
      if w1.found then w1 else find_loop key_hash k fuel w1

/-! ## The map -/

/-- A `SyncKV<NBuckets, Alloc, Lock>` object. `hash_int` and `hash_bytes` are
the two hash functions of the `robin_hood` library, `buckets_` the array of
bucket heads and `stats` the counters of the pool `pool_`. -/
structure SyncKV where
  NBuckets : Nat
  hash_int : Nat → Nat
  hash_bytes : Bytes → Nat
  buckets_ : Nat → BNPtr
  stats : CacheStats

/-- The method `hash_(k, kn)`. -/
def SyncKV.hash_ (s : SyncKV) (k : Bytes) : Nat :=
  if k.length = 8 then s.hash_int (decode64 k) else s.hash_bytes k

/-- The state after a walk of bucket `idx`: the chain is stored back and the
counters are those the walk left. -/
def SyncKV.commit (s : SyncKV) (idx : Nat) (chain : BNPtr) (stats : CacheStats) : SyncKV :=
  { s with buckets_ := Function.update s.buckets_ idx chain, stats := stats }

/-- The method `get_(k, kn, v, vn)` with a non-null `vn`: `none` for `nullptr`,
otherwise the bytes copied out (to the block `malloc` hands out, or to `v` when
`v` is not null) and the value stored into `*vn`. -/
def SyncKV.get_ (s : SyncKV) (k : Bytes) : Option (Bytes × Nat) × SyncKV :=
  let key_hash := s.hash_ k
  let bucket_idx := key_hash % s.NBuckets
  let node := s.buckets_ bucket_idx
  let w := find_loop key_hash k node.length
    { found := false, vn := some 0, cur := { before := [], node := node }, stats := s.stats }
  if !w.found then
    (none, s.commit bucket_idx w.cur.chain (inc_cache_miss w.stats))
  else
    match w.cur.node with
    | [] => (none, s.commit bucket_idx w.cur.chain w.stats)
    | n :: next =>
      let stored_vn := w.vn.getD 0
      let fault : Option (Bytes × Nat) × SyncKV :=
        (none, s.commit bucket_idx (delete_node w.cur).chain
          (if n.pair.is_victim then inc_cache_victim_hit w.stats else w.stats))
      if n.pair.null then fault
      else match n.pair.copy_to stored_vn (k.length + 8 * 2) with
        | none => fault
        | some (stored_v, p) =>
          (some (stored_v, stored_vn),
            s.commit bucket_idx (w.cur.before ++ { n with pair := p } :: next)
              (inc_cache_hit w.stats))

/-- The statements of `get_` behind its loop, from `if (!found)` on, for the
walk state `w` the loop left in the bucket `bucket_idx`. -/
def SyncKV.get_tail (s : SyncKV) (k : Bytes) (bucket_idx : Nat) (w : Walk) :
    Option (Bytes × Nat) × SyncKV :=
  if !w.found then
    (none, s.commit bucket_idx w.cur.chain (inc_cache_miss w.stats))
  else
    match w.cur.node with
    | [] => (none, s.commit bucket_idx w.cur.chain w.stats)
    | n :: next =>
      let stored_vn := w.vn.getD 0
      let fault : Option (Bytes × Nat) × SyncKV :=
        (none, s.commit bucket_idx (delete_node w.cur).chain
          (if n.pair.is_victim then inc_cache_victim_hit w.stats else w.stats))
      if n.pair.null then fault
      else match n.pair.copy_to stored_vn (k.length + 8 * 2) with
        | none => fault
        | some (stored_v, p) =>
          (some (stored_v, stored_vn),
            s.commit bucket_idx (w.cur.before ++ { n with pair := p } :: next)
              (inc_cache_hit w.stats))

/-- The method `get(k, kn, v, vn)` with a caller buffer. `v` is `none` for a null
pointer, otherwise what the memory holds from the address `v` on: the `vn` bytes
of the caller's buffer first, then whatever lies behind them. `get_` copies the
stored value to the address `v`; the result is the value returned, the memory
from `v` on afterwards, and the map. -/
def SyncKV.get (s : SyncKV) (k : Bytes) (v : Option Bytes) (vn : Nat) :
    Bool × Option Bytes × SyncKV :=
  match v with
  | none => (false, none, s)
  | some mem =>
    match s.get_ k with
    | (none, s1) => (false, some mem, s1)
    | (some (stored_v, stored_vn), s1) =>
      if stored_vn < vn then (false, some (writeBytes mem 0 stored_v), s1)
      else (true, some (writeBytes mem 0 stored_v), s1)

/-- The method `remove(k, kn)`. -/
def SyncKV.remove (s : SyncKV) (k : Bytes) : Bool × SyncKV :=
  let key_hash := s.hash_ k
  let bucket_idx := key_hash % s.NBuckets
  let node := s.buckets_ bucket_idx
  let w := find_loop key_hash k node.length
    { found := false, vn := none, cur := { before := [], node := node }, stats := s.stats }
  if !w.found then
    (false, s.commit bucket_idx w.cur.chain w.stats)
  else
    (true, s.commit bucket_idx (delete_node w.cur).chain w.stats)

/-- The method `create_node(key_hash, k, kn, v, vn)`. The result is the pointer
returned: `[]` for `nullptr`, otherwise the new node alone, its `next` being
`nullptr`. `alloc_to size` is the soft pointer `pool_->alloc_to(size, &pair)`
leaves in `pair`, or `none` when the allocation fails. -/
def create_node (alloc_to : Nat → Option ObjectPtr) (key_hash : Nat) (k v : Bytes) : BNPtr :=
  match alloc_to (8 * 2 + k.length + v.length) with
  | none => []
  | some p0 =>
    match p0.copy_from (encode64 k.length) 0 with
    | none => []
    | some p1 =>
      match p1.copy_from (encode64 v.length) 8 with
      | none => []
      | some p2 =>
        match p2.copy_from k (8 * 2) with
        | none => []
        | some p3 =>
          match p3.copy_from v (k.length + 8 * 2) with
          | none => []
          | some p4 =>
            if p4.null then [] else [{ key_hash := key_hash, pair := p4 }]

/-- The body of `if (found)` in the loop of `set`: the value is written in place
when it fits (the flag of the result is true: `return true`), otherwise the node
is deleted (the flag is false: `break`). -/
def set_found (k v : Bytes) (w1 : Walk) : Bool × Walk :=
  match w1.cur.node with
  | [] => (false, w1)
  | n :: next =>
    if v.length ≤ w1.vn.getD 0 ∧ n.pair.null = false then
      match n.pair.copy_from (encode64 v.length) 8 with
      | none => (false, { w1 with cur := delete_node w1.cur })
      | some p1 =>
        match p1.copy_from v (k.length + 8 * 2) with
        | none => (false, { w1 with cur := delete_node w1.cur })
        | some p2 =>
          (true, { w1 with cur := { w1.cur with node := { n with pair := p2 } :: next } })
    else (false, { w1 with cur := delete_node w1.cur })

/-- The loop of `set`, run for at most `fuel` rounds. The flag of the result
tells whether the loop left the function with `return true` (the value was
written in place); otherwise control reaches `create_node`. -/
def set_loop (key_hash : Nat) (k v : Bytes) : Nat → Walk → Bool × Walk
  | 0, w => (false, w)
  | fuel + 1, w =>
    match w.cur.node with
    | [] => (false, w)
    | _ :: _ =>
      let w1 := iterate_list key_hash k w
      if w1.found then set_found k v w1 else set_loop key_hash k v fuel w1

/-- The method `set(k, kn, v, vn)`. -/
def SyncKV.set (s : SyncKV) (k v : Bytes) (alloc_to : Nat → Option ObjectPtr) : Bool × SyncKV :=
  let key_hash := s.hash_ k
  let bucket_idx := key_hash % s.NBuckets
  let node := s.buckets_ bucket_idx
  let r := set_loop key_hash k v node.length
    { found := false, vn := some 0, cur := { before := [], node := node }, stats := s.stats }
  if r.1 then
    (true, s.commit bucket_idx r.2.cur.chain r.2.stats)
  else
    match create_node alloc_to key_hash k v with
    | [] => (false, s.commit bucket_idx r.2.cur.chain r.2.stats)
    | new_node :: nx =>
      (true, s.commit bucket_idx (r.2.cur.before ++ new_node :: nx) r.2.stats)

/-- The loop `while (node) node = delete_node(prev_next, node)` of `clear`, run
for at most `fuel` rounds. `deleted` collects the nodes passed to `delete_node`,
in the order of the calls; it is not a variable of the program. -/
def clear_loop : Nat → Cursor → List BucketNode → List BucketNode × Cursor
  | 0, c, deleted => (deleted, c)
  | fuel + 1, c, deleted =>
    match c.node with
    | [] => (deleted, c)
    | n :: _ => clear_loop fuel (delete_node c) (deleted ++ [n])

/-- The `for` loop of `clear`: `cnt` rounds from the bucket `idx` on. Every round
walks one chain, which has as many nodes as rounds are granted to its loop. -/
def clear_for : Nat → Nat → SyncKV → List BucketNode → List BucketNode × SyncKV
  | 0, _, s, deleted => (deleted, s)
  | cnt + 1, idx, s, deleted =>
    let r := clear_loop (s.buckets_ idx).length { before := [], node := s.buckets_ idx } deleted
    clear_for cnt (idx + 1) (s.commit idx r.2.chain s.stats) r.1

/-- The method `clear()`. -/
def SyncKV.clear (s : SyncKV) : Bool × SyncKV :=
  (true, (clear_for s.NBuckets 0 s []).2)

/-- The nodes `clear()` passes to `delete_node`, in the order of the calls. -/
def SyncKV.clear_deleted (s : SyncKV) : List BucketNode :=
  (clear_for s.NBuckets 0 s []).1

/-! ## Ordered sets (`namespace ordered_set`)

The value stored under a key is `| NumEle | Len | Score | V | ... |`. A pointer
into such a block is its offset from the start of the block, `none` standing
for `nullptr`. The memory `mem` passed around starts at the block and may run
past it: what lies behind the `oset_len` bytes of the block is whatever the heap
holds there. Addresses are taken not to wrap, `malloc` to succeed, and the
`assert`s are left out. -/

/-- The update kinds `zadd` distinguishes. Modelled from the spec: the enum
`UpdateType` is declared outside the sources at hand; the spec names `EXIST`
and `NOT_EXIST`. -/
inductive UpdateType where
  | EXIST
  | NOT_EXIST
deriving DecidableEq, Repr

/-- Whether the 64 bits `x` of a `double` are a NaN. -/
def isNaN (x : Nat) : Bool := decide (x / 2 ^ 52 % 2 ^ 11 = 2 ^ 11 - 1 ∧ x % 2 ^ 52 ≠ 0)

/-- The place of a `double` that is not a NaN on the number line, read off its
64 bits: sign and magnitude, both zeros at 0. -/
def scoreKey (x : Nat) : Int :=
  if x % 2 ^ 64 < 2 ^ 63 then ((x % 2 ^ 64 : Nat) : Int) else -((x % 2 ^ 64 - 2 ^ 63 : Nat) : Int)

/-- The comparison `a > b` of two `double`s given by their 64 bits. -/
def scoreGt (a b : Nat) : Bool := !isNaN a && !isNaN b && decide (scoreKey b < scoreKey a)

/-- The constant `sizeof(OSetEle)`: a `size_t` and a `double`. -/
def sizeofOSetEle : Nat := 8 + 8

/-- The function `OSetEle::total_size(vn)`. -/
def OSetEle.total_size (vn : Nat) : Nat := sizeofOSetEle + vn

/-- The method `OSetEle::init(v, vn, score)` on the element at offset `pos`. -/
def OSetEle.init (mem : Bytes) (pos : Nat) (v : Bytes) (score : Nat) : Bytes :=
  writeBytes
    (writeBytes (writeBytes mem pos (encode64 (OSetEle.total_size v.length)))
      (pos + 8) (encode64 score))
    (pos + sizeofOSetEle) v

/-- The function `oset_iter(oset, oset_len, pos)`. -/
def oset_iter (mem : Bytes) (oset_len : Nat) (pos : Option Nat) : Option Nat :=
  match pos with
  | none => none
  | some off =>
    if off ≥ oset_len then none
    else some (off + readU64 mem off)

/-- The function `oset_init(v, vn, score)`: the block allocated. -/
def oset_init (v : Bytes) (score : Nat) : Bytes :=
  let oset := List.replicate (8 + OSetEle.total_size v.length) 0
  let oset := writeBytes oset 0 (encode64 1)
  OSetEle.init oset 8 v score

/-- The loop of `oset_search`, run for at most `fuel` rounds: `none` when the
rounds do not suffice, otherwise the pointer `oset_search` returns. -/
def oset_search_loop (mem : Bytes) (oset_len : Nat) (v : Bytes) :
    Nat → Option Nat → Option (Option Nat)
  | _, none => some none
  | 0, some _ => none
  | fuel + 1, some off =>
    if readU64 mem off = v.length ∧ readBytes mem (off + sizeofOSetEle) v.length = v then
      some (some off)
    else oset_search_loop mem oset_len v fuel (oset_iter mem oset_len (some off))

/-- The function `oset_search(oset, oset_len, v, vn)`. Every round that does not
end the loop moves `iter` forward by the length it reads, so `oset_len + 1`
rounds suffice unless a length read is 0, in which case the loop spins forever:
the result is then `none`. -/
def oset_search (mem : Bytes) (oset_len : Nat) (v : Bytes) : Option (Option Nat) :=
  oset_search_loop mem oset_len v (oset_len + 1) (some 8)

/-- The loop of `oset_insert`, run for at most `fuel` rounds: the offset `iter`
ends at, or `none` when the rounds do not suffice or `iter` becomes `nullptr`. -/
def oset_insert_loop (mem : Bytes) (oset_len : Nat) (score : Nat) : Nat → Nat → Option Nat
  | 0, off => if off < oset_len then none else some off
  | fuel + 1, off =>
    if off < oset_len then
      if scoreGt (readU64 mem (off + 8)) score then some off
      else
        match oset_iter mem oset_len (some off) with
        | none => none
        | some next => oset_insert_loop mem oset_len score fuel next
    else some off

/-- The function `oset_insert(oset_, oset_len_, v, vn, score)` (`DUP_CHECK` is
false): the new block and its length; `none` when the loop spins forever or the
copy of the remaining elements runs off the block. -/
def oset_insert (mem : Bytes) (oset_len : Nat) (v : Bytes) (score : Nat) :
    Option (Bytes × Nat) :=
  match oset_insert_loop mem oset_len score (oset_len + 1) 8 with
  | none => none
  | some iter =>
    if oset_len < iter then none
    else
      let new_oset_len := oset_len + OSetEle.total_size v.length
      let new_oset := List.replicate new_oset_len 0
      let new_oset := writeBytes new_oset 0 (encode64 ((readU64 mem 0 + 1) % 2 ^ 64))
      let offset := iter - 8
      let remaining_size := oset_len - 8 - offset
      let new_oset :=
        if offset ≠ 0 then writeBytes new_oset 8 (readBytes mem 8 offset) else new_oset
      let new_oset := OSetEle.init new_oset (8 + offset) v score
      let new_oset :=
        if remaining_size ≠ 0 then
          writeBytes new_oset (8 + (offset + OSetEle.total_size v.length))
            (readBytes mem (8 + offset) remaining_size)
        else new_oset
      some (new_oset, new_oset_len)

/-- The method `zadd(k, kn, v, vn, score, type)`. `slack` is what the heap holds
behind the block `get_` allocates. The result is `none` when a loop spins
forever or a copy runs off its block. -/
def SyncKV.zadd (s : SyncKV) (k v : Bytes) (score : Nat) (type : UpdateType)
    (alloc_to : Nat → Option ObjectPtr) (slack : Bytes) : Option (Bool × SyncKV) :=
  match s.get_ k with
  | (none, s1) =>
    match type with
    | UpdateType.EXIST => some (false, s1)
    | UpdateType.NOT_EXIST =>
      let oset := oset_init v score
      let oset_len := 8 + OSetEle.total_size v.length
      some (s1.set k (readBytes oset 0 oset_len) alloc_to)
  | (some (buf, oset_len), s1) =>
    let oset := buf ++ slack
    match oset_search oset oset_len v with
    | none => none
    | some pos =>
      match type with
      | UpdateType.EXIST =>
        match pos with
        | none => some (false, s1)
        | some off =>
          let oset := OSetEle.init oset off v score
          some (s1.set k (readBytes oset 0 oset_len) alloc_to)
      | UpdateType.NOT_EXIST =>
        match pos with
        | some _ => some (false, s1)
        | none =>
          match oset_insert oset oset_len v score with
          | none => none
          | some (new_oset, new_oset_len) =>
            some (s1.set k (readBytes new_oset 0 new_oset_len) alloc_to)

/-- A signed 64-bit number converted to `size_t`. -/
def toU64 (x : Int) : Nat := (x % 2 ^ 64).toNat

/-- The first loop of `zrange`: `oset_iter` applied `cnt` times. -/
def zrange_skip (mem : Bytes) (oset_len : Nat) : Nat → Option Nat → Option Nat
  | 0, iter => iter
  | cnt + 1, iter => zrange_skip mem oset_len cnt (oset_iter mem oset_len iter)

/-- The second loop of `zrange`, `cnt` rounds: the values appended to `bi`, each
with its length; `none` when `iter` is `nullptr` where it is dereferenced. -/
def zrange_copy (mem : Bytes) (oset_len : Nat) :
    Nat → Option Nat → List (Bytes × Nat) → Option (List (Bytes × Nat))
  | 0, _, bi => some bi
  | _ + 1, none, _ => none
  | cnt + 1, some off, bi =>
    let len := (readU64 mem off + 2 ^ 64 - sizeofOSetEle) % 2 ^ 64
    let data := readBytes mem (off + sizeofOSetEle) len
    zrange_copy mem oset_len cnt (oset_iter mem oset_len (some off)) (bi ++ [(data, len)])

/-- The method `zrange(key, klen, start, end, bi)`: the value returned and the
values appended to `bi`, or `none` when `nullptr` is dereferenced or the second
loop cannot end; and the map afterwards. -/
def SyncKV.zrange (s : SyncKV) (key : Bytes) (start stop : Int) (slack : Bytes) :
    Option (Bool × List (Bytes × Nat)) × SyncKV :=
  match s.get_ key with
  | (none, s1) => (some (false, []), s1)
  | (some (buf, oset_len), s1) =>
    let oset := buf ++ slack
    if start < 0 ∨ toU64 stop > readU64 oset 0 then (some (false, []), s1)
    else if toU64 stop = 2 ^ 64 - 1 then (none, s1)
    else
      let iter := zrange_skip oset oset_len (toU64 start) (some 8)
      match zrange_copy oset oset_len (toU64 stop + 1 - toU64 start) iter [] with
      | none => (none, s1)
      | some bi => (some (true, bi), s1)

/-- The method `zrevrange(key, klen, start, end, bi)`: `zrange` fills a local
vector, which is appended to `bi` back to front when `zrange` returned true. -/
def SyncKV.zrevrange (s : SyncKV) (key : Bytes) (start stop : Int) (slack : Bytes) :
    Option (Bool × List (Bytes × Nat)) × SyncKV :=
  match s.zrange key start stop slack with
  | (none, s1) => (none, s1)
  | (some (ok, values), s1) =>
    if !ok then (some (false, []), s1)
    else (some (true, values.reverse), s1)

/-! ## Cache pools and the cache manager (`cache_manager.ipp`) -/

/-- A construct callback, `std::function<int(void *)>`; the argument is the
address passed. -/
abbrev ConstructFunc := Nat → Int

/-- Modelled from the spec: the class `CachePool` is declared outside the sources
at hand. The fields the methods translated here use are the name, the construct
callback (`none` for an empty `std::function`) and the counters; the victim
cache, the allocator and the evacuator a pool owns are left out. -/
structure CachePool where
  name_ : String
  construct_ : Option ConstructFunc
  stats : CacheStats

/-- The constructor `CachePool(name)`: no callback, counters at zero. -/
def CachePool.new (name : String) : CachePool :=
  { name_ := name, construct_ := none,
    stats := { hits := 0, misses := 0, miss_cycles := 0, miss_bytes := 0, victim_hits := 0 } }

/-- The method `CachePool::set_construct_func(callback)` (the warning is not
modelled). -/
def CachePool.set_construct_func (p : CachePool) (callback : Option ConstructFunc) : CachePool :=
  if p.construct_.isSome then p
  else { p with construct_ := callback }

/-- The method `CachePool::get_construct_func()`. -/
def CachePool.get_construct_func (p : CachePool) : Option ConstructFunc := p.construct_

/-- The method `CachePool::record_miss_penalty(cycles, bytes)`. -/
def record_miss_penalty (stats : CacheStats) (cycles bytes : Nat) : CacheStats :=
  { stats with miss_cycles := stats.miss_cycles + cycles,
               miss_bytes := stats.miss_bytes + bytes }

/-- The pool map `pools_` of the `CacheManager`: the pool stored under each
name, `none` where the map has no entry. -/
structure CacheManager where
  pools_ : String → Option CachePool

/-- Modelled from the spec: the constant `CacheManager::default_pool_name` is
declared outside the sources at hand; the spec names the pool `default`. -/
def default_pool_name : String := "default"

/-- The method `CacheManager::create_pool(name)`. -/
def CacheManager.create_pool (m : CacheManager) (name : String) : Bool × CacheManager :=
  if (m.pools_ name).isSome then (false, m)
  else (true, { pools_ := Function.update m.pools_ name (some (CachePool.new name)) })

/-- The method `CacheManager::delete_pool(name)`. -/
def CacheManager.delete_pool (m : CacheManager) (name : String) : Bool × CacheManager :=
  if (m.pools_ name).isNone then (false, m)
  else (true, { pools_ := Function.update m.pools_ name none })

/-- The method `CacheManager::get_pool(name)`: the pointer returned (`none` for
`nullptr`) and the manager afterwards. -/
def CacheManager.get_pool (m : CacheManager) (name : String) :
    Option CachePool × CacheManager :=
  match m.pools_ name with
  | none => (none, m)
  | some pool => (some pool, m)

/-- The constructor `CacheManager()`, whose body is
`assert(create_pool(default_pool_name))`, in a build that evaluates `assert`. -/
def CacheManager.new : CacheManager :=
  (CacheManager.create_pool { pools_ := fun _ => none } default_pool_name).2

/-! ## The log allocator (`log.cpp`) -/

/-- Constants and helpers that `log.cpp` takes from headers outside the sources
at hand, as parameters: the chunk size `kLogChunkSize`, the size of a region,
the unit and the threshold of small objects, `sizeof(LargeObjectHdr)`, and the
functions `ObjectPtr::obj_size` and `round_up_to_align`. -/
structure LogCfg where
  kLogChunkSize : Nat
  kRegionSize : Nat
  kSmallObjSizeUnit : Nat
  kSmallObjThreshold : Nat
  sizeofLargeObjectHdr : Nat
  obj_size : Nat → Nat
  round_up_to_align : Nat → Nat → Nat

/-- The fields of a `LogChunk` the allocation paths use; addresses are 64-bit
words. -/
structure LogChunk where
  start_addr_ : Nat
  pos_ : Nat
  sealed_ : Bool
deriving DecidableEq, Repr

/-- Modelled from the spec: the constructor `LogChunk(segment, addr)`, an open
chunk whose bump pointer is at its base. -/
def LogChunk.new (addr : Nat) : LogChunk :=
  { start_addr_ := addr, pos_ := addr, sealed_ := false }

/-- Modelled from the spec: `LogChunk::seal()` sets the flag `sealed_`. -/
def LogChunk.seal (c : LogChunk) : LogChunk := { c with sealed_ := true }

/-- The method `LogChunk::alloc_small(size)`: the address the new object pointer
is initialised at (`none` for `nullopt`) and the chunk afterwards. `init_ok`
tells whether `init_small` returns `Succ`. -/
def LogChunk.alloc_small (cfg : LogCfg) (c : LogChunk) (size : Nat) (init_ok : Bool) :
    Option Nat × LogChunk :=
  if c.sealed_ then (none, c)
  else
    let obj_size := cfg.obj_size size
    if toU64 (toU64 ((c.pos_ : Int) - c.start_addr_) + obj_size) > cfg.kLogChunkSize then
      (none, c.seal)
    else if !init_ok then (none, c)
    else (some c.pos_, { c with pos_ := toU64 ((c.pos_ : Int) + obj_size) })

/-- The method `LogChunk::alloc_large(size, head_tptr, prev_tptr)`: the address
of the fragment and its truncated size (`none` for `nullopt`), and the chunk
afterwards. `prev_null` tells whether `prev_tptr` is null; `init_ok`, `load_ok`
and `store_ok` tell whether `init_large`, `load_hdr` and `store_hdr` succeed.
The header words written are not part of the chunk state. -/
def LogChunk.alloc_large (cfg : LogCfg) (c : LogChunk) (size : Nat) (prev_null : Bool)
    (init_ok load_ok store_ok : Bool) : Option (Nat × Nat) × LogChunk :=
  if c.sealed_ then (none, c)
  else
    let used := toU64 ((c.pos_ : Int) - c.start_addr_)
    if toU64 ((used : Int) + cfg.sizeofLargeObjectHdr) ≥ cfg.kLogChunkSize then
      (none, c.seal)
    else
      let trunced_size :=
        min (toU64 ((toU64 ((cfg.kLogChunkSize : Int) - used) : Int) -
          cfg.sizeofLargeObjectHdr)) size
      if !init_ok then (none, c)
      else if !prev_null && !load_ok then (none, c)
      else if !prev_null && !store_ok then (none, c)
      else
        (some (c.pos_, trunced_size),
          { c with pos_ := toU64 ((c.pos_ : Int) + (cfg.sizeofLargeObjectHdr + trunced_size)) })

/-- The fields of a `LogSegment` that `allocChunk` uses. `vLogChunks_` lists the
chunks in the order they were handed out, each as it was created. -/
structure LogSegment where
  region_id_ : Int
  start_addr_ : Nat
  pos_ : Nat
  sealed_ : Bool
  vLogChunks_ : List LogChunk
deriving DecidableEq, Repr

/-- Modelled from the spec: the constructor `LogSegment(rid, addr)`, an open
segment without chunks whose position is at the region base. -/
def LogSegment.new (rid : Int) (addr : Nat) : LogSegment :=
  { region_id_ := rid, start_addr_ := addr, pos_ := addr, sealed_ := false, vLogChunks_ := [] }

/-- Modelled from the spec: `LogSegment::full()`, the chunks handed out cover the
region. -/
def LogSegment.full (cfg : LogCfg) (seg : LogSegment) : Bool :=
  decide (cfg.kRegionSize ≤ toU64 ((seg.pos_ : Int) - seg.start_addr_))

/-- Modelled from the spec: `LogSegment::seal()` sets the flag `sealed_`. -/
def LogSegment.seal (seg : LogSegment) : LogSegment := { seg with sealed_ := true }

/-- The method `LogSegment::allocChunk()`: the chunk handed out (`none` for
`nullptr`) and the segment afterwards. -/
def LogSegment.allocChunk (cfg : LogCfg) (seg : LogSegment) : Option LogChunk × LogSegment :=
  if seg.full cfg then (none, seg.seal)
  else
    let addr := seg.pos_
    let seg1 := { seg with pos_ := toU64 ((seg.pos_ : Int) + cfg.kLogChunkSize) }
    let seg2 :=
      if seg1.pos_ ≥ toU64 ((seg1.start_addr_ : Int) + cfg.kLogChunkSize) then seg1.seal
      else seg1
    let chunk := LogChunk.new addr
    (some chunk, { seg2 with vLogChunks_ := seg2.vLogChunks_ ++ [chunk] })

/-- The struct `VRange` of `shm_types.hpp`. -/
structure VRange where
  stt_addr : Nat
  size : Nat
deriving DecidableEq, Repr

/-- The method `VRange::contains(ptr)`. Addresses are numbers and the sum
`stt_addr + size` is taken not to wrap. -/
def VRange.contains (r : VRange) (ptr : Nat) : Bool :=
  decide (ptr > r.stt_addr) && decide (ptr < r.stt_addr + r.size)

/-- Modelled from the spec: the client's `ResourceManager` is outside the sources
at hand. `region_map_` is the table of the regions mapped so far; `grants` holds
the answers of the coordinator to the coming `ALLOC` requests, in order, `none`
for a rejection. -/
structure ResourceManager where
  region_map_ : List (Int × VRange)
  grants : List (Option (Int × VRange))
deriving DecidableEq, Repr

/-- Modelled from the spec: `AllocRegion(overcommit)` returns the id of the
region granted, which it adds to the table, or `-1`. -/
def ResourceManager.AllocRegion (rm : ResourceManager) (_overcommit : Bool) :
    Int × ResourceManager :=
  match rm.grants with
  | [] => (-1, rm)
  | none :: rest => (-1, { rm with grants := rest })
  | some (rid, range) :: rest =>
    (rid, { region_map_ := rm.region_map_ ++ [(rid, range)], grants := rest })

/-- Modelled from the spec: `GetRegion(rid)` returns the range stored under
`rid`, an empty range when there is none. -/
def ResourceManager.GetRegion (rm : ResourceManager) (rid : Int) : VRange :=
  match rm.region_map_.find? (fun e => e.1 == rid) with
  | some e => e.2
  | none => { stt_addr := 0, size := 0 }

/-- The state `LogAllocator` works on: its segments, the chunk `pcab` of the one
thread modelled (with its live state), and the global resource manager. -/
structure LogAllocator where
  segments_ : List LogSegment
  pcab : Option LogChunk
  rmanager : ResourceManager
deriving DecidableEq, Repr

/-- A number stored in an `int` of 32 bits. -/
def toI32 (x : Int) : Int := (x + 2 ^ 31) % 2 ^ 32 - 2 ^ 31

/-- How a call ends: it returns a value, or an `assert` fails and the program is
aborted. -/
inductive Ending (α : Type) where
  | returns (x : α) : Ending α
  | aborts : Ending α
deriving DecidableEq, Repr

/-- What a call that returns says about its value. -/
def Ending.map {α β : Type} (f : α → β) : Ending α → Ending β
  | Ending.returns x => Ending.returns (f x)
  | Ending.aborts => Ending.aborts

/-- The method `LogAllocator::allocSegment(overcommit)`. The id `AllocRegion`
returns is stored in the variable `int rid`, and it is this narrowed value that
is compared with `-1` and passed on to `GetRegion` and to the segment. -/
def LogAllocator.allocSegment (a : LogAllocator) (overcommit : Bool) :
    Option LogSegment × LogAllocator :=
  let r := a.rmanager.AllocRegion overcommit
  let rid := toI32 r.1
  if rid = -1 then (none, { a with rmanager := r.2 })
  else
    let range := r.2.GetRegion rid
    (some (LogSegment.new rid range.stt_addr), { a with rmanager := r.2 })

/-- The method `LogAllocator::allocChunk(overcommit)`. -/
def LogAllocator.allocChunk (cfg : LogCfg) (a : LogAllocator) (overcommit : Bool) :
    Option LogChunk × LogAllocator :=
  match a.allocSegment overcommit with
  | (none, a1) => (none, a1)
  | (some segment, a1) =>
    let r := segment.allocChunk cfg
    (r.1, { a1 with segments_ := a1.segments_ ++ [r.2] })

/-- The method `LogAllocator::alloc_(size, overcommit)`: the address of the
object (`none` for `nullopt`) and the allocator afterwards, or the abort by
`assert(ret)` when the fresh chunk does not serve the request. The branch for
large objects is the parameter `alloc_large`; `init_small_ok addr` tells
whether `init_small` at the address `addr` returns `Succ`. -/
def LogAllocator.alloc_ (cfg : LogCfg)
    (alloc_large : LogAllocator → Nat → Bool → Ending (Option Nat × LogAllocator))
    (init_small_ok : Nat → Bool)
    (a : LogAllocator) (size : Nat) (overcommit : Bool) :
    Ending (Option Nat × LogAllocator) :=
  let size := cfg.round_up_to_align size cfg.kSmallObjSizeUnit
  if size ≥ cfg.kSmallObjThreshold then alloc_large a size overcommit
  else
    let fast : Option Nat × LogAllocator :=
      match a.pcab with
      | some c =>
        let r := c.alloc_small cfg size (init_small_ok c.pos_)
        if r.1.isSome then (r.1, { a with pcab := some r.2 })
        else (none, { a with pcab := none })
      | none => (none, a)
    if fast.1.isSome then Ending.returns fast
    else
      match fast.2.allocChunk cfg overcommit with
      | (none, a2) => Ending.returns (none, a2)
      | (some chunk, a2) =>
        let r := chunk.alloc_small cfg size (init_small_ok chunk.pos_)
        if r.1.isNone then Ending.aborts
        else Ending.returns (r.1, { a2 with pcab := some r.2 })

/-! ## Region names (`shm_types.hpp`) -/

/-- The character of the decimal digit `d`. -/
def digit_char (d : Nat) : Char := Char.ofNat (48 + d)

/-- The decimal digits of `n`, least significant first, none for 0; `fuel`
bounds their number. -/
def dec_digits : Nat → Nat → List Nat
  | 0, _ => []
  | fuel + 1, n => if n = 0 then [] else n % 10 :: dec_digits fuel (n / 10)

/-- The C++ library function `std::to_string` on an unsigned integer: the decimal
digits, most significant first, without leading zeros, and `0` for zero. -/
def to_string (n : Nat) : String :=
  if n = 0 then "0" else String.mk ((dec_digits n n).reverse.map digit_char)

/-- The function `utils::get_region_name(pid, rid)`. -/
def get_region_name (pid rid : Nat) : String :=
  "region-" ++ to_string pid ++ "-" ++ to_string rid

/-! ## Object headers (`object.ipp`)

The structs are declared outside the sources at hand. A header is taken as the
record of the fields its methods use; a value stored into a field is cut to the
width of the field. -/

/-- The layout constants of a header variant, as parameters: the widths in bits
of the fields `flags`, `size` and `rref`, and the positions of the four flag
bits within `flags`. -/
structure HdrCfg where
  flagBits : Nat
  sizeBits : Nat
  rrefBits : Nat
  kPresentBit : Nat
  kAccessedBit : Nat
  kEvacuateBit : Nat
  kSmallObjBit : Nat

/-- The test `x & (1 << k)` read as a `bool`. -/
def test_bit (x k : Nat) : Bool := decide (x &&& (1 <<< k) ≠ 0)

/-- The store `x |= (1 << k)` into a field of `width` bits. -/
def set_bit (width x k : Nat) : Nat := (x ||| (1 <<< k)) % 2 ^ width

/-- The store `x &= ~(1 << k)`: the bits of `x` other than bit `k`. No bit is
added, so the width of the field plays no part. -/
def clr_bit (x k : Nat) : Nat := x ^^^ (x &&& (1 <<< k))

/-- Modelled from the spec: the fields of `SmallObjectHdr` its methods use. -/
structure SmallObjectHdr where
  rref : Nat
  size : Nat
  flags : Nat
deriving DecidableEq, Repr

namespace SmallObjectHdr

/-- The method `set_size(size_)`; the argument is a `uint32_t`. -/
def set_size (cfg : LogCfg) (hc : HdrCfg) (h : SmallObjectHdr) (size_ : Nat) : SmallObjectHdr :=
  let size_ := cfg.round_up_to_align size_ cfg.kSmallObjSizeUnit % 2 ^ 32
  let size_ := size_ / cfg.kSmallObjSizeUnit
  { h with size := size_ % 2 ^ hc.sizeBits }

/-- The method `get_size()`, a `uint32_t`. -/
def get_size (cfg : LogCfg) (h : SmallObjectHdr) : Nat :=
  h.size * cfg.kSmallObjSizeUnit % 2 ^ 32

/-- The method `set_rref(addr)`. -/
def set_rref (hc : HdrCfg) (h : SmallObjectHdr) (addr : Nat) : SmallObjectHdr :=
  { h with rref := addr % 2 ^ hc.rrefBits }

/-- The method `get_rref()`. -/
def get_rref (h : SmallObjectHdr) : Nat := h.rref

/-- The method `is_present()`. -/
def is_present (hc : HdrCfg) (h : SmallObjectHdr) : Bool := test_bit h.flags hc.kPresentBit

/-- The method `set_present()`. -/
def set_present (hc : HdrCfg) (h : SmallObjectHdr) : SmallObjectHdr :=
  { h with flags := set_bit hc.flagBits h.flags hc.kPresentBit }

/-- The method `clr_present()`. -/
def clr_present (hc : HdrCfg) (h : SmallObjectHdr) : SmallObjectHdr :=
  { h with flags := clr_bit h.flags hc.kPresentBit }

/-- The method `is_accessed()`. -/
def is_accessed (hc : HdrCfg) (h : SmallObjectHdr) : Bool := test_bit h.flags hc.kAccessedBit

/-- The method `set_accessed()`. -/
def set_accessed (hc : HdrCfg) (h : SmallObjectHdr) : SmallObjectHdr :=
  { h with flags := set_bit hc.flagBits h.flags hc.kAccessedBit }

/-- The method `clr_accessed()`. -/
def clr_accessed (hc : HdrCfg) (h : SmallObjectHdr) : SmallObjectHdr :=
  { h with flags := clr_bit h.flags hc.kAccessedBit }

/-- The method `is_evacuate()`. -/
def is_evacuate (hc : HdrCfg) (h : SmallObjectHdr) : Bool := test_bit h.flags hc.kEvacuateBit

/-- The method `set_evacuate()`. -/
def set_evacuate (hc : HdrCfg) (h : SmallObjectHdr) : SmallObjectHdr :=
  { h with flags := set_bit hc.flagBits h.flags hc.kEvacuateBit }

/-- The method `clr_evacuate()`. -/
def clr_evacuate (hc : HdrCfg) (h : SmallObjectHdr) : SmallObjectHdr :=
  { h with flags := clr_bit h.flags hc.kEvacuateBit }

/-- The method `_small_obj()`. -/
def _small_obj (hc : HdrCfg) (h : SmallObjectHdr) : SmallObjectHdr :=
  { h with flags := set_bit hc.flagBits h.flags hc.kSmallObjBit }

/-- The method `init(size_, rref)`. -/
def init (cfg : LogCfg) (hc : HdrCfg) (h : SmallObjectHdr) (size_ rref : Nat) : SmallObjectHdr :=
  _small_obj hc (set_present hc (set_rref hc (set_size cfg hc h size_) rref))

/-- The method `free()`. -/
def free (hc : HdrCfg) (h : SmallObjectHdr) : SmallObjectHdr := clr_present hc h

end SmallObjectHdr

/-- Modelled from the spec: the fields of `LargeObjectHdr` its methods use, and
`next`, the address of the next fragment (0 for none), which `log.cpp` sets
through `set_next`. -/
structure LargeObjectHdr where
  size : Nat
  flags : Nat
  rref : Nat
  next : Nat
deriving DecidableEq, Repr

namespace LargeObjectHdr

/-- The method `set_size(size_)`; the argument is a `uint32_t`. -/
def set_size (hc : HdrCfg) (h : LargeObjectHdr) (size_ : Nat) : LargeObjectHdr :=
  { h with size := size_ % 2 ^ 32 % 2 ^ hc.sizeBits }

/-- The method `get_size()`, a `uint32_t`. -/
def get_size (h : LargeObjectHdr) : Nat := h.size % 2 ^ 32

/-- The method `set_rref(addr)`. -/
def set_rref (hc : HdrCfg) (h : LargeObjectHdr) (addr : Nat) : LargeObjectHdr :=
  { h with rref := addr % 2 ^ hc.rrefBits }

/-- The method `get_rref()`. -/
def get_rref (h : LargeObjectHdr) : Nat := h.rref

/-- The method `is_present()`. -/
def is_present (hc : HdrCfg) (h : LargeObjectHdr) : Bool := test_bit h.flags hc.kPresentBit

/-- The method `set_present()`. -/
def set_present (hc : HdrCfg) (h : LargeObjectHdr) : LargeObjectHdr :=
  { h with flags := set_bit hc.flagBits h.flags hc.kPresentBit }

/-- The method `clr_present()`. -/
def clr_present (hc : HdrCfg) (h : LargeObjectHdr) : LargeObjectHdr :=
  { h with flags := clr_bit h.flags hc.kPresentBit }

/-- The method `is_accessed()`. -/
def is_accessed (hc : HdrCfg) (h : LargeObjectHdr) : Bool := test_bit h.flags hc.kAccessedBit

/-- The method `set_accessed()`. -/
def set_accessed (hc : HdrCfg) (h : LargeObjectHdr) : LargeObjectHdr :=
  { h with flags := set_bit hc.flagBits h.flags hc.kAccessedBit }

/-- The method `clr_accessed()`. -/
def clr_accessed (hc : HdrCfg) (h : LargeObjectHdr) : LargeObjectHdr :=
  { h with flags := clr_bit h.flags hc.kAccessedBit }

/-- The method `is_evacuate()`. -/
def is_evacuate (hc : HdrCfg) (h : LargeObjectHdr) : Bool := test_bit h.flags hc.kEvacuateBit

/-- The method `set_evacuate()`. -/
def set_evacuate (hc : HdrCfg) (h : LargeObjectHdr) : LargeObjectHdr :=
  { h with flags := set_bit hc.flagBits h.flags hc.kEvacuateBit }

/-- The method `clr_evacuate()`. -/
def clr_evacuate (hc : HdrCfg) (h : LargeObjectHdr) : LargeObjectHdr :=
  { h with flags := clr_bit h.flags hc.kEvacuateBit }

/-- The method `_large_obj()`. -/
def _large_obj (hc : HdrCfg) (h : LargeObjectHdr) : LargeObjectHdr :=
  { h with flags := clr_bit h.flags hc.kSmallObjBit }

/-- The method `init(size_, rref)`. -/
def init (hc : HdrCfg) (h : LargeObjectHdr) (size_ rref : Nat) : LargeObjectHdr :=
  _large_obj hc (set_present hc (set_rref hc (set_size hc h size_) rref))

/-- The method `free()`. -/
def free (hc : HdrCfg) (h : LargeObjectHdr) : LargeObjectHdr := clr_present hc h

end LargeObjectHdr

/-- Modelled from the spec: the generic view of a header, of which
`is_small_obj` reads the field `flags`. -/
structure GenericObjectHdr where
  flags : Nat
deriving DecidableEq, Repr

/-- The method `GenericObjectHdr::is_small_obj()`. -/
def GenericObjectHdr.is_small_obj (hc : HdrCfg) (h : GenericObjectHdr) : Bool :=
  test_bit h.flags hc.kSmallObjBit

/-! ## Large objects (`LogAllocator::alloc_large`, `log.cpp`)

A `TransientPtr` is the address it points at, `none` standing for a null
pointer. The headers of the fragments live in the memory of the regions: `hdrs`
gives the large header stored at each address. -/

/-- A 64-bit value read as an `int64_t`. -/
def toI64 (x : Int) : Int := (x + 2 ^ 63) % 2 ^ 64 - 2 ^ 63

/-- The header memory: the large header stored at each address. -/
abbrev HdrStore := Nat → LargeObjectHdr

/-- The outcomes of the operations on soft pointers and headers that
`alloc_large` relies on and that are outside the sources at hand, each by the
address it is applied to: `init_large`, `load_hdr` and `store_hdr` in
`LogChunk::alloc_large`, `init_from_soft`, and `load_hdr` and `store_hdr` under
the label `failed`. -/
structure LargeOracle where
  init_large_ok : Nat → Bool
  load_hdr_ok : Nat → Bool
  store_hdr_ok : Nat → Bool
  init_from_soft_ok : Option Nat → Bool
  clr_load_ok : Nat → Bool
  clr_store_ok : Nat → Bool

/-- Modelled from the spec: `ObjectPtr::init_large(addr, size, ...)` leaves at
`addr` a large header that is present, holds `size` and has no successor. -/
def init_large (hc : HdrCfg) (hdrs : HdrStore) (addr size : Nat) : HdrStore :=
  Function.update hdrs addr { LargeObjectHdr.init hc (hdrs addr) size 0 with next := 0 }

/-- Modelled from the spec: `LargeObjectHdr::set_next(addr)`. -/
def LargeObjectHdr.set_next (h : LargeObjectHdr) (addr : Nat) : LargeObjectHdr :=
  { h with next := addr }

/-- Modelled from the spec: `LogChunk::full()`, no byte is left behind `pos_`. -/
def LogChunk.full (cfg : LogCfg) (c : LogChunk) : Bool :=
  decide (cfg.kLogChunkSize ≤ toU64 ((c.pos_ : Int) - c.start_addr_))

/-- Modelled from the spec: `ResourceManager::FreeRegion(rid)` takes the region
off the table. -/
def ResourceManager.FreeRegion (rm : ResourceManager) (rid : Int) : ResourceManager :=
  { rm with region_map_ := rm.region_map_.filter (fun e => e.1 != rid) }

/-- The method `LogChunk::alloc_large(size, head_tptr, prev_tptr)` together with
the header memory: the fragment handed out (its address and its payload size),
the chunk and the header memory afterwards. -/
def LogChunk.alloc_large_mem (cfg : LogCfg) (hc : HdrCfg) (o : LargeOracle) (c : LogChunk)
    (size : Nat) (prev_tptr : Option Nat) (hdrs : HdrStore) :
    Option (Nat × Nat) × LogChunk × HdrStore :=
  if c.sealed_ then (none, c, hdrs)
  else
    let used := toU64 ((c.pos_ : Int) - c.start_addr_)
    if toU64 ((used : Int) + cfg.sizeofLargeObjectHdr) ≥ cfg.kLogChunkSize then
      (none, c.seal, hdrs)
    else
      let trunced_size :=
        min (toU64 ((toU64 ((cfg.kLogChunkSize : Int) - used) : Int) -
          cfg.sizeofLargeObjectHdr)) size
      let addr := c.pos_
      if !o.init_large_ok c.pos_ then (none, c, hdrs)
      else
        let hdrs1 := init_large hc hdrs c.pos_ trunced_size
        let c1 : LogChunk :=
          { c with pos_ := toU64 ((c.pos_ : Int) + (cfg.sizeofLargeObjectHdr + trunced_size)) }
        match prev_tptr with
        | none => (some (addr, trunced_size), c1, hdrs1)
        | some prev =>
          if !o.load_hdr_ok prev then (none, c, hdrs1)
          else if !o.store_hdr_ok prev then (none, c, hdrs1)
          else
            (some (addr, trunced_size), c1,
              Function.update hdrs1 prev ((hdrs1 prev).set_next addr))

/-- The variables of `LogAllocator::alloc_large`. `last_chunk` is the chunk of
the segment allocated last, in its current state; `frags` lists the fragments
handed out so far, each with its address and payload size, and is not a
variable of the program. -/
structure LargeState where
  a : LogAllocator
  hdrs : HdrStore
  remaining_size : Int
  head_tptr : Option Nat
  prev_tptr : Option Nat
  alloced_segs : List LogSegment
  alloced_ptrs : List (Option Nat)
  last_chunk : Option LogChunk
  frags : List (Nat × Nat)

/-- What `LogAllocator::alloc_large` leaves: whether it returned an object
pointer (`false` for `nullopt`), the head the pointer was initialised from, the
allocator, the header memory and the fragments handed out during the call. -/
structure LargeResult where
  ok : Bool
  head_tptr : Option Nat
  a : LogAllocator
  hdrs : HdrStore
  frags : List (Nat × Nat)

/-- The statements the block for the head and the loop body start with:
`allocSegment`, `push_back` on `alloced_segs`, and `allocChunk` on the segment.
The first component is the chunk, `none` where the code leaves with
`goto failed`. -/
def alloc_large_chunk (cfg : LogCfg) (overcommit : Bool) (st : LargeState) :
    Option LogChunk × LargeState :=
  match st.a.allocSegment overcommit with
  | (none, a1) => (none, { st with a := a1 })
  | (some segment, a1) =>
    let r := segment.allocChunk cfg
    (r.1, { st with a := a1, alloced_segs := st.alloced_segs ++ [r.2] })

/-- The statements the block for the head and the loop body end with:
`alloc_large` on the chunk with `prev_tptr`, `seal` if the chunk is full, and
the update of `remaining_size`. The first component is the fragment, `none`
where the code leaves with `goto failed`. -/
def alloc_large_on (cfg : LogCfg) (hc : HdrCfg) (o : LargeOracle) (chunk : LogChunk)
    (st : LargeState) : Option (Nat × Nat) × LargeState :=
  let m := chunk.alloc_large_mem cfg hc o (toU64 st.remaining_size) st.prev_tptr st.hdrs
  let chunk1 := if m.2.1.full cfg then m.2.1.seal else m.2.1
  let st2 := { st with hdrs := m.2.2, last_chunk := some chunk1 }
  match m.1 with
  | none => (none, st2)
  | some f =>
    (some f, { st2 with frags := st2.frags ++ [f],
                        remaining_size := toI64 (st.remaining_size - f.2) })

/-- The body of the loop behind `alloced_ptrs.emplace_back(prev_tptr)`, up to
the update of `remaining_size`. -/
def alloc_large_frag (cfg : LogCfg) (hc : HdrCfg) (o : LargeOracle) (overcommit : Bool)
    (st : LargeState) : Option (Nat × Nat) × LargeState :=
  match alloc_large_chunk cfg overcommit st with
  | (none, st1) => (none, st1)
  | (some chunk, st1) => alloc_large_on cfg hc o chunk st1

/-- The loop `while (remaining_size > 0)`, run for at most `fuel` rounds: `none`
when the rounds do not suffice, otherwise whether the loop ended by its
condition (`false` for `goto failed`) and the variables then. -/
def alloc_large_loop (cfg : LogCfg) (hc : HdrCfg) (o : LargeOracle) (overcommit : Bool) :
    Nat → LargeState → Option (Bool × LargeState)
  | 0, st => if st.remaining_size > 0 then none else some (true, st)
  | fuel + 1, st =>
    if st.remaining_size > 0 then
      let st1 := { st with alloced_ptrs := st.alloced_ptrs ++ [st.prev_tptr] }
      match alloc_large_frag cfg hc o overcommit st1 with
      | (none, st2) => some (false, st2)
      | (some f, st2) =>
        alloc_large_loop cfg hc o overcommit fuel { st2 with prev_tptr := some f.1 }
    else some (true, st)

/-- One round of the first loop under the label `failed`: the present bit of the
header at `tptr` is cleared unless the header cannot be loaded or stored. -/
def clr_present_at (hc : HdrCfg) (o : LargeOracle) (hdrs : HdrStore) (tptr : Option Nat) :
    HdrStore :=
  match tptr with
  | none => hdrs
  | some t =>
    if !o.clr_load_ok t then hdrs
    else if !o.clr_store_ok t then hdrs
    else Function.update hdrs t ((hdrs t).clr_present hc)

/-- The statements under the label `failed`. -/
def alloc_large_failed (hc : HdrCfg) (o : LargeOracle) (st : LargeState) : LargeResult :=
  { ok := false
    head_tptr := st.head_tptr
    a := { st.a with
           rmanager := st.alloced_segs.foldl (fun rm seg => rm.FreeRegion seg.region_id_)
             st.a.rmanager }
    hdrs := st.alloced_ptrs.foldl (clr_present_at hc o) st.hdrs
    frags := st.frags }

/-- The first statements of `LogAllocator::alloc_large`, up to
`remaining_size -= alloced_size`: the head is taken from the chunk of the
thread when there is one and it serves the request. -/
def alloc_large_pcab (cfg : LogCfg) (hc : HdrCfg) (o : LargeOracle) (a : LogAllocator)
    (hdrs : HdrStore) (size : Nat) : LargeState :=
  let st0 : LargeState :=
    { a := a, hdrs := hdrs, remaining_size := toI64 size, head_tptr := none, prev_tptr := none,
      alloced_segs := [], alloced_ptrs := [], last_chunk := none, frags := [] }
  let p : Nat × LargeState :=
    match a.pcab with
    | none => (0, st0)
    | some c =>
      let m := c.alloc_large_mem cfg hc o size none hdrs
      let st := { st0 with a := { a with pcab := some m.2.1 }, hdrs := m.2.2 }
      match m.1 with
      | none => (0, st)
      | some f => (f.2, { st with head_tptr := some f.1, frags := [f] })
  { p.2 with remaining_size := toI64 (p.2.remaining_size - p.1) }

/-- The block `if (head_tptr.null())` behind the common path: the head is taken
from the first chunk of a new segment. The flag of the result is false where the
code leaves with `goto failed`; the call is aborted when
`assert(remaining_size == size)` fails. -/
def alloc_large_head (cfg : LogCfg) (hc : HdrCfg) (o : LargeOracle) (overcommit : Bool)
    (size : Nat) (st1 : LargeState) : Ending (Bool × LargeState) :=
  if st1.head_tptr.isNone then
    match alloc_large_chunk cfg overcommit st1 with
    | (none, st2) => Ending.returns (false, st2)
    | (some chunk, st2) =>
      if toU64 st2.remaining_size ≠ size then Ending.aborts
      else
        match alloc_large_on cfg hc o chunk st2 with
        | (none, st3) => Ending.returns (false, st3)
        | (some f, st3) => Ending.returns (true, { st3 with head_tptr := some f.1 })
  else Ending.returns (true, st1)

/-- The statements of `LogAllocator::alloc_large` behind the block for the head:
the loop, `init_from_soft`, `assert(!pcab || pcab->full())` and the update of
`pcab` and `segments_`; `none` when the rounds granted to the loop, `fuel` many,
do not suffice. -/
def alloc_large_tail (cfg : LogCfg) (hc : HdrCfg) (o : LargeOracle) (overcommit : Bool)
    (fuel : Nat) (st : LargeState) : Option (Ending LargeResult) :=
  if st.head_tptr.isNone then some (Ending.returns (alloc_large_failed hc o st))
  else
    match alloc_large_loop cfg hc o overcommit fuel { st with prev_tptr := st.head_tptr } with
    | none => none
    | some (false, st4) => some (Ending.returns (alloc_large_failed hc o st4))
    | some (true, st4) =>
      if !o.init_from_soft_ok st4.head_tptr then
        some (Ending.returns (alloc_large_failed hc o st4))
      else if st4.a.pcab.any (fun c => !c.full cfg) then some Ending.aborts
      else
        let pcab1 := st4.a.pcab.map (fun c => if c.full cfg then c.seal else c)
        let pcab2 := if st4.alloced_segs.isEmpty then pcab1 else st4.last_chunk
        some (Ending.returns
          { ok := true, head_tptr := st4.head_tptr,
            a := { st4.a with pcab := pcab2,
                              segments_ := st4.a.segments_ ++ st4.alloced_segs },
            hdrs := st4.hdrs, frags := st4.frags })

/-- The statements of `LogAllocator::alloc_large` behind the common path, from
the declaration of `alloced_segs` on. -/
def alloc_large_slow (cfg : LogCfg) (hc : HdrCfg) (o : LargeOracle) (overcommit : Bool)
    (fuel : Nat) (size : Nat) (st1 : LargeState) : Option (Ending LargeResult) :=
  match alloc_large_head cfg hc o overcommit size st1 with
  | Ending.aborts => some Ending.aborts
  | Ending.returns r =>
    if !r.1 then some (Ending.returns (alloc_large_failed hc o r.2))
    else alloc_large_tail cfg hc o overcommit fuel r.2

/-- The method `LogAllocator::alloc_large(size, overcommit)`: how the call ends,
or `none` when the rounds granted to the loop, `size` many, do not suffice. The
call is aborted where an `assert` fails. -/
def LogAllocator.alloc_large (cfg : LogCfg) (hc : HdrCfg) (o : LargeOracle) (a : LogAllocator)
    (hdrs : HdrStore) (size : Nat) (overcommit : Bool) : Option (Ending LargeResult) :=
  if size < cfg.kSmallObjThreshold then some Ending.aborts
  else
    let st1 := alloc_large_pcab cfg hc o a hdrs size
    if st1.remaining_size ≤ 0 then
      if st1.remaining_size ≠ 0 then some Ending.aborts
      else if !o.init_from_soft_ok st1.head_tptr then
        some (Ending.returns
          { ok := false, head_tptr := st1.head_tptr, a := st1.a, hdrs := st1.hdrs,
            frags := st1.frags })
      else
        some (Ending.returns
          { ok := true, head_tptr := st1.head_tptr, a := st1.a, hdrs := st1.hdrs,
            frags := st1.frags })
    else alloc_large_slow cfg hc o overcommit size size st1

/-! ## Predicates used to state the properties -/

/-- The key test of `iterate_list` read off the stored bytes: same hash, same
stored key length, and `strncmp` finds no difference with the stored key. -/
def BucketNode.keyEq (n : BucketNode) (key_hash : Nat) (k : Bytes) : Prop :=
  key_hash = n.key_hash ∧ readU64 n.pair.bytes 0 = k.length ∧
    strncmp k (readBytes n.pair.bytes 16 k.length) k.length = 0

instance (n : BucketNode) (key_hash : Nat) (k : Bytes) : Decidable (n.keyEq key_hash k) := by
  unfold BucketNode.keyEq; infer_instance

/-- The pointer `q` is `p` after some successful accesses: the same object, only
the time left to it may differ. -/
def ObjectPtr.sameObj (p q : ObjectPtr) : Prop :=
  q.isNull = p.isNull ∧ q.victim = p.victim ∧ q.bytes = p.bytes ∧
    (p.healthy → q = p) ∧ (q.healthy → p.healthy)

/-- A node with the time left to its object erased: what identifies the node. -/
def BucketNode.ident (n : BucketNode) : BucketNode :=
  { n with pair := { n.pair with ttl := none } }

/-- The payload holds the layout `| KeyLen | ValueLen | Key | Value |` in full. -/
def payload_wf (b : Bytes) : Prop := 8 * 2 + readU64 b 0 + readU64 b 8 ≤ b.length

instance (b : Bytes) : Decidable (payload_wf b) := by
  unfold payload_wf; infer_instance

/-- The payload `create_node` leaves in a fresh object whose bytes were `b`. -/
def node_payload (b k v : Bytes) : Bytes :=
  writeBytes (writeBytes (writeBytes (writeBytes b 0 (encode64 k.length)) 8 (encode64 v.length))
    (8 * 2) k) (k.length + 8 * 2) v

/-- The payload of a node after `set` wrote the value `v` in place. -/
def inplace_payload (b k v : Bytes) : Bytes :=
  writeBytes (writeBytes b 8 (encode64 v.length)) (k.length + 8 * 2) v

/-- The visit of the node `n` alone by a walk looking for `(key_hash, k)`. -/
def visit (key_hash : Nat) (k : Bytes) (vn : Option Nat) (n : BucketNode) : Walk :=
  iterate_list key_hash k
    { found := false, vn := vn, cur := { before := [], node := [n] },
      stats := { hits := 0, misses := 0, miss_cycles := 0, miss_bytes := 0, victim_hits := 0 } }

/-- The soft pointer of `n` faults when a walk looking for `(key_hash, k)` visits
the node: `iterate_list` leaves through its label `faulted` and the node is gone. -/
def BucketNode.faultsAt (n : BucketNode) (key_hash : Nat) (k : Bytes) (vn : Option Nat) : Prop :=
  (visit key_hash k vn n).cur.chain = []

instance (n : BucketNode) (key_hash : Nat) (k : Bytes) (vn : Option Nat) :
    Decidable (n.faultsAt key_hash k vn) := by
  unfold BucketNode.faultsAt; infer_instance

/-- A node that a walk of `set` looking for `(key_hash, k)` has no reason to
remove: its key differs and its soft pointer does not fault when visited. -/
def BucketNode.bystander (key_hash : Nat) (k : Bytes) (n : BucketNode) : Bool :=
  decide (¬ n.keyEq key_hash k ∧ ¬ n.faultsAt key_hash k (some 0))

/-- The start of every chain walk of bucket `idx`. -/
def SyncKV.walk0 (s : SyncKV) (idx : Nat) (vn : Option Nat) : Walk :=
  { found := false, vn := vn, cur := { before := [], node := s.buckets_ idx }, stats := s.stats }

/-- What a node holds: its hash and the bytes of its payload. -/
def BucketNode.content (n : BucketNode) : Nat × Bytes := (n.key_hash, n.pair.bytes)

/-- The characters `strncmp` looks at: at most `n`, up to the first NUL. -/
def cstr (a : Bytes) (n : Nat) : Bytes := (a.take n).takeWhile (fun c => decide (c ≠ 0))

/-- The chain invariant: every payload holds its layout in full, and no lookup
key is matched by two nodes. -/
def ChainInv (chain : BNPtr) : Prop :=
  (∀ n ∈ chain, payload_wf n.pair.bytes) ∧
  ∀ (kh : Nat) (k : Bytes), chain.countP (fun n => decide (n.keyEq kh k)) ≤ 1

/-- The invariant of the map: every bucket chain satisfies the chain invariant. -/
def SyncKV.Inv (s : SyncKV) : Prop := ∀ idx, ChainInv (s.buckets_ idx)

/-- The states a map goes through. It starts with empty buckets; `set`, `get_`
and `remove` are called with keys and values whose lengths fit a `size_t`, and
an allocation that succeeds hands out at least the bytes asked for; between
calls the evacuator may change the state of any soft pointer (not the bytes a
live payload holds). `zadd`, `zrange` and `zrevrange` act on the map through
`get_` and `set` only. -/
inductive Reachable : SyncKV → Prop where
  | init (NBuckets : Nat) (hash_int : Nat → Nat) (hash_bytes : Bytes → Nat)
      (stats : CacheStats) :
      Reachable { NBuckets := NBuckets, hash_int := hash_int, hash_bytes := hash_bytes,
                  buckets_ := fun _ => [], stats := stats }
  | step_set {s : SyncKV} (k v : Bytes) (alloc_to : Nat → Option ObjectPtr) :
      Reachable s → k.length < 2 ^ 64 → v.length < 2 ^ 64 →
      (∀ p, alloc_to (8 * 2 + k.length + v.length) = some p →
        8 * 2 + k.length + v.length ≤ p.bytes.length) →
      Reachable (s.set k v alloc_to).2
  | step_get {s : SyncKV} (k : Bytes) : Reachable s → Reachable (s.get_ k).2
  | step_remove {s : SyncKV} (k : Bytes) : Reachable s → Reachable (s.remove k).2
  | step_evacuate {s : SyncKV} (buckets : Nat → BNPtr) :
      Reachable s →
      (∀ idx, (buckets idx).map BucketNode.content = (s.buckets_ idx).map BucketNode.content) →
      Reachable { s with buckets_ := buckets }

/-- Every node sits in the bucket its hash selects. -/
def SyncKV.Placed (s : SyncKV) : Prop :=
  ∀ idx, ∀ n ∈ s.buckets_ idx, n.key_hash % s.NBuckets = idx

/-- The states a map goes through when `clear` and `zadd` are called as well.
The lengths `zadd` computes are taken to fit a `size_t`, and a call of `zadd`
that does not return (its result is `none`) leaves no state behind. -/
inductive Reached : SyncKV → Prop where
  | init (NBuckets : Nat) (hash_int : Nat → Nat) (hash_bytes : Bytes → Nat)
      (stats : CacheStats) :
      Reached { NBuckets := NBuckets, hash_int := hash_int, hash_bytes := hash_bytes,
                buckets_ := fun _ => [], stats := stats }
  | step_set {s : SyncKV} (k v : Bytes) (alloc_to : Nat → Option ObjectPtr) :
      Reached s → k.length < 2 ^ 64 → v.length < 2 ^ 64 →
      (∀ p, alloc_to (8 * 2 + k.length + v.length) = some p →
        8 * 2 + k.length + v.length ≤ p.bytes.length) →
      Reached (s.set k v alloc_to).2
  | step_get {s : SyncKV} (k : Bytes) : Reached s → Reached (s.get_ k).2
  | step_remove {s : SyncKV} (k : Bytes) : Reached s → Reached (s.remove k).2
  | step_clear {s : SyncKV} : Reached s → Reached s.clear.2
  | step_zadd {s : SyncKV} (k v : Bytes) (score : Nat) (type : UpdateType)
      (alloc_to : Nat → Option ObjectPtr) (slack : Bytes) (r : Bool × SyncKV) :
      Reached s → k.length < 2 ^ 64 →
      8 + OSetEle.total_size v.length < 2 ^ 64 →
      (∀ buf n, (s.get_ k).1 = some (buf, n) → n + OSetEle.total_size v.length < 2 ^ 64) →
      (∀ size p, alloc_to size = some p → size ≤ p.bytes.length) →
      s.zadd k v score type alloc_to slack = some r →
      Reached r.2
  | step_evacuate {s : SyncKV} (buckets : Nat → BNPtr) :
      Reached s →
      (∀ idx, (buckets idx).map BucketNode.content = (s.buckets_ idx).map BucketNode.content) →
      Reached { s with buckets_ := buckets }

/-- A call to the cache manager. -/
inductive PoolOp where
  | create (name : String)
  | delete (name : String)
  | get (name : String)
deriving DecidableEq, Repr

/-- The manager after one call. -/
def CacheManager.step (m : CacheManager) : PoolOp → CacheManager
  | PoolOp.create name => (m.create_pool name).2
  | PoolOp.delete name => (m.delete_pool name).2
  | PoolOp.get name => (m.get_pool name).2

/-- The manager after a sequence of calls. -/
def CacheManager.run (m : CacheManager) (ops : List PoolOp) : CacheManager :=
  ops.foldl CacheManager.step m

/-- A call that changes the counters of a pool. -/
inductive StatsOp where
  | hit
  | miss
  | victim_hit
  | miss_penalty (cycles bytes : Nat)
deriving DecidableEq, Repr

/-- The counters after one call. -/
def StatsOp.apply (stats : CacheStats) : StatsOp → CacheStats
  | StatsOp.hit => inc_cache_hit stats
  | StatsOp.miss => inc_cache_miss stats
  | StatsOp.victim_hit => inc_cache_victim_hit stats
  | StatsOp.miss_penalty cycles bytes => record_miss_penalty stats cycles bytes

/-- A call to a chunk: `alloc_small(size)` or `alloc_large(size, _, prev_tptr)`,
each with the outcomes of the header operations it performs. -/
inductive ChunkCall where
  | small (size : Nat) (init_ok : Bool)
  | large (size : Nat) (prev_null init_ok load_ok store_ok : Bool)
deriving DecidableEq, Repr

/-- One call to a chunk: whether it returned a value, and the chunk afterwards. -/
def LogChunk.call (cfg : LogCfg) (c : LogChunk) : ChunkCall → Bool × LogChunk
  | ChunkCall.small size init_ok =>
    ((c.alloc_small cfg size init_ok).1.isSome, (c.alloc_small cfg size init_ok).2)
  | ChunkCall.large size prev_null init_ok load_ok store_ok =>
    ((c.alloc_large cfg size prev_null init_ok load_ok store_ok).1.isSome,
      (c.alloc_large cfg size prev_null init_ok load_ok store_ok).2)

/-- The chunk after a sequence of calls. -/
def LogChunk.run (cfg : LogCfg) (c : LogChunk) (calls : List ChunkCall) : LogChunk :=
  calls.foldl (fun c1 call => (c1.call cfg call).2) c

/-- The chunks handed out by `n` successive calls of `allocChunk`, one entry for
each call, and the segment afterwards. -/
def LogSegment.allocChunks (cfg : LogCfg) :
    Nat → LogSegment → List (Option LogChunk) × LogSegment
  | 0, seg => ([], seg)
  | n + 1, seg =>
    let r := seg.allocChunk cfg
    let rest := LogSegment.allocChunks cfg n r.2
    (r.1 :: rest.1, rest.2)

/-- The number a sequence of decimal digit characters stands for. -/
def decimal_value (cs : List Char) : Nat :=
  cs.foldl (fun acc c => 10 * acc + (c.toNat - 48)) 0

/-- A key of ten bytes that starts with a zero byte and ends with the nine low
bytes of `n`. -/
def zero_key (n : Nat) : Bytes := 0 :: encodeLE 9 n

/-- The nodes of `pre` a walk for `(key_hash, k)` leaves in the chain: those
whose soft pointer does not fault when the walk visits them. -/
def survivors (key_hash : Nat) (k : Bytes) (pre : BNPtr) : BNPtr :=
  pre.filter (fun q => !decide (q.faultsAt key_hash k (some 0)))

/-- The number of nodes of `pre` a walk for `(key_hash, k)` unlinks and counts
as victim hits: those whose soft pointer faults when visited and has the victim
bit set. -/
def faulted_victims (key_hash : Nat) (k : Bytes) (pre : BNPtr) : Nat :=
  pre.countP (fun q => decide (q.faultsAt key_hash k (some 0)) && q.pair.victim)


/-- The fragments on the chain from the header at `addr`, each with its address
and the payload size its header holds: `next` is followed until it is null
(0), over at most `fuel` headers. -/
def large_chain (hdrs : HdrStore) : Nat → Nat → List (Nat × Nat)
  | 0, _ => []
  | fuel + 1, addr =>
    if addr = 0 then []
    else (addr, (hdrs addr).get_size) :: large_chain hdrs fuel (hdrs addr).next

/-- The headers of the fragments listed hold their payload sizes and link each
fragment to the one listed behind it, the last to none. -/
def Linked (hdrs : HdrStore) : List (Nat × Nat) → Prop
  | [] => True
  | [f] => (hdrs f.1).get_size = f.2 ∧ (hdrs f.1).next = 0
  | f :: g :: rest =>
    (hdrs f.1).get_size = f.2 ∧ (hdrs f.1).next = g.1 ∧ Linked hdrs (g :: rest)

/-- The regions the coordinator is going to grant are new ones: the id of each
fits an `int` and is not yet in the table `map`, and its base is not null and is
none of the addresses `used` nor the base of a region granted before it. -/
def fresh_grants :
    List (Int × VRange) → List Nat → List (Option (Int × VRange)) → Bool
  | _, _, [] => true
  | map, used, none :: rest => fresh_grants map used rest
  | map, used, some g :: rest =>
    decide (-2 ^ 31 ≤ g.1 ∧ g.1 < 2 ^ 31) && map.all (fun e => e.1 != g.1) &&
      decide (g.2.stt_addr ≠ 0) && !used.contains g.2.stt_addr &&
      fresh_grants (map ++ [g]) (used ++ [g.2.stt_addr]) rest

/-- What ties the fragments handed out so far to the header memory and to the
regions still to be granted: the headers link the fragments in the order they
were handed out, the fragments lie at different addresses, none of them null,
all of them among `used`, and the regions to come are new with respect to
`used`. -/
def LargeInv (st : LargeState) (used : List Nat) : Prop :=
  Linked st.hdrs st.frags ∧ (st.frags.map Prod.fst).Nodup ∧
  (∀ f ∈ st.frags, f.1 ≠ 0 ∧ f.1 ∈ used) ∧
  fresh_grants st.a.rmanager.region_map_ used st.a.rmanager.grants = true

/-! ## Example states -/

/-- A node holding key `k` and value `v` in a healthy object. -/
def mkNode (key_hash : Nat) (k v : Bytes) : BucketNode :=
  { key_hash := key_hash,
    pair := { isNull := false, victim := false, ttl := none,
              bytes := encode64 k.length ++ encode64 v.length ++ k ++ v } }

/-- A node holding key `k` and value `v` whose object is taken away after `ttl`
more successful copies. -/
def agingNode (key_hash : Nat) (k v : Bytes) (ttl : Nat) (victim : Bool) : BucketNode :=
  { key_hash := key_hash,
    pair := { isNull := false, victim := victim, ttl := some ttl,
              bytes := encode64 k.length ++ encode64 v.length ++ k ++ v } }

/-- The 64 bits of the `double` 1.0. -/
def score1 : Nat := 0x3FF0000000000000

/-- The 64 bits of the `double` 2.0. -/
def score2 : Nat := 0x4000000000000000

/-- The 64 bits of the `double` 3.0. -/
def score3 : Nat := 0x4008000000000000

/-- One element of an ordered set as `OSetEle::init` lays it out. -/
def encodeEle (score : Nat) (v : Bytes) : Bytes :=
  encode64 (OSetEle.total_size v.length) ++ encode64 score ++ v

/-- The elements of an ordered set, each a score and a value, laid out one
after the other. -/
def encodeEles : List (Nat × Bytes) → Bytes
  | [] => []
  | e :: es => encodeEle e.1 e.2 ++ encodeEles es

/-- The block of an ordered set: the number of elements, then the elements. -/
def encodeOSet (es : List (Nat × Bytes)) : Bytes :=
  encode64 es.length ++ encodeEles es

/-- A 17-byte value made of the value `a` followed by the header (length 17,
score 2.0) of a one-byte element. -/
def craftedValue : Bytes := [97] ++ encode64 17 ++ encode64 score2

/-- A map with one bucket (every key hashes to 0) holding the given chain. -/
def kvOf (chain : BNPtr) : SyncKV :=
  { NBuckets := 1, hash_int := fun _ => 0, hash_bytes := fun _ => 0,
    buckets_ := fun _ => chain,
    stats := { hits := 0, misses := 0, miss_cycles := 0, miss_bytes := 0, victim_hits := 0 } }

/-- A map with one bucket holding the given chain, in which a key hashes to the
number its bytes stand for. -/
def kvNum (chain : BNPtr) : SyncKV :=
  { NBuckets := 1, hash_int := fun x => x, hash_bytes := decode64,
    buckets_ := fun _ => chain,
    stats := { hits := 0, misses := 0, miss_cycles := 0, miss_bytes := 0, victim_hits := 0 } }

/-- An allocator that always hands out a healthy zero-filled object. -/
def freshObj (size : Nat) : Option ObjectPtr :=
  some { isNull := false, victim := false, ttl := none, bytes := List.replicate size 0 }

/-- An allocator that always fails. -/
def noObj (_ : Nat) : Option ObjectPtr := none

/-- A configuration for the examples: chunks of 64 bytes, regions of 256 bytes,
headers of 16 bytes. -/
def cfg64 : LogCfg :=
  { kLogChunkSize := 64, kRegionSize := 256, kSmallObjSizeUnit := 16, kSmallObjThreshold := 48,
    sizeofLargeObjectHdr := 16, obj_size := fun size => size + 16,
    round_up_to_align := fun size unit => (size + unit - 1) / unit * unit }

/-- A large-object branch that allocates nothing, for runs with small objects
only. -/
def noLarge : LogAllocator → Nat → Bool → Ending (Option Nat × LogAllocator) :=
  fun a _ _ => Ending.returns (none, a)

/-- An `init_small` that always succeeds. -/
def smallOk : Nat → Bool := fun _ => true

/-- An allocator without segments, to which the coordinator will grant the
regions 1 at 4096 and 2 at 8192, of 256 bytes each. -/
def alloc0 : LogAllocator :=
  { segments_ := [], pcab := none,
    rmanager :=
      { region_map_ := [],
        grants := [some (1, { stt_addr := 4096, size := 256 }),
                   some (2, { stt_addr := 8192, size := 256 })] } }

/-- A layout for the examples: four flag bits (present 3, accessed 2, evacuate 1,
small 0), a size of 12 bits and a back reference of 48 bits. -/
def hdr4 : HdrCfg :=
  { flagBits := 4, sizeBits := 12, rrefBits := 48,
    kPresentBit := 3, kAccessedBit := 2, kEvacuateBit := 1, kSmallObjBit := 0 }

/-- Header operations that all succeed. -/
def oracleOk : LargeOracle :=
  { init_large_ok := fun _ => true, load_hdr_ok := fun _ => true, store_hdr_ok := fun _ => true,
    init_from_soft_ok := fun _ => true, clr_load_ok := fun _ => true,
    clr_store_ok := fun _ => true }

/-- A header memory of zeros. -/
def noHdrs : HdrStore := fun _ => { size := 0, flags := 0, rref := 0, next := 0 }

/-- The allocator `alloc0` once region 1 is mapped, with the first chunk of its
segment, untouched, as the chunk of the thread. -/
def alloc1 : LogAllocator :=
  { segments_ := [((LogSegment.new 1 4096).allocChunk cfg64).2],
    pcab := some (LogChunk.new 4096),
    rmanager :=
      { region_map_ := [(1, { stt_addr := 4096, size := 256 })],
        grants := [some (2, { stt_addr := 8192, size := 256 })] } }

/-- The allocator `alloc1` after an object of 32 bytes, which takes 48 bytes, was
placed in the chunk of the thread. -/
def alloc2 : LogAllocator :=
  { alloc1 with pcab := some { start_addr_ := 4096, pos_ := 4144, sealed_ := false } }


/-- The allocator `alloc2` when the coordinator is going to grant a region with
the id `2^32 - 1`, which an `int` holds as `-1`. -/
def alloc2w : LogAllocator :=
  { alloc2 with
    rmanager :=
      { alloc2.rmanager with
        grants := [some (4294967295, { stt_addr := 8192, size := 256 })] } }

/-- The allocator `alloc1` when the coordinator is going to grant a region with
the id `2^32 - 1`, which an `int` holds as `-1`. -/
def alloc1w : LogAllocator :=
  { alloc1 with
    rmanager :=
      { alloc1.rmanager with
        grants := [some (4294967295, { stt_addr := 8192, size := 256 })] } }

/-! ## Bytes and words: lemmas -/

theorem encodeLE_length (cnt n : Nat) : (encodeLE cnt n).length = cnt := by
  induction cnt generalizing n with
  | zero => rfl
  | succ c ih => simp [encodeLE, ih]

theorem decode64_encodeLE (cnt n : Nat) : decode64 (encodeLE cnt n) = n % 256 ^ cnt := by
  induction cnt generalizing n with
  | zero => simp [encodeLE, decode64, Nat.mod_one]
  | succ c ih =>
    simp only [encodeLE, decode64, ih]
    have h1 : (UInt8.ofNat (n % 256)).toNat = n % 256 := by
      show (n % 256) % 256 = n % 256
      exact Nat.mod_mod _ _
    rw [h1, pow_succ, mul_comm (256 ^ c) 256, Nat.mod_mul]

theorem encode64_length (n : Nat) : (encode64 n).length = 8 := encodeLE_length 8 n

theorem decode64_encode64 {n : Nat} (h : n < 2 ^ 64) : decode64 (encode64 n) = n := by
  unfold encode64
  rw [decode64_encodeLE]
  exact Nat.mod_eq_of_lt (by norm_num at h ⊢; exact h)

theorem getElem?_readBytes (mem : Bytes) (off len i : Nat) :
    (readBytes mem off len)[i]? = if i < len then mem[off + i]? else none := by
  unfold readBytes
  rw [List.getElem?_take, List.getElem?_drop]

theorem getElem?_writeBytes {mem : Bytes} {off : Nat} {src : Bytes}
    (h : off + src.length ≤ mem.length) (i : Nat) :
    (writeBytes mem off src)[i]? =
      if off ≤ i ∧ i < off + src.length then src[i - off]? else mem[i]? := by
  unfold writeBytes
  have hoff : off ≤ mem.length := by omega
  simp only [List.getElem?_append, List.length_append, List.length_take, Nat.min_eq_left hoff,
    List.getElem?_take, List.getElem?_drop]
  by_cases h1 : i < off
  · have : i < off + src.length := by omega
    simp [h1, this, Nat.not_le.mpr h1]
  · by_cases h2 : i < off + src.length
    · simp [h1, h2, Nat.le_of_not_lt h1]
    · simp only [h1, h2, if_false, and_false]
      congr 1
      omega

theorem writeBytes_length {mem : Bytes} {off : Nat} {src : Bytes}
    (h : off + src.length ≤ mem.length) : (writeBytes mem off src).length = mem.length := by
  unfold writeBytes
  simp only [List.length_append, List.length_take, List.length_drop]
  omega

theorem readBytes_writeBytes_same {mem : Bytes} {off : Nat} {src : Bytes}
    (h : off + src.length ≤ mem.length) :
    readBytes (writeBytes mem off src) off src.length = src := by
  apply List.ext_getElem?
  intro i
  rw [getElem?_readBytes, getElem?_writeBytes h]
  by_cases hi : i < src.length
  · simp [hi]
  · simp only [hi, if_false]
    exact (List.getElem?_eq_none (Nat.le_of_not_lt hi)).symm

theorem readBytes_writeBytes_disjoint {mem : Bytes} {off : Nat} {src : Bytes}
    (h : off + src.length ≤ mem.length) {off2 len : Nat}
    (hd : off2 + len ≤ off ∨ off + src.length ≤ off2) :
    readBytes (writeBytes mem off src) off2 len = readBytes mem off2 len := by
  apply List.ext_getElem?
  intro i
  rw [getElem?_readBytes, getElem?_readBytes, getElem?_writeBytes h]
  by_cases hi : i < len
  · have : ¬ (off ≤ off2 + i ∧ off2 + i < off + src.length) := by omega
    simp [hi, this]
  · simp [hi]

theorem readBytes_length {mem : Bytes} {off len : Nat} (h : off + len ≤ mem.length) :
    (readBytes mem off len).length = len := by
  unfold readBytes
  simp only [List.length_take, List.length_drop]
  omega

/-! ## Soft pointers and `iterate_list`: lemmas -/

theorem ObjectPtr.sameObj_refl (p : ObjectPtr) : p.sameObj p :=
  ⟨rfl, rfl, rfl, fun _ => rfl, fun h => h⟩

theorem ObjectPtr.sameObj_trans {p q r : ObjectPtr} (h1 : p.sameObj q) (h2 : q.sameObj r) :
    p.sameObj r := by
  obtain ⟨a1, a2, a3, a4, a5⟩ := h1
  obtain ⟨b1, b2, b3, b4, b5⟩ := h2
  refine ⟨b1.trans a1, b2.trans a2, b3.trans a3, ?_, fun h => a5 (b5 h)⟩
  intro hp
  have hq : q = p := a4 hp
  have hr : r = q := b4 (hq ▸ hp)
  exact hr.trans hq

theorem ObjectPtr.access_sameObj {p q : ObjectPtr} (h : p.access = some q) : p.sameObj q := by
  unfold ObjectPtr.access at h
  cases hn : p.isNull with
  | true => simp [hn] at h
  | false =>
    simp only [hn, Bool.false_eq_true, if_false] at h
    cases ht : p.ttl with
    | none =>
      simp only [ht, Option.some.injEq] at h
      subst h
      exact ObjectPtr.sameObj_refl p
    | some m =>
      cases m with
      | zero => simp [ht] at h
      | succ m =>
        simp only [ht, Option.some.injEq] at h
        subst h
        refine ⟨hn.symm, rfl, rfl, ?_, ?_⟩
        · intro hp; exact absurd hp.2 (by simp [ht])
        · intro hq; exact absurd hq.2 (by simp)

theorem ObjectPtr.access_none_not_healthy {p : ObjectPtr} (h : p.access = none) : ¬ p.healthy := by
  intro hp
  unfold ObjectPtr.access at h
  simp [hp.1, hp.2] at h

theorem ObjectPtr.access_healthy {p : ObjectPtr} (h : p.healthy) : p.access = some p := by
  unfold ObjectPtr.access
  simp [h.1, h.2]

theorem ObjectPtr.copy_to_eq (p : ObjectPtr) (len off : Nat) :
    p.copy_to len off = p.access.map (fun q => (readBytes q.bytes off len, q)) := by
  unfold ObjectPtr.copy_to
  cases p.access <;> rfl

theorem iterate_list_cases (kh : Nat) (k : Bytes) {w : Walk} {n : BucketNode} {next : BNPtr}
    (hw : w.cur.node = n :: next) :
    (∃ p, n.pair.sameObj p ∧ n.keyEq kh k ∧
      iterate_list kh k w =
        { found := true, vn := w.vn.map (fun _ => readU64 n.pair.bytes 8),
          cur := { before := w.cur.before, node := { key_hash := n.key_hash, pair := p } :: next },
          stats := w.stats }) ∨
    (∃ p, n.pair.sameObj p ∧ ¬ n.keyEq kh k ∧
      iterate_list kh k w =
        { found := false, vn := w.vn,
          cur := { before := w.cur.before ++ [{ key_hash := n.key_hash, pair := p }], node := next },
          stats := w.stats }) ∨
    (¬ n.pair.healthy ∧
      iterate_list kh k w =
        { found := false, vn := w.vn, cur := { before := w.cur.before, node := next },
          stats := if n.pair.victim then inc_cache_victim_hit w.stats else w.stats }) := by
  have hfault : ∀ m : BucketNode, m.pair.victim = n.pair.victim → iterate_list_faulted m w =
      { found := false, vn := w.vn, cur := { before := w.cur.before, node := next },
        stats := if n.pair.victim then inc_cache_victim_hit w.stats else w.stats } := by
    intro m hm
    simp [iterate_list_faulted, delete_node, hw, ObjectPtr.is_victim, hm]
  unfold iterate_list
  simp only [hw]
  by_cases hh : kh = n.key_hash
  · subst hh
    simp only [ne_eq, not_true_eq_false, if_false]
    by_cases hnull : n.pair.null = true
    · right; right
      refine ⟨fun hp => ?_, ?_⟩
      · unfold ObjectPtr.null at hnull
        rw [hp.1] at hnull
        exact Bool.false_ne_true hnull
      · simp only [hnull, if_true]
        exact hfault n rfl
    · simp only [hnull, if_false]
      rw [ObjectPtr.copy_to_eq]
      cases h1 : n.pair.access with
      | none =>
        right; right
        exact ⟨ObjectPtr.access_none_not_healthy h1, hfault n rfl⟩
      | some p1 =>
        have s1 := ObjectPtr.access_sameObj h1
        simp only [Option.map_some']
        by_cases hkn : decode64 (readBytes p1.bytes 0 8) = k.length
        · simp only [hkn, not_true_eq_false, if_false]
          rw [ObjectPtr.copy_to_eq]
          cases h2 : p1.access with
          | none =>
            right; right
            refine ⟨fun hp => ?_, hfault n rfl⟩
            exact ObjectPtr.access_none_not_healthy h2 ((s1.2.2.2.1 hp) ▸ hp)
          | some p2 =>
            have s2 := ObjectPtr.sameObj_trans s1 (ObjectPtr.access_sameObj h2)
            simp only [Option.map_some']
            by_cases hcmp : strncmp k (readBytes p2.bytes 16 k.length) k.length = 0
            · simp only [hcmp, not_true_eq_false, if_false]
              have hkey : n.keyEq n.key_hash k := by
                refine ⟨rfl, ?_, ?_⟩
                · rw [← hkn, s1.2.2.1]; rfl
                · rw [← s2.2.2.1]; exact hcmp
              cases hvn : w.vn with
              | none =>
                left
                exact ⟨p2, s2, hkey, by simp⟩
              | some x =>
                simp only []
                rw [ObjectPtr.copy_to_eq]
                cases h3 : p2.access with
                | none =>
                  right; right
                  refine ⟨fun hp => ?_, by rw [← hvn]; exact hfault n rfl⟩
                  exact ObjectPtr.access_none_not_healthy h3 ((s2.2.2.2.1 hp) ▸ hp)
                | some p3 =>
                  have s3 := ObjectPtr.sameObj_trans s2 (ObjectPtr.access_sameObj h3)
                  left
                  refine ⟨p3, s3, hkey, ?_⟩
                  simp only [Option.map_some']
                  rw [s3.2.2.1]
                  rfl
            · simp only [hcmp, not_false_eq_true, if_true]
              right; left
              refine ⟨p2, s2, fun hk => hcmp ?_, by simp [iterate_list_notequal]⟩
              rw [s2.2.2.1]; exact hk.2.2
        · simp only [hkn, not_false_eq_true, if_true]
          right; left
          refine ⟨p1, s1, fun hk => hkn ?_, by simp [iterate_list_notequal]⟩
          rw [s1.2.2.1]; exact hk.2.1
  · right; left
    refine ⟨n.pair, ObjectPtr.sameObj_refl _, fun hk => hh hk.1, ?_⟩
    simp [hh, iterate_list_notequal]


theorem strncmp_self (a : Bytes) (n : Nat) : strncmp a a n = 0 := by
  induction a generalizing n with
  | nil => cases n <;> simp [strncmp]
  | cons x xs ih =>
    cases n with
    | zero => simp [strncmp]
    | succ m =>
      simp only [strncmp, ne_eq, not_true_eq_false, if_false]
      split
      · rfl
      · exact ih m

theorem keyEq_of_bytes {n m : BucketNode} (hh : m.key_hash = n.key_hash)
    (hb : m.pair.bytes = n.pair.bytes) (kh : Nat) (k : Bytes) :
    m.keyEq kh k ↔ n.keyEq kh k := by
  unfold BucketNode.keyEq
  rw [hh, hb]

/-- On a healthy node `iterate_list` is the key test and nothing else. -/
theorem iterate_list_healthy (kh : Nat) (k : Bytes) (f : Bool) (x : Nat) (b : BNPtr)
    (n : BucketNode) (next : BNPtr) (st : CacheStats) (hn : n.pair.healthy) :
    iterate_list kh k { found := f, vn := some x, cur := { before := b, node := n :: next }, stats := st } =
      if n.keyEq kh k then
        { found := true, vn := some (readU64 n.pair.bytes 8),
          cur := { before := b, node := n :: next }, stats := st }
      else
        { found := false, vn := some x, cur := { before := b ++ [n], node := next }, stats := st } := by
  have hc := iterate_list_cases kh k
    (w := { found := f, vn := some x, cur := { before := b, node := n :: next }, stats := st }) rfl
  rcases hc with ⟨p, hs, hk, he⟩ | ⟨p, hs, hk, he⟩ | ⟨hnh, _⟩
  · have hp : p = n.pair := hs.2.2.2.1 hn
    subst hp
    rw [he, if_pos hk]
    rfl
  · have hp : p = n.pair := hs.2.2.2.1 hn
    subst hp
    rw [he, if_neg hk]
  · exact absurd hn hnh

/-- The loop of `get_` walks past healthy nodes with other keys. -/
theorem find_loop_skip (kh : Nat) (k : Bytes) (x : Nat) (st : CacheStats) (pre rest : BNPtr)
    (hpre : ∀ m ∈ pre, m.pair.healthy ∧ ¬ m.keyEq kh k) (fuel : Nat) (b : BNPtr) :
    find_loop kh k (pre.length + fuel)
        { found := false, vn := some x, cur := { before := b, node := pre ++ rest }, stats := st } =
      find_loop kh k fuel
        { found := false, vn := some x, cur := { before := b ++ pre, node := rest }, stats := st } := by
  induction pre generalizing b with
  | nil => simp
  | cons m ms ih =>
    have hm := hpre m (List.mem_cons_self _ _)
    have hms : ∀ q ∈ ms, q.pair.healthy ∧ ¬ q.keyEq kh k :=
      fun q hq => hpre q (List.mem_cons_of_mem _ hq)
    have hlen : (m :: ms).length + fuel = (ms.length + fuel) + 1 := by
      simp only [List.length_cons]; omega
    rw [hlen, find_loop]
    simp only [List.cons_append]
    rw [iterate_list_healthy kh k false x b m (ms ++ rest) st hm.1, if_neg hm.2]
    simp only [Bool.false_eq_true, if_false]
    rw [ih hms (b ++ [m])]
    simp

/-- The loop of `set` walks past healthy nodes with other keys. -/
theorem set_loop_skip (kh : Nat) (k v : Bytes) (x : Nat) (st : CacheStats) (pre rest : BNPtr)
    (hpre : ∀ m ∈ pre, m.pair.healthy ∧ ¬ m.keyEq kh k) (fuel : Nat) (b : BNPtr) :
    set_loop kh k v (pre.length + fuel)
        { found := false, vn := some x, cur := { before := b, node := pre ++ rest }, stats := st } =
      set_loop kh k v fuel
        { found := false, vn := some x, cur := { before := b ++ pre, node := rest }, stats := st } := by
  induction pre generalizing b with
  | nil => simp
  | cons m ms ih =>
    have hm := hpre m (List.mem_cons_self _ _)
    have hms : ∀ q ∈ ms, q.pair.healthy ∧ ¬ q.keyEq kh k :=
      fun q hq => hpre q (List.mem_cons_of_mem _ hq)
    have hlen : (m :: ms).length + fuel = (ms.length + fuel) + 1 := by
      simp only [List.length_cons]; omega
    rw [hlen, set_loop]
    simp only [List.cons_append]
    rw [iterate_list_healthy kh k false x b m (ms ++ rest) st hm.1, if_neg hm.2]
    simp only [Bool.false_eq_true, if_false]
    rw [ih hms (b ++ [m])]
    simp

/-- A chain either holds no node for the key or splits at the first one. -/
theorem chain_split (kh : Nat) (k : Bytes) (chain : BNPtr) :
    (∀ n ∈ chain, ¬ n.keyEq kh k) ∨
    ∃ pre n rest, chain = pre ++ n :: rest ∧ (∀ m ∈ pre, ¬ m.keyEq kh k) ∧ n.keyEq kh k := by
  induction chain with
  | nil => left; simp
  | cons a as ih =>
    by_cases ha : a.keyEq kh k
    · right; exact ⟨[], a, as, rfl, by simp, ha⟩
    · rcases ih with h | ⟨pre, n, rest, he, hp, hn⟩
      · left
        intro n hn
        rcases List.mem_cons.mp hn with rfl | h2
        · exact ha
        · exact h n h2
      · right
        refine ⟨a :: pre, n, rest, by rw [he]; rfl, ?_, hn⟩
        intro m hm
        rcases List.mem_cons.mp hm with rfl | h2
        · exact ha
        · exact hp m h2


theorem ObjectPtr.copy_to_healthy {p : ObjectPtr} (h : p.healthy) (len off : Nat) :
    p.copy_to len off = some (readBytes p.bytes off len, p) := by
  unfold ObjectPtr.copy_to
  rw [ObjectPtr.access_healthy h]

theorem ObjectPtr.copy_from_healthy {p : ObjectPtr} (h : p.healthy) (src : Bytes) (off : Nat) :
    p.copy_from src off = some { p with bytes := writeBytes p.bytes off src } := by
  unfold ObjectPtr.copy_from
  rw [ObjectPtr.access_healthy h]

theorem ObjectPtr.healthy_with_bytes {p : ObjectPtr} (h : p.healthy) (b : Bytes) :
    ObjectPtr.healthy { p with bytes := b } := h

theorem create_node_healthy (alloc_to : Nat → Option ObjectPtr) (kh : Nat) (k v : Bytes)
    (p : ObjectPtr) (ha : alloc_to (8 * 2 + k.length + v.length) = some p) (hp : p.healthy) :
    create_node alloc_to kh k v =
      [{ key_hash := kh, pair := { p with bytes := node_payload p.bytes k v } }] := by
  unfold create_node
  rw [ha]
  simp only []
  rw [ObjectPtr.copy_from_healthy hp]
  simp only []
  rw [ObjectPtr.copy_from_healthy (ObjectPtr.healthy_with_bytes hp _)]
  simp only []
  rw [ObjectPtr.copy_from_healthy (ObjectPtr.healthy_with_bytes hp _)]
  simp only []
  rw [ObjectPtr.copy_from_healthy (ObjectPtr.healthy_with_bytes hp _)]
  simp only [ObjectPtr.null, hp.1, Bool.false_eq_true, if_false, node_payload]

theorem get__of_split (s : SyncKV) (k : Bytes) (pre : BNPtr) (m : BucketNode) (rest : BNPtr)
    (hchain : s.buckets_ (s.hash_ k % s.NBuckets) = pre ++ m :: rest)
    (hpre : ∀ q ∈ pre, q.pair.healthy ∧ ¬ q.keyEq (s.hash_ k) k)
    (hm : m.pair.healthy) (hk : m.keyEq (s.hash_ k) k) :
    s.get_ k =
      (some (readBytes m.pair.bytes (k.length + 8 * 2) (readU64 m.pair.bytes 8),
             readU64 m.pair.bytes 8),
        s.commit (s.hash_ k % s.NBuckets) (pre ++ m :: rest) (inc_cache_hit s.stats)) := by
  unfold SyncKV.get_
  simp only [hchain]
  have hlen : (pre ++ m :: rest).length = pre.length + (rest.length + 1) := by simp
  rw [hlen, find_loop_skip (s.hash_ k) k 0 s.stats pre (m :: rest) hpre, find_loop]
  simp only [List.nil_append]
  rw [iterate_list_healthy (s.hash_ k) k false 0 pre m rest s.stats hm, if_pos hk]
  simp only [if_true, Bool.not_true, Bool.false_eq_true, if_false, ObjectPtr.null, hm.1,
    Option.getD_some]
  rw [ObjectPtr.copy_to_healthy hm]

theorem get__of_absent (s : SyncKV) (k : Bytes)
    (hchain : ∀ q ∈ s.buckets_ (s.hash_ k % s.NBuckets), q.pair.healthy ∧ ¬ q.keyEq (s.hash_ k) k) :
    s.get_ k =
      (none, s.commit (s.hash_ k % s.NBuckets) (s.buckets_ (s.hash_ k % s.NBuckets))
        (inc_cache_miss s.stats)) := by
  unfold SyncKV.get_
  have h := find_loop_skip (s.hash_ k) k 0 s.stats (s.buckets_ (s.hash_ k % s.NBuckets)) []
    hchain 0 []
  simp only [List.append_nil, Nat.add_zero, List.nil_append] at h
  simp only [h, find_loop, Bool.not_false, if_true, Cursor.chain, List.append_nil]

theorem set_of_absent (s : SyncKV) (k v : Bytes) (alloc_to : Nat → Option ObjectPtr)
    (hchain : ∀ q ∈ s.buckets_ (s.hash_ k % s.NBuckets), q.pair.healthy ∧ ¬ q.keyEq (s.hash_ k) k) :
    s.set k v alloc_to =
      match create_node alloc_to (s.hash_ k) k v with
      | [] => (false, s.commit (s.hash_ k % s.NBuckets) (s.buckets_ (s.hash_ k % s.NBuckets)) s.stats)
      | new_node :: nx =>
        (true, s.commit (s.hash_ k % s.NBuckets)
          (s.buckets_ (s.hash_ k % s.NBuckets) ++ new_node :: nx) s.stats) := by
  unfold SyncKV.set
  have h := set_loop_skip (s.hash_ k) k v 0 s.stats (s.buckets_ (s.hash_ k % s.NBuckets)) []
    hchain 0 []
  simp only [List.append_nil, Nat.add_zero, List.nil_append] at h
  simp only [h, set_loop, Bool.false_eq_true, if_false, Cursor.chain, List.append_nil]

theorem set_of_split (s : SyncKV) (k v : Bytes) (alloc_to : Nat → Option ObjectPtr)
    (pre : BNPtr) (n : BucketNode) (rest : BNPtr)
    (hchain : s.buckets_ (s.hash_ k % s.NBuckets) = pre ++ n :: rest)
    (hpre : ∀ q ∈ pre, q.pair.healthy ∧ ¬ q.keyEq (s.hash_ k) k)
    (hn : n.pair.healthy) (hk : n.keyEq (s.hash_ k) k) :
    s.set k v alloc_to =
      if v.length ≤ readU64 n.pair.bytes 8 then
        (true, s.commit (s.hash_ k % s.NBuckets)
          (pre ++ { n with pair := { n.pair with bytes := inplace_payload n.pair.bytes k v } } :: rest)
          s.stats)
      else
        match create_node alloc_to (s.hash_ k) k v with
        | [] => (false, s.commit (s.hash_ k % s.NBuckets) (pre ++ rest) s.stats)
        | new_node :: nx =>
          (true, s.commit (s.hash_ k % s.NBuckets) (pre ++ new_node :: nx) s.stats) := by
  unfold SyncKV.set
  simp only [hchain]
  have hlen : (pre ++ n :: rest).length = pre.length + (rest.length + 1) := by simp
  rw [hlen, set_loop_skip (s.hash_ k) k v 0 s.stats pre (n :: rest) hpre, set_loop]
  simp only [List.nil_append]
  rw [iterate_list_healthy (s.hash_ k) k false 0 pre n rest s.stats hn, if_pos hk]
  simp only [if_true, set_found, Option.getD_some, ObjectPtr.null, hn.1, and_true]
  by_cases hfit : v.length ≤ readU64 n.pair.bytes 8
  · simp only [hfit, if_true]
    rw [ObjectPtr.copy_from_healthy hn]
    simp only []
    rw [ObjectPtr.copy_from_healthy (ObjectPtr.healthy_with_bytes hn _)]
    simp only [if_true, Cursor.chain, inplace_payload, hn.1]
  · simp only [hfit, if_false, Bool.false_eq_true, delete_node, Cursor.chain]


theorem node_payload_facts (b k v : Bytes) (hb : 8 * 2 + k.length + v.length ≤ b.length)
    (hk : k.length < 2 ^ 64) (hv : v.length < 2 ^ 64) :
    readU64 (node_payload b k v) 0 = k.length ∧
    readU64 (node_payload b k v) 8 = v.length ∧
    readBytes (node_payload b k v) 16 k.length = k ∧
    readBytes (node_payload b k v) (k.length + 8 * 2) v.length = v ∧
    (node_payload b k v).length = b.length := by
  have e1 := encode64_length k.length
  have e2 := encode64_length v.length
  have l1 : 0 + (encode64 k.length).length ≤ b.length := by omega
  have w1 := writeBytes_length l1
  have l2 : 8 + (encode64 v.length).length ≤ (writeBytes b 0 (encode64 k.length)).length := by omega
  have w2 := writeBytes_length l2
  have l3 : 8 * 2 + k.length ≤
      (writeBytes (writeBytes b 0 (encode64 k.length)) 8 (encode64 v.length)).length := by omega
  have w3 := writeBytes_length l3
  have l4 : (k.length + 8 * 2) + v.length ≤
      (writeBytes (writeBytes (writeBytes b 0 (encode64 k.length)) 8 (encode64 v.length))
        (8 * 2) k).length := by omega
  have w4 := writeBytes_length l4
  unfold node_payload readU64
  refine ⟨?_, ?_, ?_, ?_, by omega⟩
  · rw [readBytes_writeBytes_disjoint l4 (Or.inl (by omega)),
      readBytes_writeBytes_disjoint l3 (Or.inl (by omega)),
      readBytes_writeBytes_disjoint l2 (Or.inl (by omega))]
    have h := readBytes_writeBytes_same l1
    rw [e1] at h
    rw [h, decode64_encode64 hk]
  · rw [readBytes_writeBytes_disjoint l4 (Or.inl (by omega)),
      readBytes_writeBytes_disjoint l3 (Or.inl (by omega))]
    have h := readBytes_writeBytes_same l2
    rw [e2] at h
    rw [h, decode64_encode64 hv]
  · rw [readBytes_writeBytes_disjoint l4 (Or.inl (by omega))]
    exact readBytes_writeBytes_same l3
  · exact readBytes_writeBytes_same l4

theorem inplace_payload_facts (b k v : Bytes) (hv : v.length < 2 ^ 64)
    (hb : 8 * 2 + k.length + v.length ≤ b.length) :
    readU64 (inplace_payload b k v) 0 = readU64 b 0 ∧
    readU64 (inplace_payload b k v) 8 = v.length ∧
    readBytes (inplace_payload b k v) 16 k.length = readBytes b 16 k.length ∧
    readBytes (inplace_payload b k v) (k.length + 8 * 2) v.length = v ∧
    (inplace_payload b k v).length = b.length := by
  have e2 := encode64_length v.length
  have l2 : 8 + (encode64 v.length).length ≤ b.length := by omega
  have w2 := writeBytes_length l2
  have l4 : (k.length + 8 * 2) + v.length ≤ (writeBytes b 8 (encode64 v.length)).length := by
    omega
  have w4 := writeBytes_length l4
  unfold inplace_payload readU64
  refine ⟨?_, ?_, ?_, ?_, by omega⟩
  · rw [readBytes_writeBytes_disjoint l4 (Or.inl (by omega)),
      readBytes_writeBytes_disjoint l2 (Or.inl (by omega))]
  · rw [readBytes_writeBytes_disjoint l4 (Or.inl (by omega))]
    have h := readBytes_writeBytes_same l2
    rw [e2] at h
    rw [h, decode64_encode64 hv]
  · rw [readBytes_writeBytes_disjoint l4 (Or.inl (by omega)),
      readBytes_writeBytes_disjoint l2 (Or.inr (by omega))]
  · exact readBytes_writeBytes_same l4

theorem commit_buckets_same (s : SyncKV) (idx : Nat) (chain : BNPtr) (st : CacheStats) :
    (s.commit idx chain st).buckets_ idx = chain := by
  simp [SyncKV.commit]

theorem commit_hash_ (s : SyncKV) (idx : Nat) (chain : BNPtr) (st : CacheStats) (k : Bytes) :
    (s.commit idx chain st).hash_ k = s.hash_ k := rfl

theorem commit_NBuckets (s : SyncKV) (idx : Nat) (chain : BNPtr) (st : CacheStats) :
    (s.commit idx chain st).NBuckets = s.NBuckets := rfl


/-! ## Claims -/

/-- In a state whose bucket for `k` holds healthy soft pointers with payloads
that hold their layout in full, and with an allocation that succeeds,
`set(k, kn, v, vn)` returns true and the following `get_(k, kn)` returns `vn`
bytes equal to `v`. -/
theorem set_then_get_of_wf (s : SyncKV) (k v : Bytes) (alloc_to : Nat → Option ObjectPtr)
    (hk : k.length < 2 ^ 64) (hv : v.length < 2 ^ 64)
    (hchain : ∀ n ∈ s.buckets_ (s.hash_ k % s.NBuckets),
      n.pair.healthy ∧ payload_wf n.pair.bytes)
    (halloc : ∃ p, alloc_to (8 * 2 + k.length + v.length) = some p ∧ p.healthy ∧
      8 * 2 + k.length + v.length ≤ p.bytes.length) :
    (s.set k v alloc_to).1 = true ∧
      ((s.set k v alloc_to).2.get_ k).1 = some (v, v.length) := by
  obtain ⟨p, ha, hp, hlen⟩ := halloc
  have hcreate := create_node_healthy alloc_to (s.hash_ k) k v p ha hp
  have hN := node_payload_facts p.bytes k v hlen hk hv
  have hNkey : BucketNode.keyEq
      { key_hash := s.hash_ k, pair := { p with bytes := node_payload p.bytes k v } }
      (s.hash_ k) k := by
    refine ⟨rfl, hN.1, ?_⟩
    show strncmp k (readBytes (node_payload p.bytes k v) 16 k.length) k.length = 0
    rw [hN.2.2.1]
    exact strncmp_self k k.length
  have hNget : ∀ (pre : BNPtr) (st : CacheStats),
      (∀ q ∈ pre, q.pair.healthy ∧ ¬ q.keyEq (s.hash_ k) k) →
      ((s.commit (s.hash_ k % s.NBuckets)
        (pre ++ [{ key_hash := s.hash_ k, pair := { p with bytes := node_payload p.bytes k v } }])
        st).get_ k).1 = some (v, v.length) := by
    intro pre st hpre
    have h := get__of_split (s.commit (s.hash_ k % s.NBuckets)
        (pre ++ [{ key_hash := s.hash_ k, pair := { p with bytes := node_payload p.bytes k v } }])
        st) k pre _ [] (commit_buckets_same _ _ _ _) hpre hp hNkey
    rw [h]
    show some (readBytes (node_payload p.bytes k v) (k.length + 8 * 2)
      (readU64 (node_payload p.bytes k v) 8), readU64 (node_payload p.bytes k v) 8) = _
    rw [hN.2.1, hN.2.2.2.1]
  rcases chain_split (s.hash_ k) k (s.buckets_ (s.hash_ k % s.NBuckets)) with habs | hsplit
  · have hall : ∀ q ∈ s.buckets_ (s.hash_ k % s.NBuckets),
        q.pair.healthy ∧ ¬ q.keyEq (s.hash_ k) k :=
      fun q hq => ⟨(hchain q hq).1, habs q hq⟩
    rw [set_of_absent s k v alloc_to hall, hcreate]
    exact ⟨rfl, hNget _ _ hall⟩
  · obtain ⟨pre, n, rest, he, hpre, hn⟩ := hsplit
    have hmem : ∀ q ∈ pre, q ∈ s.buckets_ (s.hash_ k % s.NBuckets) := by
      intro q hq; rw [he]; exact List.mem_append_left _ hq
    have hpre2 : ∀ q ∈ pre, q.pair.healthy ∧ ¬ q.keyEq (s.hash_ k) k :=
      fun q hq => ⟨(hchain q (hmem q hq)).1, hpre q hq⟩
    have hnmem : n ∈ s.buckets_ (s.hash_ k % s.NBuckets) := by
      rw [he]; exact List.mem_append_right _ (List.mem_cons_self _ _)
    have hnh := (hchain n hnmem).1
    have hnwf := (hchain n hnmem).2
    rw [set_of_split s k v alloc_to pre n rest he hpre2 hnh hn]
    by_cases hfit : v.length ≤ readU64 n.pair.bytes 8
    · rw [if_pos hfit]
      refine ⟨rfl, ?_⟩
      have hb : 8 * 2 + k.length + v.length ≤ n.pair.bytes.length := by
        unfold payload_wf at hnwf
        rw [hn.2.1] at hnwf
        omega
      have hI := inplace_payload_facts n.pair.bytes k v hv hb
      have hIkey : BucketNode.keyEq
          { n with pair := { n.pair with bytes := inplace_payload n.pair.bytes k v } }
          (s.hash_ k) k := by
        refine ⟨hn.1, ?_, ?_⟩
        · show readU64 (inplace_payload n.pair.bytes k v) 0 = k.length
          rw [hI.1]; exact hn.2.1
        · show strncmp k (readBytes (inplace_payload n.pair.bytes k v) 16 k.length) k.length = 0
          rw [hI.2.2.1]; exact hn.2.2
      have h := get__of_split (s.commit (s.hash_ k % s.NBuckets)
          (pre ++ { n with pair := { n.pair with bytes := inplace_payload n.pair.bytes k v } } :: rest)
          s.stats) k pre _ rest (commit_buckets_same _ _ _ _) hpre2 hnh hIkey
      show (SyncKV.get_ _ k).1 = _
      rw [h]
      show some (readBytes (inplace_payload n.pair.bytes k v) (k.length + 8 * 2)
        (readU64 (inplace_payload n.pair.bytes k v) 8),
        readU64 (inplace_payload n.pair.bytes k v) 8) = _
      rw [hI.2.1, hI.2.2.2.1]
    · rw [if_neg hfit, hcreate]
      exact ⟨rfl, hNget _ _ hpre2⟩


/-! ### Walks over arbitrary chains -/

/-- On a chain without a node for the key the loop of `get_` finds nothing. -/
theorem find_loop_noKey (kh : Nat) (k : Bytes) (fuel : Nat) (w : Walk)
    (hno : ∀ n ∈ w.cur.node, ¬ n.keyEq kh k) (hf : w.found = false) :
    (find_loop kh k fuel w).found = false := by
  induction fuel generalizing w with
  | zero => simpa [find_loop] using hf
  | succ fuel ih =>
    unfold find_loop
    cases hnode : w.cur.node with
    | nil => simpa using hf
    | cons n next =>
      simp only []
      have hnk : ¬ n.keyEq kh k := hno n (by rw [hnode]; exact List.mem_cons_self _ _)
      have hnext : ∀ q ∈ next, ¬ q.keyEq kh k :=
        fun q hq => hno q (by rw [hnode]; exact List.mem_cons_of_mem _ hq)
      rcases iterate_list_cases kh k hnode with ⟨p, _, hk, _⟩ | ⟨p, _, _, he⟩ | ⟨_, he⟩
      · exact absurd hk hnk
      · rw [he]
        simp only [Bool.false_eq_true, if_false]
        exact ih _ hnext rfl
      · rw [he]
        simp only [Bool.false_eq_true, if_false]
        exact ih _ hnext rfl

theorem get__noKey (s : SyncKV) (k : Bytes)
    (hno : ∀ n ∈ s.buckets_ (s.hash_ k % s.NBuckets), ¬ n.keyEq (s.hash_ k) k) :
    (s.get_ k).1 = none := by
  unfold SyncKV.get_
  simp only []
  rw [find_loop_noKey (s.hash_ k) k _ _ hno rfl]
  rfl

theorem get__commit_noKey (s : SyncKV) (k : Bytes) (chain : BNPtr) (st : CacheStats)
    (hno : ∀ n ∈ chain, ¬ n.keyEq (s.hash_ k) k) :
    ((s.commit (s.hash_ k % s.NBuckets) chain st).get_ k).1 = none := by
  apply get__noKey
  intro q hq
  apply hno
  have e := commit_buckets_same s (s.hash_ k % s.NBuckets) chain st
  rw [← e]
  exact hq

/-- The loop of `remove` on a chain with at most one node for the key: the nodes
left behind do not carry the key, and when the loop stops at a node no later
node carries the key. -/
theorem find_loop_unique (kh : Nat) (k : Bytes) (fuel : Nat) (w : Walk)
    (hfuel : w.cur.node.length ≤ fuel)
    (hbefore : ∀ n ∈ w.cur.before, ¬ n.keyEq kh k)
    (huniq : w.cur.node.countP (fun n => decide (n.keyEq kh k)) ≤ 1)
    (hf : w.found = false) :
    (∀ n ∈ (find_loop kh k fuel w).cur.before, ¬ n.keyEq kh k) ∧
    (((find_loop kh k fuel w).found = false ∧ (find_loop kh k fuel w).cur.node = []) ∨
     ((find_loop kh k fuel w).found = true ∧
       ∃ n next, (find_loop kh k fuel w).cur.node = n :: next ∧
         ∀ q ∈ next, ¬ q.keyEq kh k)) := by
  induction fuel generalizing w with
  | zero =>
    have hnil : w.cur.node = [] := List.length_eq_zero.mp (Nat.le_zero.mp hfuel)
    simp only [find_loop]
    exact ⟨hbefore, Or.inl ⟨hf, hnil⟩⟩
  | succ fuel ih =>
    unfold find_loop
    cases hnode : w.cur.node with
    | nil => exact ⟨hbefore, Or.inl ⟨hf, hnode⟩⟩
    | cons n next =>
      simp only []
      rw [hnode] at hfuel huniq
      have hlen : next.length ≤ fuel := by simpa using hfuel
      rw [List.countP_cons] at huniq
      have hnextc : next.countP (fun n => decide (n.keyEq kh k)) ≤ 1 := by omega
      rcases iterate_list_cases kh k hnode with ⟨p, _, hk, he⟩ | ⟨p, hs, hk, he⟩ | ⟨_, he⟩
      · rw [he, if_pos rfl]
        refine ⟨hbefore, Or.inr ⟨rfl, _, next, rfl, ?_⟩⟩
        have hz : next.countP (fun n => decide (n.keyEq kh k)) = 0 := by
          simp only [hk, decide_True, if_true] at huniq
          omega
        intro q hq
        have := (List.countP_eq_zero.mp hz) q hq
        simpa using this
      · rw [he]
        simp only [Bool.false_eq_true, if_false]
        apply ih _ hlen _ hnextc rfl
        intro q hq
        rcases List.mem_append.mp hq with h1 | h1
        · exact hbefore q h1
        · rw [List.mem_singleton.mp h1]
          exact fun h => hk ((keyEq_of_bytes (m := { key_hash := n.key_hash, pair := p }) (n := n)
            rfl hs.2.2.1 kh k).mp h)
      · rw [he]
        simp only [Bool.false_eq_true, if_false]
        exact ih _ hlen hbefore hnextc rfl

/-- In a state whose bucket for `k` holds at most one node for `k`, after
`remove(k, kn)` has returned (true or false) the following `get_(k, kn)` reports
a miss, whatever the soft pointers of the chain do. -/
theorem remove_then_get_of_unique (s : SyncKV) (k : Bytes)
    (huniq : (s.buckets_ (s.hash_ k % s.NBuckets)).countP
      (fun n => decide (n.keyEq (s.hash_ k) k)) ≤ 1) :
    ((s.remove k).2.get_ k).1 = none := by
  have h := find_loop_unique (s.hash_ k) k (s.buckets_ (s.hash_ k % s.NBuckets)).length
    { found := false, vn := none,
      cur := { before := [], node := s.buckets_ (s.hash_ k % s.NBuckets) }, stats := s.stats }
    (Nat.le_refl _) (by simp) huniq rfl
  obtain ⟨hb, hcase⟩ := h
  unfold SyncKV.remove
  simp only []
  rcases hcase with ⟨hf, hnil⟩ | ⟨hf, n, next, hnode, hnext⟩
  · rw [hf]
    simp only [Bool.not_false, if_true]
    apply get__commit_noKey
    intro q hq
    unfold Cursor.chain at hq
    rw [hnil, List.append_nil] at hq
    exact hb q hq
  · rw [hf]
    simp only [Bool.not_true, Bool.false_eq_true, if_false]
    apply get__commit_noKey
    intro q hq
    unfold Cursor.chain delete_node at hq
    rw [hnode] at hq
    rcases List.mem_append.mp hq with h1 | h1
    · exact hb q h1
    · exact hnext q h1

theorem ident_of_sameObj {n : BucketNode} {p : ObjectPtr} (h : n.pair.sameObj p) :
    BucketNode.ident { key_hash := n.key_hash, pair := p } = n.ident := by
  unfold BucketNode.ident
  simp only [h.1, h.2.1, h.2.2.1]

/-- What `iterate_list` does to the chain is what it does to the node visited. -/
theorem iterate_list_local (kh : Nat) (k : Bytes) (w : Walk) (n : BucketNode) (next : BNPtr)
    (hw : w.cur.node = n :: next) :
    (iterate_list kh k w).cur.chain =
      w.cur.before ++ (visit kh k w.vn n).cur.chain ++ next := by
  unfold visit iterate_list
  simp only [hw]
  by_cases hh : kh = n.key_hash
  · simp only [hh, ne_eq, not_true_eq_false, if_false]
    by_cases hnull : n.pair.null = true
    · simp [hnull, iterate_list_faulted, delete_node, hw, Cursor.chain]
    · simp only [hnull, if_false]
      cases h1 : n.pair.copy_to 8 0 with
      | none => simp [iterate_list_faulted, delete_node, hw, Cursor.chain]
      | some r1 =>
        obtain ⟨b1, p1⟩ := r1
        simp only []
        by_cases hkn : decode64 b1 = k.length
        · simp only [hkn, not_true_eq_false, if_false]
          cases h2 : p1.copy_to k.length 16 with
          | none => simp [iterate_list_faulted, delete_node, hw, Cursor.chain]
          | some r2 =>
            obtain ⟨stored_k, p2⟩ := r2
            simp only []
            by_cases hcmp : strncmp k stored_k k.length = 0
            · simp only [hcmp, not_true_eq_false, if_false]
              cases hvn : w.vn with
              | none => simp [Cursor.chain]
              | some x =>
                simp only []
                cases h3 : p2.copy_to 8 8 with
                | none => simp [iterate_list_faulted, delete_node, hw, Cursor.chain]
                | some r3 =>
                  obtain ⟨b3, p3⟩ := r3
                  simp [Cursor.chain]
            · simp [hcmp, iterate_list_notequal, Cursor.chain]
        · simp [hkn, iterate_list_notequal, Cursor.chain]
  · simp [hh, iterate_list_notequal, Cursor.chain]

theorem set_found_false (k v : Bytes) (w1 : Walk) (n : BucketNode) (next : BNPtr)
    (hnode : w1.cur.node = n :: next) (hres : (set_found k v w1).1 = false) :
    (set_found k v w1).2 = { w1 with cur := { before := w1.cur.before, node := next } } := by
  have hdel : delete_node w1.cur = { before := w1.cur.before, node := next } := by
    simp [delete_node, hnode]
  unfold set_found at hres ⊢
  simp only [hnode] at hres ⊢
  by_cases hc : v.length ≤ w1.vn.getD 0 ∧ n.pair.null = false
  · simp only [hc, and_self, if_true] at hres ⊢
    cases h1 : n.pair.copy_from (encode64 v.length) 8 with
    | none => simp only [hdel]
    | some p1 =>
      simp only [h1] at hres ⊢
      cases h2 : p1.copy_from v (k.length + 8 * 2) with
      | none => simp only [hdel]
      | some p2 =>
        simp only [h2] at hres
        exact absurd hres (by simp)
  · simp only [hc, if_false, hdel]

/-- When the loop of `set` leaves without an in-place update, the chain it leaves
is the nodes before the walk followed by a remainder `X` of the nodes walked:
nothing new is in `X`, and every bystander is still there, in order. -/
theorem set_loop_fail (kh : Nat) (k v : Bytes) (fuel : Nat) (w : Walk)
    (hvn : w.vn = some 0)
    (hres : (set_loop kh k v fuel w).1 = false) :
    ∃ X, (set_loop kh k v fuel w).2.cur.chain = w.cur.before ++ X ∧
      List.Sublist (X.map BucketNode.ident) (w.cur.node.map BucketNode.ident) ∧
      List.Sublist ((w.cur.node.filter (BucketNode.bystander kh k)).map BucketNode.ident)
        (X.map BucketNode.ident) := by
  induction fuel generalizing w with
  | zero =>
    refine ⟨w.cur.node, ?_, List.Sublist.refl _, ?_⟩
    · simp [set_loop, Cursor.chain]
    · exact List.Sublist.map _ (List.filter_sublist _)
  | succ fuel ih =>
    unfold set_loop at hres ⊢
    cases hnode : w.cur.node with
    | nil =>
      refine ⟨[], ?_, by simp, by simp⟩
      simp [Cursor.chain, hnode]
    | cons n next =>
      simp only [hnode] at hres
      simp only []
      have hloc := iterate_list_local kh k w n next hnode
      rcases iterate_list_cases kh k hnode with ⟨p, hs, hk, he⟩ | ⟨p, hs, hk, he⟩ | ⟨_, he⟩
      · -- the node for the key: deleted, since the update in place did not happen
        rw [he] at hres ⊢
        simp only [if_true] at hres ⊢
        have hby : ¬ BucketNode.bystander kh k n = true := by
          simp [BucketNode.bystander, hk]
        rw [set_found_false k v _ { key_hash := n.key_hash, pair := p } next rfl hres]
        refine ⟨next, rfl, ?_, ?_⟩
        · simp only [List.map_cons]
          exact List.sublist_cons_self _ _
        · rw [List.filter_cons_of_neg hby]
          exact List.Sublist.map _ (List.filter_sublist _)
      · -- another key: the node stays
        rw [he] at hres ⊢
        simp only [Bool.false_eq_true, if_false] at hres ⊢
        obtain ⟨X, hc, hX, hF⟩ := ih
          { found := false, vn := w.vn,
            cur := { before := w.cur.before ++ [{ key_hash := n.key_hash, pair := p }],
                     node := next },
            stats := w.stats } hvn hres
        refine ⟨{ key_hash := n.key_hash, pair := p } :: X, ?_, ?_, ?_⟩
        · rw [hc]; simp
        · simp only [List.map_cons, ident_of_sameObj hs]
          exact List.Sublist.cons₂ _ hX
        · simp only [List.map_cons, ident_of_sameObj hs]
          by_cases hb : BucketNode.bystander kh k n = true
          · rw [List.filter_cons_of_pos hb, List.map_cons]
            exact List.Sublist.cons₂ _ hF
          · rw [List.filter_cons_of_neg hb]
            exact List.Sublist.cons _ hF
      · -- a faulted node: deleted
        rw [he] at hres ⊢
        simp only [Bool.false_eq_true, if_false] at hres ⊢
        obtain ⟨X, hc, hX, hF⟩ := ih
          { found := false, vn := w.vn, cur := { before := w.cur.before, node := next },
            stats := if n.pair.victim then inc_cache_victim_hit w.stats else w.stats } hvn hres
        have hfault : n.faultsAt kh k (some 0) := by
          rw [he, hvn] at hloc
          unfold BucketNode.faultsAt
          have hl := congrArg List.length hloc
          simp only [Cursor.chain, List.length_append] at hl
          apply List.length_eq_zero.mp
          simp only [Cursor.chain, List.length_append]
          omega
        have hby : ¬ BucketNode.bystander kh k n = true := by
          simp only [BucketNode.bystander, decide_eq_true_eq]
          exact fun h => h.2 hfault
        refine ⟨X, hc, ?_, ?_⟩
        · simp only [List.map_cons]
          exact List.Sublist.cons _ hX
        · rw [List.filter_cons_of_neg hby]
          exact hF

theorem commit_buckets_other (s : SyncKV) (idx : Nat) (chain : BNPtr) (st : CacheStats)
    (j : Nat) (hj : j ≠ idx) : (s.commit idx chain st).buckets_ j = s.buckets_ j := by
  simp [SyncKV.commit, Function.update, hj]

/-- C3. When the loop of `set(k, kn, v, vn)` ends without an update in place and
`create_node` fails, `set` returns false and the bucket chain stays well
formed: the chain left holds no new node (it is the old chain with nodes
removed, the order kept), every node whose key differs from `k` and whose soft
pointer does not fault when the walk visits it is still in the chain in its
previous order, and the other buckets are untouched. Nodes are compared up to
the time left to their objects. -/
theorem C3_set_create_node_fails (s : SyncKV) (k v : Bytes)
    (alloc_to : Nat → Option ObjectPtr)
    (hloop : (set_loop (s.hash_ k) k v (s.buckets_ (s.hash_ k % s.NBuckets)).length
      (s.walk0 (s.hash_ k % s.NBuckets) (some 0))).1 = false)
    (hfail : create_node alloc_to (s.hash_ k) k v = []) :
    (s.set k v alloc_to).1 = false ∧
    List.Sublist
      (((s.set k v alloc_to).2.buckets_ (s.hash_ k % s.NBuckets)).map BucketNode.ident)
      ((s.buckets_ (s.hash_ k % s.NBuckets)).map BucketNode.ident) ∧
    List.Sublist
      (((s.buckets_ (s.hash_ k % s.NBuckets)).filter
        (BucketNode.bystander (s.hash_ k) k)).map BucketNode.ident)
      (((s.set k v alloc_to).2.buckets_ (s.hash_ k % s.NBuckets)).map BucketNode.ident) ∧
    ∀ j, j ≠ s.hash_ k % s.NBuckets →
      (s.set k v alloc_to).2.buckets_ j = s.buckets_ j := by
  obtain ⟨X, hc, hX, hF⟩ := set_loop_fail (s.hash_ k) k v
    (s.buckets_ (s.hash_ k % s.NBuckets)).length (s.walk0 (s.hash_ k % s.NBuckets) (some 0))
    rfl hloop
  have hset : s.set k v alloc_to =
      (false, s.commit (s.hash_ k % s.NBuckets) X
        (set_loop (s.hash_ k) k v (s.buckets_ (s.hash_ k % s.NBuckets)).length
          (s.walk0 (s.hash_ k % s.NBuckets) (some 0))).2.stats) := by
    unfold SyncKV.set
    unfold SyncKV.walk0 at hloop hc
    simp only [hloop, Bool.false_eq_true, if_false, hfail, hc, List.nil_append]
    rfl
  rw [hset]
  refine ⟨rfl, ?_, ?_, ?_⟩
  · rw [commit_buckets_same]; exact hX
  · rw [commit_buckets_same]; exact hF
  · intro j hj
    exact commit_buckets_other _ _ _ _ j hj

/-- Witness of C3: keys `a`, `b`, `c` in one chain; the new value of `b` does not
fit and the allocator fails. -/
theorem C3_set_create_node_fails_witness :
    ((kvOf [mkNode 0 [97] [1], mkNode 0 [98] [2], mkNode 0 [99] [3]]).set
        [98] [4, 5] noObj).1 = false ∧
    List.Sublist
      ((((kvOf [mkNode 0 [97] [1], mkNode 0 [98] [2], mkNode 0 [99] [3]]).set
        [98] [4, 5] noObj).2.buckets_ 0).map BucketNode.ident)
      ([mkNode 0 [97] [1], mkNode 0 [98] [2], mkNode 0 [99] [3]].map BucketNode.ident) ∧
    List.Sublist
      (([mkNode 0 [97] [1], mkNode 0 [98] [2], mkNode 0 [99] [3]].filter
        (BucketNode.bystander 0 [98])).map BucketNode.ident)
      ((((kvOf [mkNode 0 [97] [1], mkNode 0 [98] [2], mkNode 0 [99] [3]]).set
        [98] [4, 5] noObj).2.buckets_ 0).map BucketNode.ident) ∧
    ∀ j, j ≠ 0 →
      ((kvOf [mkNode 0 [97] [1], mkNode 0 [98] [2], mkNode 0 [99] [3]]).set
        [98] [4, 5] noObj).2.buckets_ j =
      (kvOf [mkNode 0 [97] [1], mkNode 0 [98] [2], mkNode 0 [99] [3]]).buckets_ j :=
  C3_set_create_node_fails (kvOf [mkNode 0 [97] [1], mkNode 0 [98] [2], mkNode 0 [99] [3]])
    [98] [4, 5] noObj (by decide) (by decide)


/-- C4, counterexample. Key `b` is absent from the chain `[a]` and the allocation
succeeds: `set` returns true, the bucket head is still the node of `a` and the
new node is its successor, so the chain is not the new node followed by the
previous chain. -/
theorem C4_new_node_not_at_head :
    ((kvOf [mkNode 0 [97] [1]]).set [98] [2] freshObj).1 = true ∧
    ((kvOf [mkNode 0 [97] [1]]).set [98] [2] freshObj).2.buckets_ 0 =
      [mkNode 0 [97] [1], mkNode 0 [98] [2]] ∧
    ¬ (((kvOf [mkNode 0 [97] [1]]).set [98] [2] freshObj).2.buckets_ 0 =
      create_node freshObj 0 [98] [2] ++ [mkNode 0 [97] [1]]) := by
  decide

/-- C4, amended. With healthy pointers in the bucket and an allocation that
succeeds, a `set` that cannot update in place links the new node into the slot
where the walk ended: when `k` is absent the new chain is the previous chain
followed by the new node; when the stored value is shorter than `vn` the nodes
that preceded the stale node keep their place and the new node follows them. -/
theorem C4_set_links_at_walk_end (s : SyncKV) (k v : Bytes)
    (alloc_to : Nat → Option ObjectPtr) (p : ObjectPtr)
    (hchain : ∀ n ∈ s.buckets_ (s.hash_ k % s.NBuckets), n.pair.healthy)
    (ha : alloc_to (8 * 2 + k.length + v.length) = some p) (hp : p.healthy) :
    ((∀ n ∈ s.buckets_ (s.hash_ k % s.NBuckets), ¬ n.keyEq (s.hash_ k) k) →
      (s.set k v alloc_to).1 = true ∧
      (s.set k v alloc_to).2.buckets_ (s.hash_ k % s.NBuckets) =
        s.buckets_ (s.hash_ k % s.NBuckets) ++
          [{ key_hash := s.hash_ k, pair := { p with bytes := node_payload p.bytes k v } }]) ∧
    (∀ pre n rest, s.buckets_ (s.hash_ k % s.NBuckets) = pre ++ n :: rest →
      (∀ m ∈ pre, ¬ m.keyEq (s.hash_ k) k) → n.keyEq (s.hash_ k) k →
      readU64 n.pair.bytes 8 < v.length →
      (s.set k v alloc_to).1 = true ∧
      List.IsPrefix
        (pre ++ [{ key_hash := s.hash_ k, pair := { p with bytes := node_payload p.bytes k v } }])
        ((s.set k v alloc_to).2.buckets_ (s.hash_ k % s.NBuckets))) := by
  have hcreate := create_node_healthy alloc_to (s.hash_ k) k v p ha hp
  constructor
  · intro habs
    have hall : ∀ q ∈ s.buckets_ (s.hash_ k % s.NBuckets),
        q.pair.healthy ∧ ¬ q.keyEq (s.hash_ k) k :=
      fun q hq => ⟨hchain q hq, habs q hq⟩
    rw [set_of_absent s k v alloc_to hall, hcreate]
    exact ⟨rfl, commit_buckets_same _ _ _ _⟩
  · intro pre n rest he hpre hn hshort
    have hpre2 : ∀ q ∈ pre, q.pair.healthy ∧ ¬ q.keyEq (s.hash_ k) k := by
      intro q hq
      exact ⟨hchain q (by rw [he]; exact List.mem_append_left _ hq), hpre q hq⟩
    have hnh : n.pair.healthy :=
      hchain n (by rw [he]; exact List.mem_append_right _ (List.mem_cons_self _ _))
    rw [set_of_split s k v alloc_to pre n rest he hpre2 hnh hn,
      if_neg (Nat.not_le.mpr hshort), hcreate]
    refine ⟨rfl, ?_⟩
    show List.IsPrefix _ ((s.commit _ _ _).buckets_ _)
    rw [commit_buckets_same]

/-- Witness of C4 (amended): key `b` is appended behind key `a`. -/
theorem C4_set_links_at_walk_end_witness :
    ((kvOf [mkNode 0 [97] [1]]).set [98] [2] freshObj).1 = true ∧
    ((kvOf [mkNode 0 [97] [1]]).set [98] [2] freshObj).2.buckets_ 0 =
      [mkNode 0 [97] [1]] ++
        [{ key_hash := 0,
           pair := { isNull := false, victim := false, ttl := none,
                     bytes := node_payload (List.replicate 18 0) [98] [2] } }] :=
  (C4_set_links_at_walk_end (kvOf [mkNode 0 [97] [1]]) [98] [2] freshObj
    { isNull := false, victim := false, ttl := none, bytes := List.replicate 18 0 }
    (by decide) rfl (by decide)).1 (by decide)


/-- C5, the failing run. The chain holds key `a` in an object that is taken away
after three more copies: `iterate_list` reads the key length, the key and the
value length, then the copy of the value faults. `get_` returns null and leaves
both `hits` and `misses` as they were, so this call is counted nowhere. -/
theorem C5_get_fault_counts_nothing :
    ((kvOf [agingNode 0 [97] [1] 3 false]).get_ [97]).1 = none ∧
    ((kvOf [agingNode 0 [97] [1] 3 false]).get_ [97]).2.stats.hits =
      (kvOf [agingNode 0 [97] [1] 3 false]).stats.hits ∧
    ((kvOf [agingNode 0 [97] [1] 3 false]).get_ [97]).2.stats.misses =
      (kvOf [agingNode 0 [97] [1] 3 false]).stats.misses := by
  decide

/-- A node for the key whose object survives exactly the three copies of
`iterate_list` is found, with no time left to it. -/
theorem iterate_list_aging (kh : Nat) (k : Bytes) (f : Bool) (x : Nat) (b : BNPtr)
    (n : BucketNode) (next : BNPtr) (st : CacheStats)
    (hnull : n.pair.isNull = false) (httl : n.pair.ttl = some 3) (hk : n.keyEq kh k) :
    iterate_list kh k
        { found := f, vn := some x, cur := { before := b, node := n :: next }, stats := st } =
      { found := true, vn := some (readU64 n.pair.bytes 8),
        cur := { before := b, node := { n with pair := { n.pair with ttl := some 0 } } :: next },
        stats := st } := by
  obtain ⟨h1, h2, h3⟩ := hk
  unfold readU64 at h2
  unfold iterate_list
  simp only [ObjectPtr.copy_to, ObjectPtr.access, ObjectPtr.null, hnull, httl, h1, h2, h3,
    ne_eq, not_true_eq_false, if_false, Bool.false_eq_true, readU64]

theorem faultsAt_of_deleted (kh : Nat) (k : Bytes) {w : Walk} {n : BucketNode} {next : BNPtr}
    (hw : w.cur.node = n :: next)
    (he : (iterate_list kh k w).cur = { before := w.cur.before, node := next }) :
    n.faultsAt kh k w.vn := by
  have hloc := iterate_list_local kh k w n next hw
  rw [he] at hloc
  unfold BucketNode.faultsAt
  have hl := congrArg List.length hloc
  simp only [Cursor.chain, List.length_append] at hl
  apply List.length_eq_zero.mp
  simp only [Cursor.chain, List.length_append]
  omega

/-- The loop of `get_` over nodes that do not carry the key and do not fault:
it walks past them, and only the time left to their objects changes. -/
theorem find_loop_pass (kh : Nat) (k : Bytes) (st : CacheStats) (pre rest : BNPtr)
    (hpre : ∀ q ∈ pre, ¬ q.keyEq kh k ∧ ¬ q.faultsAt kh k (some 0)) (fuel : Nat) (b : BNPtr) :
    ∃ pre2, pre2.map BucketNode.ident = pre.map BucketNode.ident ∧
      ((∀ q ∈ pre, q.pair.healthy) → pre2 = pre) ∧
      find_loop kh k (pre.length + fuel)
          { found := false, vn := some 0, cur := { before := b, node := pre ++ rest },
            stats := st } =
        find_loop kh k fuel
          { found := false, vn := some 0, cur := { before := b ++ pre2, node := rest },
            stats := st } := by
  induction pre generalizing b with
  | nil => exact ⟨[], rfl, fun _ => rfl, by simp⟩
  | cons m ms ih =>
    have hm := hpre m (List.mem_cons_self _ _)
    have hms : ∀ q ∈ ms, ¬ q.keyEq kh k ∧ ¬ q.faultsAt kh k (some 0) :=
      fun q hq => hpre q (List.mem_cons_of_mem _ hq)
    have hlen : (m :: ms).length + fuel = (ms.length + fuel) + 1 := by
      simp only [List.length_cons]; omega
    rw [hlen, find_loop]
    simp only [List.cons_append]
    rcases iterate_list_cases kh k
      (w := { found := false, vn := some 0,
              cur := { before := b, node := m :: (ms ++ rest) }, stats := st })
      rfl with ⟨p, _, hk, _⟩ | ⟨p, hs, _, he⟩ | ⟨_, he⟩
    · exact absurd hk hm.1
    · rw [he]
      simp only [Bool.false_eq_true, if_false]
      obtain ⟨pre2, hid, hh, hloop⟩ := ih hms (b ++ [{ key_hash := m.key_hash, pair := p }])
      refine ⟨{ key_hash := m.key_hash, pair := p } :: pre2, ?_, ?_, ?_⟩
      · simp only [List.map_cons, ident_of_sameObj hs, hid]
      · intro hall
        have hp : p = m.pair := hs.2.2.2.1 (hall m (List.mem_cons_self _ _))
        rw [hp, hh (fun q hq => hall q (List.mem_cons_of_mem _ hq))]
      · rw [hloop]
        simp
    · exact absurd (faultsAt_of_deleted kh k
        (w := { found := false, vn := some 0,
                cur := { before := b, node := m :: (ms ++ rest) }, stats := st })
        rfl (by rw [he])) hm.2


theorem get__eq_tail (s : SyncKV) (k : Bytes) :
    s.get_ k = s.get_tail k (s.hash_ k % s.NBuckets)
      (find_loop (s.hash_ k) k (s.buckets_ (s.hash_ k % s.NBuckets)).length
        { found := false, vn := some 0,
          cur := { before := [], node := s.buckets_ (s.hash_ k % s.NBuckets) },
          stats := s.stats }) := rfl

/-- The fault branch of `get_`: the node found is null or the copy of its value
faults. -/
theorem get_tail_fault (s : SyncKV) (k : Bytes) (idx : Nat) (w : Walk) (n : BucketNode)
    (next : BNPtr) (hfound : w.found = true) (hnode : w.cur.node = n :: next)
    (hfault : n.pair.null = true ∨ n.pair.copy_to (w.vn.getD 0) (k.length + 8 * 2) = none) :
    s.get_tail k idx w =
      (none, s.commit idx (w.cur.before ++ next)
        (if n.pair.is_victim then inc_cache_victim_hit w.stats else w.stats)) := by
  have hdel : (delete_node w.cur).chain = w.cur.before ++ next := by
    simp [delete_node, hnode, Cursor.chain]
  unfold SyncKV.get_tail
  simp only [hfound, Bool.not_true, Bool.false_eq_true, if_false, hnode, hdel]
  by_cases hnull : n.pair.null = true
  · simp only [hnull, if_true]
  · rcases hfault with h | h
    · exact absurd h hnull
    · have hn2 : n.pair.null = false := by
        cases hb : n.pair.null with
        | true => exact absurd hb hnull
        | false => rfl
      simp only [hn2, Bool.false_eq_true, if_false, h]

theorem not_faultsAt_of_kept (kh : Nat) (k : Bytes) {w : Walk} {n m : BucketNode}
    {next : BNPtr} (hw : w.cur.node = n :: next)
    (he : (iterate_list kh k w).cur = { before := w.cur.before ++ [m], node := next }) :
    ¬ n.faultsAt kh k w.vn := by
  have hloc := iterate_list_local kh k w n next hw
  rw [he] at hloc
  unfold BucketNode.faultsAt
  intro h0
  rw [h0] at hloc
  have hl := congrArg List.length hloc
  simp only [Cursor.chain, List.length_append, List.length_cons, List.length_nil] at hl
  omega

/-- The loop of `get_` over nodes that do not carry the key: it walks past the
nodes that do not fault, of which only the time left to their objects changes,
and unlinks the nodes that fault, counting a victim hit for each of them that
has the victim bit set. -/
theorem find_loop_walk (kh : Nat) (k : Bytes) (pre rest : BNPtr)
    (hpre : ∀ q ∈ pre, ¬ q.keyEq kh k) (fuel : Nat) (b : BNPtr) (st : CacheStats) :
    ∃ pre2, pre2.map BucketNode.ident = (survivors kh k pre).map BucketNode.ident ∧
      ((∀ q ∈ pre, q.pair.healthy) → pre2 = pre) ∧
      find_loop kh k (pre.length + fuel)
          { found := false, vn := some 0, cur := { before := b, node := pre ++ rest },
            stats := st } =
        find_loop kh k fuel
          { found := false, vn := some 0, cur := { before := b ++ pre2, node := rest },
            stats := { st with victim_hits := st.victim_hits + faulted_victims kh k pre } } := by
  induction pre generalizing b st with
  | nil => exact ⟨[], rfl, fun _ => rfl, by simp [faulted_victims]⟩
  | cons m ms ih =>
    have hm := hpre m (List.mem_cons_self _ _)
    have hms : ∀ q ∈ ms, ¬ q.keyEq kh k := fun q hq => hpre q (List.mem_cons_of_mem _ hq)
    have hlen : (m :: ms).length + fuel = (ms.length + fuel) + 1 := by
      simp only [List.length_cons]; omega
    rw [hlen, find_loop]
    simp only [List.cons_append]
    rcases iterate_list_cases kh k
      (w := { found := false, vn := some 0,
              cur := { before := b, node := m :: (ms ++ rest) }, stats := st })
      rfl with ⟨p, _, hk, _⟩ | ⟨p, hs, _, he⟩ | ⟨hnh, he⟩
    · exact absurd hk hm
    · have hnf : ¬ m.faultsAt kh k (some 0) :=
        not_faultsAt_of_kept kh k
          (w := { found := false, vn := some 0,
                  cur := { before := b, node := m :: (ms ++ rest) }, stats := st })
          rfl (by rw [he])
      rw [he]
      simp only [Bool.false_eq_true, if_false]
      obtain ⟨pre2, hid, hh, hloop⟩ := ih hms (b ++ [{ key_hash := m.key_hash, pair := p }]) st
      refine ⟨{ key_hash := m.key_hash, pair := p } :: pre2, ?_, ?_, ?_⟩
      · simp only [survivors, List.filter_cons, hnf, decide_False, Bool.not_false, if_true,
          List.map_cons, ident_of_sameObj hs]
        exact congrArg _ hid
      · intro hall
        have hp : p = m.pair := hs.2.2.2.1 (hall m (List.mem_cons_self _ _))
        rw [hp, hh (fun q hq => hall q (List.mem_cons_of_mem _ hq))]
      · rw [hloop]
        simp [faulted_victims, hnf]
    · have hf : m.faultsAt kh k (some 0) :=
        faultsAt_of_deleted kh k
          (w := { found := false, vn := some 0,
                  cur := { before := b, node := m :: (ms ++ rest) }, stats := st })
          rfl (by rw [he])
      rw [he]
      simp only [Bool.false_eq_true, if_false]
      obtain ⟨pre2, hid, hh, hloop⟩ := ih hms b
        (if m.pair.victim then inc_cache_victim_hit st else st)
      refine ⟨pre2, ?_, ?_, ?_⟩
      · simp only [survivors, List.filter_cons, hf, decide_True, Bool.not_true,
          Bool.false_eq_true, if_false]
        exact hid
      · intro hall
        exact absurd (hall m (List.mem_cons_self _ _)) hnh
      · rw [hloop]
        congr 2
        by_cases hv : m.pair.victim = true
        · simp only [hv, if_true, inc_cache_victim_hit, faulted_victims, List.countP_cons, hf,
            decide_True, Bool.and_self]
          congr 1
          omega
        · have hv2 : m.pair.victim = false := by
            cases h : m.pair.victim with
            | true => exact absurd h hv
            | false => rfl
          simp [hv2, faulted_victims, List.countP_cons]

/-- C6, counterexample. The chain holds a node for the key `a` whose object is
gone (its first copy faults) and has the victim bit set, then a node for the key
`b` whose object is taken away right after `iterate_list` has found it and whose
victim bit is not set, then a node for the key `c`; the three keys have the same
hash. `get_` of `b` returns null, but it unlinks the node of `a` as well as the
node of `b`, and it counts a victim hit although the victim bit of the node
found is not set. When the node of `b` has the victim bit set too, two victim
hits are counted. -/
theorem C6_faulting_predecessor_unlinked :
    ((kvOf [agingNode 0 [97] [1] 0 true, agingNode 0 [98] [2] 3 false,
        mkNode 0 [99] [3]]).get_ [98]).1 = none ∧
    ((kvOf [agingNode 0 [97] [1] 0 true, agingNode 0 [98] [2] 3 false,
        mkNode 0 [99] [3]]).get_ [98]).2.buckets_ 0 = [mkNode 0 [99] [3]] ∧
    ((kvOf [agingNode 0 [97] [1] 0 true, agingNode 0 [98] [2] 3 false,
        mkNode 0 [99] [3]]).get_ [98]).2.stats.victim_hits = 1 ∧
    ((kvOf [agingNode 0 [97] [1] 0 true, agingNode 0 [98] [2] 3 true,
        mkNode 0 [99] [3]]).get_ [98]).2.stats.victim_hits = 2 := by
  decide

/-- C6, amended. First, the statements of `get_` behind its loop: whenever the
loop ends on a node found whose soft pointer is null or whose copy of the value
faults, `get_` returns null, unlinks that node from the chain the loop left, and
counts a victim hit exactly when the victim bit of the pointer is set. Second,
the whole call on a bucket that holds nodes not matching the key and then a node
for the key whose object is taken away right after `iterate_list` has found it:
`get_` returns null; the chain afterwards holds, in order, the nodes before the
node found whose soft pointers did not fault when visited, and the nodes behind
it (the very same nodes when the pointers of the former are healthy, otherwise
the same nodes with less time left to their objects); the victim-hit counter
goes up by one for every unlinked node whose victim bit is set, the node found
and the faulting nodes before it; no other counter and no other bucket
changes. -/
theorem C6_get_fault_unlinks (s : SyncKV) (k : Bytes) (pre : BNPtr) (n : BucketNode)
    (rest : BNPtr)
    (hchain : s.buckets_ (s.hash_ k % s.NBuckets) = pre ++ n :: rest)
    (hpre : ∀ q ∈ pre, ¬ q.keyEq (s.hash_ k) k)
    (hk : n.keyEq (s.hash_ k) k)
    (hnull : n.pair.isNull = false) (httl : n.pair.ttl = some 3) :
    (∀ (idx : Nat) (w : Walk) (m : BucketNode) (next : BNPtr),
      w.found = true → w.cur.node = m :: next →
      (m.pair.null = true ∨ m.pair.copy_to (w.vn.getD 0) (k.length + 8 * 2) = none) →
      s.get_tail k idx w =
        (none, s.commit idx (w.cur.before ++ next)
          (if m.pair.is_victim then inc_cache_victim_hit w.stats else w.stats))) ∧
    s.get_ k = s.get_tail k (s.hash_ k % s.NBuckets)
      (find_loop (s.hash_ k) k (s.buckets_ (s.hash_ k % s.NBuckets)).length
        { found := false, vn := some 0,
          cur := { before := [], node := s.buckets_ (s.hash_ k % s.NBuckets) },
          stats := s.stats }) ∧
    (s.get_ k).1 = none ∧
    ((s.get_ k).2.buckets_ (s.hash_ k % s.NBuckets)).map BucketNode.ident =
      (survivors (s.hash_ k) k pre ++ rest).map BucketNode.ident ∧
    ((∀ q ∈ pre, q.pair.healthy) →
      (s.get_ k).2.buckets_ (s.hash_ k % s.NBuckets) = pre ++ rest) ∧
    (s.get_ k).2.stats =
      { s.stats with
        victim_hits := s.stats.victim_hits + faulted_victims (s.hash_ k) k pre +
          (if n.pair.victim then 1 else 0) } ∧
    ∀ j, j ≠ s.hash_ k % s.NBuckets → (s.get_ k).2.buckets_ j = s.buckets_ j := by
  obtain ⟨pre2, hid, hh, hloop⟩ :=
    find_loop_walk (s.hash_ k) k pre (n :: rest) hpre (rest.length + 1) [] s.stats
  have hget : s.get_ k = (none, s.commit (s.hash_ k % s.NBuckets) (pre2 ++ rest)
      (if n.pair.victim then
        inc_cache_victim_hit
          { s.stats with
            victim_hits := s.stats.victim_hits + faulted_victims (s.hash_ k) k pre }
       else
        { s.stats with
          victim_hits := s.stats.victim_hits + faulted_victims (s.hash_ k) k pre })) := by
    unfold SyncKV.get_
    simp only [hchain]
    have hlen : (pre ++ n :: rest).length = pre.length + (rest.length + 1) := by simp
    rw [hlen, hloop, find_loop]
    simp only [List.nil_append]
    rw [iterate_list_aging (s.hash_ k) k false 0 pre2 n rest _ hnull httl hk]
    simp only [if_true, Bool.not_true, Bool.false_eq_true, if_false, ObjectPtr.null, hnull,
      Option.getD_some, ObjectPtr.copy_to, ObjectPtr.access, delete_node, Cursor.chain,
      ObjectPtr.is_victim]
  refine ⟨fun idx w m next hf hn hfault => get_tail_fault s k idx w m next hf hn hfault,
    get__eq_tail s k, ?_⟩
  rw [hget]
  refine ⟨rfl, ?_, ?_, ?_, ?_⟩
  · rw [commit_buckets_same, List.map_append, List.map_append, hid]
  · intro hall
    rw [commit_buckets_same, hh hall]
  · show (if n.pair.victim then _ else _) = _
    by_cases hv : n.pair.victim = true
    · simp only [hv, if_true, inc_cache_victim_hit]
    · simp only [hv, Bool.false_eq_true, if_false, Nat.add_zero]
  · intro j hj
    exact commit_buckets_other _ _ _ _ j hj

/-- Witness of the amended C6: the first run of the counterexample. The node of
`a` faults and is unlinked with the node of `b`, and one victim hit is counted,
for the node of `a`. And the statements behind the loop, on a walk that ended on
a node whose pointer is null. -/
theorem C6_get_fault_unlinks_witness :
    ((kvOf [agingNode 0 [97] [1] 0 true, agingNode 0 [98] [2] 3 false,
        mkNode 0 [99] [3]]).get_ [98]).1 = none ∧
    (((kvOf [agingNode 0 [97] [1] 0 true, agingNode 0 [98] [2] 3 false,
        mkNode 0 [99] [3]]).get_ [98]).2.buckets_ 0).map BucketNode.ident =
      [mkNode 0 [99] [3]].map BucketNode.ident ∧
    ((kvOf [agingNode 0 [97] [1] 0 true, agingNode 0 [98] [2] 3 false,
        mkNode 0 [99] [3]]).get_ [98]).2.stats =
      { hits := 0, misses := 0, miss_cycles := 0, miss_bytes := 0, victim_hits := 1 } ∧
    (kvOf [agingNode 0 [97] [1] 0 true, agingNode 0 [98] [2] 3 false,
        mkNode 0 [99] [3]]).get_tail [98] 0
      { found := true, vn := some 1,
        cur := { before := [mkNode 0 [97] [1]],
                 node := [{ key_hash := 0,
                            pair := { isNull := true, victim := true, ttl := none,
                                      bytes := [] } }] },
        stats := { hits := 0, misses := 0, miss_cycles := 0, miss_bytes := 0,
                   victim_hits := 0 } } =
      (none, (kvOf [agingNode 0 [97] [1] 0 true, agingNode 0 [98] [2] 3 false,
        mkNode 0 [99] [3]]).commit 0 ([mkNode 0 [97] [1]] ++ [])
          (if ObjectPtr.is_victim { isNull := true, victim := true, ttl := none, bytes := [] }
            then inc_cache_victim_hit
              { hits := 0, misses := 0, miss_cycles := 0, miss_bytes := 0, victim_hits := 0 }
            else
              { hits := 0, misses := 0, miss_cycles := 0, miss_bytes := 0,
                victim_hits := 0 })) :=
  have h := C6_get_fault_unlinks
    (kvOf [agingNode 0 [97] [1] 0 true, agingNode 0 [98] [2] 3 false, mkNode 0 [99] [3]])
    [98] [agingNode 0 [97] [1] 0 true] (agingNode 0 [98] [2] 3 false) [mkNode 0 [99] [3]]
    rfl (by decide) (by decide) rfl rfl
  ⟨h.2.2.1, h.2.2.2.1, h.2.2.2.2.2.1,
    h.1 0
      { found := true, vn := some 1,
        cur := { before := [mkNode 0 [97] [1]],
                 node := [{ key_hash := 0,
                            pair := { isNull := true, victim := true, ttl := none,
                                      bytes := [] } }] },
        stats := { hits := 0, misses := 0, miss_cycles := 0, miss_bytes := 0,
                   victim_hits := 0 } }
      _ [] rfl rfl (Or.inl rfl)⟩

/-! ### Ordered sets -/

/-- C7, the failing run. The set under key `k` holds the one element `a` with
score 1.0. `zadd(k, "a", 1, 2.0, NOT_EXIST)` returns true and the set stored
afterwards holds `a` twice: `oset_search` compares the stored length, which
counts the 16-byte header, with `vn` and so does not find `a`. -/
theorem C7_zadd_duplicate_accepted :
    ((kvOf [mkNode 0 [107] (encodeOSet [(score1, [97])])]).zadd [107] [97] score2
        UpdateType.NOT_EXIST freshObj []).map (fun r => r.1) = some true ∧
    ((kvOf [mkNode 0 [107] (encodeOSet [(score1, [97])])]).zadd [107] [97] score2
        UpdateType.NOT_EXIST freshObj []).map (fun r => r.2.buckets_ 0) =
      some [mkNode 0 [107] (encodeOSet [(score1, [97]), (score2, [97])])] := by
  decide

/-- C8, the failing run. The set under key `k` holds `a` (score 1.0) and `b`
(score 2.0); the value passed is 17 bytes long and is no element of the set.
`zadd(k, v, 17, 3.0, EXIST)` returns true and rewrites the element `a`: its
length field becomes 33 and its score 3.0. -/
theorem C8_zadd_exist_rewrites_other :
    ((kvOf [mkNode 0 [107] (encodeOSet [(score1, [97]), (score2, [98])])]).zrange
        [107] 0 1 []).1 = some (true, [([97], 1), ([98], 1)]) ∧
    ((kvOf [mkNode 0 [107] (encodeOSet [(score1, [97]), (score2, [98])])]).zadd [107]
        craftedValue score3 UpdateType.EXIST freshObj []).map (fun r => r.1) = some true ∧
    ((kvOf [mkNode 0 [107] (encodeOSet [(score1, [97]), (score2, [98])])]).zadd [107]
        craftedValue score3 UpdateType.EXIST freshObj []).map (fun r => r.2.buckets_ 0) =
      some [mkNode 0 [107]
        (encode64 2 ++ encode64 33 ++ encode64 score3 ++ [97] ++ encodeEle score2 [98])] := by
  decide

/-- C9, the failing run. Starting from the empty map, `zadd(k, "a", 1, 1.0,
NOT_EXIST)` and then `zadd(k, "a", 1, 2.0, NOT_EXIST)` both return true; the set
then counts two elements and `zrange(k, 0, 1)` returns the value `a` twice. -/
theorem C9_zrange_holds_value_twice :
    ((kvOf []).zadd [107] [97] score1 UpdateType.NOT_EXIST freshObj []).map (fun r => r.1) =
      some true ∧
    (((kvOf []).zadd [107] [97] score1 UpdateType.NOT_EXIST freshObj []).bind
      (fun r => r.2.zadd [107] [97] score2 UpdateType.NOT_EXIST freshObj [])).map
        (fun r => r.1) = some true ∧
    (((kvOf []).zadd [107] [97] score1 UpdateType.NOT_EXIST freshObj []).bind
      (fun r => r.2.zadd [107] [97] score2 UpdateType.NOT_EXIST freshObj [])).map
        (fun r => (r.2.zrange [107] 0 1 []).1) =
      some (some (true, [([97], 1), ([97], 1)])) := by
  decide


theorem readBytes_append_left (a x : Bytes) (j len : Nat) :
    readBytes (a ++ x) (a.length + j) len = readBytes x j len := by
  unfold readBytes
  rw [← List.drop_drop, List.drop_left]

theorem readBytes_prefix (x y : Bytes) : readBytes (x ++ y) 0 x.length = x := by
  unfold readBytes
  simp

theorem encodeEles_append (a b : List (Nat × Bytes)) :
    encodeEles (a ++ b) = encodeEles a ++ encodeEles b := by
  induction a with
  | nil => rfl
  | cons e es ih => simp [encodeEles, ih]

theorem encodeEle_length (score : Nat) (v : Bytes) :
    (encodeEle score v).length = sizeofOSetEle + v.length := by
  simp [encodeEle, encode64_length, sizeofOSetEle]
  omega

/-- What the code reads at the element `e` of a well-formed block: `pre` are
the elements before it, `post` those after it. -/
theorem oset_element_reads (hd : Bytes) (hhd : hd.length = 8) (pre post : List (Nat × Bytes))
    (e : Nat × Bytes) (slack : Bytes) (he : OSetEle.total_size e.2.length < 2 ^ 64) :
    readU64 (hd ++ encodeEles (pre ++ e :: post) ++ slack) (8 + (encodeEles pre).length) =
      OSetEle.total_size e.2.length ∧
    readU64 (hd ++ encodeEles (pre ++ e :: post) ++ slack) (8 + (encodeEles pre).length + 8) =
      e.1 % 2 ^ 64 ∧
    readBytes (hd ++ encodeEles (pre ++ e :: post) ++ slack)
      (8 + (encodeEles pre).length + sizeofOSetEle) e.2.length = e.2 := by
  have hmem : hd ++ encodeEles (pre ++ e :: post) ++ slack =
      (hd ++ encodeEles pre) ++
        (encode64 (OSetEle.total_size e.2.length) ++
          (encode64 e.1 ++ (e.2 ++ (encodeEles post ++ slack)))) := by
    simp [encodeEles_append, encodeEles, encodeEle, List.append_assoc]
  have hlen : (hd ++ encodeEles pre).length = 8 + (encodeEles pre).length := by
    simp [hhd]
  rw [hmem, ← hlen]
  refine ⟨?_, ?_, ?_⟩
  · unfold readU64
    have h := readBytes_append_left (hd ++ encodeEles pre)
      (encode64 (OSetEle.total_size e.2.length) ++
        (encode64 e.1 ++ (e.2 ++ (encodeEles post ++ slack)))) 0 8
    rw [Nat.add_zero] at h
    rw [h]
    have h2 := readBytes_prefix (encode64 (OSetEle.total_size e.2.length))
      (encode64 e.1 ++ (e.2 ++ (encodeEles post ++ slack)))
    rw [encode64_length] at h2
    rw [h2, decode64_encode64 he]
  · unfold readU64
    rw [readBytes_append_left]
    have h := readBytes_append_left (encode64 (OSetEle.total_size e.2.length))
      (encode64 e.1 ++ (e.2 ++ (encodeEles post ++ slack))) 0 8
    rw [encode64_length, Nat.add_zero] at h
    rw [h]
    have h2 := readBytes_prefix (encode64 e.1) (e.2 ++ (encodeEles post ++ slack))
    rw [encode64_length] at h2
    rw [h2]
    unfold encode64
    rw [decode64_encodeLE]
    norm_num
  · rw [readBytes_append_left]
    have h := readBytes_append_left
      (encode64 (OSetEle.total_size e.2.length) ++ encode64 e.1)
      (e.2 ++ (encodeEles post ++ slack)) 0 e.2.length
    simp only [List.length_append, encode64_length, Nat.add_zero] at h
    rw [List.append_assoc] at h
    have h16 : sizeofOSetEle = 8 + 8 := rfl
    rw [h16, h]
    exact readBytes_prefix _ _


theorem oset_iter_at (hd : Bytes) (hhd : hd.length = 8) (pre post : List (Nat × Bytes))
    (e : Nat × Bytes) (slack : Bytes) (he : OSetEle.total_size e.2.length < 2 ^ 64) :
    oset_iter (hd ++ encodeEles (pre ++ e :: post) ++ slack)
        (8 + (encodeEles (pre ++ e :: post)).length) (some (8 + (encodeEles pre).length)) =
      some (8 + (encodeEles (pre ++ [e])).length) := by
  have hr := (oset_element_reads hd hhd pre post e slack he).1
  have hl : (encodeEles (pre ++ e :: post)).length =
      (encodeEles pre).length + (sizeofOSetEle + e.2.length) + (encodeEles post).length := by
    rw [encodeEles_append]
    simp only [encodeEles, List.length_append, encodeEle_length]
    omega
  have hl2 : (encodeEles (pre ++ [e])).length =
      (encodeEles pre).length + (sizeofOSetEle + e.2.length) := by
    rw [encodeEles_append]
    simp only [encodeEles, List.length_append, encodeEle_length, List.length_nil]
    omega
  have h16 : sizeofOSetEle = 16 := rfl
  unfold oset_iter
  simp only [hr, hl, hl2, OSetEle.total_size, h16]
  rw [if_neg (by omega)]
  congr 1
  omega

theorem zrange_skip_at (hd : Bytes) (hhd : hd.length = 8) (slack : Bytes) (cnt : Nat)
    (pre post : List (Nat × Bytes))
    (hsize : ∀ e ∈ post, OSetEle.total_size e.2.length < 2 ^ 64)
    (hcnt : cnt ≤ post.length) :
    zrange_skip (hd ++ encodeEles (pre ++ post) ++ slack)
        (8 + (encodeEles (pre ++ post)).length) cnt (some (8 + (encodeEles pre).length)) =
      some (8 + (encodeEles (pre ++ post.take cnt)).length) := by
  induction cnt generalizing pre post with
  | zero => simp [zrange_skip]
  | succ cnt ih =>
    cases post with
    | nil => simp at hcnt
    | cons e post =>
      unfold zrange_skip
      rw [oset_iter_at hd hhd pre post e slack (hsize e (List.mem_cons_self _ _))]
      have h := ih (pre ++ [e]) post (fun x hx => hsize x (List.mem_cons_of_mem _ hx))
        (by simpa using hcnt)
      have e1 : (pre ++ [e]) ++ post = pre ++ e :: post := by simp
      have e2 : (pre ++ [e]) ++ post.take cnt = pre ++ (e :: post).take (cnt + 1) := by simp
      rw [e1, e2] at h
      exact h

theorem zrange_copy_at (hd : Bytes) (hhd : hd.length = 8) (slack : Bytes) (cnt : Nat)
    (pre post : List (Nat × Bytes)) (bi : List (Bytes × Nat))
    (hsize : ∀ e ∈ post, OSetEle.total_size e.2.length < 2 ^ 64)
    (hcnt : cnt ≤ post.length) :
    zrange_copy (hd ++ encodeEles (pre ++ post) ++ slack)
        (8 + (encodeEles (pre ++ post)).length) cnt (some (8 + (encodeEles pre).length)) bi =
      some (bi ++ (post.take cnt).map (fun e => (e.2, e.2.length))) := by
  induction cnt generalizing pre post bi with
  | zero => simp [zrange_copy]
  | succ cnt ih =>
    cases post with
    | nil => simp at hcnt
    | cons e post =>
      have he := hsize e (List.mem_cons_self _ _)
      obtain ⟨r1, _, r3⟩ := oset_element_reads hd hhd pre post e slack he
      unfold zrange_copy
      rw [oset_iter_at hd hhd pre post e slack he]
      simp only [r1]
      have hlenv : (OSetEle.total_size e.2.length + 2 ^ 64 - sizeofOSetEle) % 2 ^ 64 =
          e.2.length := by
        unfold OSetEle.total_size at he ⊢
        have h16 : sizeofOSetEle = 16 := rfl
        rw [h16] at he ⊢
        have : 16 + e.2.length + 2 ^ 64 - 16 = e.2.length + 2 ^ 64 := by omega
        rw [this, Nat.add_mod_right]
        exact Nat.mod_eq_of_lt (by omega)
      rw [hlenv, r3]
      have h := ih (pre ++ [e]) post (bi ++ [(e.2, e.2.length)])
        (fun x hx => hsize x (List.mem_cons_of_mem _ hx)) (by simpa using hcnt)
      have e1 : (pre ++ [e]) ++ post = pre ++ e :: post := by simp
      rw [e1] at h
      rw [h]
      simp


theorem toU64_of_nonneg (x : Int) (h0 : 0 ≤ x) (h1 : x < 2 ^ 64) : toU64 x = x.toNat := by
  unfold toU64
  rw [Int.emod_eq_of_lt h0 h1]

/-- C10. The value stored under `key` is the block of an ordered set with the
elements `es` (each a score and a value), and `0 <= start <= end < count`. Then
`zrange(key, start, end)` returns true and appends exactly `end - start + 1`
values: the value bytes, each with its length (the stored length less the
16-byte header), of the elements at the positions `start..end`, in stored
order. -/
theorem C10_zrange_returns_range (s : SyncKV) (key : Bytes) (es : List (Nat × Bytes))
    (start stop : Int) (slack : Bytes)
    (hstored : (s.get_ key).1 = some (encodeOSet es, (encodeOSet es).length))
    (hcount : es.length < 2 ^ 64)
    (hsize : ∀ e ∈ es, OSetEle.total_size e.2.length < 2 ^ 64)
    (h0 : 0 ≤ start) (h1 : start ≤ stop) (h2 : stop < es.length) :
    (s.zrange key start stop slack).1 =
      some (true, ((es.drop start.toNat).take (stop.toNat - start.toNat + 1)).map
        (fun e => (e.2, e.2.length))) ∧
    (((es.drop start.toNat).take (stop.toNat - start.toNat + 1)).map
        (fun e => (e.2, e.2.length))).length = stop.toNat - start.toNat + 1 := by
  have hlt : (es.length : Int) < 2 ^ 64 := by exact_mod_cast hcount
  have hs0 : 0 ≤ stop := le_trans h0 h1
  have hstart : toU64 start = start.toNat := toU64_of_nonneg start h0 (by omega)
  have hstop : toU64 stop = stop.toNat := toU64_of_nonneg stop hs0 (by omega)
  have hsn : start.toNat ≤ stop.toNat := Int.toNat_le_toNat h1
  have hen : stop.toNat < es.length := by omega
  have hhd : (encode64 es.length).length = 8 := encode64_length _
  have hsplit : es = es.take start.toNat ++ es.drop start.toNat :=
    (List.take_append_drop _ _).symm
  have hlenO : (encodeOSet es).length = 8 + (encodeEles es).length := by
    simp [encodeOSet, hhd]
  have hnum : readU64 (encodeOSet es ++ slack) 0 = es.length := by
    unfold readU64 encodeOSet
    rw [List.append_assoc]
    have h := readBytes_prefix (encode64 es.length) (encodeEles es ++ slack)
    rw [hhd] at h
    rw [h, decode64_encode64 hcount]
  constructor
  · cases hg : s.get_ key with
    | mk r s1 =>
      rw [hg] at hstored
      simp only at hstored
      subst hstored
      unfold SyncKV.zrange
      simp only [hg, hnum, hstart, hstop]
      rw [if_neg (by omega), if_neg (by omega)]
      have hskip := zrange_skip_at (encode64 es.length) hhd slack start.toNat [] es hsize
        (by omega)
      simp only [List.nil_append, encodeEles, List.length_nil, Nat.add_zero] at hskip
      have hcopy := zrange_copy_at (encode64 es.length) hhd slack
        (stop.toNat + 1 - start.toNat) (es.take start.toNat) (es.drop start.toNat) []
        (fun e he => hsize e (List.mem_of_mem_drop he))
        (by rw [List.length_drop]; omega)
      rw [← hsplit] at hcopy
      unfold encodeOSet at hlenO ⊢
      rw [hlenO, hskip, hcopy]
      have hc : stop.toNat + 1 - start.toNat = stop.toNat - start.toNat + 1 := by omega
      simp [hc]
  · rw [List.length_map, List.length_take, List.length_drop]
    omega

/-- Witness of C10: the set `a` (1.0), `c` (2.0), `b` (3.0), range 1..2. -/
theorem C10_zrange_returns_range_witness :
    ((kvOf [mkNode 0 [107] (encodeOSet [(score1, [97]), (score2, [99]), (score3, [98])])]).zrange
        [107] 1 2 []).1 = some (true, [([99], 1), ([98], 1)]) :=
  (C10_zrange_returns_range
    (kvOf [mkNode 0 [107] (encodeOSet [(score1, [97]), (score2, [99]), (score3, [98])])])
    [107] [(score1, [97]), (score2, [99]), (score3, [98])] 1 2 []
    (by decide) (by decide) (by decide) (by decide) (by decide) (by decide)).1


/-! ### The chain invariant -/

theorem UInt8_toNat_inj {a b : UInt8} (h : a.toNat = b.toNat) : a = b := by
  exact UInt8.ext h

theorem UInt8_toNat_ne_zero {a : UInt8} (h : a ≠ 0) : a.toNat ≠ 0 := by
  intro h0
  apply h
  apply UInt8_toNat_inj
  rw [h0]
  rfl

theorem strncmp_eq_zero_iff (a b : Bytes) (n : Nat) :
    strncmp a b n = 0 ↔ cstr a n = cstr b n := by
  induction n generalizing a b with
  | zero => simp [strncmp, cstr]
  | succ n ih =>
    cases a with
    | nil =>
      cases b with
      | nil => simp [strncmp, cstr]
      | cons y ys =>
        by_cases hy : y = 0
        · simp [strncmp, cstr, hy]
        · have := UInt8_toNat_ne_zero hy
          simp [strncmp, cstr, hy, this]
    | cons x xs =>
      cases b with
      | nil =>
        by_cases hx : x = 0
        · simp [strncmp, cstr, hx]
        · have := UInt8_toNat_ne_zero hx
          simp [strncmp, cstr, hx, this]
      | cons y ys =>
        by_cases hxy : x = y
        · subst hxy
          by_cases hx : x = 0
          · simp [strncmp, cstr, hx]
          · have h := ih xs ys
            simp only [cstr] at h
            simp [strncmp, cstr, hx, h]
        · have hne : (x.toNat : Int) - (y.toNat : Int) ≠ 0 := by
            intro h
            apply hxy
            apply UInt8_toNat_inj
            omega
          by_cases hx : x = 0
          · have hy : y ≠ 0 := fun h => hxy (hx.trans h.symm)
            have hy2 := UInt8_toNat_ne_zero hy
            subst hx
            simp [strncmp, cstr, hxy, hne, hy, hy2]
          · have hx2 := UInt8_toNat_ne_zero hx
            by_cases hy : y = 0
            · simp [strncmp, cstr, hxy, hne, hx, hy, hx2]
            · simp [strncmp, cstr, hxy, hne, hx, hy]


theorem strncmp_symm {a b : Bytes} {n : Nat} (h : strncmp a b n = 0) : strncmp b a n = 0 :=
  (strncmp_eq_zero_iff b a n).mpr ((strncmp_eq_zero_iff a b n).mp h).symm

theorem strncmp_trans {a b c : Bytes} {n : Nat} (h1 : strncmp a b n = 0)
    (h2 : strncmp b c n = 0) : strncmp a c n = 0 :=
  (strncmp_eq_zero_iff a c n).mpr
    (((strncmp_eq_zero_iff a b n).mp h1).trans ((strncmp_eq_zero_iff b c n).mp h2))

theorem keyEq_of_content {n m : BucketNode} (h : m.content = n.content) (kh : Nat) (k : Bytes) :
    m.keyEq kh k ↔ n.keyEq kh k := by
  unfold BucketNode.content at h
  have h1 : m.key_hash = n.key_hash := congrArg Prod.fst h
  have h2 : m.pair.bytes = n.pair.bytes := congrArg Prod.snd h
  exact keyEq_of_bytes h1 h2 kh k

theorem countP_keyEq_map (kh : Nat) (k : Bytes) (chain : BNPtr) :
    chain.countP (fun n => decide (n.keyEq kh k)) =
      (chain.map BucketNode.content).countP
        (fun c => decide (kh = c.1 ∧ readU64 c.2 0 = k.length ∧
          strncmp k (readBytes c.2 16 k.length) k.length = 0)) := by
  rw [List.countP_map]
  rfl

/-- A chain whose contents are, in order, among those of a chain that satisfies
the invariant satisfies it too. -/
theorem ChainInv_of_sublist {X L : BNPtr}
    (h : List.Sublist (X.map BucketNode.content) (L.map BucketNode.content))
    (hL : ChainInv L) : ChainInv X := by
  constructor
  · intro n hn
    have h1 : n.content ∈ L.map BucketNode.content :=
      h.subset (List.mem_map_of_mem _ hn)
    obtain ⟨m, hm, hc⟩ := List.mem_map.mp h1
    have hb : m.pair.bytes = n.pair.bytes := congrArg Prod.snd hc
    rw [← hb]
    exact hL.1 m hm
  · intro kh k
    rw [countP_keyEq_map]
    have := hL.2 kh k
    rw [countP_keyEq_map] at this
    exact le_trans (List.Sublist.countP_le _ h) this

theorem iterate_list_content (kh : Nat) (k : Bytes) (w : Walk) :
    List.Sublist ((iterate_list kh k w).cur.chain.map BucketNode.content)
      (w.cur.chain.map BucketNode.content) := by
  cases hnode : w.cur.node with
  | nil =>
    unfold iterate_list
    simp [hnode]
  | cons n next =>
    unfold Cursor.chain
    rcases iterate_list_cases kh k hnode with ⟨p, hs, _, he⟩ | ⟨p, hs, _, he⟩ | ⟨_, he⟩
    · rw [he, hnode]
      simp only [List.map_append, List.map_cons, BucketNode.content, hs.2.2.1]
      exact List.Sublist.refl _
    · rw [he, hnode]
      simp only [List.map_append, List.map_cons, BucketNode.content, hs.2.2.1, List.map_nil,
        List.append_assoc, List.singleton_append]
      exact List.Sublist.refl _
    · rw [he, hnode]
      simp only [List.map_append, List.map_cons]
      exact List.Sublist.append_left (List.sublist_cons_self _ _) _

theorem find_loop_content (kh : Nat) (k : Bytes) (fuel : Nat) (w : Walk) :
    List.Sublist ((find_loop kh k fuel w).cur.chain.map BucketNode.content)
      (w.cur.chain.map BucketNode.content) := by
  induction fuel generalizing w with
  | zero => exact List.Sublist.refl _
  | succ fuel ih =>
    unfold find_loop
    cases hnode : w.cur.node with
    | nil => exact List.Sublist.refl _
    | cons n next =>
      simp only []
      split
      · exact iterate_list_content kh k w
      · exact (ih _).trans (iterate_list_content kh k w)


theorem commit_content (s : SyncKV) (idx : Nat) (chain : BNPtr) (st : CacheStats)
    (h : List.Sublist (chain.map BucketNode.content) ((s.buckets_ idx).map BucketNode.content))
    (j : Nat) :
    List.Sublist (((s.commit idx chain st).buckets_ j).map BucketNode.content)
      ((s.buckets_ j).map BucketNode.content) := by
  by_cases hj : j = idx
  · subst hj
    rw [commit_buckets_same]
    exact h
  · rw [commit_buckets_other _ _ _ _ j hj]

theorem delete_node_content (c : Cursor) :
    List.Sublist ((delete_node c).chain.map BucketNode.content)
      (c.chain.map BucketNode.content) := by
  unfold delete_node Cursor.chain
  cases hnode : c.node with
  | nil => simp [hnode]
  | cons n next =>
    simp only [List.map_append, List.map_cons]
    exact List.Sublist.append_left (List.sublist_cons_self _ _) _

theorem ObjectPtr.copy_to_bytes {p q : ObjectPtr} {len off : Nat} {b : Bytes}
    (h : p.copy_to len off = some (b, q)) : q.bytes = p.bytes := by
  rw [ObjectPtr.copy_to_eq] at h
  cases ha : p.access with
  | none => rw [ha] at h; exact absurd h (by simp)
  | some r =>
    rw [ha] at h
    simp only [Option.map_some', Option.some.injEq, Prod.mk.injEq] at h
    rw [← h.2]
    exact (ObjectPtr.access_sameObj ha).2.2.1

/-- The method `get_` only removes nodes or lets time pass for their objects. -/
theorem get__content (s : SyncKV) (k : Bytes) (j : Nat) :
    List.Sublist (((s.get_ k).2.buckets_ j).map BucketNode.content)
      ((s.buckets_ j).map BucketNode.content) := by
  unfold SyncKV.get_
  simp only []
  have hsub := find_loop_content (s.hash_ k) k (s.buckets_ (s.hash_ k % s.NBuckets)).length
    { found := false, vn := some 0,
      cur := { before := [], node := s.buckets_ (s.hash_ k % s.NBuckets) }, stats := s.stats }
  generalize find_loop (s.hash_ k) k (s.buckets_ (s.hash_ k % s.NBuckets)).length
    { found := false, vn := some 0,
      cur := { before := [], node := s.buckets_ (s.hash_ k % s.NBuckets) },
      stats := s.stats } = w at hsub
  simp only [Cursor.chain, List.nil_append] at hsub
  by_cases hf : w.found = true
  · simp only [hf, Bool.not_true, Bool.false_eq_true, if_false]
    cases hnode : w.cur.node with
    | nil =>
      simp only []
      exact commit_content _ _ _ _ hsub j
    | cons n next =>
      simp only []
      have hdel : List.Sublist
          ((delete_node { before := w.cur.before, node := n :: next }).chain.map
            BucketNode.content)
          ((s.buckets_ (s.hash_ k % s.NBuckets)).map BucketNode.content) := by
        have h := delete_node_content w.cur
        rw [hnode] at hsub
        have h2 := delete_node_content { before := w.cur.before, node := n :: next }
        exact h2.trans hsub
      have hcur : w.cur = { before := w.cur.before, node := n :: next } := by
        cases hc : w.cur with
        | mk b nd =>
          rw [hc] at hnode
          simp only at hnode
          rw [hnode]
      rw [hcur]
      by_cases hnull : n.pair.null = true
      · simp only [hnull, if_true]
        exact commit_content _ _ _ _ hdel j
      · simp only [hnull, if_false]
        cases hc : n.pair.copy_to (w.vn.getD 0) (k.length + 8 * 2) with
        | none =>
          simp only []
          exact commit_content _ _ _ _ hdel j
        | some r =>
          obtain ⟨stored_v, p⟩ := r
          simp only []
          apply commit_content
          rw [hnode] at hsub
          have hb := ObjectPtr.copy_to_bytes hc
          simp only [List.map_append, List.map_cons, BucketNode.content, hb] at hsub ⊢
          exact hsub
  · have hf2 : w.found = false := by
      cases h : w.found with
      | true => exact absurd h hf
      | false => rfl
    simp only [hf2, Bool.not_false, if_true]
    exact commit_content _ _ _ _ hsub j

/-- The method `remove` only removes nodes or lets time pass for their objects. -/
theorem remove_content (s : SyncKV) (k : Bytes) (j : Nat) :
    List.Sublist (((s.remove k).2.buckets_ j).map BucketNode.content)
      ((s.buckets_ j).map BucketNode.content) := by
  unfold SyncKV.remove
  simp only []
  have hsub := find_loop_content (s.hash_ k) k (s.buckets_ (s.hash_ k % s.NBuckets)).length
    { found := false, vn := none,
      cur := { before := [], node := s.buckets_ (s.hash_ k % s.NBuckets) }, stats := s.stats }
  generalize find_loop (s.hash_ k) k (s.buckets_ (s.hash_ k % s.NBuckets)).length
    { found := false, vn := none,
      cur := { before := [], node := s.buckets_ (s.hash_ k % s.NBuckets) },
      stats := s.stats } = w at hsub
  simp only [Cursor.chain, List.nil_append] at hsub
  split
  · exact commit_content _ _ _ _ hsub j
  · exact commit_content _ _ _ _ ((delete_node_content w.cur).trans hsub) j


theorem ObjectPtr.copy_from_bytes {p q : ObjectPtr} {src : Bytes} {off : Nat}
    (h : p.copy_from src off = some q) : q.bytes = writeBytes p.bytes off src := by
  unfold ObjectPtr.copy_from at h
  cases ha : p.access with
  | none => rw [ha] at h; exact absurd h (by simp)
  | some r =>
    rw [ha] at h
    simp only [Option.some.injEq] at h
    rw [← h]
    simp only [(ObjectPtr.access_sameObj ha).2.2.1]

theorem set_found_true (k v : Bytes) (w1 : Walk) (m : BucketNode) (next : BNPtr)
    (hnode : w1.cur.node = m :: next) (hres : (set_found k v w1).1 = true) :
    ∃ p2, (set_found k v w1).2 =
        { w1 with cur := { w1.cur with node := { key_hash := m.key_hash, pair := p2 } :: next } } ∧
      p2.bytes = inplace_payload m.pair.bytes k v ∧ v.length ≤ w1.vn.getD 0 := by
  unfold set_found at hres ⊢
  simp only [hnode] at hres ⊢
  by_cases hc : v.length ≤ w1.vn.getD 0 ∧ m.pair.null = false
  · simp only [hc, and_self, if_true] at hres ⊢
    cases h1 : m.pair.copy_from (encode64 v.length) 8 with
    | none =>
      simp only [h1] at hres
      exact absurd hres (by simp)
    | some p1 =>
      simp only [h1] at hres ⊢
      cases h2 : p1.copy_from v (k.length + 8 * 2) with
      | none =>
        simp only [h2] at hres
        exact absurd hres (by simp)
      | some p2 =>
        simp only []
        refine ⟨p2, rfl, ?_, trivial⟩
        rw [ObjectPtr.copy_from_bytes h2, ObjectPtr.copy_from_bytes h1]
        rfl
  · simp only [hc, if_false] at hres
    exact absurd hres (by simp)

theorem create_node_cases (alloc_to : Nat → Option ObjectPtr) (kh : Nat) (k v : Bytes) :
    create_node alloc_to kh k v = [] ∨
    ∃ p0 p4, alloc_to (8 * 2 + k.length + v.length) = some p0 ∧
      create_node alloc_to kh k v = [{ key_hash := kh, pair := p4 }] ∧
      p4.bytes = node_payload p0.bytes k v := by
  unfold create_node
  cases h0 : alloc_to (8 * 2 + k.length + v.length) with
  | none => left; rfl
  | some p0 =>
    simp only []
    cases h1 : p0.copy_from (encode64 k.length) 0 with
    | none => left; rfl
    | some p1 =>
      simp only []
      cases h2 : p1.copy_from (encode64 v.length) 8 with
      | none => left; rfl
      | some p2 =>
        simp only []
        cases h3 : p2.copy_from k (8 * 2) with
        | none => left; rfl
        | some p3 =>
          simp only []
          cases h4 : p3.copy_from v (k.length + 8 * 2) with
          | none => left; rfl
          | some p4 =>
            simp only []
            by_cases hn : p4.null = true
            · left; simp [hn]
            · right
              refine ⟨p0, p4, rfl, by simp [hn], ?_⟩
              rw [ObjectPtr.copy_from_bytes h4, ObjectPtr.copy_from_bytes h3,
                ObjectPtr.copy_from_bytes h2, ObjectPtr.copy_from_bytes h1]
              rfl

/-- The loop of `set` over an arbitrary chain. When it ends without an update in
place, the nodes left before the slot `prev_next` points at do not carry the
key, and the chain holds nothing new; when it ends with an update in place, the
node written is a node for the key and its bytes are the old ones with the new
value length and value written over them. -/
theorem set_loop_shape (kh : Nat) (k v : Bytes) (L : BNPtr) (fuel : Nat) (w : Walk)
    (hvn : ∃ x, w.vn = some x)
    (hP1 : ∀ m ∈ w.cur.before, ¬ m.keyEq kh k)
    (hP2 : List.Sublist (w.cur.chain.map BucketNode.content) (L.map BucketNode.content)) :
    ((set_loop kh k v fuel w).1 = false →
      (∀ m ∈ (set_loop kh k v fuel w).2.cur.before, ¬ m.keyEq kh k) ∧
      List.Sublist ((set_loop kh k v fuel w).2.cur.chain.map BucketNode.content)
        (L.map BucketNode.content)) ∧
    ((set_loop kh k v fuel w).1 = true →
      ∃ n p2 next,
        (set_loop kh k v fuel w).2.cur.node = { key_hash := n.key_hash, pair := p2 } :: next ∧
        List.Sublist
          (((set_loop kh k v fuel w).2.cur.before ++ n :: next).map BucketNode.content)
          (L.map BucketNode.content) ∧
        n.keyEq kh k ∧ v.length ≤ readU64 n.pair.bytes 8 ∧
        p2.bytes = inplace_payload n.pair.bytes k v) := by
  induction fuel generalizing w with
  | zero =>
    simp only [set_loop]
    exact ⟨fun _ => ⟨hP1, hP2⟩, fun h => absurd h (by simp)⟩
  | succ fuel ih =>
    unfold set_loop
    cases hnode : w.cur.node with
    | nil =>
      simp only []
      exact ⟨fun _ => ⟨hP1, hP2⟩, fun h => absurd h (by simp)⟩
    | cons n next =>
      simp only []
      have hchain : w.cur.chain = w.cur.before ++ n :: next := by
        unfold Cursor.chain; rw [hnode]
      rw [hchain] at hP2
      rcases iterate_list_cases kh k hnode with ⟨p, hs, hk, he⟩ | ⟨p, hs, hk, he⟩ | ⟨_, he⟩
      · rw [he]
        simp only [if_true]
        constructor
        · intro hres
          rw [set_found_false k v _ { key_hash := n.key_hash, pair := p } next rfl hres]
          refine ⟨hP1, ?_⟩
          simp only [Cursor.chain]
          refine List.Sublist.trans ?_ hP2
          simp only [List.map_append, List.map_cons]
          exact List.Sublist.append_left (List.sublist_cons_self _ _) _
        · intro hres
          obtain ⟨p2, h2, hb, hle⟩ :=
            set_found_true k v _ { key_hash := n.key_hash, pair := p } next rfl hres
          rw [h2]
          refine ⟨n, p2, next, rfl, hP2, hk, ?_, ?_⟩
          · obtain ⟨x, hx⟩ := hvn
            simpa [hx] using hle
          · rw [hb]
            show inplace_payload p.bytes k v = _
            rw [hs.2.2.1]
      · rw [he]
        simp only [Bool.false_eq_true, if_false]
        apply ih
        · exact hvn
        · intro m hm
          rcases List.mem_append.mp hm with h1 | h1
          · exact hP1 m h1
          · rw [List.mem_singleton.mp h1]
            exact fun h => hk ((keyEq_of_bytes (m := { key_hash := n.key_hash, pair := p })
              (n := n) rfl hs.2.2.1 kh k).mp h)
        · simp only [Cursor.chain, List.map_append, List.map_cons, BucketNode.content,
            hs.2.2.1, List.map_nil, List.append_assoc, List.singleton_append]
          simpa [BucketNode.content] using hP2
      · rw [he]
        simp only [Bool.false_eq_true, if_false]
        apply ih
        · exact hvn
        · exact hP1
        · refine List.Sublist.trans ?_ hP2
          simp only [Cursor.chain, List.map_append, List.map_cons]
          exact List.Sublist.append_left (List.sublist_cons_self _ _) _


theorem commit_Inv (s : SyncKV) (idx : Nat) (chain : BNPtr) (st : CacheStats)
    (hs : s.Inv) (hc : ChainInv chain) : (s.commit idx chain st).Inv := by
  intro j
  by_cases hj : j = idx
  · subst hj
    rw [commit_buckets_same]
    exact hc
  · rw [commit_buckets_other _ _ _ _ j hj]
    exact hs j

/-- Writing a value in place keeps the chain invariant. -/
theorem ChainInv_inplace {B next : BNPtr} {n : BucketNode} {p2 : ObjectPtr} {kh : Nat}
    {k v : Bytes} (hC : ChainInv (B ++ n :: next)) (hk : n.keyEq kh k)
    (hfit : v.length ≤ readU64 n.pair.bytes 8) (hv : v.length < 2 ^ 64)
    (hb : p2.bytes = inplace_payload n.pair.bytes k v) :
    ChainInv (B ++ { key_hash := n.key_hash, pair := p2 } :: next) := by
  have hwf : payload_wf n.pair.bytes :=
    hC.1 n (List.mem_append_right _ (List.mem_cons_self _ _))
  have hlen : 8 * 2 + k.length + v.length ≤ n.pair.bytes.length := by
    unfold payload_wf at hwf
    rw [hk.2.1] at hwf
    omega
  obtain ⟨f0, f8, fk, _, fl⟩ := inplace_payload_facts n.pair.bytes k v hv hlen
  have hkey : ∀ (kh2 : Nat) (k2 : Bytes),
      BucketNode.keyEq { key_hash := n.key_hash, pair := p2 } kh2 k2 ↔ n.keyEq kh2 k2 := by
    intro kh2 k2
    unfold BucketNode.keyEq
    simp only [hb, f0]
    constructor
    · rintro ⟨h1, h2, h3⟩
      have hl : k2.length = k.length := by rw [← h2, hk.2.1]
      rw [hl, fk, ← hl] at h3
      exact ⟨h1, h2, h3⟩
    · rintro ⟨h1, h2, h3⟩
      have hl : k2.length = k.length := by rw [← h2, hk.2.1]
      refine ⟨h1, h2, ?_⟩
      rw [hl, fk, ← hl]
      exact h3
  constructor
  · intro m hm
    rcases List.mem_append.mp hm with h1 | h1
    · exact hC.1 m (List.mem_append_left _ h1)
    · rcases List.mem_cons.mp h1 with h2 | h2
      · rw [h2]
        show payload_wf p2.bytes
        unfold payload_wf
        rw [hb, f0, f8, fl, hk.2.1]
        exact hlen
      · exact hC.1 m (List.mem_append_right _ (List.mem_cons_of_mem _ h2))
  · intro kh2 k2
    have h := hC.2 kh2 k2
    simp only [List.countP_append, List.countP_cons] at h ⊢
    have hd : decide (BucketNode.keyEq { key_hash := n.key_hash, pair := p2 } kh2 k2) =
        decide (n.keyEq kh2 k2) := by
      simp only [hkey kh2 k2]
    rw [hd]
    exact h

/-- Linking a fresh node for a key that the chain does not hold keeps the chain
invariant. -/
theorem ChainInv_append_new {B : BNPtr} {N : BucketNode} {b k v : Bytes}
    (hB : ChainInv B) (hno : ∀ m ∈ B, ¬ m.keyEq N.key_hash k)
    (hbytes : N.pair.bytes = node_payload b k v)
    (hlen : 8 * 2 + k.length + v.length ≤ b.length)
    (hk : k.length < 2 ^ 64) (hv : v.length < 2 ^ 64) :
    ChainInv (B ++ [N]) := by
  obtain ⟨f0, f8, fk, _, fl⟩ := node_payload_facts b k v hlen hk hv
  constructor
  · intro m hm
    rcases List.mem_append.mp hm with h1 | h1
    · exact hB.1 m h1
    · rw [List.mem_singleton.mp h1]
      unfold payload_wf
      rw [hbytes, f0, f8, fl]
      exact hlen
  · intro kh2 k2
    simp only [List.countP_append, List.countP_cons, List.countP_nil, Nat.zero_add]
    by_cases hN : N.keyEq kh2 k2
    · have hz : B.countP (fun n => decide (n.keyEq kh2 k2)) = 0 := by
        rw [List.countP_eq_zero]
        intro m hm
        simp only [decide_eq_true_eq]
        intro hmk
        apply hno m hm
        obtain ⟨n1, n2, n3⟩ := hN
        obtain ⟨m1, m2, m3⟩ := hmk
        rw [hbytes, f0] at n2
        rw [hbytes, ← n2, fk, n2] at n3
        refine ⟨by rw [← n1, m1], by rw [m2, n2], ?_⟩
        rw [n2]
        exact strncmp_trans (strncmp_symm n3) m3
      rw [hz]
      simp [hN]
    · have := hB.2 kh2 k2
      simp only [hN, decide_False, Bool.false_eq_true, if_false, Nat.add_zero]
      exact this

/-- The method `set` keeps the invariant of the map. -/
theorem set_Inv (s : SyncKV) (k v : Bytes) (alloc_to : Nat → Option ObjectPtr)
    (hs : s.Inv) (hk : k.length < 2 ^ 64) (hv : v.length < 2 ^ 64)
    (halloc : ∀ p, alloc_to (8 * 2 + k.length + v.length) = some p →
      8 * 2 + k.length + v.length ≤ p.bytes.length) :
    (s.set k v alloc_to).2.Inv := by
  have hshape := set_loop_shape (s.hash_ k) k v (s.buckets_ (s.hash_ k % s.NBuckets))
    (s.buckets_ (s.hash_ k % s.NBuckets)).length
    { found := false, vn := some 0,
      cur := { before := [], node := s.buckets_ (s.hash_ k % s.NBuckets) }, stats := s.stats }
    ⟨0, rfl⟩ (by simp) (by simp [Cursor.chain])
  unfold SyncKV.set
  simp only []
  generalize set_loop (s.hash_ k) k v (s.buckets_ (s.hash_ k % s.NBuckets)).length
    { found := false, vn := some 0,
      cur := { before := [], node := s.buckets_ (s.hash_ k % s.NBuckets) },
      stats := s.stats } = r at hshape
  have hL := hs (s.hash_ k % s.NBuckets)
  by_cases hr : r.1 = true
  · simp only [hr, if_true]
    obtain ⟨n, p2, next, hnode, hsub, hkey, hfit, hb⟩ := hshape.2 hr
    apply commit_Inv _ _ _ _ hs
    unfold Cursor.chain
    rw [hnode]
    exact ChainInv_inplace (ChainInv_of_sublist hsub hL) hkey hfit hv hb
  · have hr2 : r.1 = false := by
      cases h : r.1 with
      | true => exact absurd h hr
      | false => rfl
    simp only [hr2, Bool.false_eq_true, if_false]
    obtain ⟨hno, hsub⟩ := hshape.1 hr2
    rcases create_node_cases alloc_to (s.hash_ k) k v with hc | ⟨p0, p4, ha, hc, hb⟩
    · rw [hc]
      simp only []
      exact commit_Inv _ _ _ _ hs (ChainInv_of_sublist hsub hL)
    · rw [hc]
      simp only []
      apply commit_Inv _ _ _ _ hs
      have hB : ChainInv r.2.cur.before := by
        apply ChainInv_of_sublist _ hL
        refine List.Sublist.trans ?_ hsub
        unfold Cursor.chain
        rw [List.map_append]
        exact List.sublist_append_left _ _
      exact ChainInv_append_new (N := { key_hash := s.hash_ k, pair := p4 }) hB hno hb
        (halloc p0 ha) hk hv

/-- Every state the map goes through satisfies the invariant: in every bucket
chain no lookup key is matched by two nodes, and every payload holds its layout
in full. -/
theorem Reachable_Inv {s : SyncKV} (h : Reachable s) : s.Inv := by
  induction h with
  | init NBuckets hash_int hash_bytes stats =>
    intro idx
    exact ⟨by simp, by simp⟩
  | step_set k v alloc_to _ hk hv halloc ih => exact set_Inv _ k v alloc_to ih hk hv halloc
  | step_get k _ ih =>
    intro idx
    exact ChainInv_of_sublist (get__content _ k idx) (ih idx)
  | step_remove k _ ih =>
    intro idx
    exact ChainInv_of_sublist (remove_content _ k idx) (ih idx)
  | step_evacuate buckets _ hsame ih =>
    intro idx
    apply ChainInv_of_sublist _ (ih idx)
    show List.Sublist ((buckets idx).map BucketNode.content) _
    rw [hsame idx]

/-- C2. In every state the map goes through, after `remove(k, kn)` has returned
(true or false) the following `get_(k, kn)` reports a miss, whatever the soft
pointers of the chain do. -/
theorem C2_remove_then_get_misses (s : SyncKV) (hs : Reachable s) (k : Bytes) :
    ((s.remove k).2.get_ k).1 = none :=
  remove_then_get_of_unique s k ((Reachable_Inv hs (s.hash_ k % s.NBuckets)).2 (s.hash_ k) k)

/-- Witness of C2: keys `a` and `b` are set on an empty map of one bucket, then
`b` is removed. -/
theorem C2_remove_then_get_misses_witness :
    (((((kvOf []).set [97] [1] freshObj).2.set [98] [2] freshObj).2.remove [98]).2.get_
      [98]).1 = none :=
  C2_remove_then_get_misses _
    (Reachable.step_set [98] [2] freshObj
      (Reachable.step_set [97] [1] freshObj (Reachable.init 1 (fun _ => 0) (fun _ => 0) _)
        (by decide) (by decide) (by intro p hp; cases hp; decide))
      (by decide) (by decide) (by intro p hp; cases hp; decide))
    [98]


/-- C1. In every state the map goes through in which no soft pointer of the
bucket of `k` faults, and with an allocation that succeeds, `set(k, kn, v, vn)`
returns true and the following `get_(k, kn)` returns a buffer of `vn` bytes
equal to `v`. The statement covers the three prior states: `k` absent, `k`
present with room for `v` (update in place), `k` present with a shorter value
(node replaced). -/
theorem C1_set_then_get (s : SyncKV) (hs : Reachable s) (k v : Bytes)
    (alloc_to : Nat → Option ObjectPtr)
    (hk : k.length < 2 ^ 64) (hv : v.length < 2 ^ 64)
    (hchain : ∀ n ∈ s.buckets_ (s.hash_ k % s.NBuckets), n.pair.healthy)
    (halloc : ∃ p, alloc_to (8 * 2 + k.length + v.length) = some p ∧ p.healthy ∧
      8 * 2 + k.length + v.length ≤ p.bytes.length) :
    (s.set k v alloc_to).1 = true ∧
      ((s.set k v alloc_to).2.get_ k).1 = some (v, v.length) :=
  set_then_get_of_wf s k v alloc_to hk hv
    (fun n hn => ⟨hchain n hn, (Reachable_Inv hs (s.hash_ k % s.NBuckets)).1 n hn⟩) halloc

/-- Witness of C1, update in place: key `a` is set to a three-byte value on an
empty map of one bucket, then set to a one-byte value. -/
theorem C1_set_then_get_witness :
    (((kvOf []).set [97] [1, 2, 3] freshObj).2.set [97] [9] freshObj).1 = true ∧
      ((((kvOf []).set [97] [1, 2, 3] freshObj).2.set [97] [9] freshObj).2.get_ [97]).1 =
        some ([9], 1) :=
  C1_set_then_get _
    (Reachable.step_set [97] [1, 2, 3] freshObj (Reachable.init 1 (fun _ => 0) (fun _ => 0) _)
      (by decide) (by decide) (by intro p hp; cases hp; decide))
    [97] [9] freshObj (by decide) (by decide) (by decide) ⟨_, rfl, by decide, by decide⟩


/-! ### The rounds granted to the chain walks suffice -/

theorem iterate_list_node_length (kh : Nat) (k : Bytes) {w : Walk} {n : BucketNode}
    {next : BNPtr} (hw : w.cur.node = n :: next) (hf : (iterate_list kh k w).found = false) :
    (iterate_list kh k w).cur.node = next := by
  rcases iterate_list_cases kh k hw with ⟨p, _, _, he⟩ | ⟨p, _, _, he⟩ | ⟨_, he⟩
  · rw [he] at hf
    exact absurd hf (by simp)
  · rw [he]
  · rw [he]

/-- The loop of `get_` and `remove` ends within as many rounds as the chain has
nodes: granting more rounds changes nothing. -/
theorem find_loop_fuel (kh : Nat) (k : Bytes) (fuel extra : Nat) (w : Walk)
    (hfuel : w.cur.node.length ≤ fuel) :
    find_loop kh k (fuel + extra) w = find_loop kh k fuel w := by
  induction fuel generalizing w with
  | zero =>
    have hnil : w.cur.node = [] := List.length_eq_zero.mp (Nat.le_zero.mp hfuel)
    cases extra with
    | zero => rfl
    | succ e =>
      rw [Nat.zero_add]
      simp only [find_loop, hnil]
  | succ fuel ih =>
    have he : fuel + 1 + extra = (fuel + extra) + 1 := by omega
    rw [he]
    unfold find_loop
    cases hnode : w.cur.node with
    | nil => rfl
    | cons n next =>
      simp only []
      by_cases hf : (iterate_list kh k w).found = true
      · simp only [hf, if_true]
      · have hf2 : (iterate_list kh k w).found = false := by
          cases h : (iterate_list kh k w).found with
          | true => exact absurd h hf
          | false => rfl
        simp only [hf2, Bool.false_eq_true, if_false]
        apply ih
        rw [iterate_list_node_length kh k hnode hf2]
        rw [hnode] at hfuel
        simpa using hfuel

/-- The loop of `set` ends within as many rounds as the chain has nodes. -/
theorem set_loop_fuel (kh : Nat) (k v : Bytes) (fuel extra : Nat) (w : Walk)
    (hfuel : w.cur.node.length ≤ fuel) :
    set_loop kh k v (fuel + extra) w = set_loop kh k v fuel w := by
  induction fuel generalizing w with
  | zero =>
    have hnil : w.cur.node = [] := List.length_eq_zero.mp (Nat.le_zero.mp hfuel)
    cases extra with
    | zero => rfl
    | succ e =>
      rw [Nat.zero_add]
      simp only [set_loop, hnil]
  | succ fuel ih =>
    have he : fuel + 1 + extra = (fuel + extra) + 1 := by omega
    rw [he]
    unfold set_loop
    cases hnode : w.cur.node with
    | nil => rfl
    | cons n next =>
      simp only []
      by_cases hf : (iterate_list kh k w).found = true
      · simp only [hf, if_true]
      · have hf2 : (iterate_list kh k w).found = false := by
          cases h : (iterate_list kh k w).found with
          | true => exact absurd h hf
          | false => rfl
        simp only [hf2, Bool.false_eq_true, if_false]
        apply ih
        rw [iterate_list_node_length kh k hnode hf2]
        rw [hnode] at hfuel
        simpa using hfuel


/-- A result of the loop of `oset_search` does not depend on rounds granted
beyond those it used. -/
theorem oset_search_loop_fuel (mem : Bytes) (oset_len : Nat) (v : Bytes) (fuel extra : Nat)
    (iter : Option Nat) (r : Option Nat)
    (h : oset_search_loop mem oset_len v fuel iter = some r) :
    oset_search_loop mem oset_len v (fuel + extra) iter = some r := by
  induction fuel generalizing iter with
  | zero =>
    cases iter with
    | none =>
      cases extra <;> simpa [oset_search_loop] using h
    | some off => simp [oset_search_loop] at h
  | succ fuel ih =>
    have he : fuel + 1 + extra = (fuel + extra) + 1 := by omega
    rw [he]
    cases iter with
    | none => simpa [oset_search_loop] using h
    | some off =>
      unfold oset_search_loop at h ⊢
      split
      · rename_i hc
        simpa [hc] using h
      · rename_i hc
        simp only [hc, if_false] at h
        exact ih _ h

/-- C11. `zrange(key, start, end)` returns false and appends nothing when the
lookup of `key` yields no block (in particular when no node of the bucket holds
the key), when `start < 0`, when `end` exceeds the count in the first word of
the stored block, and when `end` is negative (the count being below `2^63`). -/
theorem C11_zrange_rejects (s : SyncKV) (key : Bytes) (start stop : Int) (slack : Bytes)
    (hstop : -2 ^ 63 ≤ stop ∧ stop < 2 ^ 63) :
    ((s.get_ key).1 = none → (s.zrange key start stop slack).1 = some (false, [])) ∧
    ((∀ q ∈ s.buckets_ (s.hash_ key % s.NBuckets),
        q.pair.healthy ∧ ¬ q.keyEq (s.hash_ key) key) →
      (s.zrange key start stop slack).1 = some (false, [])) ∧
    (start < 0 → (s.zrange key start stop slack).1 = some (false, [])) ∧
    (∀ buf oset_len, (s.get_ key).1 = some (buf, oset_len) →
      ((readU64 (buf ++ slack) 0 : Int) < stop ∨
        (stop < 0 ∧ readU64 (buf ++ slack) 0 < 2 ^ 63)) →
      (s.zrange key start stop slack).1 = some (false, [])) := by
  have hnone : (s.get_ key).1 = none → (s.zrange key start stop slack).1 = some (false, []) := by
    intro h
    unfold SyncKV.zrange
    cases hg : s.get_ key with
    | mk r s1 =>
      rw [hg] at h
      simp only at h
      subst h
      rfl
  refine ⟨hnone, ?_, ?_, ?_⟩
  · intro habs
    apply hnone
    rw [get__of_absent s key habs]
  · intro hneg
    unfold SyncKV.zrange
    cases hg : s.get_ key with
    | mk r s1 =>
      cases r with
      | none => rfl
      | some p =>
        obtain ⟨buf, oset_len⟩ := p
        simp only
        rw [if_pos (Or.inl hneg)]
  · intro buf oset_len hg0 hcmp
    unfold SyncKV.zrange
    cases hg : s.get_ key with
    | mk r s1 =>
      rw [hg] at hg0
      simp only at hg0
      subst hg0
      simp only
      have hgt : toU64 stop > readU64 (buf ++ slack) 0 := by
        unfold toU64
        rcases hcmp with h | ⟨h, hc⟩
        · omega
        · omega
      rw [if_pos (Or.inr hgt)]

/-- Witness of C11: a set of three elements, `zrange` from 0 to 4 and no node
under another key. -/
theorem C11_zrange_rejects_witness :
    ((kvOf [mkNode 0 [107] (encodeOSet [(score1, [97]), (score2, [99]), (score3, [98])])]).zrange
        [107] 0 4 []).1 = some (false, []) :=
  (C11_zrange_rejects
    (kvOf [mkNode 0 [107] (encodeOSet [(score1, [97]), (score2, [99]), (score3, [98])])])
    [107] 0 4 [] (by decide)).2.2.2
    (encodeOSet [(score1, [97]), (score2, [99]), (score3, [98])])
    (encodeOSet [(score1, [97]), (score2, [99]), (score3, [98])]).length
    (by decide) (Or.inl (by decide))

/-- C12. `zrevrange` returns true exactly when `zrange` on the same arguments
returns true, and then appends the values `zrange` appends, last one first; when
`zrange` returns false, `zrevrange` returns false and appends nothing. The map is
left in the state `zrange` leaves it in. -/
theorem C12_zrevrange_reverses (s : SyncKV) (key : Bytes) (start stop : Int) (slack : Bytes) :
    (∀ values, (s.zrange key start stop slack).1 = some (true, values) →
      (s.zrevrange key start stop slack).1 = some (true, values.reverse)) ∧
    (∀ values, (s.zrange key start stop slack).1 = some (false, values) →
      (s.zrevrange key start stop slack).1 = some (false, [])) ∧
    (∀ out, (s.zrevrange key start stop slack).1 = some (true, out) →
      ∃ values, (s.zrange key start stop slack).1 = some (true, values) ∧
        out = values.reverse) ∧
    ((s.zrevrange key start stop slack).1 = none ↔ (s.zrange key start stop slack).1 = none) ∧
    (s.zrevrange key start stop slack).2 = (s.zrange key start stop slack).2 := by
  unfold SyncKV.zrevrange
  cases hz : s.zrange key start stop slack with
  | mk r s1 =>
    cases r with
    | none => simp
    | some p =>
      obtain ⟨ok, values⟩ := p
      cases ok <;> simp

/-- Witness of C12: the set `a` (1.0), `c` (2.0), `b` (3.0), range 1..2 read
backwards. -/
theorem C12_zrevrange_reverses_witness :
    ((kvOf [mkNode 0 [107] (encodeOSet [(score1, [97]), (score2, [99]), (score3, [98])])]).zrevrange
        [107] 1 2 []).1 = some (true, [([98], 1), ([99], 1)]) :=
  (C12_zrevrange_reverses
    (kvOf [mkNode 0 [107] (encodeOSet [(score1, [97]), (score2, [99]), (score3, [98])])])
    [107] 1 2 []).1 [([99], 1), ([98], 1)] (by decide)

/-! ### The cache manager and the cache pools (claims C13–C17) -/

theorem get_pool_fst (m : CacheManager) (name : String) :
    (m.get_pool name).1 = m.pools_ name := by
  unfold CacheManager.get_pool
  cases m.pools_ name <;> rfl

theorem get_pool_snd (m : CacheManager) (name : String) : (m.get_pool name).2 = m := by
  unfold CacheManager.get_pool
  cases m.pools_ name <;> rfl

theorem step_pools_other (m : CacheManager) (op : PoolOp) (name : String)
    (hc : op ≠ PoolOp.create name) (hd : op ≠ PoolOp.delete name) :
    (m.step op).pools_ name = m.pools_ name := by
  cases op with
  | create n =>
    have hne : name ≠ n := fun h => hc (by rw [h])
    unfold CacheManager.step CacheManager.create_pool
    by_cases h : (m.pools_ n).isSome
    · simp [h]
    · simp [h, Function.update_noteq hne]
  | delete n =>
    have hne : name ≠ n := fun h => hd (by rw [h])
    unfold CacheManager.step CacheManager.delete_pool
    by_cases h : (m.pools_ n).isNone
    · simp [h]
    · simp [h, Function.update_noteq hne]
  | get n =>
    show ((m.get_pool n).2).pools_ name = m.pools_ name
    rw [get_pool_snd]

theorem step_create_kept (m : CacheManager) (name : String) (pool : CachePool)
    (h : m.pools_ name = some pool) :
    (m.step (PoolOp.create name)).pools_ name = some pool := by
  unfold CacheManager.step CacheManager.create_pool
  simp [h]

theorem run_kept (ops : List PoolOp) (m : CacheManager) (name : String) (pool : CachePool)
    (h : m.pools_ name = some pool) (hops : ∀ op ∈ ops, op ≠ PoolOp.delete name) :
    (m.run ops).pools_ name = some pool := by
  induction ops generalizing m with
  | nil => exact h
  | cons op rest ih =>
    have hd : op ≠ PoolOp.delete name := hops op (List.mem_cons_self _ _)
    have hstep : (m.step op).pools_ name = some pool := by
      by_cases hc : op = PoolOp.create name
      · rw [hc]
        exact step_create_kept m name pool h
      · rw [step_pools_other m op name hc hd]
        exact h
    exact ih (m.step op) hstep (fun o ho => hops o (List.mem_cons_of_mem _ ho))

theorem run_absent (ops : List PoolOp) (m : CacheManager) (name : String)
    (h : m.pools_ name = none) (hops : ∀ op ∈ ops, op ≠ PoolOp.create name) :
    (m.run ops).pools_ name = none := by
  induction ops generalizing m with
  | nil => exact h
  | cons op rest ih =>
    have hc : op ≠ PoolOp.create name := hops op (List.mem_cons_self _ _)
    have hstep : (m.step op).pools_ name = none := by
      by_cases hd : op = PoolOp.delete name
      · rw [hd]
        unfold CacheManager.step CacheManager.delete_pool
        simp [h]
      · rw [step_pools_other m op name hc hd]
        exact h
    exact ih (m.step op) hstep (fun o ho => hops o (List.mem_cons_of_mem _ ho))

theorem new_pools_default :
    CacheManager.new.pools_ default_pool_name = some (CachePool.new default_pool_name) := by
  simp [CacheManager.new, CacheManager.create_pool]

/-- C13. `create_pool(name)` returns false exactly when the map holds a pool
under `name`, and then the manager is unchanged; when the map holds none, it
returns true, the map holds a fresh pool under `name`, and the entry of every
other name is as before. -/
theorem C13_create_pool (m : CacheManager) (name : String) :
    ((m.create_pool name).1 = false ↔ (m.get_pool name).1 ≠ none) ∧
    ((m.get_pool name).1 ≠ none → (m.create_pool name).2 = m) ∧
    ((m.get_pool name).1 = none →
      (m.create_pool name).1 = true ∧
      (m.create_pool name).2.pools_ name = some (CachePool.new name) ∧
      ∀ other, other ≠ name → (m.create_pool name).2.pools_ other = m.pools_ other) := by
  rw [get_pool_fst]
  unfold CacheManager.create_pool
  cases h : m.pools_ name with
  | none =>
    simp only [Option.isSome_none, Bool.false_eq_true, if_false, ne_eq, not_true_eq_false,
      iff_false, Bool.true_eq_false, not_false_eq_true, true_and, false_implies,
      Function.update_same, forall_true_left]
    intro other hne
    exact Function.update_noteq hne _ _
  | some pool => simp

/-- Witness of C13: creating the pool `default` a second time fails. -/
theorem C13_create_pool_witness :
    (CacheManager.new.create_pool default_pool_name).2 = CacheManager.new :=
  (C13_create_pool CacheManager.new default_pool_name).2.1
    (by rw [get_pool_fst, new_pools_default]; simp)

/-- C14. `get_pool` leaves the manager unchanged and returns the entry of the
map. After `create_pool(name)` returned true, `get_pool(name)` returns the pool
created (not null) after any calls to the manager among which there is no
`delete_pool(name)`. For a name without an entry, and for a name just passed to
`delete_pool`, `get_pool(name)` returns null after any calls among which there
is no `create_pool(name)`; the manager under construction has no entry at all. -/
theorem C14_get_pool (m : CacheManager) (name : String) (ops : List PoolOp) :
    (m.get_pool name).2 = m ∧
    ((m.create_pool name).1 = true → (∀ op ∈ ops, op ≠ PoolOp.delete name) →
      (((m.create_pool name).2.run ops).get_pool name).1 = some (CachePool.new name)) ∧
    ((m.get_pool name).1 = none → (∀ op ∈ ops, op ≠ PoolOp.create name) →
      ((m.run ops).get_pool name).1 = none) ∧
    ((∀ op ∈ ops, op ≠ PoolOp.create name) →
      (((m.delete_pool name).2.run ops).get_pool name).1 = none) ∧
    (name ≠ default_pool_name → (∀ op ∈ ops, op ≠ PoolOp.create name) →
      ((CacheManager.new.run ops).get_pool name).1 = none) := by
  refine ⟨get_pool_snd m name, ?_, ?_, ?_, ?_⟩
  · intro hc hops
    rw [get_pool_fst]
    apply run_kept ops _ name _ _ hops
    unfold CacheManager.create_pool at hc ⊢
    by_cases h : (m.pools_ name).isSome
    · simp [h] at hc
    · simp [h]
  · intro hg hops
    rw [get_pool_fst] at hg ⊢
    exact run_absent ops m name hg hops
  · intro hops
    rw [get_pool_fst]
    apply run_absent ops _ name _ hops
    unfold CacheManager.delete_pool
    by_cases h : (m.pools_ name).isNone
    · rw [if_pos h]
      exact Option.isNone_iff_eq_none.mp h
    · simp [h]
  · intro hne hops
    rw [get_pool_fst]
    apply run_absent ops _ name _ hops
    simp [CacheManager.new, CacheManager.create_pool, Function.update_noteq hne]

/-- Witness of C14: the pool `a` is created, then `b` is created and deleted
and `a` is created again and looked up; `get_pool` still returns the pool
created first. -/
theorem C14_get_pool_witness :
    ((((CacheManager.new.create_pool "a").2.run
        [PoolOp.create "b", PoolOp.delete "b", PoolOp.create "a", PoolOp.get "a"]).get_pool
        "a").1 = some (CachePool.new "a")) :=
  (C14_get_pool CacheManager.new "a"
    [PoolOp.create "b", PoolOp.delete "b", PoolOp.create "a", PoolOp.get "a"]).2.1
    (by decide) (by decide)

/-- C15, counterexample. After construction, `delete_pool(default_pool_name)`
returns true and `get_pool(default_pool_name)` then returns null: a state
reached through the three calls in which no pool named `default` exists. -/
theorem C15_default_pool_deleted :
    (CacheManager.new.delete_pool default_pool_name).1 = true ∧
    ((CacheManager.new.run [PoolOp.delete default_pool_name]).get_pool
      default_pool_name).1.isNone = true := by
  decide

/-- C15, amended. In every state reached from construction through calls to
`create_pool`, `delete_pool` and `get_pool` among which there is no
`delete_pool(default_pool_name)`, `get_pool(default_pool_name)` returns the pool
the constructor created. -/
theorem C15_default_pool_kept (ops : List PoolOp)
    (hops : ∀ op ∈ ops, op ≠ PoolOp.delete default_pool_name) :
    ((CacheManager.new.run ops).get_pool default_pool_name).1 =
      some (CachePool.new default_pool_name) := by
  rw [get_pool_fst]
  exact run_kept ops _ _ _ new_pools_default hops

/-- Witness of the amended C15: a pool `a` is created and deleted, the default
pool is looked up and created once more. -/
theorem C15_default_pool_kept_witness :
    ((CacheManager.new.run [PoolOp.create "a", PoolOp.delete "a",
        PoolOp.get default_pool_name, PoolOp.create default_pool_name]).get_pool
      default_pool_name).1 = some (CachePool.new default_pool_name) :=
  C15_default_pool_kept [PoolOp.create "a", PoolOp.delete "a",
    PoolOp.get default_pool_name, PoolOp.create default_pool_name] (by decide)

theorem StatsOp_apply_misses (stats : CacheStats) (op : StatsOp)
    (h : stats.misses < 10000) : (StatsOp.apply stats op).misses < 10000 := by
  cases op with
  | hit => exact h
  | miss =>
    unfold StatsOp.apply inc_cache_miss
    by_cases hm : (stats.misses + 1) % 10000 = 0
    · simp [hm, CacheStats.reset]
    · simp only [hm, if_false]
      omega
  | victim_hit => exact h
  | miss_penalty cycles bytes => exact h

/-- C16. `inc_cache_miss` adds one to `misses`; when the new value is a multiple
of 10000 all five counters are zero afterwards, and otherwise the other four
counters are unchanged. For a pool whose counters started at zero, `misses` is
below 10000 after every sequence of calls that change the counters, hence after
every `inc_cache_miss`. -/
theorem C16_inc_cache_miss (stats : CacheStats) (name : String) (ops : List StatsOp) :
    ((stats.misses + 1) % 10000 = 0 →
      inc_cache_miss stats =
        { hits := 0, misses := 0, miss_cycles := 0, miss_bytes := 0, victim_hits := 0 }) ∧
    ((stats.misses + 1) % 10000 ≠ 0 →
      inc_cache_miss stats = { stats with misses := stats.misses + 1 }) ∧
    (stats.misses < 10000 → (inc_cache_miss stats).misses < 10000) ∧
    (ops.foldl StatsOp.apply (CachePool.new name).stats).misses < 10000 ∧
    (inc_cache_miss (ops.foldl StatsOp.apply (CachePool.new name).stats)).misses < 10000 := by
  have hrun : ∀ (l : List StatsOp) (s0 : CacheStats), s0.misses < 10000 →
      (l.foldl StatsOp.apply s0).misses < 10000 := by
    intro l
    induction l with
    | nil => intro s0 h; exact h
    | cons op rest ih =>
      intro s0 h
      exact ih _ (StatsOp_apply_misses s0 op h)
  have h0 : (CachePool.new name).stats.misses < 10000 := by
    simp [CachePool.new]
  refine ⟨?_, ?_, ?_, hrun ops _ h0, ?_⟩
  · intro hm
    unfold inc_cache_miss
    simp [hm, CacheStats.reset]
  · intro hm
    unfold inc_cache_miss
    simp [hm]
  · intro h
    exact StatsOp_apply_misses stats StatsOp.miss h
  · exact StatsOp_apply_misses _ StatsOp.miss (hrun ops _ h0)

/-- Witness of C16: the miss that takes `misses` from 9999 to 10000 clears the
five counters. -/
theorem C16_inc_cache_miss_witness :
    inc_cache_miss
        { hits := 7, misses := 9999, miss_cycles := 5, miss_bytes := 3, victim_hits := 1 } =
      { hits := 0, misses := 0, miss_cycles := 0, miss_bytes := 0, victim_hits := 0 } :=
  (C16_inc_cache_miss
    { hits := 7, misses := 9999, miss_cycles := 5, miss_bytes := 3, victim_hits := 1 }
    "a" []).1 (by decide)

theorem set_construct_func_installed (later : List (Option ConstructFunc)) (p : CachePool)
    (f : ConstructFunc) (h : p.construct_ = some f) :
    later.foldl CachePool.set_construct_func p = p := by
  induction later with
  | nil => rfl
  | cons c rest ih =>
    have hstep : p.set_construct_func c = p := by
      unfold CachePool.set_construct_func
      simp [h]
    rw [List.foldl_cons, hstep]
    exact ih

/-- C17. On a pool with no construct callback, `set_construct_func(f)` with a
non-empty `f` installs `f`; after any later calls of `set_construct_func`, with
empty or non-empty callbacks, `get_construct_func` returns `f`. A call with an
empty callback on a pool without one installs nothing. -/
theorem C17_construct_func_set_once (p : CachePool) (f : ConstructFunc)
    (later : List (Option ConstructFunc)) (hempty : p.construct_ = none) :
    (p.set_construct_func (some f)).get_construct_func = some f ∧
    (later.foldl CachePool.set_construct_func
      (p.set_construct_func (some f))).get_construct_func = some f ∧
    (p.set_construct_func none).get_construct_func = none := by
  have h1 : (p.set_construct_func (some f)).construct_ = some f := by
    unfold CachePool.set_construct_func
    simp [hempty]
  refine ⟨h1, ?_, ?_⟩
  · rw [set_construct_func_installed later _ f h1]
    exact h1
  · unfold CachePool.set_construct_func CachePool.get_construct_func
    simp [hempty]

/-- Witness of C17: on a fresh pool the callback returning 1 is installed; a
call with the callback returning 2 and a call with an empty one change
nothing. -/
theorem C17_construct_func_set_once_witness :
    ([some (fun _ => (2 : Int)), none].foldl CachePool.set_construct_func
      ((CachePool.new "a").set_construct_func (some (fun _ => (1 : Int))))).get_construct_func =
      some (fun _ => (1 : Int)) :=
  (C17_construct_func_set_once (CachePool.new "a") (fun _ => (1 : Int))
    [some (fun _ => (2 : Int)), none] rfl).2.1

/-! ### Chunks of the log allocator (claim C19) -/

theorem LogChunk.call_sealed (cfg : LogCfg) (c : LogChunk) (call : ChunkCall)
    (hs : c.sealed_ = true) : c.call cfg call = (false, c) := by
  cases call with
  | small size init_ok =>
    simp [LogChunk.call, LogChunk.alloc_small, hs]
  | large size prev_null init_ok load_ok store_ok =>
    simp [LogChunk.call, LogChunk.alloc_large, hs]

theorem LogChunk.alloc_small_step (cfg : LogCfg) (c : LogChunk) (size : Nat) (init_ok : Bool)
    (haddr : c.start_addr_ + cfg.kLogChunkSize < 2 ^ 64)
    (hinv : c.start_addr_ ≤ c.pos_ ∧ c.pos_ ≤ c.start_addr_ + cfg.kLogChunkSize)
    (hsize : cfg.obj_size size + cfg.kLogChunkSize < 2 ^ 64) :
    (c.alloc_small cfg size init_ok).2.start_addr_ = c.start_addr_ ∧
    c.pos_ ≤ (c.alloc_small cfg size init_ok).2.pos_ ∧
    (c.alloc_small cfg size init_ok).2.pos_ ≤ c.start_addr_ + cfg.kLogChunkSize ∧
    (c.sealed_ = true → (c.alloc_small cfg size init_ok).2.sealed_ = true) := by
  obtain ⟨h1, h2⟩ := hinv
  unfold LogChunk.alloc_small
  by_cases hs : c.sealed_ = true
  · simp [hs, h2]
  · simp only [hs, if_false]
    by_cases hfull : toU64 (toU64 ((c.pos_ : Int) - c.start_addr_) + cfg.obj_size size) >
        cfg.kLogChunkSize
    · simp [hfull, LogChunk.seal, h2]
    · simp only [hfull, if_false]
      cases init_ok with
      | false => simp [h2]
      | true =>
        simp only [Bool.not_true, Bool.false_eq_true, if_false, false_implies, and_true,
          true_and]
        unfold toU64 at hfull ⊢
        constructor <;> omega

theorem LogChunk.alloc_large_step (cfg : LogCfg) (c : LogChunk) (size : Nat)
    (prev_null init_ok load_ok store_ok : Bool)
    (haddr : c.start_addr_ + cfg.kLogChunkSize < 2 ^ 64)
    (hH : cfg.sizeofLargeObjectHdr + cfg.kLogChunkSize < 2 ^ 64)
    (hinv : c.start_addr_ ≤ c.pos_ ∧ c.pos_ ≤ c.start_addr_ + cfg.kLogChunkSize) :
    (c.alloc_large cfg size prev_null init_ok load_ok store_ok).2.start_addr_ = c.start_addr_ ∧
    c.pos_ ≤ (c.alloc_large cfg size prev_null init_ok load_ok store_ok).2.pos_ ∧
    (c.alloc_large cfg size prev_null init_ok load_ok store_ok).2.pos_ ≤
      c.start_addr_ + cfg.kLogChunkSize ∧
    (c.sealed_ = true →
      (c.alloc_large cfg size prev_null init_ok load_ok store_ok).2.sealed_ = true) := by
  obtain ⟨h1, h2⟩ := hinv
  unfold LogChunk.alloc_large
  by_cases hs : c.sealed_ = true
  · simp [hs, h2]
  · simp only [hs, if_false]
    by_cases hfull : toU64 ((toU64 ((c.pos_ : Int) - c.start_addr_) : Int) +
        cfg.sizeofLargeObjectHdr) ≥ cfg.kLogChunkSize
    · simp [hfull, LogChunk.seal, h2]
    · simp only [hfull, if_false]
      by_cases hi : (!init_ok) = true
      · simp [hi, h2]
      · simp only [hi, Bool.false_eq_true, if_false]
        by_cases hl : (!prev_null && !load_ok) = true
        · simp [hl, h2]
        · simp only [hl, Bool.false_eq_true, if_false]
          by_cases hst : (!prev_null && !store_ok) = true
          · simp [hst, h2]
          · simp only [hst, Bool.false_eq_true, if_false, false_implies, and_true, true_and]
            unfold toU64 at hfull ⊢
            constructor <;> omega

theorem LogChunk.call_step (cfg : LogCfg) (c : LogChunk) (call : ChunkCall)
    (haddr : c.start_addr_ + cfg.kLogChunkSize < 2 ^ 64)
    (hH : cfg.sizeofLargeObjectHdr + cfg.kLogChunkSize < 2 ^ 64)
    (hinv : c.start_addr_ ≤ c.pos_ ∧ c.pos_ ≤ c.start_addr_ + cfg.kLogChunkSize)
    (hsize : ∀ size ok, call = ChunkCall.small size ok →
      cfg.obj_size size + cfg.kLogChunkSize < 2 ^ 64) :
    (c.call cfg call).2.start_addr_ = c.start_addr_ ∧
    c.pos_ ≤ (c.call cfg call).2.pos_ ∧
    (c.call cfg call).2.pos_ ≤ c.start_addr_ + cfg.kLogChunkSize := by
  cases call with
  | small size init_ok =>
    have h := LogChunk.alloc_small_step cfg c size init_ok haddr hinv (hsize size init_ok rfl)
    exact ⟨h.1, h.2.1, h.2.2.1⟩
  | large size prev_null init_ok load_ok store_ok =>
    have h := LogChunk.alloc_large_step cfg c size prev_null init_ok load_ok store_ok
      haddr hH hinv
    exact ⟨h.1, h.2.1, h.2.2.1⟩

theorem LogChunk.run_append (cfg : LogCfg) (c : LogChunk) (l1 l2 : List ChunkCall) :
    c.run cfg (l1 ++ l2) = (c.run cfg l1).run cfg l2 := by
  unfold LogChunk.run
  rw [List.foldl_append]

theorem LogChunk.run_sealed (cfg : LogCfg) (calls : List ChunkCall) (c : LogChunk)
    (hs : c.sealed_ = true) : c.run cfg calls = c := by
  induction calls with
  | nil => rfl
  | cons call rest ih =>
    unfold LogChunk.run at ih ⊢
    rw [List.foldl_cons, LogChunk.call_sealed cfg c call hs]
    exact ih

theorem LogChunk.run_inv (cfg : LogCfg) (calls : List ChunkCall) (c : LogChunk)
    (haddr : c.start_addr_ + cfg.kLogChunkSize < 2 ^ 64)
    (hH : cfg.sizeofLargeObjectHdr + cfg.kLogChunkSize < 2 ^ 64)
    (hinv : c.start_addr_ ≤ c.pos_ ∧ c.pos_ ≤ c.start_addr_ + cfg.kLogChunkSize)
    (hsize : ∀ size ok, ChunkCall.small size ok ∈ calls →
      cfg.obj_size size + cfg.kLogChunkSize < 2 ^ 64) :
    (c.run cfg calls).start_addr_ = c.start_addr_ ∧
    c.pos_ ≤ (c.run cfg calls).pos_ ∧
    (c.run cfg calls).pos_ ≤ c.start_addr_ + cfg.kLogChunkSize := by
  induction calls generalizing c with
  | nil => exact ⟨rfl, le_refl _, hinv.2⟩
  | cons call rest ih =>
    have hstep := LogChunk.call_step cfg c call haddr hH hinv
      (fun size ok e => hsize size ok (by rw [e]; exact List.mem_cons_self _ _))
    obtain ⟨e1, e2, e3⟩ := hstep
    have hrest := ih (c.call cfg call).2 (by rw [e1]; exact haddr)
      (by rw [e1]; exact ⟨le_trans hinv.1 e2, e3⟩)
      (fun size ok hm => hsize size ok (List.mem_cons_of_mem _ hm))
    have hrun : c.run cfg (call :: rest) = (c.call cfg call).2.run cfg rest := rfl
    rw [hrun]
    rw [e1] at hrest
    exact ⟨hrest.1, le_trans e2 hrest.2.1, hrest.2.2⟩

/-- C19. A chunk lies below `2^64` with `start_addr_ <= pos_ <= start_addr_ +
kLogChunkSize`, and the object sizes of the `alloc_small` calls and the header
of large objects are such that adding the chunk size to them does not wrap.
Then along every sequence of `alloc_small` and `alloc_large` calls the start
address is fixed and `pos_` stays within these bounds; `pos_` after the whole
sequence is at least `pos_` after each initial part of it; and once `sealed_`
is set after an initial part, every call returns `nullopt` and leaves the chunk
as it is, so that `sealed_` stays set and `pos_` stays where it was. -/
theorem C19_chunk_invariant (cfg : LogCfg) (c : LogChunk) (l1 l2 : List ChunkCall)
    (haddr : c.start_addr_ + cfg.kLogChunkSize < 2 ^ 64)
    (hH : cfg.sizeofLargeObjectHdr + cfg.kLogChunkSize < 2 ^ 64)
    (hinv : c.start_addr_ ≤ c.pos_ ∧ c.pos_ ≤ c.start_addr_ + cfg.kLogChunkSize)
    (hsize : ∀ size ok, ChunkCall.small size ok ∈ l1 ++ l2 →
      cfg.obj_size size + cfg.kLogChunkSize < 2 ^ 64) :
    (c.run cfg (l1 ++ l2)).start_addr_ = c.start_addr_ ∧
    c.start_addr_ ≤ (c.run cfg (l1 ++ l2)).pos_ ∧
    (c.run cfg (l1 ++ l2)).pos_ ≤ c.start_addr_ + cfg.kLogChunkSize ∧
    (c.run cfg l1).pos_ ≤ (c.run cfg (l1 ++ l2)).pos_ ∧
    ((c.run cfg l1).sealed_ = true →
      (∀ call, (c.run cfg l1).call cfg call = (false, c.run cfg l1)) ∧
      c.run cfg (l1 ++ l2) = c.run cfg l1) := by
  have h1 := LogChunk.run_inv cfg l1 c haddr hH hinv
    (fun size ok hm => hsize size ok (List.mem_append_left _ hm))
  have hall := LogChunk.run_inv cfg (l1 ++ l2) c haddr hH hinv hsize
  obtain ⟨a1, a2, a3⟩ := h1
  have h2 := LogChunk.run_inv cfg l2 (c.run cfg l1) (by rw [a1]; exact haddr) hH
    (by rw [a1]; exact ⟨le_trans hinv.1 a2, a3⟩)
    (fun size ok hm => hsize size ok (List.mem_append_right _ hm))
  rw [← LogChunk.run_append] at h2
  refine ⟨hall.1, le_trans hinv.1 hall.2.1, hall.2.2, h2.2.1, ?_⟩
  intro hs
  refine ⟨fun call => LogChunk.call_sealed cfg _ call hs, ?_⟩
  rw [LogChunk.run_append]
  exact LogChunk.run_sealed cfg l2 _ hs

/-- Witness of C19: a chunk of 64 bytes at 4096; the second small object does not
fit and seals the chunk, and the two calls after it change nothing. -/
theorem C19_chunk_invariant_witness :
    (LogChunk.new 4096).run cfg64
        ([ChunkCall.small 16 true, ChunkCall.small 32 true] ++
          [ChunkCall.large 100 true true true true, ChunkCall.small 0 true]) =
      (LogChunk.new 4096).run cfg64 [ChunkCall.small 16 true, ChunkCall.small 32 true] :=
  ((C19_chunk_invariant cfg64 (LogChunk.new 4096)
    [ChunkCall.small 16 true, ChunkCall.small 32 true]
    [ChunkCall.large 100 true true true true, ChunkCall.small 0 true]
    (by decide) (by decide) (by decide)
    (by
      intro size ok hm
      have hs : size ≤ 32 := by
        simp at hm
        omega
      show size + 16 + 64 < 2 ^ 64
      omega)).2.2.2.2 (by decide)).2

/-! ### Segments of the log allocator (claim C20) -/

theorem LogSegment.allocChunk_open (cfg : LogCfg) (seg : LogSegment) (k q : Nat)
    (hC : 0 < cfg.kLogChunkSize)
    (hR : cfg.kRegionSize = q * cfg.kLogChunkSize) (hk : k < q)
    (hpos : seg.pos_ = seg.start_addr_ + k * cfg.kLogChunkSize)
    (haddr : seg.start_addr_ + cfg.kRegionSize < 2 ^ 64) :
    (seg.allocChunk cfg).1 = some (LogChunk.new (seg.start_addr_ + k * cfg.kLogChunkSize)) ∧
    (seg.allocChunk cfg).2.start_addr_ = seg.start_addr_ ∧
    (seg.allocChunk cfg).2.pos_ = seg.start_addr_ + (k + 1) * cfg.kLogChunkSize ∧
    (seg.allocChunk cfg).2.vLogChunks_ =
      seg.vLogChunks_ ++ [LogChunk.new (seg.start_addr_ + k * cfg.kLogChunkSize)] := by
  have h1 : (k + 1) * cfg.kLogChunkSize ≤ q * cfg.kLogChunkSize :=
    Nat.mul_le_mul_right _ hk
  have h2 : (k + 1) * cfg.kLogChunkSize = k * cfg.kLogChunkSize + cfg.kLogChunkSize :=
    Nat.succ_mul _ _
  have hnf : seg.full cfg = false := by
    unfold LogSegment.full toU64
    rw [decide_eq_false_iff_not]
    omega
  unfold LogSegment.allocChunk
  simp only [hnf, Bool.false_eq_true, if_false]
  have hp : toU64 ((seg.pos_ : Int) + cfg.kLogChunkSize) =
      seg.start_addr_ + (k + 1) * cfg.kLogChunkSize := by
    unfold toU64
    omega
  rw [hp, hpos]
  split <;> simp [LogSegment.seal]

theorem LogSegment.allocChunk_full (cfg : LogCfg) (seg : LogSegment) (q : Nat)
    (hR : cfg.kRegionSize = q * cfg.kLogChunkSize)
    (hpos : seg.pos_ = seg.start_addr_ + q * cfg.kLogChunkSize)
    (haddr : seg.start_addr_ + cfg.kRegionSize < 2 ^ 64) :
    seg.allocChunk cfg = (none, seg.seal) := by
  have hf : seg.full cfg = true := by
    unfold LogSegment.full toU64
    rw [decide_eq_true_iff]
    omega
  unfold LogSegment.allocChunk
  simp [hf]

theorem LogSegment.allocChunks_from (cfg : LogCfg) (q : Nat) (hC : 0 < cfg.kLogChunkSize)
    (hR : cfg.kRegionSize = q * cfg.kLogChunkSize) (n : Nat) :
    ∀ (seg : LogSegment) (k : Nat), k ≤ q →
      seg.pos_ = seg.start_addr_ + k * cfg.kLogChunkSize →
      seg.start_addr_ + cfg.kRegionSize < 2 ^ 64 →
      (LogSegment.allocChunks cfg n seg).1 =
        (List.range n).map (fun i =>
          if k + i < q then some (LogChunk.new (seg.start_addr_ + (k + i) * cfg.kLogChunkSize))
          else none) ∧
      (LogSegment.allocChunks cfg n seg).2.start_addr_ = seg.start_addr_ ∧
      (LogSegment.allocChunks cfg n seg).2.pos_ =
        seg.start_addr_ + min (k + n) q * cfg.kLogChunkSize ∧
      (LogSegment.allocChunks cfg n seg).2.vLogChunks_ =
        seg.vLogChunks_ ++ (List.range (min (k + n) q - k)).map (fun i =>
          LogChunk.new (seg.start_addr_ + (k + i) * cfg.kLogChunkSize)) := by
  induction n with
  | zero =>
    intro seg k hk hpos _
    have hm : min (k + 0) q = k := by simp [hk]
    refine ⟨rfl, rfl, ?_, ?_⟩
    · rw [hm]
      exact hpos
    · rw [hm]
      simp [LogSegment.allocChunks]
  | succ n ih =>
    intro seg k hk hpos haddr
    rw [List.range_succ_eq_map, List.map_cons, List.map_map]
    by_cases hlt : k < q
    · obtain ⟨e1, e2, e3, e4⟩ := LogSegment.allocChunk_open cfg seg k q hC hR hlt hpos haddr
      have hrest := ih (seg.allocChunk cfg).2 (k + 1) hlt (by rw [e2, e3]) (by rw [e2]; exact haddr)
      rw [e2] at hrest
      obtain ⟨r1, r2, r3, r4⟩ := hrest
      have hidx : ∀ i, k + 1 + i = k + (i + 1) := fun i => by omega
      have hmin : min (k + 1 + n) q = min (k + (n + 1)) q := by rw [hidx]
      have hcnt : min (k + (n + 1)) q - k = (min (k + (n + 1)) q - (k + 1)) + 1 := by omega
      simp only [LogSegment.allocChunks]
      refine ⟨?_, r2, ?_, ?_⟩
      · rw [e1, r1]
        congr 1
        · simp [hlt]
        · apply List.map_congr_left
          intro i _
          simp only [Function.comp, Nat.succ_eq_add_one, hidx]
      · rw [r3, hmin]
      · rw [r4, e4, hcnt, List.range_succ_eq_map, List.map_cons, List.map_map, hmin,
          List.append_assoc]
        congr 1
        simp only [List.singleton_append, Nat.add_zero]
        congr 1
        apply List.map_congr_left
        intro i _
        simp only [Function.comp, Nat.succ_eq_add_one, hidx]
    · have hq : k = q := by omega
      subst hq
      have hfull := LogSegment.allocChunk_full cfg seg k hR hpos haddr
      have hrest := ih seg.seal k (le_refl _) hpos haddr
      obtain ⟨r1, r2, r3, r4⟩ := hrest
      have hm1 : min (k + n) k = k := by omega
      have hm2 : min (k + (n + 1)) k = k := by omega
      simp only [LogSegment.allocChunks, hfull]
      refine ⟨?_, r2, ?_, ?_⟩
      · rw [r1]
        congr 1
        · simp
        · apply List.map_congr_left
          intro i _
          have hn1 : ¬ k + i < k := by omega
          have hn2 : ¬ k + (i + 1) < k := by omega
          simp only [Function.comp, Nat.succ_eq_add_one, hn1, hn2, if_false]
      · rw [r3, hm1, hm2]
        rfl
      · rw [r4, hm1, hm2]
        rfl

/-- C20. The chunk size is positive and divides the region size, and the region
lies below `2^64`. Then the successive `allocChunk` calls on a fresh segment of
the region at `base` hand out, as long as fewer than `kRegionSize /
kLogChunkSize` chunks were handed out, the chunk at `base + i * kLogChunkSize`
for the call number `i` (counted from 0), and `nullptr` afterwards; the segment
lists exactly these chunks. The ranges of two of these chunks do not overlap,
each lies in the region, and each starts where the one before ends. Once the
segment is full, which it is after that many calls, the sizes of its chunks sum
to the region size. -/
theorem C20_segment_chunks (cfg : LogCfg) (rid : Int) (base n : Nat)
    (hC : 0 < cfg.kLogChunkSize) (hdiv : cfg.kLogChunkSize ∣ cfg.kRegionSize)
    (haddr : base + cfg.kRegionSize < 2 ^ 64) :
    (LogSegment.allocChunks cfg n (LogSegment.new rid base)).1 =
      (List.range n).map (fun i =>
        if i < cfg.kRegionSize / cfg.kLogChunkSize then
          some (LogChunk.new (base + i * cfg.kLogChunkSize))
        else none) ∧
    (LogSegment.allocChunks cfg n (LogSegment.new rid base)).2.vLogChunks_ =
      (List.range (min n (cfg.kRegionSize / cfg.kLogChunkSize))).map (fun i =>
        LogChunk.new (base + i * cfg.kLogChunkSize)) ∧
    (∀ i j, i < j → j < cfg.kRegionSize / cfg.kLogChunkSize →
      base + i * cfg.kLogChunkSize + cfg.kLogChunkSize ≤ base + j * cfg.kLogChunkSize ∧
      base + j * cfg.kLogChunkSize + cfg.kLogChunkSize ≤ base + cfg.kRegionSize) ∧
    (∀ i, base + (i + 1) * cfg.kLogChunkSize = base + i * cfg.kLogChunkSize + cfg.kLogChunkSize) ∧
    ((LogSegment.allocChunks cfg n (LogSegment.new rid base)).2.full cfg = true →
      (LogSegment.allocChunks cfg n (LogSegment.new rid base)).2.vLogChunks_.length *
        cfg.kLogChunkSize = cfg.kRegionSize) ∧
    (cfg.kRegionSize / cfg.kLogChunkSize ≤ n →
      (LogSegment.allocChunks cfg n (LogSegment.new rid base)).2.full cfg = true) := by
  have hR : cfg.kRegionSize = cfg.kRegionSize / cfg.kLogChunkSize * cfg.kLogChunkSize :=
    (Nat.div_mul_cancel hdiv).symm
  generalize cfg.kRegionSize / cfg.kLogChunkSize = q at hR ⊢
  have hfrom := LogSegment.allocChunks_from cfg q hC hR n (LogSegment.new rid base) 0
    (Nat.zero_le _) (by simp [LogSegment.new]) haddr
  simp only [Nat.zero_add, Nat.sub_zero] at hfrom
  obtain ⟨r1, r2, r3, r4⟩ := hfrom
  have hbase : (LogSegment.new rid base).start_addr_ = base := rfl
  have hnil : (LogSegment.new rid base).vLogChunks_ = [] := rfl
  rw [hbase] at r1 r2 r3 r4
  rw [hnil, List.nil_append] at r4
  have hmq : min n q * cfg.kLogChunkSize ≤ q * cfg.kLogChunkSize :=
    Nat.mul_le_mul_right _ (Nat.min_le_right _ _)
  have hfull : (LogSegment.allocChunks cfg n (LogSegment.new rid base)).2.full cfg = true ↔
      q * cfg.kLogChunkSize ≤ min n q * cfg.kLogChunkSize := by
    unfold LogSegment.full toU64
    rw [decide_eq_true_iff, r2, r3, hR]
    constructor <;> intro h <;> omega
  refine ⟨r1, r4, ?_, ?_, ?_, ?_⟩
  · intro i j hij hj
    have h1 : (i + 1) * cfg.kLogChunkSize ≤ j * cfg.kLogChunkSize :=
      Nat.mul_le_mul_right _ hij
    have h2 : (j + 1) * cfg.kLogChunkSize ≤ q * cfg.kLogChunkSize :=
      Nat.mul_le_mul_right _ hj
    rw [Nat.succ_mul] at h1 h2
    omega
  · intro i
    rw [Nat.succ_mul, Nat.add_assoc]
  · intro hf
    have hle := Nat.le_of_mul_le_mul_right (hfull.mp hf) hC
    have hmin : min n q = q := by omega
    rw [r4, List.length_map, List.length_range, hmin, hR]
  · intro hn
    have hmin : min n q = q := by omega
    rw [hfull, hmin]

/-- Witness of C20: a region of 256 bytes at 4096 and chunks of 64 bytes; five
calls hand out the chunks at 4096, 4160, 4224 and 4288, and then `nullptr`. -/
theorem C20_segment_chunks_witness :
    (LogSegment.allocChunks cfg64 5 (LogSegment.new 1 4096)).1 =
      [some (LogChunk.new 4096), some (LogChunk.new 4160), some (LogChunk.new 4224),
        some (LogChunk.new 4288), none] :=
  (C20_segment_chunks cfg64 1 4096 5 (by decide) (by decide) (by decide)).1

/-! ### The slow path of `alloc_` (claim C18) -/

/-- C18, counterexample. Chunks of 64 bytes in regions of 256 bytes, objects of
32 bytes that take 48 bytes each. The first `alloc_` maps region 1 and takes its
first chunk; the segment is not full, three chunks of it are free. The second
`alloc_` finds the chunk of the thread full, and calls `AllocRegion` again: the
object is placed at the base of region 2, no grant is left, and the first
segment still has one chunk only. -/
theorem C18_new_region_despite_free_chunks :
    LogAllocator.alloc_ cfg64 noLarge smallOk alloc0 32 false =
      Ending.returns (some 4096, alloc2) ∧
    alloc2.segments_.map (LogSegment.full cfg64) = [false] ∧
    alloc2.rmanager.grants.length = 1 ∧
    (LogAllocator.alloc_ cfg64 noLarge smallOk alloc2 32 false).map
      (fun r => (r.1, r.2.rmanager.grants.length,
        r.2.segments_.map (fun seg => (seg.region_id_, seg.vLogChunks_.length)))) =
      Ending.returns (some 8192, 0, [(1, 1), (2, 1)]) := by
  decide

theorem LogSegment.allocChunk_new (cfg : LogCfg) (rid : Int) (base : Nat)
    (hR : 0 < cfg.kRegionSize) :
    ((LogSegment.new rid base).allocChunk cfg).1 = some (LogChunk.new base) := by
  have hnf : (LogSegment.new rid base).full cfg = false := by
    unfold LogSegment.full toU64 LogSegment.new
    rw [decide_eq_false_iff_not]
    simp only
    omega
  unfold LogSegment.allocChunk
  simp only [hnf, Bool.false_eq_true, if_false]
  rfl

theorem toI32_of_fits (x : Int) (h : -2 ^ 31 ≤ x ∧ x < 2 ^ 31) : toI32 x = x := by
  unfold toI32
  omega

theorem alloc_small_new (cfg : LogCfg) (base size : Nat) (init_ok : Bool)
    (hfit : cfg.obj_size size ≤ cfg.kLogChunkSize) (h64 : cfg.kLogChunkSize < 2 ^ 64)
    (hinit : init_ok = true) :
    (LogChunk.new base).alloc_small cfg size init_ok =
      (some base, { start_addr_ := base, pos_ := toU64 ((base : Int) + cfg.obj_size size),
                    sealed_ := false }) := by
  have hle : ¬ toU64 ((toU64 ((base : Int) - base) : Int) + cfg.obj_size size) >
      cfg.kLogChunkSize := by
    unfold toU64
    omega
  unfold LogChunk.alloc_small LogChunk.new
  simp only [Bool.false_eq_true, if_false, hle, hinit, Bool.not_true]

/-- C18, amended. The rounded size is below `kSmallObjThreshold` and the thread
has no chunk, or its chunk does not serve the request. Then `alloc_` calls
`AllocRegion`, whatever the segments of the allocator are, and stores the id in
an `int`. When the stored id is `-1`, `alloc_` returns `nullopt` and the
segments are as before. Otherwise (the region size being positive) the first
chunk of a new segment with the stored id, on the region `GetRegion` returns
for it, is asked for the object: when it does not serve the request, the call
is aborted by `assert(ret)`; when it does, `alloc_` returns the address, the
segments are the ones before, unchanged, followed by the new segment, and the
chunk becomes the chunk of the thread. The chunk serves the request, at the
region base, when the object fits into a chunk and `init_small` succeeds. The
stored id is the id returned when that fits an `int`. -/
theorem C18_slow_path_allocs_region (cfg : LogCfg)
    (alloc_large : LogAllocator → Nat → Bool → Ending (Option Nat × LogAllocator))
    (init_small_ok : Nat → Bool)
    (a : LogAllocator) (size : Nat) (overcommit : Bool)
    (hsmall : cfg.round_up_to_align size cfg.kSmallObjSizeUnit < cfg.kSmallObjThreshold)
    (hpcab : ∀ c, a.pcab = some c →
      (c.alloc_small cfg (cfg.round_up_to_align size cfg.kSmallObjSizeUnit)
        (init_small_ok c.pos_)).1 = none) :
    (toI32 (a.rmanager.AllocRegion overcommit).1 = -1 →
      LogAllocator.alloc_ cfg alloc_large init_small_ok a size overcommit =
        Ending.returns
          (none, { a with pcab := none, rmanager := (a.rmanager.AllocRegion overcommit).2 })) ∧
    (toI32 (a.rmanager.AllocRegion overcommit).1 ≠ -1 → 0 < cfg.kRegionSize →
      ∀ base, base = ((a.rmanager.AllocRegion overcommit).2.GetRegion
          (toI32 (a.rmanager.AllocRegion overcommit).1)).stt_addr →
        (((LogChunk.new base).alloc_small cfg
            (cfg.round_up_to_align size cfg.kSmallObjSizeUnit) (init_small_ok base)).1 = none →
          LogAllocator.alloc_ cfg alloc_large init_small_ok a size overcommit =
            Ending.aborts) ∧
        (∀ addr, ((LogChunk.new base).alloc_small cfg
            (cfg.round_up_to_align size cfg.kSmallObjSizeUnit) (init_small_ok base)).1 =
              some addr →
          LogAllocator.alloc_ cfg alloc_large init_small_ok a size overcommit =
            Ending.returns (some addr,
              { segments_ := a.segments_ ++
                  [((LogSegment.new (toI32 (a.rmanager.AllocRegion overcommit).1)
                      base).allocChunk cfg).2],
                pcab := some ((LogChunk.new base).alloc_small cfg
                  (cfg.round_up_to_align size cfg.kSmallObjSizeUnit) (init_small_ok base)).2,
                rmanager := (a.rmanager.AllocRegion overcommit).2 })) ∧
        (cfg.obj_size (cfg.round_up_to_align size cfg.kSmallObjSizeUnit) ≤ cfg.kLogChunkSize →
          cfg.kLogChunkSize < 2 ^ 64 → init_small_ok base = true →
          ((LogChunk.new base).alloc_small cfg
            (cfg.round_up_to_align size cfg.kSmallObjSizeUnit) (init_small_ok base)).1 =
              some base)) ∧
    (-2 ^ 31 ≤ (a.rmanager.AllocRegion overcommit).1 ∧
        (a.rmanager.AllocRegion overcommit).1 < 2 ^ 31 →
      toI32 (a.rmanager.AllocRegion overcommit).1 = (a.rmanager.AllocRegion overcommit).1) := by
  have hns : ¬ cfg.round_up_to_align size cfg.kSmallObjSizeUnit ≥ cfg.kSmallObjThreshold := by
    omega
  have hslow : LogAllocator.alloc_ cfg alloc_large init_small_ok a size overcommit =
      match ({ a with pcab := none } : LogAllocator).allocChunk cfg overcommit with
      | (none, a2) => Ending.returns (none, a2)
      | (some chunk, a2) =>
        if (chunk.alloc_small cfg (cfg.round_up_to_align size cfg.kSmallObjSizeUnit)
            (init_small_ok chunk.pos_)).1.isNone then Ending.aborts
        else Ending.returns
          ((chunk.alloc_small cfg (cfg.round_up_to_align size cfg.kSmallObjSizeUnit)
              (init_small_ok chunk.pos_)).1,
            { a2 with pcab := some (chunk.alloc_small cfg
              (cfg.round_up_to_align size cfg.kSmallObjSizeUnit)
              (init_small_ok chunk.pos_)).2 }) := by
    unfold LogAllocator.alloc_
    simp only [hns, if_false]
    cases hp : a.pcab with
    | none =>
      have e : a = { a with pcab := none } := by
        cases a
        simp only at hp
        subst hp
        rfl
      simp only [Option.isSome_none, Bool.false_eq_true, if_false]
      rw [← e]
    | some c =>
      simp only [hpcab c hp, Option.isSome_none, Bool.false_eq_true, if_false]
  refine ⟨?_, ?_, toI32_of_fits _⟩
  · intro hrid
    rw [hslow]
    unfold LogAllocator.allocChunk LogAllocator.allocSegment
    simp only [hrid, if_true]
  · intro hrid hR base hbase
    have hnew := LogSegment.allocChunk_new cfg (toI32 (a.rmanager.AllocRegion overcommit).1)
      base hR
    have hrun : LogAllocator.alloc_ cfg alloc_large init_small_ok a size overcommit =
        if ((LogChunk.new base).alloc_small cfg
            (cfg.round_up_to_align size cfg.kSmallObjSizeUnit) (init_small_ok base)).1.isNone
        then Ending.aborts
        else Ending.returns
          (((LogChunk.new base).alloc_small cfg
              (cfg.round_up_to_align size cfg.kSmallObjSizeUnit) (init_small_ok base)).1,
            { segments_ := a.segments_ ++
                [((LogSegment.new (toI32 (a.rmanager.AllocRegion overcommit).1)
                    base).allocChunk cfg).2],
              pcab := some ((LogChunk.new base).alloc_small cfg
                (cfg.round_up_to_align size cfg.kSmallObjSizeUnit) (init_small_ok base)).2,
              rmanager := (a.rmanager.AllocRegion overcommit).2 }) := by
      rw [hslow]
      unfold LogAllocator.allocChunk LogAllocator.allocSegment
      simp only [hrid, if_false, ← hbase]
      generalize LogSegment.allocChunk cfg
        (LogSegment.new (toI32 (a.rmanager.AllocRegion overcommit).1) base) = r at hnew ⊢
      obtain ⟨ch, seg1⟩ := r
      simp only at hnew
      subst hnew
      rfl
    refine ⟨?_, ?_, ?_⟩
    · intro hnone
      rw [hrun, hnone]
      rfl
    · intro addr hsome
      rw [hrun, hsome]
      rfl
    · intro hfit h64 hinit
      rw [alloc_small_new cfg base _ _ hfit h64 hinit]

/-- Witness of the amended C18. The second allocation of the counterexample;
the same allocation when the region granted has the id `2^32 - 1`, which the
`int` holds as `-1`: `alloc_` returns `nullopt` and the segments are as before;
and the same allocation when `init_small` fails on the fresh chunk: the call is
aborted by `assert(ret)`. -/
theorem C18_slow_path_allocs_region_witness :
    LogAllocator.alloc_ cfg64 noLarge smallOk alloc2 32 false =
      Ending.returns (some 8192,
        { segments_ := alloc2.segments_ ++ [((LogSegment.new 2 8192).allocChunk cfg64).2],
          pcab := some { start_addr_ := 8192, pos_ := 8240, sealed_ := false },
          rmanager := (alloc2.rmanager.AllocRegion false).2 }) ∧
    LogAllocator.alloc_ cfg64 noLarge smallOk alloc2w 32 false =
      Ending.returns (none,
        { alloc2w with pcab := none, rmanager := (alloc2w.rmanager.AllocRegion false).2 }) ∧
    LogAllocator.alloc_ cfg64 noLarge (fun _ => false) alloc2 32 false = Ending.aborts :=
  ⟨((C18_slow_path_allocs_region cfg64 noLarge smallOk alloc2 32 false
      (by decide) (by decide)).2.1 (by decide) (by decide) 8192 (by decide)).2.1 8192
        (by decide),
    (C18_slow_path_allocs_region cfg64 noLarge smallOk alloc2w 32 false
      (by decide) (by decide)).1 (by decide),
    ((C18_slow_path_allocs_region cfg64 noLarge (fun _ => false) alloc2 32 false
      (by decide) (by decide)).2.1 (by decide) (by decide) 8192 (by decide)).1 (by decide)⟩

/-! ### Region names (claim C22) -/

theorem digit_char_facts (d : Nat) (hd : d < 10) :
    (digit_char d).toNat - 48 = d ∧ digit_char d ≠ '-' ∧ (digit_char d).isDigit = true := by
  interval_cases d <;> decide

theorem dec_digits_lt (fuel : Nat) : ∀ n d, d ∈ dec_digits fuel n → d < 10 := by
  induction fuel with
  | zero => intro n d h; simp [dec_digits] at h
  | succ fuel ih =>
    intro n d h
    unfold dec_digits at h
    by_cases hn : n = 0
    · simp [hn] at h
    · simp only [hn, if_false, List.mem_cons] at h
      rcases h with h | h
      · omega
      · exact ih _ _ h

theorem decimal_value_append (cs : List Char) (c : Char) :
    decimal_value (cs ++ [c]) = 10 * decimal_value cs + (c.toNat - 48) := by
  unfold decimal_value
  rw [List.foldl_append]
  rfl

theorem decimal_value_digits (fuel : Nat) :
    ∀ n, n ≤ fuel → decimal_value ((dec_digits fuel n).reverse.map digit_char) = n := by
  induction fuel with
  | zero =>
    intro n hn
    have h0 : n = 0 := by omega
    subst h0
    rfl
  | succ fuel ih =>
    intro n hn
    unfold dec_digits
    by_cases h0 : n = 0
    · subst h0
      rfl
    · simp only [h0, if_false, List.reverse_cons, List.map_append, List.map_cons, List.map_nil]
      rw [decimal_value_append, ih (n / 10) (by omega),
        (digit_char_facts (n % 10) (Nat.mod_lt _ (by decide))).1]
      omega

theorem to_string_data (n : Nat) (h0 : n ≠ 0) :
    (to_string n).data = (dec_digits n n).reverse.map digit_char := by
  unfold to_string
  simp [h0]

theorem to_string_value (n : Nat) : decimal_value (to_string n).data = n := by
  by_cases h0 : n = 0
  · subst h0
    rfl
  · rw [to_string_data n h0]
    exact decimal_value_digits n n (le_refl _)

theorem to_string_digits (n : Nat) (c : Char) (hc : c ∈ (to_string n).data) :
    c.isDigit = true ∧ c ≠ '-' := by
  by_cases h0 : n = 0
  · subst h0
    have e : (to_string 0).data = ['0'] := rfl
    rw [e, List.mem_singleton] at hc
    subst hc
    decide
  · rw [to_string_data n h0, List.mem_map] at hc
    obtain ⟨d, hd, rfl⟩ := hc
    have hlt := dec_digits_lt n n d (List.mem_reverse.mp hd)
    exact ⟨(digit_char_facts d hlt).2.2, (digit_char_facts d hlt).2.1⟩

theorem split_at_separator {α : Type} (c : α) :
    ∀ (l1 l2 r1 r2 : List α), c ∉ l1 → c ∉ l2 → l1 ++ c :: r1 = l2 ++ c :: r2 →
      l1 = l2 ∧ r1 = r2 := by
  intro l1
  induction l1 with
  | nil =>
    intro l2 r1 r2 _ h2 h
    cases l2 with
    | nil =>
      simp only [List.nil_append, List.cons.injEq, true_and] at h
      exact ⟨rfl, h⟩
    | cons y ys =>
      simp only [List.nil_append, List.cons_append, List.cons.injEq] at h
      exact absurd (List.mem_cons.mpr (Or.inl h.1)) h2
  | cons x xs ih =>
    intro l2 r1 r2 h1 h2 h
    cases l2 with
    | nil =>
      simp only [List.nil_append, List.cons_append, List.cons.injEq] at h
      exact absurd (List.mem_cons.mpr (Or.inl h.1.symm)) h1
    | cons y ys =>
      simp only [List.cons_append, List.cons.injEq] at h
      obtain ⟨e1, e2⟩ := ih ys r1 r2 (fun hm => h1 (List.mem_cons_of_mem _ hm))
        (fun hm => h2 (List.mem_cons_of_mem _ hm)) h.2
      exact ⟨by rw [h.1, e1], e2⟩

theorem get_region_name_data (pid rid : Nat) :
    (get_region_name pid rid).data =
      ['r', 'e', 'g', 'i', 'o', 'n', '-'] ++ ((to_string pid).data ++ '-' :: (to_string rid).data) := by
  unfold get_region_name
  simp only [String.data_append, List.append_assoc]
  rfl

/-- C22. `get_region_name(pid, rid)` is `region-`, the decimal form of `pid`, a
`-` and the decimal form of `rid`; the decimal form of a number consists of
digit characters that stand for the number. Equal names have equal `pid` and
equal `rid`. -/
theorem C22_region_name_injective (pid rid pid2 rid2 : Nat) :
    get_region_name pid rid = "region-" ++ to_string pid ++ "-" ++ to_string rid ∧
    (∀ c ∈ (to_string pid).data ++ (to_string rid).data, c.isDigit = true) ∧
    decimal_value (to_string pid).data = pid ∧
    decimal_value (to_string rid).data = rid ∧
    (get_region_name pid rid = get_region_name pid2 rid2 → pid = pid2 ∧ rid = rid2) := by
  refine ⟨rfl, ?_, to_string_value pid, to_string_value rid, ?_⟩
  · intro c hc
    rcases List.mem_append.mp hc with h | h
    · exact (to_string_digits _ c h).1
    · exact (to_string_digits _ c h).1
  · intro h
    have hd := congrArg String.data h
    rw [get_region_name_data, get_region_name_data] at hd
    have hd2 := List.append_cancel_left hd
    obtain ⟨e1, e2⟩ := split_at_separator '-' _ _ _ _
      (fun hm => (to_string_digits pid _ hm).2 rfl)
      (fun hm => (to_string_digits pid2 _ hm).2 rfl) hd2
    have v1 := to_string_value pid
    have v2 := to_string_value rid
    rw [e1, to_string_value] at v1
    rw [e2, to_string_value] at v2
    exact ⟨v1.symm, v2.symm⟩

/-- Witness of C22: the pairs (1, 23) and (12, 3), whose digits run together to
the same sequence, have different names. -/
theorem C22_region_name_injective_witness :
    get_region_name 1 23 ≠ get_region_name 12 3 :=
  fun h => absurd ((C22_region_name_injective 1 23 12 3).2.2.2.2 h).1 (by decide)

/-! ### Object headers (claims C23, C27, C28) -/

theorem test_bit_eq (x k : Nat) : test_bit x k = x.testBit k := by
  unfold test_bit
  rw [Nat.one_shiftLeft, Nat.and_two_pow]
  have hpos : 0 < 2 ^ k := Nat.two_pow_pos k
  cases x.testBit k with
  | false => simp
  | true =>
    simp only [Bool.toNat_true, Nat.one_mul, ne_eq, decide_eq_true_eq]
    omega

theorem testBit_clr_bit (x k i : Nat) :
    (clr_bit x k).testBit i = (x.testBit i && !decide (k = i)) := by
  unfold clr_bit
  rw [Nat.testBit_xor, Nat.testBit_and, Nat.one_shiftLeft, Nat.testBit_two_pow]
  cases x.testBit i <;> cases decide (k = i) <;> rfl

theorem testBit_set_bit (width x k i : Nat) :
    (set_bit width x k).testBit i = (decide (i < width) && (x.testBit i || decide (k = i))) := by
  unfold set_bit
  rw [Nat.testBit_mod_two_pow, Nat.testBit_or, Nat.one_shiftLeft, Nat.testBit_two_pow]

theorem clr_bit_flags (x k : Nat) :
    test_bit (clr_bit x k) k = false ∧
    (∀ i, i ≠ k → (clr_bit x k).testBit i = x.testBit i) ∧
    (∀ j, k ≠ j → test_bit (clr_bit x k) j = test_bit x j) ∧
    clr_bit (clr_bit x k) k = clr_bit x k := by
  refine ⟨?_, ?_, ?_, ?_⟩
  · rw [test_bit_eq, testBit_clr_bit]
    simp
  · intro i hi
    rw [testBit_clr_bit]
    have : ¬ k = i := fun h => hi h.symm
    simp [this]
  · intro j hj
    rw [test_bit_eq, test_bit_eq, testBit_clr_bit]
    simp [hj]
  · apply Nat.eq_of_testBit_eq
    intro i
    rw [testBit_clr_bit, testBit_clr_bit]
    cases x.testBit i <;> cases decide (k = i) <;> rfl

/-- C23. `SmallObjectHdr::free` and `LargeObjectHdr::free` clear the present bit:
afterwards `is_present()` is false. The present bit being another bit than the
accessed, the evacuate and the small-object bit, these three read as before;
every bit of `flags` but the present bit, the size, the back reference (and the
`next` field of a large header) are unchanged, and a second `free` changes
nothing. -/
theorem C23_free_clears_present (hs hl : HdrCfg) (h : SmallObjectHdr) (l : LargeObjectHdr)
    (hsd : hs.kPresentBit ≠ hs.kAccessedBit ∧ hs.kPresentBit ≠ hs.kEvacuateBit ∧
      hs.kPresentBit ≠ hs.kSmallObjBit)
    (hld : hl.kPresentBit ≠ hl.kAccessedBit ∧ hl.kPresentBit ≠ hl.kEvacuateBit ∧
      hl.kPresentBit ≠ hl.kSmallObjBit) :
    ((h.free hs).is_present hs = false ∧
      (h.free hs).is_accessed hs = h.is_accessed hs ∧
      (h.free hs).is_evacuate hs = h.is_evacuate hs ∧
      GenericObjectHdr.is_small_obj hs { flags := (h.free hs).flags } =
        GenericObjectHdr.is_small_obj hs { flags := h.flags } ∧
      (∀ i, i ≠ hs.kPresentBit → (h.free hs).flags.testBit i = h.flags.testBit i) ∧
      (h.free hs).size = h.size ∧ (h.free hs).get_rref = h.get_rref ∧
      (h.free hs).free hs = h.free hs) ∧
    ((l.free hl).is_present hl = false ∧
      (l.free hl).is_accessed hl = l.is_accessed hl ∧
      (l.free hl).is_evacuate hl = l.is_evacuate hl ∧
      GenericObjectHdr.is_small_obj hl { flags := (l.free hl).flags } =
        GenericObjectHdr.is_small_obj hl { flags := l.flags } ∧
      (∀ i, i ≠ hl.kPresentBit → (l.free hl).flags.testBit i = l.flags.testBit i) ∧
      (l.free hl).get_size = l.get_size ∧ (l.free hl).get_rref = l.get_rref ∧
      (l.free hl).next = l.next ∧
      (l.free hl).free hl = l.free hl) := by
  obtain ⟨s1, s2, s3, s4⟩ := clr_bit_flags h.flags hs.kPresentBit
  obtain ⟨l1, l2, l3, l4⟩ := clr_bit_flags l.flags hl.kPresentBit
  constructor
  · refine ⟨s1, s3 _ hsd.1, s3 _ hsd.2.1, s3 _ hsd.2.2, s2, rfl, rfl, ?_⟩
    simp only [SmallObjectHdr.free, SmallObjectHdr.clr_present, s4]
  · refine ⟨l1, l3 _ hld.1, l3 _ hld.2.1, l3 _ hld.2.2, l2, rfl, rfl, rfl, ?_⟩
    simp only [LargeObjectHdr.free, LargeObjectHdr.clr_present, l4]

/-- Witness of C23: a small header with all four flags set and a large header
with the present and the accessed flag set. -/
theorem C23_free_clears_present_witness :
    (SmallObjectHdr.free hdr4 { rref := 5, size := 3, flags := 15 }).is_present hdr4 = false ∧
    (LargeObjectHdr.free hdr4 { size := 3, flags := 12, rref := 5, next := 0 }).is_accessed hdr4 =
      LargeObjectHdr.is_accessed hdr4 { size := 3, flags := 12, rref := 5, next := 0 } :=
  ⟨(C23_free_clears_present hdr4 hdr4 { rref := 5, size := 3, flags := 15 }
      { size := 3, flags := 12, rref := 5, next := 0 } (by decide) (by decide)).1.1,
    (C23_free_clears_present hdr4 hdr4 { rref := 5, size := 3, flags := 15 }
      { size := 3, flags := 12, rref := 5, next := 0 } (by decide) (by decide)).2.2.1⟩

theorem small_size_round_trip (cfg : LogCfg) (hs : HdrCfg) (h : SmallObjectHdr) (s : Nat)
    (hdiv : cfg.kSmallObjSizeUnit ∣ cfg.round_up_to_align s cfg.kSmallObjSizeUnit)
    (h32 : cfg.round_up_to_align s cfg.kSmallObjSizeUnit < 2 ^ 32)
    (h12 : cfg.round_up_to_align s cfg.kSmallObjSizeUnit / cfg.kSmallObjSizeUnit < 2 ^ 12)
    (hbits : 12 ≤ hs.sizeBits) :
    (h.set_size cfg hs s).get_size cfg = cfg.round_up_to_align s cfg.kSmallObjSizeUnit := by
  unfold SmallObjectHdr.set_size SmallObjectHdr.get_size
  simp only
  have hpow : 2 ^ 12 ≤ 2 ^ hs.sizeBits := Nat.pow_le_pow_right (by decide) hbits
  rw [Nat.mod_eq_of_lt h32, Nat.mod_eq_of_lt (lt_of_lt_of_le h12 hpow),
    Nat.div_mul_cancel hdiv, Nat.mod_eq_of_lt h32]

/-- C27. `round_up_to_align(s, kSmallObjSizeUnit)` is a multiple of the unit, at
least `s` and below `s + kSmallObjSizeUnit`, it fits a `uint32_t`, and divided
by the unit it is below `2^12`, which the size field holds. Then `get_size()`
after `SmallObjectHdr::set_size(s)` returns that rounded value, and `set_size`
leaves the flags and the back reference unchanged. For a large header whose
size field holds `s`, `get_size()` after `set_size(s)` returns `s`, and the
other fields are unchanged. -/
theorem C27_size_round_trip (cfg : LogCfg) (hs hl : HdrCfg) (h : SmallObjectHdr)
    (l : LargeObjectHdr) (s : Nat)
    (hround : cfg.kSmallObjSizeUnit ∣ cfg.round_up_to_align s cfg.kSmallObjSizeUnit ∧
      s ≤ cfg.round_up_to_align s cfg.kSmallObjSizeUnit ∧
      cfg.round_up_to_align s cfg.kSmallObjSizeUnit < s + cfg.kSmallObjSizeUnit)
    (h32 : cfg.round_up_to_align s cfg.kSmallObjSizeUnit < 2 ^ 32)
    (h12 : cfg.round_up_to_align s cfg.kSmallObjSizeUnit / cfg.kSmallObjSizeUnit < 2 ^ 12)
    (hbits : 12 ≤ hs.sizeBits)
    (hlarge : s < 2 ^ 32 ∧ s < 2 ^ hl.sizeBits) :
    (h.set_size cfg hs s).get_size cfg = cfg.round_up_to_align s cfg.kSmallObjSizeUnit ∧
    cfg.kSmallObjSizeUnit ∣ (h.set_size cfg hs s).get_size cfg ∧
    s ≤ (h.set_size cfg hs s).get_size cfg ∧
    (h.set_size cfg hs s).get_size cfg < s + cfg.kSmallObjSizeUnit ∧
    (h.set_size cfg hs s).flags = h.flags ∧
    (h.set_size cfg hs s).get_rref = h.get_rref ∧
    (l.set_size hl s).get_size = s ∧
    (l.set_size hl s).flags = l.flags ∧ (l.set_size hl s).get_rref = l.get_rref ∧
    (l.set_size hl s).next = l.next := by
  have hrt := small_size_round_trip cfg hs h s hround.1 h32 h12 hbits
  refine ⟨hrt, ?_, ?_, ?_, rfl, rfl, ?_, rfl, rfl, rfl⟩
  · rw [hrt]
    exact hround.1
  · rw [hrt]
    exact hround.2.1
  · rw [hrt]
    exact hround.2.2
  · unfold LargeObjectHdr.set_size LargeObjectHdr.get_size
    simp only
    rw [Nat.mod_eq_of_lt hlarge.1, Nat.mod_eq_of_lt hlarge.2, Nat.mod_eq_of_lt hlarge.1]

/-- Witness of C27: a unit of 16 bytes and the size 20, which is stored as 2 and
read back as 32. -/
theorem C27_size_round_trip_witness :
    (SmallObjectHdr.set_size cfg64 hdr4 { rref := 5, size := 0, flags := 15 } 20).get_size cfg64 =
      32 :=
  (C27_size_round_trip cfg64 hdr4 hdr4 { rref := 5, size := 0, flags := 15 }
    { size := 0, flags := 12, rref := 5, next := 0 } 20
    (by decide) (by decide) (by decide) (by decide) (by decide)).1

/-- C28. Whatever the header held before: after `SmallObjectHdr::init(size,
rref)` the header is present, the small-object bit of its flags is set,
`get_rref()` is `rref` and `get_size()` is the rounded size; after
`LargeObjectHdr::init(size, rref)` the header is present, the small-object bit
of its flags is clear, `get_rref()` is `rref` and `get_size()` is `size`. The
flag bits lie within the flags field, the present bit is not the small-object
bit, and the values fit their fields. -/
theorem C28_init_sets_variant (cfg : LogCfg) (hs hl : HdrCfg) (h : SmallObjectHdr)
    (l : LargeObjectHdr) (size rref : Nat)
    (hsbits : hs.kPresentBit < hs.flagBits ∧ hs.kSmallObjBit < hs.flagBits)
    (hlbits : hl.kPresentBit < hl.flagBits ∧ hl.kPresentBit ≠ hl.kSmallObjBit)
    (hrref : rref < 2 ^ hs.rrefBits ∧ rref < 2 ^ hl.rrefBits)
    (hdiv : cfg.kSmallObjSizeUnit ∣ cfg.round_up_to_align size cfg.kSmallObjSizeUnit)
    (h32 : cfg.round_up_to_align size cfg.kSmallObjSizeUnit < 2 ^ 32)
    (h12 : cfg.round_up_to_align size cfg.kSmallObjSizeUnit / cfg.kSmallObjSizeUnit < 2 ^ 12)
    (hbits : 12 ≤ hs.sizeBits)
    (hlarge : size < 2 ^ 32 ∧ size < 2 ^ hl.sizeBits) :
    ((h.init cfg hs size rref).is_present hs = true ∧
      GenericObjectHdr.is_small_obj hs { flags := (h.init cfg hs size rref).flags } = true ∧
      (h.init cfg hs size rref).get_rref = rref ∧
      (h.init cfg hs size rref).get_size cfg =
        cfg.round_up_to_align size cfg.kSmallObjSizeUnit) ∧
    ((l.init hl size rref).is_present hl = true ∧
      GenericObjectHdr.is_small_obj hl { flags := (l.init hl size rref).flags } = false ∧
      (l.init hl size rref).get_rref = rref ∧
      (l.init hl size rref).get_size = size) := by
  constructor
  · refine ⟨?_, ?_, ?_, ?_⟩
    · simp only [SmallObjectHdr.init, SmallObjectHdr._small_obj, SmallObjectHdr.set_present,
        SmallObjectHdr.is_present]
      rw [test_bit_eq, testBit_set_bit, testBit_set_bit]
      simp [hsbits.1]
    · simp only [SmallObjectHdr.init, SmallObjectHdr._small_obj,
        GenericObjectHdr.is_small_obj]
      rw [test_bit_eq, testBit_set_bit]
      simp [hsbits.2]
    · simp only [SmallObjectHdr.init, SmallObjectHdr._small_obj, SmallObjectHdr.set_present,
        SmallObjectHdr.set_rref, SmallObjectHdr.get_rref]
      exact Nat.mod_eq_of_lt hrref.1
    · exact small_size_round_trip cfg hs h size hdiv h32 h12 hbits
  · refine ⟨?_, ?_, ?_, ?_⟩
    · simp only [LargeObjectHdr.init, LargeObjectHdr._large_obj, LargeObjectHdr.set_present,
        LargeObjectHdr.is_present]
      rw [test_bit_eq, testBit_clr_bit, testBit_set_bit]
      have hne : ¬ hl.kSmallObjBit = hl.kPresentBit := fun e => hlbits.2 e.symm
      simp [hlbits.1, hne]
    · simp only [LargeObjectHdr.init, LargeObjectHdr._large_obj,
        GenericObjectHdr.is_small_obj]
      rw [test_bit_eq, testBit_clr_bit]
      simp
    · simp only [LargeObjectHdr.init, LargeObjectHdr._large_obj, LargeObjectHdr.set_present,
        LargeObjectHdr.set_rref, LargeObjectHdr.get_rref]
      exact Nat.mod_eq_of_lt hrref.2
    · simp only [LargeObjectHdr.init, LargeObjectHdr._large_obj, LargeObjectHdr.set_present,
        LargeObjectHdr.set_rref, LargeObjectHdr.set_size, LargeObjectHdr.get_size]
      rw [Nat.mod_eq_of_lt hlarge.1, Nat.mod_eq_of_lt hlarge.2, Nat.mod_eq_of_lt hlarge.1]

/-- Witness of C28: a large header initialised over a header that had the
small-object bit set. -/
theorem C28_init_sets_variant_witness :
    GenericObjectHdr.is_small_obj hdr4
      { flags := (LargeObjectHdr.init hdr4 { size := 0, flags := 1, rref := 0, next := 0 }
          20 4096).flags } = false ∧
    (SmallObjectHdr.init cfg64 hdr4 { rref := 0, size := 0, flags := 0 } 20 4096).is_present
      hdr4 = true :=
  ⟨(C28_init_sets_variant cfg64 hdr4 hdr4 { rref := 0, size := 0, flags := 0 }
      { size := 0, flags := 1, rref := 0, next := 0 } 20 4096
      (by decide) (by decide) (by decide) (by decide) (by decide) (by decide) (by decide)
      (by decide)).2.2.1,
    (C28_init_sets_variant cfg64 hdr4 hdr4 { rref := 0, size := 0, flags := 0 }
      { size := 0, flags := 1, rref := 0, next := 0 } 20 4096
      (by decide) (by decide) (by decide) (by decide) (by decide) (by decide) (by decide)
      (by decide)).1.1⟩

/-! ### `clear` (claim C24) -/

theorem clear_loop_all (fuel : Nat) :
    ∀ (c : Cursor) (deleted : List BucketNode), c.node.length ≤ fuel →
      clear_loop fuel c deleted = (deleted ++ c.node, { before := c.before, node := [] }) := by
  induction fuel with
  | zero =>
    intro c deleted h
    have hn : c.node = [] := List.length_eq_zero.mp (Nat.le_zero.mp h)
    cases c
    simp only at hn
    subst hn
    simp [clear_loop]
  | succ fuel ih =>
    intro c deleted h
    obtain ⟨before, node⟩ := c
    cases node with
    | nil => simp [clear_loop]
    | cons n next =>
      simp only [clear_loop, delete_node]
      rw [ih _ _ (by simpa using h)]
      simp

theorem clear_for_spec (cnt : Nat) :
    ∀ (idx : Nat) (s : SyncKV) (deleted : List BucketNode),
      (clear_for cnt idx s deleted).1 =
        deleted ++ ((List.range cnt).map (fun i => s.buckets_ (idx + i))).flatten ∧
      (∀ j, (clear_for cnt idx s deleted).2.buckets_ j =
        if idx ≤ j ∧ j < idx + cnt then [] else s.buckets_ j) ∧
      (clear_for cnt idx s deleted).2.NBuckets = s.NBuckets ∧
      (clear_for cnt idx s deleted).2.hash_int = s.hash_int ∧
      (clear_for cnt idx s deleted).2.hash_bytes = s.hash_bytes ∧
      (clear_for cnt idx s deleted).2.stats = s.stats := by
  induction cnt with
  | zero =>
    intro idx s deleted
    refine ⟨by simp [clear_for], ?_, rfl, rfl, rfl, rfl⟩
    intro j
    have : ¬ (idx ≤ j ∧ j < idx + 0) := by omega
    rw [if_neg this]
    rfl
  | succ cnt ih =>
    intro idx s deleted
    simp only [clear_for]
    rw [clear_loop_all (s.buckets_ idx).length { before := [], node := s.buckets_ idx } deleted
      (le_refl _)]
    simp only [Cursor.chain, List.append_nil]
    obtain ⟨r1, r2, r3, r4, r5, r6⟩ := ih (idx + 1) (s.commit idx [] s.stats)
      (deleted ++ s.buckets_ idx)
    refine ⟨?_, ?_, r3, r4, r5, r6⟩
    · rw [r1, List.range_succ_eq_map, List.map_cons, List.map_map, List.flatten_cons,
        List.append_assoc]
      congr 2
      congr 1
      apply List.map_congr_left
      intro i _
      have hne : idx + 1 + i ≠ idx := by omega
      simp only [SyncKV.commit, Function.comp, Function.update_noteq hne, Nat.succ_eq_add_one]
      congr 1
      omega
    · intro j
      rw [r2]
      by_cases hj : j = idx
      · subst hj
        have h1 : ¬ (j + 1 ≤ j ∧ j < j + 1 + cnt) := by omega
        have h2 : j ≤ j ∧ j < j + (cnt + 1) := by omega
        simp [h1, h2, SyncKV.commit]
      · by_cases hin : idx + 1 ≤ j ∧ j < idx + 1 + cnt
        · have h2 : idx ≤ j ∧ j < idx + (cnt + 1) := by omega
          simp [hin, h2]
        · have h2 : ¬ (idx ≤ j ∧ j < idx + (cnt + 1)) := by omega
          simp [hin, h2, SyncKV.commit, Function.update_noteq hj]

/-- C24. `clear()` returns true and leaves every bucket head of the `NBuckets`
buckets null; afterwards `get_` of every key returns `nullptr` and counts a miss.
The nodes passed to `delete_node` are the nodes of the chains of the buckets 0,
1, ..., each chain from its head on: every node once. -/
theorem C24_clear_empties (s : SyncKV) (k : Bytes) (hN : 0 < s.NBuckets) :
    s.clear.1 = true ∧
    (∀ idx, idx < s.NBuckets → s.clear.2.buckets_ idx = []) ∧
    (s.clear.2.get_ k).1 = none ∧
    (s.clear.2.get_ k).2.stats = inc_cache_miss s.stats ∧
    s.clear_deleted = ((List.range s.NBuckets).map s.buckets_).flatten := by
  obtain ⟨r1, r2, r3, r4, r5, r6⟩ := clear_for_spec s.NBuckets 0 s []
  have hb : ∀ idx, idx < s.NBuckets → s.clear.2.buckets_ idx = [] := by
    intro idx hidx
    show (clear_for s.NBuckets 0 s []).2.buckets_ idx = []
    rw [r2]
    have : 0 ≤ idx ∧ idx < 0 + s.NBuckets := by omega
    rw [if_pos this]
  have hNB : s.clear.2.NBuckets = s.NBuckets := r3
  have hidx : s.clear.2.hash_ k % s.clear.2.NBuckets < s.NBuckets := by
    rw [hNB]
    exact Nat.mod_lt _ hN
  have hempty := hb _ hidx
  have hget := get__of_absent s.clear.2 k (by rw [hempty]; intro q hq; simp at hq)
  refine ⟨rfl, hb, ?_, ?_, ?_⟩
  · rw [hget]
  · rw [hget]
    show inc_cache_miss s.clear.2.stats = inc_cache_miss s.stats
    have hst : s.clear.2.stats = s.stats := r6
    rw [hst]
  · show (clear_for s.NBuckets 0 s []).1 = _
    rw [r1]
    simp

/-- Witness of C24: a map with one bucket that holds two nodes. -/
theorem C24_clear_empties_witness :
    ((kvOf [mkNode 0 [97] [1], mkNode 0 [98] [2]]).clear.2.get_ [97]).1 = none ∧
    (kvOf [mkNode 0 [97] [1], mkNode 0 [98] [2]]).clear_deleted =
      [mkNode 0 [97] [1], mkNode 0 [98] [2]] :=
  ⟨(C24_clear_empties (kvOf [mkNode 0 [97] [1], mkNode 0 [98] [2]]) [97] (by decide)).2.2.1,
    by decide⟩

/-! ### Keys with a zero byte and the nodes behind a replaced node (claims C29, C30) -/

/-- C29, failing run. One bucket holds nodes for the keys `a`, `b` and `c`, in
this order, each with a value of one byte and its own hash, and no pointer
faults. `get_` of `c` returns its value. `set` of `b` with a value of two bytes
succeeds: the node of `b` cannot hold the value, it is deleted and a new node is
linked in its place, whose `next` is null. The chain is then `a`, `b`; `get_`
of `c` returns `nullptr`. -/
theorem C29_set_drops_followers :
    ((kvNum [mkNode 97 [97] [1], mkNode 98 [98] [2], mkNode 99 [99] [3]]).get_ [99]).1 =
      some ([3], 1) ∧
    ((kvNum [mkNode 97 [97] [1], mkNode 98 [98] [2], mkNode 99 [99] [3]]).set [98] [2, 2]
      freshObj).1 = true ∧
    (((kvNum [mkNode 97 [97] [1], mkNode 98 [98] [2], mkNode 99 [99] [3]]).set [98] [2, 2]
      freshObj).2.buckets_ 0).map BucketNode.content =
      [(mkNode 97 [97] [1]).content, (mkNode 98 [98] [2, 2]).content] ∧
    (((kvNum [mkNode 97 [97] [1], mkNode 98 [98] [2], mkNode 99 [99] [3]]).set [98] [2, 2]
      freshObj).2.get_ [99]).1 = none := by
  decide

theorem zero_key_inj (n m : Nat) (hn : n < 2 ^ 72) (hm : m < 2 ^ 72)
    (h : zero_key n = zero_key m) : n = m := by
  unfold zero_key at h
  have h2 := congrArg decode64 (List.cons.inj h).2
  rw [decode64_encodeLE, decode64_encodeLE] at h2
  have e : (256 : Nat) ^ 9 = 2 ^ 72 := by norm_num
  rw [e, Nat.mod_eq_of_lt hn, Nat.mod_eq_of_lt hm] at h2
  exact h2

theorem zero_key_length (n : Nat) : (zero_key n).length = 10 := by
  unfold zero_key
  rw [List.length_cons, encodeLE_length]

theorem zero_key_collision (hash : Bytes → Nat) (h64 : ∀ k, hash k < 2 ^ 64) :
    ∃ n m, n ≠ m ∧ n < 2 ^ 72 ∧ m < 2 ^ 72 ∧ hash (zero_key n) = hash (zero_key m) := by
  have hcard : (Finset.range (2 ^ 64)).card < (Finset.range (2 ^ 64 + 1)).card := by
    rw [Finset.card_range, Finset.card_range]
    omega
  obtain ⟨x, hx, y, hy, hne, he⟩ := Finset.exists_ne_map_eq_of_card_lt_of_maps_to hcard
    (f := fun n => hash (zero_key n))
    (fun a _ => Finset.mem_range.mpr (h64 _))
  rw [Finset.mem_range] at hx hy
  exact ⟨x, y, hne, by omega, by omega, he⟩

theorem zero_key_matches (kh : Nat) (n m : Nat) (v : Bytes) :
    (mkNode kh (zero_key n) v).keyEq kh (zero_key m) := by
  unfold BucketNode.keyEq mkNode
  simp only [zero_key_length]
  refine ⟨trivial, ?_, ?_⟩
  · unfold readU64
    have h := readBytes_prefix (encode64 10) (encode64 v.length ++ (zero_key n ++ v))
    rw [encode64_length] at h
    rw [List.append_assoc, List.append_assoc, h]
    exact decode64_encode64 (by norm_num)
  · have h := readBytes_append_left (encode64 10 ++ encode64 v.length) (zero_key n ++ v) 0 10
    rw [List.length_append, encode64_length, encode64_length] at h
    have h2 := readBytes_prefix (zero_key n) v
    rw [zero_key_length] at h2
    rw [List.append_assoc (encode64 10 ++ encode64 v.length), h, h2]
    unfold zero_key
    simp [strncmp]


/-- C30, failing runs. The keys `01 00 02` and `01 00 03` have the same length
and differ in the byte behind the zero byte; where they hash to the same value,
a walk looking for the second key visits the node of the first, `iterate_list`
returns true, and `get_` of the second key returns the value stored under the
first. Such keys exist whatever the hash function is: among the keys of ten
bytes that start with a zero byte there are two different ones with the same
64-bit hash, and `iterate_list` takes the node of one for the other. -/
theorem C30_embedded_zero_matches :
    ((visit 0 [1, 0, 3] (some 0) (mkNode 0 [1, 0, 2] [9])).found = true ∧
      ((kvOf [mkNode 0 [1, 0, 2] [9]]).get_ [1, 0, 3]).1 = some ([9], 1) ∧
      ([1, 0, 2] : Bytes).length = ([1, 0, 3] : Bytes).length ∧
      ([1, 0, 2] : Bytes) ≠ [1, 0, 3]) ∧
    ∀ (s : SyncKV) (v : Bytes), (∀ k, s.hash_bytes k < 2 ^ 64) →
      ∃ k1 k2 : Bytes, k1 ≠ k2 ∧ k1.length = k2.length ∧ s.hash_ k1 = s.hash_ k2 ∧
        (visit (s.hash_ k2) k2 (some 0) (mkNode (s.hash_ k1) k1 v)).found = true := by
  refine ⟨by decide, ?_⟩
  intro s v h64
  obtain ⟨n, m, hne, hn, hm, he⟩ := zero_key_collision s.hash_bytes h64
  have hh : ∀ x, s.hash_ (zero_key x) = s.hash_bytes (zero_key x) := by
    intro x
    unfold SyncKV.hash_
    rw [zero_key_length]
    simp
  refine ⟨zero_key n, zero_key m, fun e => hne (zero_key_inj n m hn hm e), ?_, ?_, ?_⟩
  · rw [zero_key_length, zero_key_length]
  · rw [hh, hh, he]
  · rw [hh, hh, he]
    unfold visit
    rw [iterate_list_healthy _ _ _ _ _ _ _ _ (by exact ⟨rfl, rfl⟩),
      if_pos (zero_key_matches _ n m v)]

/-- Witness of C30: the hash function that maps every key to 0. -/
theorem C30_embedded_zero_matches_witness :
    ∃ k1 k2 : Bytes, k1 ≠ k2 ∧ k1.length = k2.length ∧
      (kvOf []).hash_ k1 = (kvOf []).hash_ k2 ∧
      (visit ((kvOf []).hash_ k2) k2 (some 0) (mkNode ((kvOf []).hash_ k1) k1 [9])).found = true :=
  C30_embedded_zero_matches.2 (kvOf []) [9] (fun _ => Nat.two_pow_pos 64)

/-! ### `oset_insert` on a well-formed block (claim C25) -/

theorem Ending.map_eq_returns {α β : Type} (f : α → β) (e : Ending α) (y : β)
    (h : Ending.map f e = Ending.returns y) : ∃ r, e = Ending.returns r ∧ f r = y := by
  cases e with
  | aborts => simp [Ending.map] at h
  | returns r =>
    simp only [Ending.map, Ending.returns.injEq] at h
    exact ⟨r, rfl, h⟩


theorem allocSegment_frame (a : LogAllocator) (overcommit : Bool) :
    (a.allocSegment overcommit).2.segments_ = a.segments_ ∧
    (a.allocSegment overcommit).2.pcab = a.pcab ∧
    ∀ seg, (a.allocSegment overcommit).1 = some seg → seg.pos_ = seg.start_addr_ ∧
      seg.vLogChunks_ = [] := by
  unfold LogAllocator.allocSegment
  by_cases h : toI32 (a.rmanager.AllocRegion overcommit).1 = -1
  · simp [h]
  · simp only [h, if_false, true_and]
    intro seg hs
    simp only [Option.some.injEq] at hs
    subst hs
    exact ⟨rfl, rfl⟩

theorem allocChunk_fresh (cfg : LogCfg) (seg : LogSegment) (chunk : LogChunk)
    (h : (seg.allocChunk cfg).1 = some chunk) :
    chunk = LogChunk.new seg.pos_ := by
  unfold LogSegment.allocChunk at h
  by_cases hf : seg.full cfg = true
  · simp [hf] at h
  · simp only [hf, Bool.false_eq_true, if_false, Option.some.injEq] at h
    exact h.symm

/-- The body of the loop, written out. -/
theorem alloc_large_frag_eq (cfg : LogCfg) (hc : HdrCfg) (o : LargeOracle) (overcommit : Bool)
    (st : LargeState) :
    alloc_large_frag cfg hc o overcommit st =
      match st.a.allocSegment overcommit with
      | (none, a1) => (none, { st with a := a1 })
      | (some segment, a1) =>
        let r := segment.allocChunk cfg
        let st1 := { st with a := a1, alloced_segs := st.alloced_segs ++ [r.2] }
        match r.1 with
        | none => (none, st1)
        | some chunk =>
          let m := chunk.alloc_large_mem cfg hc o (toU64 st.remaining_size) st.prev_tptr st1.hdrs
          let chunk1 := if m.2.1.full cfg then m.2.1.seal else m.2.1
          let st2 := { st1 with hdrs := m.2.2, last_chunk := some chunk1 }
          match m.1 with
          | none => (none, st2)
          | some f =>
            (some f, { st2 with frags := st2.frags ++ [f],
                                remaining_size := toI64 (st.remaining_size - f.2) }) := by
  unfold alloc_large_frag alloc_large_chunk
  cases hseg : st.a.allocSegment overcommit with
  | mk os a1 =>
    cases os with
    | none => rfl
    | some segment =>
      simp only
      cases hch : (segment.allocChunk cfg).1 with
      | none => rfl
      | some chunk => rfl

/-- What a successful `LogChunk::alloc_large` hands out. -/
theorem alloc_large_mem_some (cfg : LogCfg) (hc : HdrCfg) (o : LargeOracle) (c : LogChunk)
    (size : Nat) (prev_tptr : Option Nat) (hdrs : HdrStore) (f : Nat × Nat)
    (hpos : c.start_addr_ ≤ c.pos_ ∧ c.pos_ - c.start_addr_ ≤ cfg.kLogChunkSize)
    (hH : cfg.sizeofLargeObjectHdr + cfg.kLogChunkSize < 2 ^ 64)
    (h : (c.alloc_large_mem cfg hc o size prev_tptr hdrs).1 = some f) :
    f.1 = c.pos_ ∧
    c.pos_ - c.start_addr_ + cfg.sizeofLargeObjectHdr < cfg.kLogChunkSize ∧
    f.2 = min (cfg.kLogChunkSize - (c.pos_ - c.start_addr_) - cfg.sizeofLargeObjectHdr) size ∧
    (∀ prev, prev_tptr = some prev →
      ((c.alloc_large_mem cfg hc o size prev_tptr hdrs).2.2 prev).next = f.1) := by
  unfold LogChunk.alloc_large_mem at h ⊢
  by_cases hs : c.sealed_ = true
  · simp [hs] at h
  · simp only [hs, Bool.false_eq_true, if_false] at h ⊢
    by_cases hfull : toU64 ((toU64 ((c.pos_ : Int) - c.start_addr_) : Int) +
        cfg.sizeofLargeObjectHdr) ≥ cfg.kLogChunkSize
    · simp [hfull] at h
    · simp only [hfull, if_false] at h ⊢
      by_cases hi : (!o.init_large_ok c.pos_) = true
      · simp [hi] at h
      · simp only [hi, Bool.false_eq_true, if_false] at h ⊢
        have hused : c.pos_ - c.start_addr_ + cfg.sizeofLargeObjectHdr < cfg.kLogChunkSize := by
          unfold toU64 at hfull
          omega
        have htr : min (toU64 ((toU64 ((cfg.kLogChunkSize : Int) -
            (toU64 ((c.pos_ : Int) - c.start_addr_) : Nat)) : Int) -
            cfg.sizeofLargeObjectHdr)) size =
            min (cfg.kLogChunkSize - (c.pos_ - c.start_addr_) - cfg.sizeofLargeObjectHdr) size := by
          unfold toU64
          omega
        cases prev_tptr with
        | none =>
          replace h := Option.some.inj h
          subst h
          exact ⟨rfl, hused, htr, fun prev hp => by simp at hp⟩
        | some prev =>
          by_cases hl : (!o.load_hdr_ok prev) = true
          · simp [hl] at h
          · simp only [hl, Bool.false_eq_true, if_false] at h ⊢
            by_cases hst : (!o.store_hdr_ok prev) = true
            · simp [hst] at h
            · simp only [hst, Bool.false_eq_true, if_false] at h ⊢
              replace h := Option.some.inj h
              subst h
              refine ⟨rfl, hused, htr, ?_⟩
              intro p hp
              simp only [Option.some.injEq] at hp
              subst hp
              simp [LargeObjectHdr.set_next]

theorem alloc_large_mem_link (cfg : LogCfg) (hc : HdrCfg) (o : LargeOracle) (c : LogChunk)
    (size : Nat) (prev : Nat) (hdrs : HdrStore) (f : Nat × Nat)
    (h : (c.alloc_large_mem cfg hc o size (some prev) hdrs).1 = some f) :
    ((c.alloc_large_mem cfg hc o size (some prev) hdrs).2.2 prev).next = f.1 := by
  unfold LogChunk.alloc_large_mem at h ⊢
  by_cases hs : c.sealed_ = true
  · simp [hs] at h
  · simp only [hs, Bool.false_eq_true, if_false] at h ⊢
    by_cases hfull : toU64 ((toU64 ((c.pos_ : Int) - c.start_addr_) : Int) +
        cfg.sizeofLargeObjectHdr) ≥ cfg.kLogChunkSize
    · simp [hfull] at h
    · simp only [hfull, if_false] at h ⊢
      by_cases hi : (!o.init_large_ok c.pos_) = true
      · simp [hi] at h
      · simp only [hi, Bool.false_eq_true, if_false] at h ⊢
        by_cases hl : (!o.load_hdr_ok prev) = true
        · simp [hl] at h
        · simp only [hl, Bool.false_eq_true, if_false] at h ⊢
          by_cases hst : (!o.store_hdr_ok prev) = true
          · simp [hst] at h
          · simp only [hst, Bool.false_eq_true, if_false] at h ⊢
            replace h := Option.some.inj h
            subst h
            simp [LargeObjectHdr.set_next]

theorem alloc_large_frag_spec (cfg : LogCfg) (hc : HdrCfg) (o : LargeOracle) (overcommit : Bool)
    (st st2 : LargeState) (res : Option (Nat × Nat))
    (h : alloc_large_frag cfg hc o overcommit st = (res, st2)) :
    st2.a.segments_ = st.a.segments_ ∧ st2.a.pcab = st.a.pcab ∧
    st2.alloced_ptrs = st.alloced_ptrs ∧ st2.prev_tptr = st.prev_tptr ∧
    st2.head_tptr = st.head_tptr ∧
    (res = none → st2.frags = st.frags) ∧
    (∀ f, res = some f →
      st2.frags = st.frags ++ [f] ∧
      st2.remaining_size = toI64 (st.remaining_size - f.2) ∧
      (cfg.sizeofLargeObjectHdr + cfg.kLogChunkSize < 2 ^ 64 →
        cfg.sizeofLargeObjectHdr < cfg.kLogChunkSize ∧
        f.2 = min (cfg.kLogChunkSize - cfg.sizeofLargeObjectHdr) (toU64 st.remaining_size)) ∧
      (∀ prev, st.prev_tptr = some prev → (st2.hdrs prev).next = f.1)) := by
  rw [alloc_large_frag_eq] at h
  obtain ⟨f1, f2, _⟩ := allocSegment_frame st.a overcommit
  cases hseg : st.a.allocSegment overcommit with
  | mk os a1 =>
    rw [hseg] at h f1 f2
    simp only at f1 f2
    cases os with
    | none =>
      simp only [Prod.mk.injEq] at h
      obtain ⟨h1, h2⟩ := h
      subst h1 h2
      exact ⟨f1, f2, rfl, rfl, rfl, fun _ => rfl, fun f hf => by simp at hf⟩
    | some segment =>
      simp only at h
      cases hch : (segment.allocChunk cfg).1 with
      | none =>
        rw [hch] at h
        simp only [Prod.mk.injEq] at h
        obtain ⟨h1, h2⟩ := h
        subst h1 h2
        exact ⟨f1, f2, rfl, rfl, rfl, fun _ => rfl, fun f hf => by simp at hf⟩
      | some chunk =>
        rw [hch] at h
        simp only at h
        have hfresh := allocChunk_fresh cfg segment chunk hch
        cases hm : (chunk.alloc_large_mem cfg hc o (toU64 st.remaining_size) st.prev_tptr
            st.hdrs).1 with
        | none =>
          rw [hm] at h
          simp only [Prod.mk.injEq] at h
          obtain ⟨h1, h2⟩ := h
          subst h1 h2
          exact ⟨f1, f2, rfl, rfl, rfl, fun _ => rfl, fun f hf => by simp at hf⟩
        | some f0 =>
          rw [hm] at h
          simp only [Prod.mk.injEq] at h
          obtain ⟨h1, h2⟩ := h
          subst h1 h2
          refine ⟨f1, f2, rfl, rfl, rfl, fun hn => by simp at hn, ?_⟩
          intro f hf
          simp only [Option.some.injEq] at hf
          subst hf
          refine ⟨rfl, rfl, ?_, ?_⟩
          · intro hH
            have hs := alloc_large_mem_some cfg hc o chunk (toU64 st.remaining_size)
              st.prev_tptr st.hdrs f0 (by rw [hfresh]; simp [LogChunk.new]) hH hm
            rw [hfresh] at hs
            simp only [LogChunk.new, Nat.sub_self, Nat.zero_add, Nat.sub_zero] at hs
            exact ⟨hs.2.1, hs.2.2.1⟩
          · intro prev hp
            rw [hp] at hm ⊢
            exact alloc_large_mem_link cfg hc o chunk _ prev st.hdrs f0 hm

theorem alloc_large_loop_frame (cfg : LogCfg) (hc : HdrCfg) (o : LargeOracle) (overcommit : Bool)
    (fuel : Nat) :
    ∀ (st st4 : LargeState) (ok : Bool),
      alloc_large_loop cfg hc o overcommit fuel st = some (ok, st4) →
      st.alloced_ptrs ++ [st.prev_tptr] = st.frags.map (fun f => some f.1) →
      st4.a.segments_ = st.a.segments_ ∧ st4.a.pcab = st.a.pcab ∧
      st4.head_tptr = st.head_tptr ∧
      (ok = false → st4.alloced_ptrs = st4.frags.map (fun f => some f.1)) := by
  induction fuel with
  | zero =>
    intro st st4 ok h _
    unfold alloc_large_loop at h
    by_cases hr : st.remaining_size > 0
    · simp [hr] at h
    · simp only [hr, if_false, Option.some.injEq, Prod.mk.injEq] at h
      obtain ⟨h1, h2⟩ := h
      subst h1 h2
      exact ⟨rfl, rfl, rfl, fun hf => by simp at hf⟩
  | succ fuel ih =>
    intro st st4 ok h hptr
    unfold alloc_large_loop at h
    by_cases hr : st.remaining_size > 0
    · simp only [hr, if_true] at h
      cases hfr : alloc_large_frag cfg hc o overcommit
          { st with alloced_ptrs := st.alloced_ptrs ++ [st.prev_tptr] } with
      | mk res st2 =>
        obtain ⟨g1, g2, g3, g4, g5, g6, g7⟩ := alloc_large_frag_spec cfg hc o overcommit _ st2 res hfr
        rw [hfr] at h
        cases res with
        | none =>
          simp only [Option.some.injEq, Prod.mk.injEq] at h
          obtain ⟨h1, h2⟩ := h
          subst h1 h2
          refine ⟨g1, g2, g5, fun _ => ?_⟩
          rw [g3, g6 rfl]
          exact hptr
        | some f =>
          simp only at h
          obtain ⟨k1, _, _, _⟩ := g7 f rfl
          have hinv : ({ st2 with prev_tptr := some f.1 } : LargeState).alloced_ptrs ++
              [({ st2 with prev_tptr := some f.1 } : LargeState).prev_tptr] =
              ({ st2 with prev_tptr := some f.1 } : LargeState).frags.map (fun f => some f.1) := by
            simp only [g3, k1, List.map_append, List.map_cons, List.map_nil]
            rw [hptr]
          obtain ⟨r1, r2, r3, r4⟩ := ih _ st4 ok h hinv
          exact ⟨r1.trans g1, r2.trans g2, r3.trans g5, r4⟩
    · simp only [hr, if_false, Option.some.injEq, Prod.mk.injEq] at h
      obtain ⟨h1, h2⟩ := h
      subst h1 h2
      exact ⟨rfl, rfl, rfl, fun hf => by simp at hf⟩

theorem alloc_large_loop_total (cfg : LogCfg) (hc : HdrCfg) (o : LargeOracle) (overcommit : Bool)
    (hH : cfg.sizeofLargeObjectHdr + cfg.kLogChunkSize < 2 ^ 64) (fuel : Nat) :
    ∀ (st : LargeState), st.remaining_size ≤ fuel → 0 ≤ st.remaining_size →
      st.remaining_size < 2 ^ 63 →
      ∃ ok st4, alloc_large_loop cfg hc o overcommit fuel st = some (ok, st4) ∧
        (ok = true → (((st4.frags.map Prod.snd).sum : Nat) : Int) =
          ((st.frags.map Prod.snd).sum : Nat) + st.remaining_size) := by
  induction fuel with
  | zero =>
    intro st hf h0 _
    have hz : st.remaining_size = 0 := by
      have : st.remaining_size ≤ 0 := by simpa using hf
      omega
    refine ⟨true, st, ?_, fun _ => by rw [hz]; simp⟩
    unfold alloc_large_loop
    simp [hz]
  | succ fuel ih =>
    intro st hf h0 h63
    unfold alloc_large_loop
    by_cases hr : st.remaining_size > 0
    · simp only [hr, if_true]
      cases hfr : alloc_large_frag cfg hc o overcommit
          { st with alloced_ptrs := st.alloced_ptrs ++ [st.prev_tptr] } with
      | mk res st2 =>
        obtain ⟨_, _, _, _, _, _, g7⟩ := alloc_large_frag_spec cfg hc o overcommit _ st2 res hfr
        cases res with
        | none => exact ⟨false, st2, rfl, fun hf => by simp at hf⟩
        | some f =>
          simp only
          obtain ⟨k1, k2, k3, _⟩ := g7 f rfl
          obtain ⟨kc, kf⟩ := k3 hH
          simp only at k1 k2 kf
          have hu : toU64 st.remaining_size = st.remaining_size.toNat := by
            unfold toU64
            omega
          rw [hu] at kf
          have hf1 : 1 ≤ f.2 := by omega
          have hf2 : (f.2 : Int) ≤ st.remaining_size := by omega
          have hrem : st2.remaining_size = st.remaining_size - f.2 := by
            rw [k2]
            unfold toI64
            omega
          have hcast : (fuel : Int) + 1 = ((fuel + 1 : Nat) : Int) := by push_cast; rfl
          obtain ⟨ok, st4, e1, e2⟩ := ih { st2 with prev_tptr := some f.1 }
            (by simp only [hrem]; omega) (by simp only [hrem]; omega)
            (by simp only [hrem]; omega)
          refine ⟨ok, st4, e1, fun hok => ?_⟩
          rw [e2 hok]
          simp only [k1, hrem, List.map_append, List.map_cons, List.map_nil, List.sum_append,
            List.sum_cons, List.sum_nil]
          push_cast
          omega
    · have hz : st.remaining_size = 0 := by omega
      refine ⟨true, st, by simp [hr], fun _ => by rw [hz]; simp⟩

theorem alloc_large_mem_chunk (cfg : LogCfg) (hc : HdrCfg) (o : LargeOracle) (c : LogChunk)
    (size : Nat) (prev_tptr : Option Nat) (hdrs : HdrStore) :
    (c.alloc_large_mem cfg hc o size prev_tptr hdrs).1 =
      (c.alloc_large cfg size prev_tptr.isNone (o.init_large_ok c.pos_)
        (prev_tptr.elim true o.load_hdr_ok) (prev_tptr.elim true o.store_hdr_ok)).1 ∧
    (c.alloc_large_mem cfg hc o size prev_tptr hdrs).2.1 =
      (c.alloc_large cfg size prev_tptr.isNone (o.init_large_ok c.pos_)
        (prev_tptr.elim true o.load_hdr_ok) (prev_tptr.elim true o.store_hdr_ok)).2 := by
  unfold LogChunk.alloc_large_mem LogChunk.alloc_large
  by_cases hs : c.sealed_ = true
  · simp [hs]
  · simp only [hs, Bool.false_eq_true, if_false]
    by_cases hfull : toU64 ((toU64 ((c.pos_ : Int) - c.start_addr_) : Int) +
        cfg.sizeofLargeObjectHdr) ≥ cfg.kLogChunkSize
    · simp [hfull]
    · simp only [hfull, if_false]
      by_cases hi : (!o.init_large_ok c.pos_) = true
      · simp [hi]
      · simp only [hi, Bool.false_eq_true, if_false]
        cases prev_tptr with
        | none => simp
        | some prev =>
          simp only [Option.isNone_some, Bool.not_false, Bool.true_and, Option.elim_some]
          by_cases hl : (!o.load_hdr_ok prev) = true
          · simp [hl]
          · simp only [hl, Bool.false_eq_true, if_false]
            by_cases hst : (!o.store_hdr_ok prev) = true
            · simp [hst]
            · simp [hst]

theorem clr_present_at_cases (hc : HdrCfg) (o : LargeOracle) (hdrs : HdrStore)
    (p : Option Nat) (t : Nat) :
    ((hdrs t).is_present hc = false → ((clr_present_at hc o hdrs p) t).is_present hc = false) ∧
    (p = some t → o.clr_load_ok t = true → o.clr_store_ok t = true →
      ((clr_present_at hc o hdrs p) t).is_present hc = false) := by
  have hclr : ((hdrs t).clr_present hc).is_present hc = false :=
    (clr_bit_flags (hdrs t).flags hc.kPresentBit).1
  constructor
  · intro hP
    unfold clr_present_at
    cases p with
    | none => exact hP
    | some q =>
      simp only
      by_cases h1 : (!o.clr_load_ok q) = true
      · simpa [h1] using hP
      · simp only [h1, Bool.false_eq_true, if_false]
        by_cases h2 : (!o.clr_store_ok q) = true
        · simpa [h2] using hP
        · simp only [h2, Bool.false_eq_true, if_false]
          by_cases hq : t = q
          · subst hq
            rw [Function.update_same]
            exact hclr
          · rw [Function.update_noteq hq]
            exact hP
  · intro hp h1 h2
    subst hp
    unfold clr_present_at
    simp only [h1, h2, Bool.not_true, Bool.false_eq_true, if_false, Function.update_same]
    exact hclr

theorem clr_present_fold (hc : HdrCfg) (o : LargeOracle) (ptrs : List (Option Nat)) :
    ∀ (hdrs : HdrStore) (t : Nat), o.clr_load_ok t = true → o.clr_store_ok t = true →
      (some t ∈ ptrs ∨ (hdrs t).is_present hc = false) →
      ((ptrs.foldl (clr_present_at hc o) hdrs) t).is_present hc = false := by
  induction ptrs with
  | nil =>
    intro hdrs t _ _ h
    rcases h with h | h
    · simp at h
    · exact h
  | cons p ps ih =>
    intro hdrs t h1 h2 h
    rw [List.foldl_cons]
    apply ih _ t h1 h2
    obtain ⟨c1, c2⟩ := clr_present_at_cases hc o hdrs p t
    rcases h with h | h
    · rcases List.mem_cons.mp h with h | h
      · exact Or.inr (c2 h.symm h1 h2)
      · exact Or.inl h
    · exact Or.inr (c1 h)

theorem alloc_large_failed_spec (hc : HdrCfg) (o : LargeOracle) (st : LargeState)
    (hptrs : st.alloced_ptrs = st.frags.map (fun f => some f.1)) :
    (alloc_large_failed hc o st).ok = false ∧
    (alloc_large_failed hc o st).a.segments_ = st.a.segments_ ∧
    ∀ f ∈ (alloc_large_failed hc o st).frags, o.clr_load_ok f.1 = true →
      o.clr_store_ok f.1 = true →
      ((alloc_large_failed hc o st).hdrs f.1).is_present hc = false := by
  refine ⟨rfl, rfl, ?_⟩
  intro f hf h1 h2
  apply clr_present_fold hc o _ _ f.1 h1 h2
  left
  rw [hptrs]
  exact List.mem_map.mpr ⟨f, hf, rfl⟩

theorem alloc_large_pcab_spec (cfg : LogCfg) (hc : HdrCfg) (o : LargeOracle) (a : LogAllocator)
    (hdrs : HdrStore) (size : Nat) :
    (alloc_large_pcab cfg hc o a hdrs size).a.segments_ = a.segments_ ∧
    (alloc_large_pcab cfg hc o a hdrs size).alloced_ptrs = [] ∧
    (((alloc_large_pcab cfg hc o a hdrs size).head_tptr = none ∧
        (alloc_large_pcab cfg hc o a hdrs size).frags = [] ∧
        (alloc_large_pcab cfg hc o a hdrs size).remaining_size = toI64 (toI64 size - (0 : Nat))) ∨
      ∃ c f, a.pcab = some c ∧ (c.alloc_large_mem cfg hc o size none hdrs).1 = some f ∧
        (alloc_large_pcab cfg hc o a hdrs size).head_tptr = some f.1 ∧
        (alloc_large_pcab cfg hc o a hdrs size).frags = [f] ∧
        (alloc_large_pcab cfg hc o a hdrs size).remaining_size = toI64 (toI64 size - f.2)) := by
  unfold alloc_large_pcab
  cases hp : a.pcab with
  | none => exact ⟨rfl, rfl, Or.inl ⟨rfl, rfl, rfl⟩⟩
  | some c =>
    simp only
    cases hm : (c.alloc_large_mem cfg hc o size none hdrs).1 with
    | none => exact ⟨rfl, rfl, Or.inl ⟨rfl, rfl, rfl⟩⟩
    | some f => exact ⟨rfl, rfl, Or.inr ⟨c, f, rfl, hm, rfl, rfl, rfl⟩⟩


/-! #### Headers written by `alloc_large` -/

theorem init_large_at (hc : HdrCfg) (hdrs : HdrStore) (addr size : Nat)
    (hbits : hc.kPresentBit < hc.flagBits ∧ hc.kPresentBit ≠ hc.kSmallObjBit) :
    ((init_large hc hdrs addr size) addr).is_present hc = true ∧
    ((init_large hc hdrs addr size) addr).next = 0 ∧
    (size < 2 ^ 32 → size < 2 ^ hc.sizeBits →
      ((init_large hc hdrs addr size) addr).get_size = size) ∧
    ∀ t, t ≠ addr → (init_large hc hdrs addr size) t = hdrs t := by
  unfold init_large
  refine ⟨?_, ?_, ?_, ?_⟩
  · rw [Function.update_same]
    simp only [LargeObjectHdr.init, LargeObjectHdr._large_obj, LargeObjectHdr.set_present,
      LargeObjectHdr.is_present]
    rw [test_bit_eq, testBit_clr_bit, testBit_set_bit]
    have h2 : ¬ hc.kSmallObjBit = hc.kPresentBit := fun h => hbits.2 h.symm
    simp [hbits.1, h2]
  · rw [Function.update_same]
  · intro h32 hsz
    rw [Function.update_same]
    simp only [LargeObjectHdr.init, LargeObjectHdr._large_obj, LargeObjectHdr.set_present,
      LargeObjectHdr.set_rref, LargeObjectHdr.set_size, LargeObjectHdr.get_size]
    rw [Nat.mod_eq_of_lt h32, Nat.mod_eq_of_lt hsz, Nat.mod_eq_of_lt h32]
  · intro t ht
    rw [Function.update_noteq ht]

theorem init_large_links (hc : HdrCfg) (hdrs : HdrStore) (addr size : Nat) :
    ((init_large hc hdrs addr size) addr).next = 0 ∧
    (size < 2 ^ 32 → size < 2 ^ hc.sizeBits →
      ((init_large hc hdrs addr size) addr).get_size = size) ∧
    ∀ t, t ≠ addr → (init_large hc hdrs addr size) t = hdrs t := by
  unfold init_large
  refine ⟨?_, ?_, ?_⟩
  · rw [Function.update_same]
  · intro h32 hsz
    rw [Function.update_same]
    simp only [LargeObjectHdr.init, LargeObjectHdr._large_obj, LargeObjectHdr.set_present,
      LargeObjectHdr.set_rref, LargeObjectHdr.set_size, LargeObjectHdr.get_size]
    rw [Nat.mod_eq_of_lt h32, Nat.mod_eq_of_lt hsz, Nat.mod_eq_of_lt h32]
  · intro t ht
    rw [Function.update_noteq ht]

/-- The header memory a successful `LogChunk::alloc_large` leaves: the header of
the fragment is initialised, and the fragment is made the `next` of the
predecessor when there is one. -/
theorem alloc_large_mem_hdrs (cfg : LogCfg) (hc : HdrCfg) (o : LargeOracle) (c : LogChunk)
    (size : Nat) (prev_tptr : Option Nat) (hdrs : HdrStore) (f : Nat × Nat)
    (h : (c.alloc_large_mem cfg hc o size prev_tptr hdrs).1 = some f) :
    f.1 = c.pos_ ∧
    (prev_tptr = none →
      (c.alloc_large_mem cfg hc o size prev_tptr hdrs).2.2 = init_large hc hdrs f.1 f.2) ∧
    (∀ prev, prev_tptr = some prev →
      (c.alloc_large_mem cfg hc o size prev_tptr hdrs).2.2 =
        Function.update (init_large hc hdrs f.1 f.2) prev
          ((init_large hc hdrs f.1 f.2 prev).set_next f.1)) := by
  unfold LogChunk.alloc_large_mem at h ⊢
  by_cases hs : c.sealed_ = true
  · simp [hs] at h
  · simp only [hs, Bool.false_eq_true, if_false] at h ⊢
    by_cases hfull : toU64 ((toU64 ((c.pos_ : Int) - c.start_addr_) : Int) +
        cfg.sizeofLargeObjectHdr) ≥ cfg.kLogChunkSize
    · simp [hfull] at h
    · simp only [hfull, if_false] at h ⊢
      by_cases hi : (!o.init_large_ok c.pos_) = true
      · simp [hi] at h
      · simp only [hi, Bool.false_eq_true, if_false] at h ⊢
        cases prev_tptr with
        | none =>
          replace h := Option.some.inj h
          subst h
          exact ⟨rfl, fun _ => rfl, fun prev hp => by simp at hp⟩
        | some prev =>
          by_cases hl : (!o.load_hdr_ok prev) = true
          · simp [hl] at h
          · simp only [hl, Bool.false_eq_true, if_false] at h ⊢
            by_cases hst : (!o.store_hdr_ok prev) = true
            · simp [hst] at h
            · simp only [hst, Bool.false_eq_true, if_false] at h ⊢
              replace h := Option.some.inj h
              subst h
              refine ⟨rfl, fun hp => by simp at hp, fun p hp => ?_⟩
              simp only [Option.some.injEq] at hp
              subst hp
              rfl

theorem set_next_present (hc : HdrCfg) (h : LargeObjectHdr) (addr : Nat) :
    (h.set_next addr).is_present hc = h.is_present hc := rfl

/-- Whatever `LogChunk::alloc_large` does, a header that was present stays
present, and the header of the fragment handed out is present. -/
theorem alloc_large_mem_present (cfg : LogCfg) (hc : HdrCfg) (o : LargeOracle) (c : LogChunk)
    (size : Nat) (prev_tptr : Option Nat) (hdrs : HdrStore)
    (hbits : hc.kPresentBit < hc.flagBits ∧ hc.kPresentBit ≠ hc.kSmallObjBit) :
    (∀ t, (hdrs t).is_present hc = true →
      ((c.alloc_large_mem cfg hc o size prev_tptr hdrs).2.2 t).is_present hc = true) ∧
    (∀ f, (c.alloc_large_mem cfg hc o size prev_tptr hdrs).1 = some f →
      ((c.alloc_large_mem cfg hc o size prev_tptr hdrs).2.2 f.1).is_present hc = true) := by
  have hinit : ∀ (sz t : Nat), (hdrs t).is_present hc = true →
      ((init_large hc hdrs c.pos_ sz) t).is_present hc = true := by
    intro sz t ht
    obtain ⟨i1, _, _, i4⟩ := init_large_at hc hdrs c.pos_ sz hbits
    by_cases hta : t = c.pos_
    · rw [hta]
      exact i1
    · rw [i4 t hta]
      exact ht
  have hupd : ∀ (sz prev t : Nat),
      ((init_large hc hdrs c.pos_ sz) t).is_present hc = true →
      ((Function.update (init_large hc hdrs c.pos_ sz) prev
        ((init_large hc hdrs c.pos_ sz prev).set_next c.pos_)) t).is_present hc = true := by
    intro sz prev t ht
    by_cases htp : t = prev
    · subst htp
      rw [Function.update_same, set_next_present]
      exact ht
    · rw [Function.update_noteq htp]
      exact ht
  constructor
  · intro t ht
    unfold LogChunk.alloc_large_mem
    by_cases hs : c.sealed_ = true
    · simpa [hs] using ht
    · simp only [hs, Bool.false_eq_true, if_false]
      by_cases hfull : toU64 ((toU64 ((c.pos_ : Int) - c.start_addr_) : Int) +
          cfg.sizeofLargeObjectHdr) ≥ cfg.kLogChunkSize
      · simpa [hfull] using ht
      · simp only [hfull, if_false]
        by_cases hi : (!o.init_large_ok c.pos_) = true
        · simpa [hi] using ht
        · simp only [hi, Bool.false_eq_true, if_false]
          cases prev_tptr with
          | none => exact hinit _ t ht
          | some prev =>
            simp only
            by_cases hl : (!o.load_hdr_ok prev) = true
            · simp only [hl, if_true]
              exact hinit _ t ht
            · simp only [hl, Bool.false_eq_true, if_false]
              by_cases hst : (!o.store_hdr_ok prev) = true
              · simp only [hst, if_true]
                exact hinit _ t ht
              · simp only [hst, Bool.false_eq_true, if_false]
                exact hupd _ prev t (hinit _ t ht)
  · intro f hf
    obtain ⟨e1, e2, e3⟩ := alloc_large_mem_hdrs cfg hc o c size prev_tptr hdrs f hf
    obtain ⟨i1, _, _, _⟩ := init_large_at hc hdrs f.1 f.2 hbits
    cases prev_tptr with
    | none =>
      rw [e2 rfl]
      exact i1
    | some prev =>
      rw [e3 prev rfl]
      rw [e1] at i1 ⊢
      exact hupd _ prev c.pos_ i1

theorem alloc_large_frag_present (cfg : LogCfg) (hc : HdrCfg) (o : LargeOracle)
    (overcommit : Bool) (st st2 : LargeState) (res : Option (Nat × Nat))
    (hbits : hc.kPresentBit < hc.flagBits ∧ hc.kPresentBit ≠ hc.kSmallObjBit)
    (h : alloc_large_frag cfg hc o overcommit st = (res, st2))
    (hP : ∀ f ∈ st.frags, (st.hdrs f.1).is_present hc = true) :
    ∀ f ∈ st2.frags, (st2.hdrs f.1).is_present hc = true := by
  rw [alloc_large_frag_eq] at h
  cases hseg : st.a.allocSegment overcommit with
  | mk os a1 =>
    rw [hseg] at h
    cases os with
    | none =>
      simp only [Prod.mk.injEq] at h
      obtain ⟨_, h2⟩ := h
      subst h2
      exact hP
    | some segment =>
      simp only at h
      cases hch : (segment.allocChunk cfg).1 with
      | none =>
        rw [hch] at h
        simp only [Prod.mk.injEq] at h
        obtain ⟨_, h2⟩ := h
        subst h2
        exact hP
      | some chunk =>
        rw [hch] at h
        simp only at h
        obtain ⟨p1, p2⟩ := alloc_large_mem_present cfg hc o chunk (toU64 st.remaining_size)
          st.prev_tptr st.hdrs hbits
        cases hm : (chunk.alloc_large_mem cfg hc o (toU64 st.remaining_size) st.prev_tptr
            st.hdrs).1 with
        | none =>
          rw [hm] at h
          simp only [Prod.mk.injEq] at h
          obtain ⟨_, h2⟩ := h
          subst h2
          intro f hf
          exact p1 f.1 (hP f hf)
        | some f0 =>
          rw [hm] at h
          simp only [Prod.mk.injEq] at h
          obtain ⟨_, h2⟩ := h
          subst h2
          intro f hf
          rcases List.mem_append.mp hf with hf1 | hf1
          · exact p1 f.1 (hP f hf1)
          · rw [List.mem_singleton.mp hf1]
            exact p2 f0 hm

theorem alloc_large_loop_present (cfg : LogCfg) (hc : HdrCfg) (o : LargeOracle)
    (overcommit : Bool)
    (hbits : hc.kPresentBit < hc.flagBits ∧ hc.kPresentBit ≠ hc.kSmallObjBit) (fuel : Nat) :
    ∀ (st st4 : LargeState) (ok : Bool),
      alloc_large_loop cfg hc o overcommit fuel st = some (ok, st4) →
      (∀ f ∈ st.frags, (st.hdrs f.1).is_present hc = true) →
      ∀ f ∈ st4.frags, (st4.hdrs f.1).is_present hc = true := by
  induction fuel with
  | zero =>
    intro st st4 ok h hP
    unfold alloc_large_loop at h
    by_cases hr : st.remaining_size > 0
    · simp [hr] at h
    · simp only [hr, if_false, Option.some.injEq, Prod.mk.injEq] at h
      obtain ⟨_, h2⟩ := h
      subst h2
      exact hP
  | succ fuel ih =>
    intro st st4 ok h hP
    unfold alloc_large_loop at h
    by_cases hr : st.remaining_size > 0
    · simp only [hr, if_true] at h
      cases hfr : alloc_large_frag cfg hc o overcommit
          { st with alloced_ptrs := st.alloced_ptrs ++ [st.prev_tptr] } with
      | mk res st2 =>
        have hP2 := alloc_large_frag_present cfg hc o overcommit _ st2 res hbits hfr hP
        rw [hfr] at h
        cases res with
        | none =>
          simp only [Option.some.injEq, Prod.mk.injEq] at h
          obtain ⟨_, h2⟩ := h
          subst h2
          exact hP2
        | some f =>
          simp only at h
          exact ih _ st4 ok h hP2
    · simp only [hr, if_false, Option.some.injEq, Prod.mk.injEq] at h
      obtain ⟨_, h2⟩ := h
      subst h2
      exact hP

/-- Under the label `failed`, a header that cannot be loaded or stored is not
changed. -/
theorem clr_present_fold_skip (hc : HdrCfg) (o : LargeOracle) (ptrs : List (Option Nat)) :
    ∀ (hdrs : HdrStore) (t : Nat), (o.clr_load_ok t = false ∨ o.clr_store_ok t = false) →
      (ptrs.foldl (clr_present_at hc o) hdrs) t = hdrs t := by
  induction ptrs with
  | nil => intro hdrs t _; rfl
  | cons p ps ih =>
    intro hdrs t ht
    rw [List.foldl_cons, ih _ t ht]
    unfold clr_present_at
    cases p with
    | none => rfl
    | some q =>
      simp only
      by_cases h1 : (!o.clr_load_ok q) = true
      · simp only [h1, if_true]
      · simp only [h1, Bool.false_eq_true, if_false]
        by_cases h2 : (!o.clr_store_ok q) = true
        · simp only [h2, if_true]
        · simp only [h2, Bool.false_eq_true, if_false]
          have hq : t ≠ q := by
            intro e
            subst e
            rcases ht with ht | ht
            · simp [ht] at h1
            · simp [ht] at h2
          rw [Function.update_noteq hq]

theorem alloc_large_failed_kept (hc : HdrCfg) (o : LargeOracle) (st : LargeState)
    (hP : ∀ f ∈ st.frags, (st.hdrs f.1).is_present hc = true) :
    ∀ f ∈ (alloc_large_failed hc o st).frags,
      (o.clr_load_ok f.1 = false ∨ o.clr_store_ok f.1 = false) →
      ((alloc_large_failed hc o st).hdrs f.1).is_present hc = true := by
  intro f hf hbad
  show ((st.alloced_ptrs.foldl (clr_present_at hc o) st.hdrs) f.1).is_present hc = true
  rw [clr_present_fold_skip hc o _ _ f.1 hbad]
  exact hP f hf

/-- How the block for the head ends. -/
theorem alloc_large_head_cases (cfg : LogCfg) (hc : HdrCfg) (o : LargeOracle)
    (overcommit : Bool) (size : Nat) (st1 : LargeState) :
    alloc_large_head cfg hc o overcommit size st1 = Ending.aborts ∨
    (st1.head_tptr.isNone = false ∧
      alloc_large_head cfg hc o overcommit size st1 = Ending.returns (true, st1)) ∨
    (st1.head_tptr.isNone = true ∧
      ((∃ st3, alloc_large_frag cfg hc o overcommit st1 = (none, st3) ∧
          alloc_large_head cfg hc o overcommit size st1 = Ending.returns (false, st3)) ∨
        (∃ f st3, alloc_large_frag cfg hc o overcommit st1 = (some f, st3) ∧
          alloc_large_head cfg hc o overcommit size st1 =
            Ending.returns (true, { st3 with head_tptr := some f.1 })))) := by
  by_cases hn : st1.head_tptr.isNone = true
  · have e : alloc_large_head cfg hc o overcommit size st1 =
        match alloc_large_chunk cfg overcommit st1 with
        | (none, st2) => Ending.returns (false, st2)
        | (some chunk, st2) =>
          if toU64 st2.remaining_size ≠ size then Ending.aborts
          else
            match alloc_large_on cfg hc o chunk st2 with
            | (none, st3) => Ending.returns (false, st3)
            | (some f, st3) => Ending.returns (true, { st3 with head_tptr := some f.1 }) := by
      unfold alloc_large_head
      rw [if_pos hn]
    rw [e]
    unfold alloc_large_frag
    cases hch : alloc_large_chunk cfg overcommit st1 with
    | mk och st2 =>
      cases och with
      | none => exact Or.inr (Or.inr ⟨hn, Or.inl ⟨st2, rfl, rfl⟩⟩)
      | some chunk =>
        simp only
        by_cases ha : toU64 st2.remaining_size ≠ size
        · left
          rw [if_pos ha]
        · rw [if_neg ha]
          cases hon : alloc_large_on cfg hc o chunk st2 with
          | mk res st3 =>
            cases res with
            | none => exact Or.inr (Or.inr ⟨hn, Or.inl ⟨st3, rfl, rfl⟩⟩)
            | some f => exact Or.inr (Or.inr ⟨hn, Or.inr ⟨f, st3, rfl, rfl⟩⟩)
  · have hn2 : st1.head_tptr.isNone = false := by
      cases hb : st1.head_tptr.isNone with
      | true => exact absurd hb hn
      | false => rfl
    refine Or.inr (Or.inl ⟨hn2, ?_⟩)
    unfold alloc_large_head
    rw [if_neg hn]

theorem alloc_large_tail_failed (cfg : LogCfg) (hc : HdrCfg) (o : LargeOracle)
    (overcommit : Bool) (fuel : Nat) (st3 : LargeState) (r : LargeResult)
    (h : alloc_large_tail cfg hc o overcommit fuel st3 = some (Ending.returns r))
    (hfail : r.ok = false)
    (hinv : st3.alloced_ptrs ++ [st3.head_tptr] = st3.frags.map (fun f => some f.1)) :
    r.a.segments_ = st3.a.segments_ ∧
    ((∀ t, o.init_from_soft_ok t = true) →
      (∀ f ∈ r.frags, o.clr_load_ok f.1 = true → o.clr_store_ok f.1 = true →
        (r.hdrs f.1).is_present hc = false) ∧
      (hc.kPresentBit < hc.flagBits ∧ hc.kPresentBit ≠ hc.kSmallObjBit →
        (∀ f ∈ st3.frags, (st3.hdrs f.1).is_present hc = true) →
        ∀ f ∈ r.frags, (o.clr_load_ok f.1 = false ∨ o.clr_store_ok f.1 = false) →
          (r.hdrs f.1).is_present hc = true)) := by
  unfold alloc_large_tail at h
  by_cases hn : st3.head_tptr.isNone = true
  · exfalso
    have hnone : st3.head_tptr = none := Option.isNone_iff_eq_none.mp hn
    have hmem : (none : Option Nat) ∈ st3.frags.map (fun f => some f.1) := by
      rw [← hinv, hnone]
      simp
    obtain ⟨f, _, hf⟩ := List.mem_map.mp hmem
    simp at hf
  · rw [if_neg hn] at h
    cases hl : alloc_large_loop cfg hc o overcommit fuel
        { st3 with prev_tptr := st3.head_tptr } with
    | none =>
      rw [hl] at h
      simp at h
    | some p =>
      obtain ⟨ok, st4⟩ := p
      obtain ⟨q1, _, _, q4⟩ := alloc_large_loop_frame cfg hc o overcommit fuel _ st4 ok hl hinv
      rw [hl] at h
      cases ok with
      | false =>
        simp only [Option.some.injEq, Ending.returns.injEq] at h
        subst h
        obtain ⟨_, s2, s3⟩ := alloc_large_failed_spec hc o st4 (q4 rfl)
        refine ⟨s2.trans q1, fun _ => ⟨s3, fun hbits hP => ?_⟩⟩
        exact alloc_large_failed_kept hc o st4
          (alloc_large_loop_present cfg hc o overcommit hbits fuel _ st4 false hl hP)
      | true =>
        simp only at h
        by_cases hi : (!o.init_from_soft_ok st4.head_tptr) = true
        · rw [if_pos hi] at h
          simp only [Option.some.injEq, Ending.returns.injEq] at h
          subst h
          refine ⟨q1, fun hall => ?_⟩
          rw [hall] at hi
          simp at hi
        · rw [if_neg hi] at h
          by_cases ha : (st4.a.pcab.any fun c => !c.full cfg) = true
          · rw [if_pos ha] at h
            simp at h
          · rw [if_neg ha] at h
            simp only [Option.some.injEq, Ending.returns.injEq] at h
            subst h
            simp at hfail

theorem alloc_large_tail_total (cfg : LogCfg) (hc : HdrCfg) (o : LargeOracle)
    (overcommit : Bool) (hH : cfg.sizeofLargeObjectHdr + cfg.kLogChunkSize < 2 ^ 64)
    (fuel : Nat) (st3 : LargeState) (h0 : 0 ≤ st3.remaining_size)
    (h63 : st3.remaining_size < 2 ^ 63) (hfuel : st3.remaining_size ≤ fuel) :
    ∃ e, alloc_large_tail cfg hc o overcommit fuel st3 = some e ∧
      ∀ r, e = Ending.returns r → r.ok = true →
        (((r.frags.map Prod.snd).sum : Nat) : Int) =
          ((st3.frags.map Prod.snd).sum : Nat) + st3.remaining_size := by
  unfold alloc_large_tail
  by_cases hn : st3.head_tptr.isNone = true
  · rw [if_pos hn]
    refine ⟨_, rfl, fun r hr hok => ?_⟩
    simp only [Ending.returns.injEq] at hr
    subst hr
    simp [alloc_large_failed] at hok
  · rw [if_neg hn]
    obtain ⟨ok, st4, e1, e2⟩ := alloc_large_loop_total cfg hc o overcommit hH fuel
      { st3 with prev_tptr := st3.head_tptr } hfuel h0 h63
    rw [e1]
    cases ok with
    | false =>
      refine ⟨_, rfl, fun r hr hok => ?_⟩
      simp only [Ending.returns.injEq] at hr
      subst hr
      simp [alloc_large_failed] at hok
    | true =>
      simp only
      by_cases hi : (!o.init_from_soft_ok st4.head_tptr) = true
      · rw [if_pos hi]
        refine ⟨_, rfl, fun r hr hok => ?_⟩
        simp only [Ending.returns.injEq] at hr
        subst hr
        simp [alloc_large_failed] at hok
      · rw [if_neg hi]
        by_cases ha : (st4.a.pcab.any fun c => !c.full cfg) = true
        · rw [if_pos ha]
          exact ⟨_, rfl, fun r hr _ => by simp at hr⟩
        · rw [if_neg ha]
          refine ⟨_, rfl, fun r hr _ => ?_⟩
          simp only [Ending.returns.injEq] at hr
          subst hr
          exact e2 rfl

theorem alloc_large_slow_failed (cfg : LogCfg) (hc : HdrCfg) (o : LargeOracle)
    (overcommit : Bool) (fuel size : Nat) (st1 : LargeState) (r : LargeResult)
    (h : alloc_large_slow cfg hc o overcommit fuel size st1 = some (Ending.returns r))
    (hfail : r.ok = false)
    (hptrs : st1.alloced_ptrs = [])
    (hhead : st1.frags.map (fun f => some f.1) = st1.head_tptr.toList.map some) :
    r.a.segments_ = st1.a.segments_ ∧
    ((∀ t, o.init_from_soft_ok t = true) →
      (∀ f ∈ r.frags, o.clr_load_ok f.1 = true → o.clr_store_ok f.1 = true →
        (r.hdrs f.1).is_present hc = false) ∧
      (hc.kPresentBit < hc.flagBits ∧ hc.kPresentBit ≠ hc.kSmallObjBit →
        (∀ f ∈ st1.frags, (st1.hdrs f.1).is_present hc = true) →
        ∀ f ∈ r.frags, (o.clr_load_ok f.1 = false ∨ o.clr_store_ok f.1 = false) →
          (r.hdrs f.1).is_present hc = true)) := by
  unfold alloc_large_slow at h
  rcases alloc_large_head_cases cfg hc o overcommit size st1 with
    e | ⟨hn, e⟩ | ⟨hn, ⟨st3, hfr, e⟩ | ⟨f, st3, hfr, e⟩⟩
  · rw [e] at h
    simp at h
  · rw [e] at h
    simp only [Bool.not_true, Bool.false_eq_true, if_false] at h
    refine alloc_large_tail_failed cfg hc o overcommit fuel st1 r h hfail ?_
    rw [hptrs, hhead]
    cases hh : st1.head_tptr with
    | none => simp [hh] at hn
    | some t => rfl
  · rw [e] at h
    simp only [Bool.not_false, if_true, Option.some.injEq, Ending.returns.injEq] at h
    subst h
    have hnone : st1.head_tptr = none := Option.isNone_iff_eq_none.mp hn
    rw [hnone] at hhead
    simp only [Option.toList_none, List.map_nil, List.map_eq_nil_iff] at hhead
    obtain ⟨g1, _, g3, _, _, g6, _⟩ := alloc_large_frag_spec cfg hc o overcommit st1 st3 none hfr
    obtain ⟨_, s2, s3⟩ := alloc_large_failed_spec hc o st3
      (by rw [g3, g6 rfl, hptrs, hhead]; rfl)
    refine ⟨s2.trans g1, fun _ => ⟨s3, fun hbits hP => ?_⟩⟩
    exact alloc_large_failed_kept hc o st3
      (alloc_large_frag_present cfg hc o overcommit st1 st3 none hbits hfr hP)
  · rw [e] at h
    simp only [Bool.not_true, Bool.false_eq_true, if_false] at h
    have hnone : st1.head_tptr = none := Option.isNone_iff_eq_none.mp hn
    rw [hnone] at hhead
    simp only [Option.toList_none, List.map_nil, List.map_eq_nil_iff] at hhead
    obtain ⟨g1, _, g3, _, _, _, g7⟩ :=
      alloc_large_frag_spec cfg hc o overcommit st1 st3 (some f) hfr
    obtain ⟨k1, _, _, _⟩ := g7 f rfl
    obtain ⟨t1, t2⟩ := alloc_large_tail_failed cfg hc o overcommit fuel
      { st3 with head_tptr := some f.1 } r h hfail
      (by simp only [g3, hptrs, k1, hhead]; rfl)
    refine ⟨t1.trans g1, fun hall => ⟨(t2 hall).1, fun hbits hP => ?_⟩⟩
    exact (t2 hall).2 hbits
      (alloc_large_frag_present cfg hc o overcommit st1 st3 (some f) hbits hfr hP)

theorem alloc_large_slow_total (cfg : LogCfg) (hc : HdrCfg) (o : LargeOracle)
    (overcommit : Bool) (hH : cfg.sizeofLargeObjectHdr + cfg.kLogChunkSize < 2 ^ 64)
    (fuel size : Nat) (st1 : LargeState) (hpos : 0 < st1.remaining_size)
    (h63 : st1.remaining_size < 2 ^ 63) (hfuel : st1.remaining_size ≤ fuel) :
    ∃ e, alloc_large_slow cfg hc o overcommit fuel size st1 = some e ∧
      ∀ r, e = Ending.returns r → r.ok = true →
        (((r.frags.map Prod.snd).sum : Nat) : Int) =
          ((st1.frags.map Prod.snd).sum : Nat) + st1.remaining_size := by
  unfold alloc_large_slow
  rcases alloc_large_head_cases cfg hc o overcommit size st1 with
    e | ⟨hn, e⟩ | ⟨hn, ⟨st3, hfr, e⟩ | ⟨f, st3, hfr, e⟩⟩
  · rw [e]
    exact ⟨_, rfl, fun r hr _ => by simp at hr⟩
  · rw [e]
    simp only [Bool.not_true, Bool.false_eq_true, if_false]
    exact alloc_large_tail_total cfg hc o overcommit hH fuel st1 (le_of_lt hpos) h63 hfuel
  · rw [e]
    simp only [Bool.not_false, if_true]
    refine ⟨_, rfl, fun r hr hok => ?_⟩
    simp only [Ending.returns.injEq] at hr
    subst hr
    simp [alloc_large_failed] at hok
  · rw [e]
    simp only [Bool.not_true, Bool.false_eq_true, if_false]
    obtain ⟨_, _, _, _, _, _, g7⟩ :=
      alloc_large_frag_spec cfg hc o overcommit st1 st3 (some f) hfr
    obtain ⟨k1, k2, k3, _⟩ := g7 f rfl
    obtain ⟨kc, kf⟩ := k3 hH
    have hu : toU64 st1.remaining_size = st1.remaining_size.toNat := by
      unfold toU64
      omega
    rw [hu] at kf
    have hrem : st3.remaining_size = st1.remaining_size - f.2 := by
      rw [k2]
      unfold toI64
      omega
    obtain ⟨e2, t1, t2⟩ := alloc_large_tail_total cfg hc o overcommit hH fuel
      { st3 with head_tptr := some f.1 }
      (by simp only [hrem]; omega) (by simp only [hrem]; omega) (by simp only [hrem]; omega)
    refine ⟨e2, t1, fun r hr hok => ?_⟩
    rw [t2 r hr hok]
    simp only [k1, hrem, List.map_append, List.map_cons, List.map_nil, List.sum_append,
      List.sum_cons, List.sum_nil]
    push_cast
    omega

theorem alloc_large_pcab_present (cfg : LogCfg) (hc : HdrCfg) (o : LargeOracle)
    (a : LogAllocator) (hdrs : HdrStore) (size : Nat)
    (hbits : hc.kPresentBit < hc.flagBits ∧ hc.kPresentBit ≠ hc.kSmallObjBit) :
    ∀ f ∈ (alloc_large_pcab cfg hc o a hdrs size).frags,
      ((alloc_large_pcab cfg hc o a hdrs size).hdrs f.1).is_present hc = true := by
  unfold alloc_large_pcab
  cases hp : a.pcab with
  | none =>
    intro f hf
    simp at hf
  | some c =>
    simp only
    cases hm : (c.alloc_large_mem cfg hc o size none hdrs).1 with
    | none =>
      intro f hf
      simp at hf
    | some f0 =>
      intro f hf
      simp only [List.mem_singleton] at hf
      subst hf
      exact (alloc_large_mem_present cfg hc o c size none hdrs hbits).2 f hm

/-- C21, counterexample. Chunks of 64 bytes, headers of 16 bytes; the chunk of
the thread is empty. First run: a request of 48 bytes is served by one fragment
at 4096 on the common path, `init_from_soft` fails: `alloc_large` returns
`nullopt` and the header at 4096 is still present. Second run: a request of 144
bytes gets the fragments at 4096 and 8192, then no region is granted; under the
label `failed` the header at 8192 cannot be loaded: `alloc_large` returns
`nullopt`, the header at 4096 is not present any more, the one at 8192 still
is. -/
theorem C21_fragment_left_present :
    (LogAllocator.alloc_large cfg64 hdr4 { oracleOk with init_from_soft_ok := fun _ => false }
        alloc1 noHdrs 48 false).map
      (Ending.map (fun r => (r.ok, r.frags, (r.hdrs 4096).is_present hdr4))) =
      some (Ending.returns (false, [(4096, 48)], true)) ∧
    (LogAllocator.alloc_large cfg64 hdr4
        { oracleOk with clr_load_ok := fun t => decide (t ≠ 8192) }
        alloc1 noHdrs 144 false).map
      (Ending.map (fun r =>
        (r.ok, r.frags, (r.hdrs 4096).is_present hdr4, (r.hdrs 8192).is_present hdr4))) =
      some (Ending.returns (false, [(4096, 48), (8192, 48)], false, true)) :=
  ⟨by decide, by decide⟩

theorem alloc_large_failed_frame (cfg : LogCfg) (hc : HdrCfg) (o : LargeOracle)
    (a : LogAllocator) (hdrs : HdrStore) (size : Nat) (overcommit : Bool) (r : LargeResult)
    (h : LogAllocator.alloc_large cfg hc o a hdrs size overcommit = some (Ending.returns r))
    (hfail : r.ok = false) :
    r.a.segments_ = a.segments_ ∧
    ((∀ t, o.init_from_soft_ok t = true) →
      (∀ f ∈ r.frags, o.clr_load_ok f.1 = true → o.clr_store_ok f.1 = true →
        (r.hdrs f.1).is_present hc = false) ∧
      (hc.kPresentBit < hc.flagBits ∧ hc.kPresentBit ≠ hc.kSmallObjBit →
        ∀ f ∈ r.frags, (o.clr_load_ok f.1 = false ∨ o.clr_store_ok f.1 = false) →
          (r.hdrs f.1).is_present hc = true)) := by
  unfold LogAllocator.alloc_large at h
  by_cases hthr : size < cfg.kSmallObjThreshold
  · rw [if_pos hthr] at h
    simp at h
  · rw [if_neg hthr] at h
    obtain ⟨p1, p2, p3⟩ := alloc_large_pcab_spec cfg hc o a hdrs size
    have p4 := alloc_large_pcab_present cfg hc o a hdrs size
    generalize alloc_large_pcab cfg hc o a hdrs size = st1 at h p1 p2 p3 p4
    simp only at h
    by_cases hr : st1.remaining_size ≤ 0
    · rw [if_pos hr] at h
      by_cases hz : st1.remaining_size ≠ 0
      · rw [if_pos hz] at h
        simp at h
      · rw [if_neg hz] at h
        by_cases hi : (!o.init_from_soft_ok st1.head_tptr) = true
        · rw [if_pos hi] at h
          simp only [Option.some.injEq, Ending.returns.injEq] at h
          subst h
          refine ⟨p1, fun hall => ?_⟩
          rw [hall] at hi
          simp at hi
        · rw [if_neg hi] at h
          simp only [Option.some.injEq, Ending.returns.injEq] at h
          subst h
          simp at hfail
    · rw [if_neg hr] at h
      have hhead : st1.frags.map (fun f => some f.1) = st1.head_tptr.toList.map some := by
        rcases p3 with ⟨e1, e2, _⟩ | ⟨c, f, _, _, e1, e2, _⟩
        · rw [e1, e2]
          rfl
        · rw [e1, e2]
          rfl
      obtain ⟨s1, s2⟩ := alloc_large_slow_failed cfg hc o overcommit size size st1 r h hfail
        p2 hhead
      exact ⟨s1.trans p1, fun hall => ⟨(s2 hall).1, fun hbits => (s2 hall).2 hbits (p4 hbits)⟩⟩

theorem alloc_large_returns (cfg : LogCfg) (hc : HdrCfg) (o : LargeOracle)
    (a : LogAllocator) (hdrs : HdrStore) (size : Nat) (overcommit : Bool)
    (hsize : size < 2 ^ 63)
    (hH : cfg.sizeofLargeObjectHdr + cfg.kLogChunkSize < 2 ^ 64)
    (hpcab : ∀ c, a.pcab = some c →
      c.start_addr_ ≤ c.pos_ ∧ c.pos_ - c.start_addr_ ≤ cfg.kLogChunkSize) :
    (∃ e, LogAllocator.alloc_large cfg hc o a hdrs size overcommit = some e ∧
      ∀ r, e = Ending.returns r → r.ok = true → (r.frags.map Prod.snd).sum = size) ∧
    ((alloc_large_pcab cfg hc o a hdrs size).remaining_size ≤ 0 →
      (alloc_large_pcab cfg hc o a hdrs size).remaining_size = 0) := by
  obtain ⟨_, _, p3⟩ := alloc_large_pcab_spec cfg hc o a hdrs size
  have hsz : toI64 (size : Int) = size := by
    unfold toI64
    omega
  have hst : 0 ≤ (alloc_large_pcab cfg hc o a hdrs size).remaining_size ∧
      (alloc_large_pcab cfg hc o a hdrs size).remaining_size ≤ size ∧
      ((((alloc_large_pcab cfg hc o a hdrs size).frags.map Prod.snd).sum : Nat) : Int) +
        (alloc_large_pcab cfg hc o a hdrs size).remaining_size = size := by
    rcases p3 with ⟨_, e2, e3⟩ | ⟨c, f, hc1, hm, _, e2, e3⟩
    · rw [e2, e3, hsz]
      unfold toI64
      simp only [List.map_nil, List.sum_nil]
      omega
    · obtain ⟨_, _, m3, _⟩ := alloc_large_mem_some cfg hc o c size none hdrs f (hpcab c hc1) hH hm
      have hle : f.2 ≤ size := by
        rw [m3]
        exact Nat.min_le_right _ _
      rw [e2, e3, hsz]
      unfold toI64
      simp only [List.map_cons, List.map_nil, List.sum_cons, List.sum_nil]
      omega
  refine ⟨?_, fun hle => by omega⟩
  unfold LogAllocator.alloc_large
  by_cases hthr : size < cfg.kSmallObjThreshold
  · rw [if_pos hthr]
    exact ⟨_, rfl, fun r hr _ => by simp at hr⟩
  · rw [if_neg hthr]
    generalize alloc_large_pcab cfg hc o a hdrs size = st1 at hst
    obtain ⟨h0, h1, h2⟩ := hst
    simp only
    by_cases hr : st1.remaining_size ≤ 0
    · have hz : st1.remaining_size = 0 := by omega
      rw [if_pos hr]
      have hz2 : ¬ st1.remaining_size ≠ 0 := by omega
      rw [if_neg hz2]
      by_cases hi : (!o.init_from_soft_ok st1.head_tptr) = true
      · rw [if_pos hi]
        refine ⟨_, rfl, fun r hr hok => ?_⟩
        simp only [Ending.returns.injEq] at hr
        subst hr
        simp at hok
      · rw [if_neg hi]
        refine ⟨_, rfl, fun r hr _ => ?_⟩
        simp only [Ending.returns.injEq] at hr
        subst hr
        simp only
        omega
    · rw [if_neg hr]
      obtain ⟨e, e1, e2⟩ := alloc_large_slow_total cfg hc o overcommit hH size size st1
        (by omega) (by omega) h1
      refine ⟨e, e1, fun r hr hok => ?_⟩
      have := e2 r hr hok
      omega

/-- C21, amended. For a request below `2^63` bytes `alloc_large` ends: it
returns or it is aborted by an `assert`. Whenever it returns `nullopt`, the list
`segments_` is as before the call. When `init_from_soft` does not fail, so that
the call failed because no region, no chunk or no fragment could be allocated,
every fragment handed out during the call whose header can be loaded and stored
under the label `failed` has its present bit cleared, and every fragment handed
out whose header cannot be loaded or cannot be stored there still has its
present bit set (the present bit being a bit of the flags other than the
small-object bit). -/
theorem C21_failed_clears_present (cfg : LogCfg) (hc : HdrCfg) (o : LargeOracle)
    (a : LogAllocator) (hdrs : HdrStore) (size : Nat) (overcommit : Bool)
    (hsize : size < 2 ^ 63)
    (hH : cfg.sizeofLargeObjectHdr + cfg.kLogChunkSize < 2 ^ 64)
    (hpcab : ∀ c, a.pcab = some c →
      c.start_addr_ ≤ c.pos_ ∧ c.pos_ - c.start_addr_ ≤ cfg.kLogChunkSize) :
    ∃ e, LogAllocator.alloc_large cfg hc o a hdrs size overcommit = some e ∧
      ∀ r, e = Ending.returns r → r.ok = false →
        r.a.segments_ = a.segments_ ∧
        ((∀ t, o.init_from_soft_ok t = true) →
          (∀ f ∈ r.frags, o.clr_load_ok f.1 = true → o.clr_store_ok f.1 = true →
            (r.hdrs f.1).is_present hc = false) ∧
          (hc.kPresentBit < hc.flagBits ∧ hc.kPresentBit ≠ hc.kSmallObjBit →
            ∀ f ∈ r.frags, (o.clr_load_ok f.1 = false ∨ o.clr_store_ok f.1 = false) →
              (r.hdrs f.1).is_present hc = true)) := by
  obtain ⟨e, e1, _⟩ := (alloc_large_returns cfg hc o a hdrs size overcommit hsize hH hpcab).1
  refine ⟨e, e1, fun r hr hfail => ?_⟩
  subst hr
  exact alloc_large_failed_frame cfg hc o a hdrs size overcommit r e1 hfail

/-- Witness of the amended C21. First run: the request of 144 bytes when the
region granted for the second fragment has the id `2^32 - 1`: the `int` holds
`-1`, `allocSegment` fails, and the fragment at 4096 is cleared with the
segments unchanged. Second run: the request of 144 bytes of the counterexample,
in which the header at 8192 cannot be loaded under the label `failed`: the
fragment at 4096 is cleared, the one at 8192 is still present. -/
theorem C21_failed_clears_present_witness :
    (LogAllocator.alloc_large cfg64 hdr4 oracleOk alloc1w noHdrs 144 false).map
      (Ending.map (fun r => (decide (r.a.segments_ = alloc1w.segments_),
        (r.hdrs 4096).is_present hdr4))) = some (Ending.returns (true, false)) ∧
    (LogAllocator.alloc_large cfg64 hdr4
        { oracleOk with clr_load_ok := fun t => decide (t ≠ 8192) }
        alloc1 noHdrs 144 false).map
      (Ending.map (fun r => ((r.hdrs 4096).is_present hdr4, (r.hdrs 8192).is_present hdr4))) =
      some (Ending.returns (false, true)) := by
  constructor
  · obtain ⟨e, he, hw⟩ := C21_failed_clears_present cfg64 hdr4 oracleOk alloc1w noHdrs 144
      false (by decide) (by decide) (by decide)
    have hok : (LogAllocator.alloc_large cfg64 hdr4 oracleOk alloc1w noHdrs 144 false).map
        (Ending.map (fun r => (r.ok, r.frags))) = some (Ending.returns (false, [(4096, 48)])) := by
      decide
    rw [he] at hok ⊢
    obtain ⟨r, hr, hv⟩ := Ending.map_eq_returns _ e _ (Option.some.inj hok)
    simp only [Prod.mk.injEq] at hv
    obtain ⟨w1, w2⟩ := hw r hr hv.1
    have w3 := (w2 (fun _ => rfl)).1 (4096, 48) (by rw [hv.2]; simp) rfl rfl
    rw [hr]
    simp only [Option.map_some', Ending.map, w1, w3, decide_True]
  · obtain ⟨e, he, hw⟩ := C21_failed_clears_present cfg64 hdr4
      { oracleOk with clr_load_ok := fun t => decide (t ≠ 8192) } alloc1 noHdrs 144
      false (by decide) (by decide) (by decide)
    have hok : (LogAllocator.alloc_large cfg64 hdr4
        { oracleOk with clr_load_ok := fun t => decide (t ≠ 8192) } alloc1 noHdrs 144 false).map
        (Ending.map (fun r => (r.ok, r.frags))) =
          some (Ending.returns (false, [(4096, 48), (8192, 48)])) := by
      decide
    rw [he] at hok ⊢
    obtain ⟨r, hr, hv⟩ := Ending.map_eq_returns _ e _ (Option.some.inj hok)
    simp only [Prod.mk.injEq] at hv
    obtain ⟨_, w2⟩ := hw r hr hv.1
    have w3 := (w2 (fun _ => rfl)).1 (4096, 48) (by rw [hv.2]; simp) (by decide) rfl
    have w4 := (w2 (fun _ => rfl)).2 (by decide) (8192, 48) (by rw [hv.2]; simp)
      (Or.inl (by decide))
    rw [hr]
    simp only [Option.map_some', Ending.map, w3, w4]

/-! #### The chain of fragments -/

theorem large_chain_null (hdrs : HdrStore) (fuel : Nat) : large_chain hdrs fuel 0 = [] := by
  cases fuel with
  | zero => rfl
  | succ n => simp [large_chain]

/-- Fragments that the headers link are the chain from the first of them. -/
theorem large_chain_of_Linked (hdrs : HdrStore) :
    ∀ (frags : List (Nat × Nat)) (f : Nat × Nat) (extra : Nat),
      Linked hdrs (f :: frags) → (∀ g ∈ f :: frags, g.1 ≠ 0) →
      large_chain hdrs ((f :: frags).length + extra) f.1 = f :: frags := by
  intro frags
  induction frags with
  | nil =>
    intro f extra hL hnz
    obtain ⟨h1, h2⟩ := hL
    have hf : f.1 ≠ 0 := hnz f (List.mem_cons_self _ _)
    have e : [f].length + extra = extra + 1 := by simp; omega
    rw [e, large_chain, if_neg hf, h1, h2, large_chain_null]
  | cons g gs ih =>
    intro f extra hL hnz
    obtain ⟨h1, h2, h3⟩ := hL
    have hf : f.1 ≠ 0 := hnz f (List.mem_cons_self _ _)
    have e : (f :: g :: gs).length + extra = ((g :: gs).length + extra) + 1 := by
      simp only [List.length_cons]; omega
    rw [e, large_chain, if_neg hf, h1, h2,
      ih g extra h3 (fun x hx => hnz x (List.mem_cons_of_mem _ hx))]

theorem Linked_last (hdrs : HdrStore) :
    ∀ (fs : List (Nat × Nat)) (l : Nat × Nat), Linked hdrs (fs ++ [l]) →
      (hdrs l.1).get_size = l.2 := by
  intro fs
  induction fs with
  | nil => intro l h; exact h.1
  | cons g gs ih =>
    intro l h
    cases gs with
    | nil => exact h.2.2.1
    | cons g2 gs2 => exact ih l h.2.2

/-- A fragment linked behind the last one extends the fragments the headers
link. -/
theorem Linked_snoc (hdrs hdrs2 : HdrStore) (f : Nat × Nat) :
    ∀ (fs : List (Nat × Nat)) (l : Nat × Nat),
      Linked hdrs (fs ++ [l]) →
      (∀ g ∈ fs, hdrs2 g.1 = hdrs g.1) →
      (hdrs2 l.1).get_size = l.2 → (hdrs2 l.1).next = f.1 →
      (hdrs2 f.1).get_size = f.2 → (hdrs2 f.1).next = 0 →
      Linked hdrs2 (fs ++ [l, f]) := by
  intro fs
  induction fs with
  | nil =>
    intro l _ _ h1 h2 h3 h4
    exact ⟨h1, h2, h3, h4⟩
  | cons g gs ih =>
    intro l hL hsame h1 h2 h3 h4
    have hg := hsame g (List.mem_cons_self _ _)
    have hrest : ∀ x ∈ gs, hdrs2 x.1 = hdrs x.1 :=
      fun x hx => hsame x (List.mem_cons_of_mem _ hx)
    cases gs with
    | nil =>
      obtain ⟨a1, a2, a3⟩ := hL
      refine ⟨by rw [hg]; exact a1, by rw [hg]; exact a2, ?_⟩
      exact ih l a3 hrest h1 h2 h3 h4
    | cons g2 gs2 =>
      obtain ⟨a1, a2, a3⟩ := hL
      refine ⟨by rw [hg]; exact a1, by rw [hg]; exact a2, ?_⟩
      exact ih l a3 hrest h1 h2 h3 h4

theorem find_appended (map : List (Int × VRange)) (g : Int × VRange)
    (h : map.all (fun e => e.1 != g.1) = true) :
    (map ++ [g]).find? (fun e => e.1 == g.1) = some g := by
  induction map with
  | nil => simp
  | cons e es ih =>
    simp only [List.all_cons, Bool.and_eq_true] at h
    have hne : (e.1 == g.1) = false := by
      have := h.1
      simp only [bne_iff_ne, ne_eq] at this
      simpa using this
    simp only [List.cons_append, List.find?_cons, hne]
    exact ih h.2

/-- A segment allocated on a region that is new: its base is not null and none
of the addresses used so far, and the regions to come are new with respect to
the addresses used and this base. -/
theorem allocSegment_fresh (a a1 : LogAllocator) (overcommit : Bool) (seg : LogSegment)
    (used : List Nat)
    (hfresh : fresh_grants a.rmanager.region_map_ used a.rmanager.grants = true)
    (h : a.allocSegment overcommit = (some seg, a1)) :
    seg.pos_ = seg.start_addr_ ∧ seg.start_addr_ ≠ 0 ∧ seg.start_addr_ ∉ used ∧
    fresh_grants a1.rmanager.region_map_ (used ++ [seg.start_addr_]) a1.rmanager.grants =
      true := by
  unfold LogAllocator.allocSegment ResourceManager.AllocRegion at h
  cases hg : a.rmanager.grants with
  | nil =>
    rw [hg] at h
    simp [toI32] at h
  | cons g rest =>
    rw [hg] at h hfresh
    cases g with
    | none =>
      simp [toI32] at h
    | some g =>
      obtain ⟨rid, range⟩ := g
      simp only at h
      unfold fresh_grants at hfresh
      simp only [Bool.and_eq_true, decide_eq_true_eq, Bool.not_eq_true', ne_eq] at hfresh
      obtain ⟨⟨⟨⟨hint, hmap⟩, hnz⟩, hused⟩, hrest⟩ := hfresh
      have hid : toI32 rid = rid := by
        unfold toI32
        omega
      rw [hid] at h
      by_cases hm1 : rid = -1
      · simp [hm1] at h
      · simp only [hm1, if_false, Prod.mk.injEq, Option.some.injEq] at h
        obtain ⟨h1, h2⟩ := h
        have hfind : ResourceManager.GetRegion
            { region_map_ := a.rmanager.region_map_ ++ [(rid, range)], grants := rest } rid =
            range := by
          unfold ResourceManager.GetRegion
          simp only
          rw [find_appended _ (rid, range) hmap]
        rw [hfind] at h1
        subst h1 h2
        refine ⟨rfl, hnz, ?_, hrest⟩
        simpa using hused

/-- What a round that hands out a fragment went through. -/
theorem alloc_large_frag_some (cfg : LogCfg) (hc : HdrCfg) (o : LargeOracle)
    (overcommit : Bool) (st st2 : LargeState) (f : Nat × Nat)
    (h : alloc_large_frag cfg hc o overcommit st = (some f, st2)) :
    ∃ seg a1, st.a.allocSegment overcommit = (some seg, a1) ∧ st2.a = a1 ∧
      ((LogChunk.new seg.pos_).alloc_large_mem cfg hc o (toU64 st.remaining_size)
        st.prev_tptr st.hdrs).1 = some f ∧
      st2.hdrs = ((LogChunk.new seg.pos_).alloc_large_mem cfg hc o (toU64 st.remaining_size)
        st.prev_tptr st.hdrs).2.2 ∧
      st2.frags = st.frags ++ [f] ∧ st2.head_tptr = st.head_tptr := by
  rw [alloc_large_frag_eq] at h
  cases hseg : st.a.allocSegment overcommit with
  | mk os a1 =>
    rw [hseg] at h
    cases os with
    | none => simp at h
    | some segment =>
      simp only at h
      cases hch : (segment.allocChunk cfg).1 with
      | none =>
        rw [hch] at h
        simp at h
      | some chunk =>
        rw [hch] at h
        simp only at h
        have hfresh := allocChunk_fresh cfg segment chunk hch
        subst hfresh
        cases hm : ((LogChunk.new segment.pos_).alloc_large_mem cfg hc o
            (toU64 st.remaining_size) st.prev_tptr st.hdrs).1 with
        | none =>
          rw [hm] at h
          simp at h
        | some f0 =>
          rw [hm] at h
          simp only [Prod.mk.injEq, Option.some.injEq] at h
          obtain ⟨h1, h2⟩ := h
          subst h1 h2
          exact ⟨segment, a1, rfl, rfl, hm, rfl, rfl, rfl⟩

/-- A round that hands out a fragment keeps the fragments linked. -/
theorem alloc_large_frag_chain (cfg : LogCfg) (hc : HdrCfg) (o : LargeOracle)
    (overcommit : Bool) (st st2 : LargeState) (f : Nat × Nat) (used : List Nat)
    (hH : cfg.sizeofLargeObjectHdr + cfg.kLogChunkSize < 2 ^ 64)
    (h32 : cfg.kLogChunkSize < 2 ^ 32 ∧ cfg.kLogChunkSize < 2 ^ hc.sizeBits)
    (h : alloc_large_frag cfg hc o overcommit st = (some f, st2))
    (hprev : st.prev_tptr = st.frags.getLast?.map Prod.fst)
    (hI : LargeInv st used) :
    LargeInv st2 (used ++ [f.1]) ∧ st2.frags = st.frags ++ [f] ∧
      st2.head_tptr = st.head_tptr := by
  obtain ⟨seg, a1, hseg, ha, hm, hhd, hfr, hhead⟩ :=
    alloc_large_frag_some cfg hc o overcommit st st2 f h
  obtain ⟨hL, hnd, hmem, hfresh⟩ := hI
  obtain ⟨s1, s2, s3, s4⟩ := allocSegment_fresh st.a a1 overcommit seg used hfresh hseg
  obtain ⟨m1, m2, m3⟩ := alloc_large_mem_hdrs cfg hc o (LogChunk.new seg.pos_)
    (toU64 st.remaining_size) st.prev_tptr st.hdrs f hm
  obtain ⟨_, n2, n3, _⟩ := alloc_large_mem_some cfg hc o (LogChunk.new seg.pos_)
    (toU64 st.remaining_size) st.prev_tptr st.hdrs f (by simp [LogChunk.new]) hH hm
  have e1 : (LogChunk.new seg.pos_).pos_ = seg.pos_ := rfl
  have e2 : (LogChunk.new seg.pos_).start_addr_ = seg.pos_ := rfl
  rw [e1, e2, Nat.sub_self] at n2 n3
  rw [Nat.zero_add] at n2
  rw [Nat.sub_zero] at n3
  have hbase : f.1 = seg.start_addr_ := by
    rw [m1, e1, s1]
  have hsz : f.2 ≤ cfg.kLogChunkSize := by
    rw [n3]
    omega
  obtain ⟨i2, i3, i4⟩ := init_large_links hc st.hdrs f.1 f.2
  have i3 := i3 (by omega) (by omega)
  have hfnew : ∀ g ∈ st.frags, g.1 ≠ f.1 := by
    intro g hg e
    apply s3
    rw [← hbase, ← e]
    exact (hmem g hg).2
  refine ⟨⟨?_, ?_, ?_, ?_⟩, hfr, hhead⟩
  · -- the headers link the fragments
    rw [hhd, hfr]
    rcases List.eq_nil_or_concat st.frags with hnil | ⟨fs, l, hcat⟩
    · rw [hnil] at hprev ⊢
      simp only [List.getLast?_nil, Option.map_none'] at hprev
      rw [m2 hprev]
      exact ⟨i3, i2⟩
    · rw [hcat] at hprev hL hnd hfnew ⊢
      rw [List.concat_eq_append, List.getLast?_concat, Option.map_some'] at hprev
      rw [m3 l.1 hprev]
      simp only [List.concat_eq_append, List.append_assoc, List.singleton_append]
      have hlf : l.1 ≠ f.1 := hfnew l (by simp)
      apply Linked_snoc st.hdrs _ f fs l (by simpa using hL)
      · intro g hg
        have hgf : g.1 ≠ f.1 := hfnew g (by simp [hg])
        have hgl : g.1 ≠ l.1 := by
          intro e
          simp only [List.concat_eq_append, List.map_append, List.map_cons, List.map_nil] at hnd
          have hnd2 := List.nodup_append.mp hnd
          exact hnd2.2.2 (List.mem_map_of_mem Prod.fst hg) (by rw [e]; simp)
        rw [Function.update_noteq hgl, i4 g.1 hgf]
      · rw [Function.update_same]
        show (init_large hc st.hdrs f.1 f.2 l.1).get_size = l.2
        rw [i4 l.1 hlf]
        exact Linked_last st.hdrs fs l (by simpa using hL)
      · rw [Function.update_same]
        rfl
      · rw [Function.update_noteq (Ne.symm hlf)]
        exact i3
      · rw [Function.update_noteq (Ne.symm hlf)]
        exact i2
  · rw [hfr, List.map_append, List.map_cons, List.map_nil]
    apply List.Nodup.append hnd (List.nodup_singleton _)
    intro x hx1 hx2
    simp only [List.mem_singleton] at hx2
    obtain ⟨g, hg, hge⟩ := List.mem_map.mp hx1
    exact hfnew g hg (by rw [hge, hx2])
  · intro g hg
    rw [hfr] at hg
    rcases List.mem_append.mp hg with hg1 | hg1
    · exact ⟨(hmem g hg1).1, List.mem_append_left _ (hmem g hg1).2⟩
    · rw [List.mem_singleton.mp hg1]
      refine ⟨by rw [hbase]; exact s2, by simp⟩
  · rw [ha, hbase]
    exact s4

theorem alloc_large_loop_chain (cfg : LogCfg) (hc : HdrCfg) (o : LargeOracle)
    (overcommit : Bool)
    (hH : cfg.sizeofLargeObjectHdr + cfg.kLogChunkSize < 2 ^ 64)
    (h32 : cfg.kLogChunkSize < 2 ^ 32 ∧ cfg.kLogChunkSize < 2 ^ hc.sizeBits) (fuel : Nat) :
    ∀ (st st4 : LargeState) (used : List Nat),
      alloc_large_loop cfg hc o overcommit fuel st = some (true, st4) →
      st.prev_tptr = st.frags.getLast?.map Prod.fst →
      LargeInv st used →
      ∃ used4 more, LargeInv st4 used4 ∧ st4.frags = st.frags ++ more ∧
        st4.head_tptr = st.head_tptr := by
  induction fuel with
  | zero =>
    intro st st4 used h _ hI
    unfold alloc_large_loop at h
    by_cases hr : st.remaining_size > 0
    · simp [hr] at h
    · simp only [hr, if_false, Option.some.injEq, Prod.mk.injEq, true_and] at h
      subst h
      exact ⟨used, [], hI, by simp, rfl⟩
  | succ fuel ih =>
    intro st st4 used h hprev hI
    unfold alloc_large_loop at h
    by_cases hr : st.remaining_size > 0
    · simp only [hr, if_true] at h
      cases hfr : alloc_large_frag cfg hc o overcommit
          { st with alloced_ptrs := st.alloced_ptrs ++ [st.prev_tptr] } with
      | mk res st2 =>
        rw [hfr] at h
        cases res with
        | none => simp at h
        | some f =>
          simp only at h
          obtain ⟨c1, c2, c3⟩ := alloc_large_frag_chain cfg hc o overcommit _ st2 f used hH h32 hfr hprev hI
          simp only at c2 c3
          obtain ⟨used4, more, d1, d2, d3⟩ := ih { st2 with prev_tptr := some f.1 } st4
            (used ++ [f.1]) h (by simp [c2]) c1
          simp only at d2 d3
          exact ⟨used4, f :: more, d1, by rw [d2, c2]; simp, d3.trans c3⟩
    · simp only [hr, if_false, Option.some.injEq, Prod.mk.injEq, true_and] at h
      subst h
      exact ⟨used, [], hI, by simp, rfl⟩

theorem alloc_large_pcab_chain (cfg : LogCfg) (hc : HdrCfg) (o : LargeOracle)
    (a : LogAllocator) (hdrs : HdrStore) (size : Nat)
    (hH : cfg.sizeofLargeObjectHdr + cfg.kLogChunkSize < 2 ^ 64)
    (h32 : cfg.kLogChunkSize < 2 ^ 32 ∧ cfg.kLogChunkSize < 2 ^ hc.sizeBits)
    (hpcab : ∀ c, a.pcab = some c →
      c.start_addr_ ≤ c.pos_ ∧ c.pos_ - c.start_addr_ ≤ cfg.kLogChunkSize ∧ c.pos_ ≠ 0)
    (hfresh : fresh_grants a.rmanager.region_map_ (a.pcab.toList.map (fun c => c.pos_))
      a.rmanager.grants = true) :
    LargeInv (alloc_large_pcab cfg hc o a hdrs size) (a.pcab.toList.map (fun c => c.pos_)) ∧
    (alloc_large_pcab cfg hc o a hdrs size).prev_tptr = none ∧
    (((alloc_large_pcab cfg hc o a hdrs size).head_tptr = none ∧
        (alloc_large_pcab cfg hc o a hdrs size).frags = []) ∨
      ∃ f, (alloc_large_pcab cfg hc o a hdrs size).frags = [f] ∧
        (alloc_large_pcab cfg hc o a hdrs size).head_tptr = some f.1) := by
  unfold alloc_large_pcab
  cases hp : a.pcab with
  | none =>
    rw [hp] at hfresh
    exact ⟨⟨trivial, List.nodup_nil, fun f hf => by simp at hf, hfresh⟩, rfl, Or.inl ⟨rfl, rfl⟩⟩
  | some c =>
    rw [hp] at hfresh
    simp only
    cases hm : (c.alloc_large_mem cfg hc o size none hdrs).1 with
    | none =>
      exact ⟨⟨trivial, List.nodup_nil, fun f hf => by simp at hf, hfresh⟩, rfl,
        Or.inl ⟨rfl, rfl⟩⟩
    | some f =>
      obtain ⟨c1, c2, c3⟩ := hpcab c hp
      obtain ⟨m1, m2, _⟩ := alloc_large_mem_hdrs cfg hc o c size none hdrs f hm
      obtain ⟨_, n2, n3, _⟩ := alloc_large_mem_some cfg hc o c size none hdrs f ⟨c1, c2⟩ hH hm
      have hsz : f.2 ≤ cfg.kLogChunkSize := by
        rw [n3]
        omega
      obtain ⟨i2, i3, _⟩ := init_large_links hc hdrs f.1 f.2
      refine ⟨⟨?_, ?_, ?_, hfresh⟩, rfl, Or.inr ⟨f, rfl, rfl⟩⟩
      · show Linked (c.alloc_large_mem cfg hc o size none hdrs).2.2 [f]
        rw [m2 rfl]
        exact ⟨i3 (by omega) (by omega), i2⟩
      · exact List.nodup_singleton _
      · intro g hg
        simp only [List.mem_singleton] at hg
        subst hg
        rw [m1]
        exact ⟨c3, by simp⟩

theorem alloc_large_tail_chain (cfg : LogCfg) (hc : HdrCfg) (o : LargeOracle)
    (overcommit : Bool)
    (hH : cfg.sizeofLargeObjectHdr + cfg.kLogChunkSize < 2 ^ 64)
    (h32 : cfg.kLogChunkSize < 2 ^ 32 ∧ cfg.kLogChunkSize < 2 ^ hc.sizeBits)
    (fuel : Nat) (st : LargeState) (used : List Nat) (f0 : Nat × Nat) (r : LargeResult)
    (h : alloc_large_tail cfg hc o overcommit fuel st = some (Ending.returns r))
    (hok : r.ok = true)
    (hfr : st.frags = [f0]) (hhead : st.head_tptr = some f0.1) (hI : LargeInv st used) :
    r.head_tptr = some f0.1 ∧ ∃ more, r.frags = f0 :: more ∧ Linked r.hdrs r.frags ∧
      ∀ g ∈ r.frags, g.1 ≠ 0 := by
  unfold alloc_large_tail at h
  have hn : ¬ st.head_tptr.isNone = true := by
    rw [hhead]
    simp
  rw [if_neg hn] at h
  cases hl : alloc_large_loop cfg hc o overcommit fuel { st with prev_tptr := st.head_tptr } with
  | none =>
    rw [hl] at h
    simp at h
  | some p =>
    obtain ⟨ok, st4⟩ := p
    rw [hl] at h
    cases ok with
    | false =>
      simp only [Option.some.injEq, Ending.returns.injEq] at h
      subst h
      simp [alloc_large_failed] at hok
    | true =>
      simp only at h
      by_cases hi : (!o.init_from_soft_ok st4.head_tptr) = true
      · rw [if_pos hi] at h
        simp only [Option.some.injEq, Ending.returns.injEq] at h
        subst h
        simp [alloc_large_failed] at hok
      · rw [if_neg hi] at h
        by_cases ha : (st4.a.pcab.any fun c => !c.full cfg) = true
        · rw [if_pos ha] at h
          simp at h
        · rw [if_neg ha] at h
          simp only [Option.some.injEq, Ending.returns.injEq] at h
          subst h
          obtain ⟨used4, more, d1, d2, d3⟩ := alloc_large_loop_chain cfg hc o overcommit
            hH h32 fuel { st with prev_tptr := st.head_tptr } st4 used hl
            (by simp [hfr, hhead]) hI
          simp only at d2 d3
          rw [hfr] at d2
          refine ⟨d3.trans hhead, more, d2, d1.1, fun g hg => (d1.2.2.1 g hg).1⟩

/-- When `alloc_large` returns an object pointer, the chain of headers from the
head lists the fragments handed out during the call, in the order they were
handed out. -/
theorem alloc_large_chain (cfg : LogCfg) (hc : HdrCfg) (o : LargeOracle)
    (a : LogAllocator) (hdrs : HdrStore) (size : Nat) (overcommit : Bool) (r : LargeResult)
    (hpos : 0 < size) (hsize : size < 2 ^ 63)
    (hH : cfg.sizeofLargeObjectHdr + cfg.kLogChunkSize < 2 ^ 64)
    (h32 : cfg.kLogChunkSize < 2 ^ 32 ∧ cfg.kLogChunkSize < 2 ^ hc.sizeBits)
    (hpcab : ∀ c, a.pcab = some c →
      c.start_addr_ ≤ c.pos_ ∧ c.pos_ - c.start_addr_ ≤ cfg.kLogChunkSize ∧ c.pos_ ≠ 0)
    (hfresh : fresh_grants a.rmanager.region_map_ (a.pcab.toList.map (fun c => c.pos_))
      a.rmanager.grants = true)
    (h : LogAllocator.alloc_large cfg hc o a hdrs size overcommit = some (Ending.returns r))
    (hok : r.ok = true) :
    ∃ head, r.head_tptr = some head ∧
      ∀ extra, large_chain r.hdrs (r.frags.length + extra) head = r.frags := by
  have key : ∃ f0 more, r.head_tptr = some f0.1 ∧ r.frags = f0 :: more ∧
      Linked r.hdrs r.frags ∧ ∀ g ∈ r.frags, g.1 ≠ 0 := by
    unfold LogAllocator.alloc_large at h
    by_cases hthr : size < cfg.kSmallObjThreshold
    · rw [if_pos hthr] at h
      simp at h
    · rw [if_neg hthr] at h
      obtain ⟨_, _, p3⟩ := alloc_large_pcab_spec cfg hc o a hdrs size
      obtain ⟨q1, q2, q3⟩ := alloc_large_pcab_chain cfg hc o a hdrs size hH h32 hpcab
        hfresh
      generalize alloc_large_pcab cfg hc o a hdrs size = st1 at h p3 q1 q2 q3
      simp only at h
      by_cases hr : st1.remaining_size ≤ 0
      · rw [if_pos hr] at h
        by_cases hz : st1.remaining_size ≠ 0
        · rw [if_pos hz] at h
          simp at h
        · rw [if_neg hz] at h
          by_cases hi : (!o.init_from_soft_ok st1.head_tptr) = true
          · rw [if_pos hi] at h
            simp only [Option.some.injEq, Ending.returns.injEq] at h
            subst h
            simp at hok
          · rw [if_neg hi] at h
            simp only [Option.some.injEq, Ending.returns.injEq] at h
            subst h
            simp only
            rcases q3 with ⟨_, e2⟩ | ⟨f, e1, e2⟩
            · exfalso
              rcases p3 with ⟨_, _, e3⟩ | ⟨c, f, _, _, _, e4, _⟩
              · rw [e3] at hr
                unfold toI64 at hr
                omega
              · rw [e2] at e4
                simp at e4
            · refine ⟨f, [], e2, e1, ?_, fun g hg => (q1.2.2.1 g hg).1⟩
              exact q1.1
      · rw [if_neg hr] at h
        unfold alloc_large_slow at h
        rcases alloc_large_head_cases cfg hc o overcommit size st1 with
          e | ⟨hn, e⟩ | ⟨hn, ⟨st3, hfr, e⟩ | ⟨f, st3, hfr, e⟩⟩
        · rw [e] at h
          simp at h
        · rw [e] at h
          simp only [Bool.not_true, Bool.false_eq_true, if_false] at h
          rcases q3 with ⟨e1, _⟩ | ⟨f, e1, e2⟩
          · rw [e1] at hn
            simp at hn
          · obtain ⟨t1, more, t2, t3, t4⟩ := alloc_large_tail_chain cfg hc o overcommit
              hH h32 size st1 _ f r h hok e1 e2 q1
            exact ⟨f, more, t1, t2, t3, t4⟩
        · rw [e] at h
          simp only [Bool.not_false, if_true, Option.some.injEq, Ending.returns.injEq] at h
          subst h
          simp [alloc_large_failed] at hok
        · rw [e] at h
          simp only [Bool.not_true, Bool.false_eq_true, if_false] at h
          have hnone : st1.head_tptr = none := Option.isNone_iff_eq_none.mp hn
          have hnil : st1.frags = [] := by
            rcases q3 with ⟨_, e2⟩ | ⟨g, _, e2⟩
            · exact e2
            · rw [hnone] at e2
              simp at e2
          obtain ⟨c1, c2, _⟩ := alloc_large_frag_chain cfg hc o overcommit st1 st3 f _ hH h32 hfr (by rw [q2, hnil]; rfl) q1
          rw [hnil, List.nil_append] at c2
          obtain ⟨t1, more, t2, t3, t4⟩ := alloc_large_tail_chain cfg hc o overcommit
            hH h32 size { st3 with head_tptr := some f.1 } _ f r h hok c2 rfl c1
          exact ⟨f, more, t1, t2, t3, t4⟩
  obtain ⟨f0, more, k1, k2, k3, k4⟩ := key
  refine ⟨f0.1, k1, fun extra => ?_⟩
  rw [k2] at k3 k4 ⊢
  exact large_chain_of_Linked r.hdrs more f0 extra k3 k4

/-- C26. The header of large objects and the chunk size add up below `2^64`.
A `LogChunk::alloc_large(size, ...)` that succeeds on a chunk whose `pos_` lies
within the chunk hands out the fragment at `pos_`, with the payload size
`min(kLogChunkSize - used - sizeof(LargeObjectHdr), size)`, which is at most
`size` and positive when `size` is. For a request of 1 to `2^63 - 1` bytes,
`LogAllocator::alloc_large(size)` ends: the rounds granted to the fragment loop
suffice. When it returns an object pointer, the headers reached from the head
through `next`, up to the null `next`, are those of the fragments handed out
during the call, in that order, each holding its payload size, and these
payload sizes sum to `size`; and when the common path is taken,
`remaining_size` is 0. Assumed: a payload size fits the size field of a header,
and the regions granted during the call are new ones (ids that fit an `int` and
are not in the table yet, bases that are not null and differ from each other and
from the position of the chunk of the thread). -/
theorem C26_large_fragments_sum (cfg : LogCfg) (hc : HdrCfg) (o : LargeOracle)
    (a : LogAllocator) (hdrs : HdrStore) (size : Nat) (overcommit : Bool)
    (hpos : 0 < size) (hsize : size < 2 ^ 63)
    (hH : cfg.sizeofLargeObjectHdr + cfg.kLogChunkSize < 2 ^ 64)
    (h32 : cfg.kLogChunkSize < 2 ^ 32 ∧ cfg.kLogChunkSize < 2 ^ hc.sizeBits)
    (hpcab : ∀ c, a.pcab = some c →
      c.start_addr_ ≤ c.pos_ ∧ c.pos_ - c.start_addr_ ≤ cfg.kLogChunkSize ∧ c.pos_ ≠ 0)
    (hfresh : fresh_grants a.rmanager.region_map_ (a.pcab.toList.map (fun c => c.pos_))
      a.rmanager.grants = true) :
    (∀ (c : LogChunk) (sz : Nat) (prev_tptr : Option Nat) (hd : HdrStore) (f : Nat × Nat),
      c.start_addr_ ≤ c.pos_ ∧ c.pos_ - c.start_addr_ ≤ cfg.kLogChunkSize →
      (c.alloc_large_mem cfg hc o sz prev_tptr hd).1 = some f →
      f.1 = c.pos_ ∧
      f.2 = min (cfg.kLogChunkSize - (c.pos_ - c.start_addr_) - cfg.sizeofLargeObjectHdr) sz ∧
      f.2 ≤ sz ∧ (0 < sz → 0 < f.2) ∧
      (∀ prev, prev_tptr = some prev →
        ((c.alloc_large_mem cfg hc o sz prev_tptr hd).2.2 prev).next = f.1)) ∧
    (∃ e, LogAllocator.alloc_large cfg hc o a hdrs size overcommit = some e ∧
      ∀ r, e = Ending.returns r → r.ok = true →
        ∃ head, r.head_tptr = some head ∧
          (∃ n, ∀ extra,
            (large_chain r.hdrs (n + extra) head).length = n ∧
            ((large_chain r.hdrs (n + extra) head).map Prod.snd).sum = size) ∧
          ∀ extra, large_chain r.hdrs (r.frags.length + extra) head = r.frags) ∧
    ((alloc_large_pcab cfg hc o a hdrs size).remaining_size ≤ 0 →
      (alloc_large_pcab cfg hc o a hdrs size).remaining_size = 0) := by
  have hchunk : ∀ (c : LogChunk) (sz : Nat) (prev_tptr : Option Nat) (hd : HdrStore)
      (f : Nat × Nat),
      c.start_addr_ ≤ c.pos_ ∧ c.pos_ - c.start_addr_ ≤ cfg.kLogChunkSize →
      (c.alloc_large_mem cfg hc o sz prev_tptr hd).1 = some f →
      f.1 = c.pos_ ∧
      f.2 = min (cfg.kLogChunkSize - (c.pos_ - c.start_addr_) - cfg.sizeofLargeObjectHdr) sz ∧
      f.2 ≤ sz ∧ (0 < sz → 0 < f.2) ∧
      (∀ prev, prev_tptr = some prev →
        ((c.alloc_large_mem cfg hc o sz prev_tptr hd).2.2 prev).next = f.1) := by
    intro c sz prev_tptr hd f hinv hm
    obtain ⟨m1, m2, m3, m4⟩ := alloc_large_mem_some cfg hc o c sz prev_tptr hd f hinv hH hm
    refine ⟨m1, m3, ?_, ?_, m4⟩
    · rw [m3]
      exact Nat.min_le_right _ _
    · intro hsz
      rw [m3]
      omega
  have hpcab2 : ∀ c, a.pcab = some c →
      c.start_addr_ ≤ c.pos_ ∧ c.pos_ - c.start_addr_ ≤ cfg.kLogChunkSize :=
    fun c hc1 => ⟨(hpcab c hc1).1, (hpcab c hc1).2.1⟩
  obtain ⟨⟨e, e1, e2⟩, t2⟩ := alloc_large_returns cfg hc o a hdrs size overcommit hsize hH hpcab2
  refine ⟨hchunk, ⟨e, e1, fun r hr hok => ?_⟩, t2⟩
  subst hr
  obtain ⟨head, k1, k2⟩ := alloc_large_chain cfg hc o a hdrs size overcommit r hpos hsize
    hH h32 hpcab hfresh e1 hok
  refine ⟨head, k1, ⟨r.frags.length, fun extra => ?_⟩, k2⟩
  rw [k2 extra]
  exact ⟨rfl, e2 r rfl hok⟩

/-- Witness of C26: a request of 96 bytes is served by the fragments at 4096 and
8192 of 48 bytes each; the header at 4096 has the fragment at 8192 as its
`next`. -/
theorem C26_large_fragments_sum_witness :
    (LogAllocator.alloc_large cfg64 hdr4 oracleOk alloc1 noHdrs 96 false).map
      (Ending.map (fun r => (r.ok, r.head_tptr, large_chain r.hdrs 2 4096,
        ((large_chain r.hdrs 2 4096).map Prod.snd).sum))) =
      some (Ending.returns (true, some 4096, [(4096, 48), (8192, 48)], 96)) := by
  obtain ⟨e, he, hw⟩ := (C26_large_fragments_sum cfg64 hdr4 oracleOk alloc1 noHdrs 96 false
    (by decide) (by decide) (by decide) (by decide) (by decide) (by decide)).2.1
  have hok : (LogAllocator.alloc_large cfg64 hdr4 oracleOk alloc1 noHdrs 96 false).map
      (Ending.map (fun r => (r.ok, r.head_tptr, r.frags))) =
        some (Ending.returns (true, some 4096, [(4096, 48), (8192, 48)])) := by decide
  rw [he] at hok ⊢
  obtain ⟨r, hr, hv⟩ := Ending.map_eq_returns _ e _ (Option.some.inj hok)
  simp only [Prod.mk.injEq] at hv
  obtain ⟨head, k1, _, k2⟩ := hw r hr hv.1
  have hh : head = 4096 := by
    rw [hv.2.1] at k1
    exact (Option.some.inj k1).symm
  subst hh
  have k3 := k2 0
  rw [hv.2.2] at k3
  simp only [List.length_cons, List.length_nil, Nat.add_zero] at k3
  rw [hr]
  simp only [Option.map_some', Ending.map, hv.1, hv.2.1, k3]
  rfl

/-! ### Address ranges (claim C35) -/

theorem contains_iff (r : VRange) (p : Nat) :
    r.contains p = true ↔ (r.stt_addr < p ∧ p < r.stt_addr + r.size) := by
  unfold VRange.contains
  simp

/-- C35. The method `VRange::contains` compares with `ptr > stt_addr`: it is
true exactly for the addresses strictly between `stt_addr` and
`stt_addr + size`, so it is false for the base address of every range, such
as the address 4096 of the range of 4096 bytes that starts there. It is false
for `stt_addr + size` and for every address outside
`[stt_addr, stt_addr + size)`, and true for every address of that range other
than the base. -/
theorem C35_contains_excludes_base (r : VRange) :
    r.contains r.stt_addr = false ∧
    ({ stt_addr := 4096, size := 4096 } : VRange).contains 4096 = false ∧
    (∀ p, r.contains p = true ↔ (r.stt_addr < p ∧ p < r.stt_addr + r.size)) ∧
    r.contains (r.stt_addr + r.size) = false ∧
    (∀ p, ¬ (r.stt_addr ≤ p ∧ p < r.stt_addr + r.size) → r.contains p = false) := by
  refine ⟨?_, by decide, contains_iff r, ?_, ?_⟩
  · cases h : r.contains r.stt_addr with
    | false => rfl
    | true => exact absurd ((contains_iff r _).mp h).1 (lt_irrefl _)
  · cases h : r.contains (r.stt_addr + r.size) with
    | false => rfl
    | true => exact absurd ((contains_iff r _).mp h).2 (lt_irrefl _)
  · intro p hp
    cases h : r.contains p with
    | false => rfl
    | true =>
      have := (contains_iff r _).mp h
      exact absurd ⟨le_of_lt this.1, this.2⟩ hp

/-- Witness of C35: the range of 4096 bytes at the address 4096. -/
theorem C35_contains_excludes_base_witness :
    ({ stt_addr := 4096, size := 4096 } : VRange).contains 4096 = false ∧
    ({ stt_addr := 4096, size := 4096 } : VRange).contains 4097 = true ∧
    ({ stt_addr := 4096, size := 4096 } : VRange).contains 8192 = false :=
  ⟨(C35_contains_excludes_base { stt_addr := 4096, size := 4096 }).1,
   ((C35_contains_excludes_base { stt_addr := 4096, size := 4096 }).2.2.1 4097).mpr
     (by decide),
   (C35_contains_excludes_base { stt_addr := 4096, size := 4096 }).2.2.2.1⟩

/-! ### Reads past an ordered set (claims C32, C33) -/

/-- C32, the failing run. The set is the block `oset_init("a", 1, 1.0)` of 25
bytes, which holds the value `a`. `oset_search(oset, 25, "a", 1)` returns
`nullptr`: the stored length 17 counts the header and differs from `vn = 1`.
The loop then goes on to the offset 25, the end of the block, and reads a
header there: when the 17 bytes behind the block are a length field 1, a score
and the byte `a`, the pointer returned is the offset 25, outside the block. -/
theorem C32_oset_search_misses_stored_value :
    (oset_init [97] score1).length = 25 ∧
    oset_init [97] score1 = encodeOSet [(score1, [97])] ∧
    oset_search (oset_init [97] score1) 25 [97] = some none ∧
    oset_search (oset_init [97] score1 ++ (encode64 1 ++ encode64 0 ++ [97])) 25 [97] =
      some (some 25) := by
  decide

/-- C33, the failing run. The set under key `k` holds the one element `a`, so
`num_ele` is 1. `zrange(k, 0, 1)` passes the check (`0 >= 0`, `1 <= 1`) and its
second loop runs for `i = 0` and `i = 1`: in the round `i = 1` the iterator is at
the offset 25, the end of the block, and is dereferenced. With nothing mapped
behind the block read as zeros the length computed is `0 - 16` (mod 2^64); with
an element header behind the block the bytes behind it are returned as a second
value. -/
theorem C33_zrange_reads_past_last :
    ((kvOf [mkNode 0 [107] (encodeOSet [(score1, [97])])]).zrange [107] 0 1 []).1 =
      some (true, [([97], 1), ([], 2 ^ 64 - 16)]) ∧
    ((kvOf [mkNode 0 [107] (encodeOSet [(score1, [97])])]).zrange [107] 0 1
        (encode64 17 ++ encode64 0 ++ [120])).1 =
      some (true, [([97], 1), ([120], 1)]) ∧
    ((kvOf [mkNode 0 [107] (encodeOSet [(score1, [97])])]).get_ [107]).1 =
      some (encodeOSet [(score1, [97])], 25) := by
  decide

/-! ### `get` with a caller buffer (claim C34) -/

/-- The method `get` returns true only when `get_` found a value whose stored
length is at least `vn`; it returns false for a null `v` and for a key `get_`
does not find. -/
theorem get_returns (s : SyncKV) (k : Bytes) (v : Option Bytes) (vn : Nat) :
    ((s.get k v vn).1 = true →
      ∃ mem stored_v stored_vn, v = some mem ∧ (s.get_ k).1 = some (stored_v, stored_vn) ∧
        vn ≤ stored_vn ∧ (s.get k v vn).2.1 = some (writeBytes mem 0 stored_v)) ∧
    (v = none → (s.get k v vn).1 = false) ∧
    ((s.get_ k).1 = none → (s.get k v vn).1 = false ∧ (s.get k v vn).2.1 = v) := by
  unfold SyncKV.get
  cases v with
  | none => exact ⟨fun h => absurd h (by simp), fun _ => rfl, fun _ => ⟨rfl, rfl⟩⟩
  | some mem =>
    simp only []
    rcases hg : s.get_ k with ⟨_ | ⟨stored_v, stored_vn⟩, s1⟩
    · exact ⟨fun h => absurd h (by simp), fun h => absurd h (by simp), fun _ => ⟨rfl, rfl⟩⟩
    · simp only []
      by_cases hlt : stored_vn < vn
      · simp only [hlt, if_true]
        exact ⟨fun h => absurd h (by simp), fun h => absurd h (by simp),
          fun h => absurd h (by simp)⟩
      · simp only [hlt, if_false]
        exact ⟨fun _ => ⟨mem, stored_v, stored_vn, rfl, rfl, Nat.le_of_not_lt hlt, rfl⟩,
          fun h => absurd h (by simp), fun h => absurd h (by simp)⟩

/-- C34, the failing run. The key `k` holds the three-byte value `1 2 3`; the
caller passes a buffer of one byte (`vn = 1`), behind which the memory holds the
bytes `7 8 9`. `get(k, 1, v, 1)` returns true and has written three bytes at
`v`: the two bytes behind the buffer are overwritten. The copy in `get_` is made
with the stored length, and `get` compares the lengths only afterwards. -/
theorem C34_get_writes_past_buffer :
    ((kvOf [mkNode 0 [107] [1, 2, 3]]).get [107] (some [0, 7, 8, 9]) 1).1 = true ∧
    ((kvOf [mkNode 0 [107] [1, 2, 3]]).get [107] (some [0, 7, 8, 9]) 1).2.1 =
      some [1, 2, 3, 9] ∧
    ((kvOf [mkNode 0 [107] [1, 2, 3]]).get_ [107]).1 = some ([1, 2, 3], 3) := by
  decide

/-! ### The chain walks end (claim C36) -/

/-- The loop of `get_` and `remove` stops because a node was found or because
the chain was walked to its end, not for want of rounds. -/
theorem find_loop_ends (kh : Nat) (k : Bytes) (fuel : Nat) (w : Walk)
    (hfuel : w.cur.node.length ≤ fuel) :
    (find_loop kh k fuel w).found = true ∨ (find_loop kh k fuel w).cur.node = [] := by
  induction fuel generalizing w with
  | zero =>
    right
    exact List.length_eq_zero.mp (Nat.le_zero.mp hfuel)
  | succ fuel ih =>
    unfold find_loop
    cases hnode : w.cur.node with
    | nil => right; simp only []; exact hnode
    | cons n next =>
      simp only []
      by_cases hf : (iterate_list kh k w).found = true
      · simp only [hf, if_true]
        left; trivial
      · have hf2 : (iterate_list kh k w).found = false := by
          cases h : (iterate_list kh k w).found with
          | true => exact absurd h hf
          | false => rfl
        simp only [hf2, Bool.false_eq_true, if_false]
        apply ih
        rw [iterate_list_node_length kh k hnode hf2]
        rw [hnode] at hfuel
        simpa using hfuel

/-- The loop of `set` stops because the value was written in place (`return
true`), because the node found was deleted (`break`), or because the chain was
walked to its end. -/
theorem set_loop_ends (kh : Nat) (k v : Bytes) (fuel : Nat) (w : Walk)
    (hfuel : w.cur.node.length ≤ fuel) :
    (set_loop kh k v fuel w).1 = true ∨ (set_loop kh k v fuel w).2.found = true ∨
      (set_loop kh k v fuel w).2.cur.node = [] := by
  induction fuel generalizing w with
  | zero =>
    right; right
    exact List.length_eq_zero.mp (Nat.le_zero.mp hfuel)
  | succ fuel ih =>
    unfold set_loop
    cases hnode : w.cur.node with
    | nil => right; right; simp only []; exact hnode
    | cons n next =>
      simp only []
      by_cases hf : (iterate_list kh k w).found = true
      · simp only [hf, if_true]
        right; left
        unfold set_found
        split
        · exact hf
        · split
          · split
            · exact hf
            · split
              · exact hf
              · exact hf
          · exact hf
      · have hf2 : (iterate_list kh k w).found = false := by
          cases h : (iterate_list kh k w).found with
          | true => exact absurd h hf
          | false => rfl
        simp only [hf2, Bool.false_eq_true, if_false]
        apply ih
        rw [iterate_list_node_length kh k hnode hf2]
        rw [hnode] at hfuel
        simpa using hfuel

/-- C36. A call of `iterate_list` on a node `n` followed by `next` that returns
false leaves `node` at `next`: either the slot `prev_next` points at has moved
to the `next` field of `n` (the nodes ahead of it are the former ones and `n`),
or `n` was unlinked (the nodes ahead of the slot are the former ones); the
chain is then the nodes ahead of the slot followed by `node`, and one node less
is left to visit. A call that returns true leaves the slot and the successors of
`node` as they were. Hence the loops of `get_`, `remove` and `set` end within
as many rounds as the chain has nodes: granting more rounds changes nothing, and
the loop stopped because a node was found or no node was left. -/
theorem C36_chain_walks_end (kh : Nat) (k v : Bytes) (w : Walk) :
    (∀ (n : BucketNode) (next : BNPtr), w.cur.node = n :: next →
      ((iterate_list kh k w).found = false →
        (iterate_list kh k w).cur.node = next ∧
        (((∃ p, n.pair.sameObj p ∧ (iterate_list kh k w).cur.before =
              w.cur.before ++ [{ key_hash := n.key_hash, pair := p }]) ∧
            ((iterate_list kh k w).cur.chain.map BucketNode.content =
              w.cur.chain.map BucketNode.content)) ∨
          ((iterate_list kh k w).cur.before = w.cur.before ∧
            (iterate_list kh k w).cur.chain = w.cur.before ++ next)) ∧
        (iterate_list kh k w).cur.node.length + 1 = w.cur.node.length) ∧
      ((iterate_list kh k w).found = true →
        (iterate_list kh k w).cur.before = w.cur.before ∧
        ∃ p, n.pair.sameObj p ∧
          (iterate_list kh k w).cur.node = { key_hash := n.key_hash, pair := p } :: next)) ∧
    (∀ extra, find_loop kh k (w.cur.node.length + extra) w =
      find_loop kh k w.cur.node.length w) ∧
    ((find_loop kh k w.cur.node.length w).found = true ∨
      (find_loop kh k w.cur.node.length w).cur.node = []) ∧
    (∀ extra, set_loop kh k v (w.cur.node.length + extra) w =
      set_loop kh k v w.cur.node.length w) ∧
    ((set_loop kh k v w.cur.node.length w).1 = true ∨
      (set_loop kh k v w.cur.node.length w).2.found = true ∨
      (set_loop kh k v w.cur.node.length w).2.cur.node = []) := by
  refine ⟨?_, fun extra => find_loop_fuel kh k _ extra w (le_refl _),
    find_loop_ends kh k _ w (le_refl _),
    fun extra => set_loop_fuel kh k v _ extra w (le_refl _),
    set_loop_ends kh k v _ w (le_refl _)⟩
  intro n next hw
  constructor
  · intro hf
    rcases iterate_list_cases kh k hw with ⟨p, _, _, he⟩ | ⟨p, hs, _, he⟩ | ⟨_, he⟩
    · rw [he] at hf
      exact absurd hf (by simp)
    · rw [he]
      refine ⟨rfl, Or.inl ⟨⟨p, hs, rfl⟩, ?_⟩, by rw [hw]; rfl⟩
      unfold Cursor.chain
      rw [hw]
      simp only [List.map_append, List.map_cons, BucketNode.content, hs.2.2.1, List.map_nil,
        List.append_assoc, List.singleton_append]
    · rw [he]
      exact ⟨rfl, Or.inr ⟨rfl, rfl⟩, by rw [hw]; rfl⟩
  · intro hf
    rcases iterate_list_cases kh k hw with ⟨p, hs, _, he⟩ | ⟨p, _, _, he⟩ | ⟨_, he⟩
    · rw [he]
      exact ⟨rfl, p, hs, rfl⟩
    · rw [he] at hf
      exact absurd hf (by simp)
    · rw [he] at hf
      exact absurd hf (by simp)

/-- Witness of C36: a walk for the key `b` over a chain of two nodes, the first
holding the key `a`. The first call of `iterate_list` returns false and leaves
one node to visit; the loop of `get_` ends with the node found. -/
theorem C36_chain_walks_end_witness :
    (iterate_list 0 [98]
      { found := false, vn := some 0,
        cur := { before := [], node := [mkNode 0 [97] [1], mkNode 0 [98] [2]] },
        stats := (kvOf []).stats }).cur.node = [mkNode 0 [98] [2]] ∧
    (find_loop 0 [98] 2
      { found := false, vn := some 0,
        cur := { before := [], node := [mkNode 0 [97] [1], mkNode 0 [98] [2]] },
        stats := (kvOf []).stats }).found = true :=
  ⟨(((C36_chain_walks_end 0 [98] []
      { found := false, vn := some 0,
        cur := { before := [], node := [mkNode 0 [97] [1], mkNode 0 [98] [2]] },
        stats := (kvOf []).stats }).1 (mkNode 0 [97] [1]) [mkNode 0 [98] [2]] rfl).1
      (by decide)).1,
   ((C36_chain_walks_end 0 [98] []
      { found := false, vn := some 0,
        cur := { before := [], node := [mkNode 0 [97] [1], mkNode 0 [98] [2]] },
        stats := (kvOf []).stats }).2.2.1).resolve_right (by decide)⟩

/-! ### The states reached with `clear` and `zadd` (claim C31) -/

theorem hash_of_content_sublist {X L : BNPtr}
    (h : List.Sublist (X.map BucketNode.content) (L.map BucketNode.content)) :
    ∀ n ∈ X, ∃ m ∈ L, m.key_hash = n.key_hash := by
  intro n hn
  have h1 : n.content ∈ L.map BucketNode.content := h.subset (List.mem_map_of_mem _ hn)
  obtain ⟨m, hm, hc⟩ := List.mem_map.mp h1
  exact ⟨m, hm, congrArg Prod.fst hc⟩

theorem get__NBuckets (s : SyncKV) (k : Bytes) : (s.get_ k).2.NBuckets = s.NBuckets := by
  unfold SyncKV.get_
  simp only []
  split
  · rfl
  · split
    · rfl
    · split
      · rfl
      · split <;> rfl

theorem remove_NBuckets (s : SyncKV) (k : Bytes) : (s.remove k).2.NBuckets = s.NBuckets := by
  unfold SyncKV.remove
  simp only []
  split <;> rfl

theorem set_NBuckets (s : SyncKV) (k v : Bytes) (alloc_to : Nat → Option ObjectPtr) :
    (s.set k v alloc_to).2.NBuckets = s.NBuckets := by
  unfold SyncKV.set
  simp only []
  split
  · rfl
  · split <;> rfl

/-- A map whose chains hold, in order, contents of the chains of a map with
every node in its bucket has every node in its bucket. -/
theorem Placed_of_content {s t : SyncKV} (hN : t.NBuckets = s.NBuckets)
    (h : ∀ j, List.Sublist ((t.buckets_ j).map BucketNode.content)
      ((s.buckets_ j).map BucketNode.content))
    (hs : s.Placed) : t.Placed := by
  intro j n hn
  obtain ⟨m, hm, he⟩ := hash_of_content_sublist (h j) n hn
  rw [← he, hN]
  exact hs j m hm

theorem commit_Placed (s : SyncKV) (idx : Nat) (chain : BNPtr) (st : CacheStats)
    (hs : s.Placed) (hc : ∀ n ∈ chain, n.key_hash % s.NBuckets = idx) :
    (s.commit idx chain st).Placed := by
  intro j n hn
  rw [commit_NBuckets]
  by_cases hj : j = idx
  · subst hj
    rw [commit_buckets_same] at hn
    exact hc n hn
  · rw [commit_buckets_other _ _ _ _ j hj] at hn
    exact hs j n hn

/-- The method `set` puts the node it creates into the bucket its hash selects
and moves no other node. -/
theorem set_Placed (s : SyncKV) (k v : Bytes) (alloc_to : Nat → Option ObjectPtr)
    (hs : s.Placed) : (s.set k v alloc_to).2.Placed := by
  have hshape := set_loop_shape (s.hash_ k) k v (s.buckets_ (s.hash_ k % s.NBuckets))
    (s.buckets_ (s.hash_ k % s.NBuckets)).length
    { found := false, vn := some 0,
      cur := { before := [], node := s.buckets_ (s.hash_ k % s.NBuckets) }, stats := s.stats }
    ⟨0, rfl⟩ (by simp) (by simp [Cursor.chain])
  unfold SyncKV.set
  simp only []
  generalize set_loop (s.hash_ k) k v (s.buckets_ (s.hash_ k % s.NBuckets)).length
    { found := false, vn := some 0,
      cur := { before := [], node := s.buckets_ (s.hash_ k % s.NBuckets) },
      stats := s.stats } = r at hshape
  have hL := hs (s.hash_ k % s.NBuckets)
  have hold : ∀ X : BNPtr, List.Sublist (X.map BucketNode.content)
      ((s.buckets_ (s.hash_ k % s.NBuckets)).map BucketNode.content) →
      ∀ n ∈ X, n.key_hash % s.NBuckets = s.hash_ k % s.NBuckets := by
    intro X hX n hn
    obtain ⟨m, hm, he⟩ := hash_of_content_sublist hX n hn
    rw [← he]
    exact hL m hm
  by_cases hr : r.1 = true
  · simp only [hr, if_true]
    obtain ⟨n, p2, next, hnode, hsub, _, _, _⟩ := hshape.2 hr
    apply commit_Placed _ _ _ _ hs
    unfold Cursor.chain
    rw [hnode]
    intro m hm
    have hall := hold _ hsub
    rcases List.mem_append.mp hm with hm1 | hm1
    · exact hall m (List.mem_append_left _ hm1)
    · rcases List.mem_cons.mp hm1 with hm2 | hm2
      · rw [hm2]
        exact hall n (List.mem_append_right _ (List.mem_cons_self _ _))
      · exact hall m (List.mem_append_right _ (List.mem_cons_of_mem _ hm2))
  · have hr2 : r.1 = false := by
      cases h : r.1 with
      | true => exact absurd h hr
      | false => rfl
    simp only [hr2, Bool.false_eq_true, if_false]
    obtain ⟨_, hsub⟩ := hshape.1 hr2
    rcases create_node_cases alloc_to (s.hash_ k) k v with hc | ⟨p0, p4, _, hc, _⟩
    · rw [hc]
      simp only []
      exact commit_Placed _ _ _ _ hs (hold _ hsub)
    · rw [hc]
      simp only []
      apply commit_Placed _ _ _ _ hs
      intro m hm
      rcases List.mem_append.mp hm with hm1 | hm1
      · apply hold _ hsub m
        unfold Cursor.chain
        exact List.mem_append_left _ hm1
      · rw [List.mem_singleton.mp hm1]

theorem clear_buckets (s : SyncKV) (j : Nat) :
    s.clear.2.buckets_ j = [] ∨ s.clear.2.buckets_ j = s.buckets_ j := by
  obtain ⟨_, r2, _⟩ := clear_for_spec s.NBuckets 0 s []
  show (clear_for s.NBuckets 0 s []).2.buckets_ j = [] ∨
    (clear_for s.NBuckets 0 s []).2.buckets_ j = s.buckets_ j
  rw [r2]
  by_cases h : 0 ≤ j ∧ j < 0 + s.NBuckets
  · left; rw [if_pos h]
  · right; rw [if_neg h]

theorem clear_content (s : SyncKV) (j : Nat) :
    List.Sublist ((s.clear.2.buckets_ j).map BucketNode.content)
      ((s.buckets_ j).map BucketNode.content) := by
  rcases clear_buckets s j with h | h
  · rw [h]
    exact List.nil_sublist _
  · rw [h]

theorem clear_NBuckets (s : SyncKV) : s.clear.2.NBuckets = s.NBuckets :=
  (clear_for_spec s.NBuckets 0 s []).2.2.1

theorem readBytes_length_le (mem : Bytes) (off len : Nat) :
    (readBytes mem off len).length ≤ len := by
  unfold readBytes
  exact List.length_take_le _ _

/-- The method `zadd` changes the map through `get_` and `set` only: the state
it leaves is that after `get_`, or that after `get_` and a `set` of the same key
with a block no longer than the lengths `zadd` computes. -/
theorem zadd_state (s : SyncKV) (k v : Bytes) (score : Nat) (type : UpdateType)
    (alloc_to : Nat → Option ObjectPtr) (slack : Bytes) (r : Bool × SyncKV)
    (h : s.zadd k v score type alloc_to slack = some r) :
    r.2 = (s.get_ k).2 ∨
    ∃ val, r.2 = ((s.get_ k).2.set k val alloc_to).2 ∧
      (val.length ≤ 8 + OSetEle.total_size v.length ∨
        ∃ buf n, (s.get_ k).1 = some (buf, n) ∧
          val.length ≤ n + OSetEle.total_size v.length) := by
  unfold SyncKV.zadd at h
  rcases hg : s.get_ k with ⟨_ | ⟨buf, n⟩, s1⟩
  · rw [hg] at h
    simp only [] at h
    cases type with
    | EXIST =>
      simp only [] at h
      left
      rw [← Option.some.inj h]
    | NOT_EXIST =>
      simp only [] at h
      right
      refine ⟨_, by rw [← Option.some.inj h], Or.inl (readBytes_length_le _ _ _)⟩
  · rw [hg] at h
    simp only [] at h
    cases hsr : oset_search (buf ++ slack) n v with
    | none =>
      rw [hsr] at h
      exact absurd h (by simp)
    | some pos =>
      rw [hsr] at h
      simp only [] at h
      cases type with
      | EXIST =>
        simp only [] at h
        cases pos with
        | none =>
          simp only [] at h
          left
          rw [← Option.some.inj h]
        | some off =>
          simp only [] at h
          right
          refine ⟨_, by rw [← Option.some.inj h], Or.inr ⟨buf, n, rfl, ?_⟩⟩
          exact le_trans (readBytes_length_le _ _ _) (Nat.le_add_right _ _)
      | NOT_EXIST =>
        simp only [] at h
        cases pos with
        | some off =>
          simp only [] at h
          left
          rw [← Option.some.inj h]
        | none =>
          simp only [] at h
          cases hins : oset_insert (buf ++ slack) n v score with
          | none =>
            rw [hins] at h
            exact absurd h (by simp)
          | some res =>
            rw [hins] at h
            simp only [] at h
            right
            refine ⟨_, by rw [← Option.some.inj h], Or.inr ⟨buf, n, rfl, ?_⟩⟩
            have hlen : res.2 = n + OSetEle.total_size v.length := by
              unfold oset_insert at hins
              split at hins
              · exact absurd hins (by simp)
              · split at hins
                · exact absurd hins (by simp)
                · rw [← Option.some.inj hins]
            rw [← hlen]
            exact readBytes_length_le _ _ _

/-- Every state the map goes through, `clear` and `zadd` included, satisfies the
chain invariant and has every node in the bucket its hash selects. -/
theorem Reached_Inv {s : SyncKV} (h : Reached s) : s.Inv ∧ s.Placed := by
  induction h with
  | init NBuckets hash_int hash_bytes stats =>
    exact ⟨fun idx => ⟨by simp, by simp⟩, fun idx n hn => absurd hn (List.not_mem_nil n)⟩
  | step_set k v alloc_to _ hk hv halloc ih =>
    exact ⟨set_Inv _ k v alloc_to ih.1 hk hv halloc, set_Placed _ k v alloc_to ih.2⟩
  | step_get k _ ih =>
    exact ⟨fun idx => ChainInv_of_sublist (get__content _ k idx) (ih.1 idx),
      Placed_of_content (get__NBuckets _ k) (get__content _ k) ih.2⟩
  | step_remove k _ ih =>
    exact ⟨fun idx => ChainInv_of_sublist (remove_content _ k idx) (ih.1 idx),
      Placed_of_content (remove_NBuckets _ k) (remove_content _ k) ih.2⟩
  | step_clear _ ih =>
    exact ⟨fun idx => ChainInv_of_sublist (clear_content _ idx) (ih.1 idx),
      Placed_of_content (clear_NBuckets _) (clear_content _) ih.2⟩
  | step_zadd k v score type alloc_to slack r _ hk hv hfit halloc hz ih =>
    have hg : (SyncKV.get_ _ k).2.Inv ∧ (SyncKV.get_ _ k).2.Placed :=
      ⟨fun idx => ChainInv_of_sublist (get__content _ k idx) (ih.1 idx),
        Placed_of_content (get__NBuckets _ k) (get__content _ k) ih.2⟩
    rcases zadd_state _ k v score type alloc_to slack r hz with he | ⟨val, he, hlen⟩
    · rw [he]
      exact hg
    · rw [he]
      have hval : val.length < 2 ^ 64 := by
        rcases hlen with hl | ⟨buf, n, hb, hl⟩
        · omega
        · have := hfit buf n hb
          omega
      exact ⟨set_Inv _ k val alloc_to hg.1 hk hval (fun p hp => halloc _ p hp),
        set_Placed _ k val alloc_to hg.2⟩
  | @step_evacuate s0 buckets _ hsame ih =>
    constructor
    · intro idx
      apply ChainInv_of_sublist _ (ih.1 idx)
      show List.Sublist ((buckets idx).map BucketNode.content) _
      rw [hsame idx]
    · intro idx n hn
      have hsub : List.Sublist ((buckets idx).map BucketNode.content)
          ((s0.buckets_ idx).map BucketNode.content) := by
        rw [hsame idx]
      obtain ⟨m, hm, he⟩ := hash_of_content_sublist hsub n hn
      show n.key_hash % s0.NBuckets = idx
      rw [← he]
      exact ih.2 idx m hm

/-- C31. In every state the map goes through by `set`, `get_`, `remove`, `clear`
and `zadd` from the empty map (whatever the evacuator does to the soft pointers
in between), no lookup key is matched by two nodes of a bucket chain, and every
node sits in the bucket `key_hash % NBuckets`. A chain is a list of nodes, which
is finite and has no cycle. -/
theorem C31_reached_chains (s : SyncKV) (hs : Reached s) (idx : Nat) :
    (∀ (kh : Nat) (k : Bytes), (s.buckets_ idx).countP (fun n => decide (n.keyEq kh k)) ≤ 1) ∧
    (∀ (kh : Nat) (k : Bytes) (pre mid post : BNPtr) (n m : BucketNode),
      s.buckets_ idx = pre ++ n :: (mid ++ m :: post) → ¬ (n.keyEq kh k ∧ m.keyEq kh k)) ∧
    (∀ n ∈ s.buckets_ idx, n.key_hash % s.NBuckets = idx) := by
  obtain ⟨hI, hP⟩ := Reached_Inv hs
  refine ⟨(hI idx).2, ?_, hP idx⟩
  intro kh k pre mid post n m hsplit hboth
  have h1 := (hI idx).2 kh k
  rw [hsplit] at h1
  simp only [List.countP_append, List.countP_cons, hboth.1, hboth.2, decide_True, if_true] at h1
  omega

/-- The run of the witness of C31 is a run of the map: on an empty map of one
bucket the key `a` is set, the element `a` is added to the ordered set under the
key `k`, the map is cleared, and the key `b` is set. -/
theorem example_run_reached :
    Reached (((((kvOf []).set [97] [1] freshObj).2.get_ [107]).2.set [107]
      (readBytes (oset_init [97] score1) 0 25) freshObj).2.clear.2.set
        [98] [2] freshObj).2 :=
  Reached.step_set [98] [2] freshObj
    (Reached.step_clear
      (Reached.step_zadd [107] [97] score1 UpdateType.NOT_EXIST freshObj []
        ((((kvOf []).set [97] [1] freshObj).2.get_ [107]).2.set [107]
          (readBytes (oset_init [97] score1) 0 25) freshObj)
        (Reached.step_set [97] [1] freshObj
          (Reached.init 1 (fun _ => 0) (fun _ => 0) (kvOf []).stats)
          (by decide) (by decide) (by intro p hp; cases hp; decide))
        (by decide) (by decide)
        (by
          intro buf n h
          have hnone : ((((kvOf []).set [97] [1] freshObj).2).get_ [107]).1 = none := by
            decide
          exact absurd (hnone.symm.trans h) (by simp))
        (by
          intro size p hp
          cases hp
          simp)
        rfl))
    (by decide) (by decide) (by intro p hp; cases hp; decide)

/-- Witness of C31: in the state the run above ends in, the key `b` is matched by
at most one node of bucket 0 and every node of bucket 0 has a hash that selects
bucket 0. -/
theorem C31_reached_chains_witness :
    ((((((kvOf []).set [97] [1] freshObj).2.get_ [107]).2.set [107]
        (readBytes (oset_init [97] score1) 0 25) freshObj).2.clear.2.set
          [98] [2] freshObj).2.buckets_ 0).countP (fun n => decide (n.keyEq 0 [98])) ≤ 1 ∧
    ((((((kvOf []).set [97] [1] freshObj).2.get_ [107]).2.set [107]
        (readBytes (oset_init [97] score1) 0 25) freshObj).2.clear.2.set
          [98] [2] freshObj).2.buckets_ 0).all (fun n => decide (n.key_hash % 1 = 0)) = true :=
  ⟨(C31_reached_chains _ example_run_reached 0).1 0 [98],
   List.all_eq_true.mpr (fun n hn =>
     decide_eq_true ((C31_reached_chains _ example_run_reached 0).2.2 n hn))⟩

end midas
